import Mathlib

/-!
# High-precision calculator: the BigInt engine of `bigint.c`

A shallow embedding of the block-digit integer engine (radix 1000, blocks stored
least-significant first) and of the calculator of `calculator.c` built on it
(fixed-point decimals, tokenizer, recursive-descent parser), and theorems about
them.

Conventions of the embedding

* `BigInt.digits` holds exactly the `length` significant blocks of the C buffer
  (`digits[0] .. digits[length-1]`); the C field `length` is `digits.length`.
  Storage between `length` and `capacity` is never read by the code and is not
  represented; `capacity` itself is kept as a number.
* C `int` and `long long` values are `Int`; C `/` and `%` on them are `Int.tdiv`
  and `Int.tmod` (truncation toward zero).  For blocks in `[0, base)` no 32-bit
  or 64-bit overflow can occur in the block arithmetic.
* `unsigned long long` values are `Nat` reduced modulo `2^64` after every
  operation that can wrap.
* `malloc`/`calloc`/`realloc` always succeed and pointers are never `NULL`.
  A failed `assert` aborts the run: `Fault.assertFailed`.  The overflow of a
  signed integer is undefined behaviour: `Fault.undefined`.
* A C string is the list of its characters before the terminating NUL.
-/

namespace HPC

/-! ## bigint.h -/

/-- `#define DEFAULT_BASE 1000`. -/
abbrev DEFAULT_BASE : Int := 1000

/-- `#define DEFAULT_BASE_DIGITS 3`. -/
abbrev DEFAULT_BASE_DIGITS : Int := 3

/-- `#define MOD 998244353ULL`. -/
abbrev MOD : Nat := 998244353

/-- `#define G 3ULL`. -/
abbrev G : Nat := 3

/-- `typedef enum { ... } BigIntError`. -/
inductive BigIntError
  | BIGINT_SUCCESS
  | BIGINT_ERROR
  | BIGINT_NULL_POINTER
  | BIGINT_INVALID_INPUT
  | BIGINT_ALLOCATION_ERROR
  | BIGINT_OVERFLOW
  | BIGINT_DIVIDE_BY_ZERO
  | BIGINT_BUFFER_TOO_SMALL
  deriving DecidableEq

/-- How a call can end without a result: an error code is returned, an `assert`
fails and the run is aborted, or the behaviour of the C program is undefined (a
signed integer overflows). -/
inductive Fault
  | error (e : BigIntError)
  | assertFailed
  | undefined
  deriving DecidableEq

deriving instance DecidableEq for Except

/-- `struct BigInt` (without `ref_count`). -/
structure BigInt where
  digits : List Int
  sign : Int
  base : Int
  base_digits : Int
  capacity : Nat
  deriving DecidableEq

/-- The C field `length`. -/
abbrev BigInt.length (x : BigInt) : Nat := x.digits.length

/-! ## Lifecycle -/

/-- The loop `while (new_capacity < min_capacity) new_capacity *= 2;` of
`ensureCapacity`, with a bound on the number of iterations. -/
def ensureCapacity.grow (min_capacity : Nat) : Nat → Nat → Nat
  | 0, new_capacity => new_capacity
  | fuel + 1, new_capacity =>
    if new_capacity < min_capacity then grow min_capacity fuel (new_capacity * 2)
    else new_capacity

/-- `ensureCapacity`; at most `min_capacity` doublings are ever needed. -/
def ensureCapacity (num : BigInt) (min_capacity : Nat) : BigInt :=
  if num.capacity ≥ min_capacity then num
  else
    let new_capacity := if num.capacity = 0 then min_capacity else num.capacity
    { num with capacity := ensureCapacity.grow min_capacity min_capacity new_capacity }

/-- `createBigInt`: the value zero in a zero-filled buffer. -/
def createBigInt (initial_capacity : Nat) : BigInt :=
  let initial_capacity := if initial_capacity = 0 then 1 else initial_capacity
  { digits := [0], sign := 1, base := DEFAULT_BASE, base_digits := DEFAULT_BASE_DIGITS,
    capacity := initial_capacity }

/-- `copyBigInt`. -/
def copyBigInt (src : BigInt) : BigInt :=
  let dest := createBigInt src.length
  let dest := ensureCapacity dest src.length
  { dest with digits := src.digits, sign := src.sign, base := src.base,
              base_digits := src.base_digits }

/-- The loop of `trimLeadingZeros`:
`while (num->length > 1 && num->digits[num->length - 1] == 0) num->length--;`. -/
def trimLeadingZeros.loop : Nat → List Int → List Int
  | 0, digits => digits
  | fuel + 1, digits =>
    if digits.length > 1 ∧ digits.getD (digits.length - 1) 0 = 0 then
      loop fuel digits.dropLast
    else digits

/-- `trimLeadingZeros`; the loop runs fewer than `length` times. -/
def trimLeadingZeros (num : BigInt) : BigInt :=
  { num with digits := trimLeadingZeros.loop num.length num.digits }

/-- `normalize`. -/
def normalize (num : BigInt) : BigInt :=
  let num := trimLeadingZeros num
  if num.length = 1 ∧ num.digits.getD 0 0 = 0 then { num with sign := 1 } else num

/-! ## Comparison -/

/-- The loop of `compareAbsolute`, `i` running from `n - 1` down to `0`. -/
def compareAbsolute.loop (a b : List Int) : Nat → Int
  | 0 => 0
  | i + 1 =>
    if a.getD i 0 > b.getD i 0 then 1
    else if a.getD i 0 < b.getD i 0 then -1
    else loop a b i

/-- `compareAbsolute`. -/
def compareAbsolute (a b : BigInt) : Int :=
  if a.length > b.length then 1
  else if a.length < b.length then -1
  else compareAbsolute.loop a.digits b.digits a.length

/-- `compareBigInt`. -/
def compareBigInt (a b : BigInt) : Int :=
  if a.sign > b.sign then 1
  else if a.sign < b.sign then -1
  else
    let abs_cmp := compareAbsolute a b
    if a.sign > 0 then abs_cmp else -abs_cmp

/-- `isBigIntZero`. -/
def isBigIntZero (num : BigInt) : Bool :=
  num.length = 1 ∧ num.digits.getD 0 0 = 0

/-! ## Addition and subtraction -/

/-- The loop of `addBigIntAbs`: `k` iterations remain, `i` is the loop index,
`out` the blocks `result->digits[0..i-1]` written so far. -/
def addBigIntAbs.loop (a b : BigInt) (base : Int) : Nat → Nat → Int → List Int → List Int × Int
  | 0, _, carry, out => (out, carry)
  | k + 1, i, carry, out =>
    let digit_a := if i < a.length then a.digits.getD i 0 else 0
    let digit_b := if i < b.length then b.digits.getD i 0 else 0
    let sum := digit_a + digit_b + carry
    loop a b base k (i + 1) (Int.tdiv sum base) (out ++ [Int.tmod sum base])

/-- `addBigIntAbs`. -/
def addBigIntAbs (a b : BigInt) : BigInt :=
  let base := a.base
  let max_len := if a.length > b.length then a.length else b.length
  let result := { createBigInt (max_len + 1) with base := base, base_digits := a.base_digits }
  let r := addBigIntAbs.loop a b base max_len 0 0 []
  let result :=
    if r.2 > 0 then { result with digits := r.1 ++ [r.2] }
    else { result with digits := r.1 }
  normalize result

/-- The loop of `subtractBigIntAbs`; returns the blocks written and the last
borrow. -/
def subtractBigIntAbs.loop (larger smaller : BigInt) (base : Int) :
    Nat → Nat → Int → List Int → List Int × Int
  | 0, _, borrow, out => (out, borrow)
  | k + 1, i, borrow, out =>
    let digit_larger := larger.digits.getD i 0
    let digit_smaller := if i < smaller.length then smaller.digits.getD i 0 else 0
    let diff := digit_larger - digit_smaller - borrow
    if diff < 0 then loop larger smaller base k (i + 1) 1 (out ++ [diff + base])
    else loop larger smaller base k (i + 1) 0 (out ++ [diff])

/-- `subtractBigIntAbs`. -/
def subtractBigIntAbs (larger smaller : BigInt) : Except Fault BigInt :=
  if compareAbsolute larger smaller ≥ 0 then
    let max_len := larger.length
    let result := { createBigInt max_len with base := larger.base,
                                              base_digits := larger.base_digits }
    let r := subtractBigIntAbs.loop larger smaller result.base max_len 0 0 []
    .ok (normalize { result with digits := r.1 })
  else .error Fault.assertFailed

/-- `addBigInt`. -/
def addBigInt (a b : BigInt) : Except Fault BigInt :=
  if a.sign = b.sign then
    let result := addBigIntAbs a b
    .ok (normalize { result with sign := a.sign })
  else
    let cmp := compareAbsolute a b
    if cmp ≥ 0 then
      match subtractBigIntAbs a b with
      | .ok result => .ok (normalize { result with sign := a.sign })
      | .error e => .error e
    else
      match subtractBigIntAbs b a with
      | .ok result => .ok (normalize { result with sign := b.sign })
      | .error e => .error e

/-- `negateBigInt` (in place in C: returns the updated object). -/
def negateBigInt (num : BigInt) : BigInt :=
  if !isBigIntZero num then { num with sign := num.sign * -1 } else num

/-- `subtractBigInt`. -/
def subtractBigInt (a b : BigInt) : Except Fault BigInt :=
  let neg_b := copyBigInt b
  let neg_b := negateBigInt neg_b
  addBigInt a neg_b

/-! ## Values and canonical form -/

/-- Sum of `digits[i] * 1000^i`. -/
def blocksValue : List Int → Int
  | [] => 0
  | d :: ds => d + 1000 * blocksValue ds

/-- The integer a BigInt stands for: `sign * sum of digits[i] * 1000^i`. -/
def BigInt.value (x : BigInt) : Int := x.sign * blocksValue x.digits

/-- Canonical form: radix 1000 with 3 decimal digits per block, at least one
block, every block in `[0, 1000)`, no leading zero block unless the number is the
single block zero, sign `+1` or `-1`, and zero has sign `+1`. -/
def Canonical (x : BigInt) : Prop :=
  x.base = 1000 ∧ x.base_digits = 3 ∧ 1 ≤ x.length ∧
  (∀ d ∈ x.digits, 0 ≤ d ∧ d < 1000) ∧
  (1 < x.length → x.digits.getD (x.length - 1) 0 ≠ 0) ∧
  (x.sign = 1 ∨ x.sign = -1) ∧
  (x.digits = [0] → x.sign = 1)

instance (x : BigInt) : Decidable (Canonical x) := by
  unfold Canonical; infer_instance

/-- Same sign, same length and same blocks. -/
def BigInt.same (x y : BigInt) : Prop := x.sign = y.sign ∧ x.digits = y.digits

instance (x y : BigInt) : Decidable (BigInt.same x y) := by
  unfold BigInt.same; infer_instance

/-! ## Multiplication by a small integer, and by the radix -/

/-- Conversion to `unsigned long long`, and the wrap-around of its arithmetic. -/
def toULL (x : Int) : Int := x % 18446744073709551616

/-- The loop of `multiplyByInt`; `product` and `carry` are `unsigned long long`. -/
def multiplyByInt.loop (a : BigInt) (b_int : Int) (base : Int) :
    Nat → Nat → Int → List Int → List Int × Int
  | 0, _, carry, out => (out, carry)
  | k + 1, i, carry, out =>
    let product := toULL (toULL (toULL (a.digits.getD i 0) * toULL b_int) + carry)
    loop a b_int base k (i + 1) (product / toULL base) (out ++ [product % toULL base])

/-- `multiplyByInt`. -/
def multiplyByInt (a : BigInt) (b_int : Int) : Except Fault BigInt :=
  if b_int ≥ 0 ∧ b_int < a.base then
    if isBigIntZero a ∨ b_int = 0 then .ok (createBigInt 1)
    else if b_int = 1 then .ok (copyBigInt a)
    else
      let res_capacity := a.length + 1
      let result := createBigInt res_capacity
      let r := multiplyByInt.loop a b_int result.base a.length 0 0 []
      let result :=
        if r.2 > 0 then { result with digits := r.1 ++ [r.2] }
        else { result with digits := r.1 }
      .ok (normalize { result with sign := a.sign })
  else .error Fault.assertFailed

/-- `multiplyByBase` (in place in C: returns the updated object). -/
def multiplyByBase (num : BigInt) : BigInt :=
  let num := ensureCapacity num (num.length + 1)
  normalize { num with digits := 0 :: num.digits }

/-! ## NTT multiplication -/

/-- Number of values of `unsigned long long`: `2^64`. -/
abbrev ULL : Nat := 18446744073709551616

/-- The loop of `mod_pow`: `while (b > 0) { ... b >>= 1; }`, with a bound on the
number of iterations; products wrap at `2^64` before `% m`. -/
def mod_pow.loop (m : Nat) : Nat → Nat → Nat → Nat → Nat
  | 0, result, _, _ => result
  | fuel + 1, result, a, b =>
    if b > 0 then
      let result := if b % 2 = 1 then (result * a) % ULL % m else result
      let a := (a * a) % ULL % m
      loop m fuel result a (b / 2)
    else result

/-- `mod_pow`; `b` is below `2^64`, so 64 halvings exhaust it. -/
def mod_pow (a b m : Nat) : Nat := mod_pow.loop m 64 1 (a % m) b

/-- `mod_inverse`: `mod_pow(a, m - 2, m)`, the subtraction being unsigned. -/
def mod_inverse (a m : Nat) : Nat := mod_pow a ((m + ULL - 2) % ULL) m

/-- The inner loop of `bit_reverse_ntt`: `for (; j >= bit; bit >>= 1) j -= bit;`,
with a bound on the number of iterations; returns `(j, bit)`. -/
def bit_reverse_ntt.inner : Nat → Nat → Nat → Nat × Nat
  | 0, j, bit => (j, bit)
  | fuel + 1, j, bit => if j ≥ bit then inner fuel (j - bit) (bit / 2) else (j, bit)

/-- The outer loop of `bit_reverse_ntt`: `k` iterations remain, `i` is the loop
index.  `bit` is an `int`, so it is zero after 32 halvings. -/
def bit_reverse_ntt.outer (n : Nat) : Nat → Nat → Nat → List Nat → List Nat
  | 0, _, _, a => a
  | k + 1, i, j, a =>
    let r := bit_reverse_ntt.inner 32 j (n / 2)
    let j := r.1 + r.2
    let a := if i < j then (a.set i (a.getD j 0)).set j (a.getD i 0) else a
    outer n k (i + 1) j a

/-- `bit_reverse_ntt`. -/
def bit_reverse_ntt (a : List Nat) (n : Nat) : List Nat :=
  bit_reverse_ntt.outer n (n - 1) 1 0 a

/-- The butterfly loop of `ntt`, `for (j = 0; j < len / 2; ++j)`, for the block
starting at `i`: `k` iterations remain, `half` is `len / 2`. -/
def ntt.butterflies (wlen i half : Nat) : Nat → Nat → Nat → List Nat → List Nat
  | 0, _, _, a => a
  | k + 1, j, w, a =>
    let u := a.getD (i + j) 0
    let v := (a.getD (i + j + half) 0 * w) % ULL % MOD
    let a := a.set (i + j) ((u + v) % ULL % MOD)
    let a := a.set (i + j + half) ((u + MOD - v) % ULL % MOD)
    butterflies wlen i half k (j + 1) ((w * wlen) % ULL % MOD) a

/-- The loop `for (i = 0; i < n; i += len)` of `ntt`: `k` iterations remain. -/
def ntt.blocks (len wlen : Nat) : Nat → Nat → List Nat → List Nat
  | 0, _, a => a
  | k + 1, i, a => blocks len wlen k (i + len) (ntt.butterflies wlen i (len / 2) (len / 2) 0 1 a)

/-- The loop `for (len = 2; len <= n; len <<= 1)` of `ntt`, with a bound on the
number of iterations. -/
def ntt.stages (n : Nat) (invert : Bool) : Nat → Nat → List Nat → List Nat
  | 0, _, a => a
  | fuel + 1, len, a =>
    if len ≤ n then
      let wlen := mod_pow G ((MOD - 1) / len) MOD
      let wlen := if invert then mod_inverse wlen MOD else wlen
      stages n invert fuel (len * 2) (ntt.blocks len wlen ((n + len - 1) / len) 0 a)
    else a

/-- The conversion of a `size_t` to `int` at a call with an `int` parameter: a
value below `2^31` is kept, any other is reduced modulo `2^32` into
`[-2^31, 2^31)`. -/
def toInt (n : Nat) : Int :=
  if n < 2147483648 then (n : Int)
  else (((n + 2147483648) % 4294967296 : Nat) : Int) - 2147483648

/-- `ntt` (in place in C: returns the transformed array).  The parameter `n` is
an `int`, the argument of the call in `nttMultiplyBigInt` a `size_t`: the `n` of
the model is the argument, and `toInt n` what `ntt` works with.  The `assert`
holds for the powers of two below `2^31`.  The loop `for (len = 2; len <= n;
len <<= 1)` runs fewer than 64 rounds; in the round with `len = n` it ends with
the shift to `2 * n`, which for `n = 2^30` is not an `int`: the behaviour is
undefined.  For `2 * n < 2^31` none of the `int`s `len`, `i`, `j` and `bit`
leaves its range, and they are kept as natural numbers. -/
def ntt (a : List Nat) (n : Nat) (invert : Bool) : Except Fault (List Nat) :=
  let n := toInt n
  if n > 0 ∧ Nat.land n.toNat (n.toNat - 1) = 0 then
    let n := n.toNat
    let a := bit_reverse_ntt a n
    if 2 * n < 2147483648 then
      let a := ntt.stages n invert 64 2 a
      if invert then
        let inv_n := mod_inverse n MOD
        .ok ((a.take n).map (fun x => (x * inv_n) % ULL % MOD) ++ a.drop n)
      else .ok a
    else .error Fault.undefined
  else .error Fault.assertFailed

/-- The loop `while (n < combined_len) n <<= 1;` of `nttMultiplyBigInt`, with a
bound on the number of iterations. -/
def nttMultiplyBigInt.size (combined_len : Nat) : Nat → Nat → Nat
  | 0, n => n
  | fuel + 1, n => if n < combined_len then size combined_len fuel (n * 2) else n

/-- The re-basing loop of `nttMultiplyBigInt` over the coefficients; `carry` is
an `unsigned long long`.  Returns the blocks written and the last carry. -/
def nttMultiplyBigInt.rebase (base : Nat) : List Nat → Nat → List Int → List Int × Nat
  | [], carry, out => (out, carry)
  | c :: rest, carry, out =>
    let carry := (carry + c) % ULL
    rebase base rest (carry / base) (out ++ [((carry % base : Nat) : Int)])

/-- The loop `while (carry > 0)` of `nttMultiplyBigInt`, with a bound on the
number of iterations. -/
def nttMultiplyBigInt.finalCarry (base : Nat) : Nat → Nat → BigInt → BigInt
  | 0, _, result => result
  | fuel + 1, carry, result =>
    if carry > 0 then
      let result :=
        if result.length ≥ result.capacity then ensureCapacity result (result.length + 1)
        else result
      finalCarry base fuel (carry / base)
        { result with digits := result.digits ++ [((carry % base : Nat) : Int)] }
    else result

/-- `nttMultiplyBigInt` (`multiplyBigInt`).  The transform length `n` is reached
from 1 in at most `combined_len` doublings; a carry below `2^64` is used up
after 64 divisions by the radix. -/
def nttMultiplyBigInt (a b : BigInt) : Except Fault BigInt :=
  if a.base ≠ b.base ∨ a.base ≠ DEFAULT_BASE then
    .error (Fault.error BigIntError.BIGINT_INVALID_INPUT)
  else if isBigIntZero a ∨ isBigIntZero b then .ok (createBigInt 1)
  else
    let result_sign := a.sign * b.sign
    let combined_len := a.length + b.length
    let n := nttMultiplyBigInt.size combined_len combined_len 1
    let ntt_a := a.digits.map (fun d => (toULL d).toNat) ++ List.replicate (n - a.length) 0
    let ntt_b := b.digits.map (fun d => (toULL d).toNat) ++ List.replicate (n - b.length) 0
    match ntt ntt_a n false with
    | .error e => .error e
    | .ok ntt_a =>
      match ntt ntt_b n false with
      | .error e => .error e
      | .ok ntt_b =>
        let ntt_a := List.zipWith (fun x y => (x * y) % ULL % MOD) ntt_a ntt_b
        match ntt ntt_a n true with
        | .error e => .error e
        | .ok ntt_a =>
          let result := { createBigInt (n + 1) with base := a.base, base_digits := a.base_digits }
          let r := nttMultiplyBigInt.rebase (toULL result.base).toNat ntt_a 0 []
          let result := { result with digits := r.1 }
          let result := nttMultiplyBigInt.finalCarry (toULL result.base).toNat 64 r.2 result
          .ok (normalize { result with sign := result_sign })

/-! ## Division -/

/-- The binary search of `divideBigIntAbs`:
`while (low <= high) { mid = (low + high) / 2; ... }`, with a bound on the number
of iterations; `current` is `current_dividend_part`. -/
def divideBigIntAbs.search (b_abs current : BigInt) : Nat → Int → Int → Int → Except Fault Int
  | 0, _, _, quotient_block => .ok quotient_block
  | fuel + 1, low, high, quotient_block =>
    if low ≤ high then
      let mid := Int.tdiv (low + high) 2
      match multiplyByInt b_abs mid with
      | .error e => .error e
      | .ok product =>
        if compareAbsolute product current ≤ 0 then search b_abs current fuel (mid + 1) high mid
        else search b_abs current fuel low (mid - 1) quotient_block
    else .ok quotient_block

/-- Step 2 of the loop body of `divideBigIntAbs`: the quotient block for the
current partial dividend.  The search interval `[0, base - 1]` shrinks in every
iteration, so `base` iterations always suffice. -/
def divideBigIntAbs.quotientBlock (b_abs current : BigInt) : Except Fault Int :=
  if compareAbsolute current b_abs ≥ 0 then
    let high_a := current.digits.getD (current.length - 1) 0
    let high_b := b_abs.digits.getD (b_abs.length - 1) 0
    let high_a :=
      if current.length > b_abs.length then
        let high_a := high_a * current.base
        if current.length ≥ 2 then high_a + current.digits.getD (current.length - 2) 0
        else high_a
      else high_a
    let quotient_block := Int.tdiv high_a (high_b + 1)
    let quotient_block :=
      if quotient_block > current.base - 1 then current.base - 1 else quotient_block
    divideBigIntAbs.search b_abs current current.base.toNat 0 (current.base - 1) quotient_block
  else .ok 0

/-- Step 1 of the loop body of `divideBigIntAbs`: shift the partial dividend by
one block and bring down the dividend block `i`. -/
def divideBigIntAbs.bringDown (a_abs : BigInt) (i : Nat) (current : BigInt) : BigInt :=
  let current :=
    if current.length > 0 ∨ current.digits.getD 0 0 ≠ 0 then multiplyByBase current
    else current
  let current := { current with digits := current.digits.set 0 (a_abs.digits.getD i 0) }
  normalize current

/-- One iteration of the main loop of `divideBigIntAbs`, for the dividend block
`i`; the state is `(current_dividend_part, q)`, the blocks of `q` being stored
in the order in which they are produced. -/
def divideBigIntAbs.step (a_abs b_abs : BigInt) (i : Nat) (current q : BigInt) :
    Except Fault (BigInt × BigInt) :=
  let current := divideBigIntAbs.bringDown a_abs i current
  match divideBigIntAbs.quotientBlock b_abs current with
  | .error e => .error e
  | .ok quotient_block =>
    let q := { q with digits := q.digits ++ [quotient_block] }
    if quotient_block > 0 then
      match multiplyByInt b_abs quotient_block with
      | .error e => .error e
      | .ok product =>
        match subtractBigIntAbs current product with
        | .error e => .error e
        | .ok new_part => .ok (new_part, q)
    else .ok (current, q)

/-- The main loop of `divideBigIntAbs`: `for (i = length - 1; i >= 0; --i)`,
with `n` blocks still to be processed. -/
def divideBigIntAbs.loop (a_abs b_abs : BigInt) :
    Nat → BigInt → BigInt → Except Fault (BigInt × BigInt)
  | 0, current, q => .ok (current, q)
  | n + 1, current, q =>
    match divideBigIntAbs.step a_abs b_abs n current q with
    | .error e => .error e
    | .ok s => loop a_abs b_abs n s.1 s.2

/-- `divideBigIntAbs`: returns `(quotient, remainder)`. -/
def divideBigIntAbs (a_abs b_abs : BigInt) : Except Fault (BigInt × BigInt) :=
  if a_abs.sign ≥ 0 ∧ b_abs.sign > 0 ∧ !isBigIntZero b_abs then
    if compareAbsolute a_abs b_abs < 0 then .ok (createBigInt 1, copyBigInt a_abs)
    else
      let q := { createBigInt a_abs.length with digits := [] }
      let current_dividend_part := createBigInt (b_abs.length + 1)
      match divideBigIntAbs.loop a_abs b_abs a_abs.length current_dividend_part q with
      | .error e => .error e
      | .ok s =>
        let q := normalize { s.2 with digits := s.2.digits.reverse }
        let r := normalize (copyBigInt s.1)
        .ok (q, r)
  else .error Fault.assertFailed

/-- `divideBigInt` with both output pointers given: returns
`(quotient, remainder)`. -/
def divideBigInt (a b : BigInt) : Except Fault (BigInt × BigInt) :=
  if isBigIntZero b then .error (Fault.error BigIntError.BIGINT_DIVIDE_BY_ZERO)
  else if isBigIntZero a then .ok (createBigInt 1, createBigInt 1)
  else
    let q_sign : Int := if a.sign = b.sign then 1 else -1
    let r_sign := a.sign
    let a_abs := { copyBigInt a with sign := 1 }
    let b_abs := { copyBigInt b with sign := 1 }
    match divideBigIntAbs a_abs b_abs with
    | .error e => .error e
    | .ok s =>
      let quotient := if !isBigIntZero s.1 then { s.1 with sign := q_sign } else s.1
      let remainder := if !isBigIntZero s.2 then { s.2 with sign := r_sign } else s.2
      .ok (quotient, remainder)

/-! ## Decimal text -/

/-- The terminating NUL, read when a string is indexed at its length. -/
abbrev NUL : Char := Char.ofNat 0

/-- `isdigit` of `<ctype.h>` in the C locale. -/
def isdigit (c : Char) : Bool := '0' ≤ c ∧ c ≤ '9'

/-- The loop `while (start < len && str[start] == '0') start++;` of
`createBigIntFromString`, with a bound on the number of iterations. -/
def createBigIntFromString.skipZeros (str : List Char) : Nat → Nat → Nat
  | 0, start => start
  | fuel + 1, start =>
    if start < str.length ∧ str.getD start NUL = '0' then skipZeros str fuel (start + 1)
    else start

/-- The loop computing `all_zero`: `k` characters from index `i` on. -/
def createBigIntFromString.allZero (str : List Char) : Nat → Nat → Bool
  | 0, _ => true
  | k + 1, i => if str.getD i NUL ≠ '0' then false else allZero str k (i + 1)

/-- The loop rejecting invalid characters: `k` characters from index `i` on;
`false` stands for `return NULL`. -/
def createBigIntFromString.allDigits (str : List Char) : Nat → Nat → Bool
  | 0, _ => true
  | k + 1, i => if !isdigit (str.getD i NUL) then false else allDigits str k (i + 1)

/-- The block-building loop of `createBigIntFromString`: `k` iterations remain,
`i` is the loop index, `out` the blocks stored so far; `none` stands for
`return NULL`. -/
def createBigIntFromString.parse (str : List Char) (num_dec_digits : Nat) (base_digits : Nat) :
    Nat → Nat → Int → Int → List Int → Option (List Int)
  | 0, _, _, _, out => some out
  | k + 1, i, current_block_val, power, out =>
    let c := str.getD (str.length - 1 - i) NUL
    if !isdigit c then none
    else
      let current_block_val := current_block_val + ((c.toNat : Int) - ('0'.toNat : Int)) * power
      let power := power * 10
      if (i + 1) % base_digits = 0 ∨ i = num_dec_digits - 1 then
        parse str num_dec_digits base_digits k (i + 1) 0 1 (out ++ [current_block_val])
      else parse str num_dec_digits base_digits k (i + 1) current_block_val power out

/-- `createBigIntFromString`; `none` is the `NULL` result. -/
def createBigIntFromString (str : List Char) : Option BigInt :=
  let len := str.length
  let sign : Int := if len > 0 ∧ str.getD 0 NUL = '-' then -1 else 1
  let start : Nat :=
    if len > 0 ∧ str.getD 0 NUL = '-' then 1
    else if len > 0 ∧ str.getD 0 NUL = '+' then 1
    else 0
  let original_start := start
  let start := createBigIntFromString.skipZeros str len start
  let all_zero := createBigIntFromString.allZero str (len - start) start
  if all_zero then
    if original_start > 0 ∧ start = original_start then none
    else some { createBigInt 1 with sign := 1 }
  else if !createBigIntFromString.allDigits str (len - start) start then none
  else
    let num_dec_digits := len - start
    let base_digits := 3
    let num_blocks := (num_dec_digits + base_digits - 1) / base_digits
    let bigInt := { createBigInt num_blocks with sign := sign, base := 1000, base_digits := 3 }
    match createBigIntFromString.parse str num_dec_digits base_digits num_dec_digits 0 0 1 [] with
    | none => none
    | some digits => some (normalize { bigInt with digits := digits })

/-- The text libc's `sprintf` writes for `"%d"`. -/
def sprintf_d (v : Int) : List Char :=
  if v < 0 then '-' :: Nat.toDigits 10 v.natAbs else Nat.toDigits 10 v.natAbs

/-- The text libc's `sprintf` writes for `"%0<width>d"`: zero-padded on the left
to at least `width` characters, the sign counting as one of them. -/
def sprintf_0d (width : Nat) (v : Int) : List Char :=
  if v < 0 then
    '-' :: (List.replicate (width - 1 - (Nat.toDigits 10 v.natAbs).length) '0' ++
      Nat.toDigits 10 v.natAbs)
  else List.replicate (width - (Nat.toDigits 10 v.natAbs).length) '0' ++ Nat.toDigits 10 v.natAbs

/-- The loop of `bigIntToString` over the blocks `i - 1, ..., 0`; `p` is the text
written so far.  Each block is written with `"%0<base_digits>d"` and the write
position then advances by `base_digits` characters. -/
def bigIntToString.loop (num : BigInt) : Nat → List Char → List Char
  | 0, p => p
  | i + 1, p =>
    loop num i (p ++ (sprintf_0d num.base_digits.toNat (num.digits.getD i 0)).take
      num.base_digits.toNat)

/-- `bigIntToString`. -/
def bigIntToString (num : BigInt) : List Char :=
  if isBigIntZero num then ['0']
  else
    let p := if num.sign < 0 then ['-'] else []
    let p := p ++ sprintf_d (num.digits.getD (num.length - 1) 0)
    bigIntToString.loop num (num.length - 1) p

/-- `createBigIntFromLL`: the text of `snprintf(buffer, 30, "%lld", val)` is
parsed. -/
def createBigIntFromLL (val : Int) : Option BigInt :=
  createBigIntFromString (sprintf_d val)

/-- `multiplyBigIntByLL`. -/
def multiplyBigIntByLL (a : BigInt) (b_ll : Int) : Except Fault BigInt :=
  match createBigIntFromLL b_ll with
  | none => .error (Fault.error BigIntError.BIGINT_ALLOCATION_ERROR)
  | some b_bi => nttMultiplyBigInt a b_bi

/-! ## Auxiliary notions used in the statements and proofs -/

/-- The decimal digit a character stands for. -/
def digitValue (c : Char) : Nat := c.toNat - '0'.toNat

/-- The natural number a string of decimal digits denotes. -/
def decimalValue (ds : List Char) : Nat := ds.foldl (fun acc c => 10 * acc + digitValue c) 0

/-- The canonical decimal numeral of an integer: a `-` for a negative number,
then the decimal digits without leading zeros (`0` for zero). -/
def decimalNumeral (v : Int) : List Char :=
  if v < 0 then '-' :: Nat.toDigits 10 v.natAbs else Nat.toDigits 10 v.natAbs

/-- A string without its leading sign character, if it has one. -/
def stripSign : List Char → List Char
  | '+' :: rest => rest
  | '-' :: rest => rest
  | s => s

/-- Number of characters `createBigIntFromString` takes for the sign: the value
of `start` before leading zeros are skipped. -/
def signLength (str : List Char) : Nat :=
  if str.length > 0 ∧ str.getD 0 NUL = '-' then 1
  else if str.length > 0 ∧ str.getD 0 NUL = '+' then 1
  else 0

/-- The sign a numeral's leading character gives it. -/
def signOf : List Char → Int
  | '-' :: _ => -1
  | _ => 1

/-- A block written as exactly three decimal digits. -/
def threeDigits (d : Int) : List Char :=
  [Nat.digitChar (d.toNat / 100), Nat.digitChar (d.toNat / 10 % 10), Nat.digitChar (d.toNat % 10)]

/-- Blocks written one after the other, three decimal digits each. -/
def threeDigitsEach : List Int → List Char
  | [] => []
  | d :: ds => threeDigits d ++ threeDigitsEach ds

/-- The `i`-th group of three decimal digits of a digit string, counted from the
right, as a number. -/
def groupOfThree (ds : List Char) (i : Nat) : Nat :=
  decimalValue (((ds.reverse.drop (3 * i)).take 3).reverse)



/-- The magnitude `sum of digits[i] * 1000^i` of a BigInt. -/
def BigInt.magnitude (x : BigInt) : Int := blocksValue x.digits

/-- Build a BigInt in radix 1000 from a sign and its blocks. -/
def mk (sign : Int) (digits : List Int) : BigInt :=
  { digits := digits, sign := sign, base := 1000, base_digits := 3, capacity := digits.length }

/-- Every block lies in `[0, 1000)`. -/
def InRange (ds : List Int) : Prop := ∀ d ∈ ds, 0 ≤ d ∧ d < 1000

/-- Value of the first `i` blocks. -/
def prefixValue (ds : List Int) (i : Nat) : Int := blocksValue (ds.take i)

/-- No leading zero block, unless the number has a single block. -/
def NoLeadingZero (ds : List Int) : Prop := 1 < ds.length → ds.getD (ds.length - 1) 0 ≠ 0

/-! ## Notions used for the transform -/

/-- Reversal of the low `L` bits of `x`. -/
def bitRev : Nat → Nat → Nat
  | 0, _ => 0
  | L + 1, x => (x % 2) * 2 ^ L + bitRev L (x / 2)

/-- The transform of size `2^s` of the subsequence `x (bitRev d c + 2^d * m)`,
`m = 0, 1, ...`, at frequency `k`, for the root `ρ`: the content of position `k`
of block `c` after the pass of block length `2^s`. -/
def blockDFT (ρ : ZMod MOD) (d s : Nat) (x : Nat → ZMod MOD) (c k : Nat) : ZMod MOD :=
  ∑ m in Finset.range (2 ^ s), x (bitRev d c + 2 ^ d * m) * ρ ^ (m * k)

/-- The root of unity of the pass of block length `2^s`: `G^((MOD-1)/2^s)`. -/
def stageRoot (s : Nat) : ZMod MOD := (G : ZMod MOD) ^ ((MOD - 1) / 2 ^ s)

/-- The root used by `ntt` in the pass of block length `2^s`: `stageRoot s`, or
its inverse for the inverse transform. -/
def passRoot (invert : Bool) (s : Nat) : ZMod MOD :=
  if invert then (stageRoot s)⁻¹ else stageRoot s

/-- The residues of an array. -/
def residues (a : List Nat) : Nat → ZMod MOD := fun i => ((a.getD i 0 : Nat) : ZMod MOD)

/-- The convolution coefficient `sum of a_i * b_(k-i)` of two block lists. -/
def convCoeff (a b : List Int) (k : Nat) : Int :=
  ∑ i in Finset.range (k + 1), a.getD i 0 * b.getD (k - i) 0

/-! ## Decimal expansion -/

/-- The loop of `multiplyBy10` over the blocks; `product` and `carry` are
`unsigned long long`, `out` the blocks `num->digits[0..i-1]` rewritten so far
(block `i` is read before it is written). -/
def multiplyBy10.loop (num : BigInt) : Nat → Nat → Int → List Int → List Int × Int
  | 0, _, carry, out => (out, carry)
  | k + 1, i, carry, out =>
    let product := toULL (toULL (toULL (num.digits.getD i 0) * toULL 10) + carry)
    loop num k (i + 1) (product / toULL num.base) (out ++ [product % toULL num.base])

/-- `multiplyBy10` (in place in C: returns the updated object). -/
def multiplyBy10 (num : BigInt) : BigInt :=
  if isBigIntZero num then num
  else
    let r := multiplyBy10.loop num num.length 0 0 []
    let num := { num with digits := r.1 }
    if r.2 > 0 then
      let num := ensureCapacity num (num.length + 1)
      { num with digits := num.digits ++ [r.2] }
    else num

/-- The loop `for (int k = 0; k < precision; ++k)` of `bigIntToDecimalString`:
`k` iterations remain, `current_remainder` is the running remainder and `p` the
text written so far.  `Fault.error e` stands for the `break` taken with
`err = e`. -/
def bigIntToDecimalString.loop (b_abs : BigInt) :
    Nat → BigInt → List Char → Except Fault (List Char)
  | 0, _, p => .ok p
  | k + 1, current_remainder, p =>
    if isBigIntZero current_remainder then loop b_abs k current_remainder (p ++ ['0'])
    else
      let current_remainder := multiplyBy10 current_remainder
      match divideBigInt current_remainder b_abs with
      | .error e => .error e
      | .ok (temp_digit_bi, next_rem) =>
        let digit : Int :=
          if !isBigIntZero temp_digit_bi then
            let digit := Int.tmod (temp_digit_bi.digits.getD 0 0) 10
            if digit < 0 then digit + 10 else digit
          else 0
        if next_rem.sign < 0 then
          match addBigInt next_rem b_abs with
          | .error Fault.assertFailed => .error Fault.assertFailed
          | .error Fault.undefined => .error Fault.undefined
          | .error (Fault.error _) =>
            loop b_abs k next_rem (p ++ [Char.ofNat ('0'.toNat + digit.toNat)])
          | .ok temp =>
            let digit := digit + 1
            let digit := if digit ≥ 10 then digit - 10 else digit
            loop b_abs k temp (p ++ [Char.ofNat ('0'.toNat + digit.toNat)])
        else loop b_abs k next_rem (p ++ [Char.ofNat ('0'.toNat + digit.toNat)])

/-- `bigIntToDecimalString`; `.ok none` is the `NULL` result, `.error` a failed
`assert`. -/
def bigIntToDecimalString (a b : BigInt) (precision : Int) :
    Except Fault (Option (List Char)) :=
  if precision < 0 then .ok none
  else if isBigIntZero b then .ok none
  else
    match divideBigInt a b with
    | .error Fault.assertFailed => .error Fault.assertFailed
    | .error Fault.undefined => .error Fault.undefined
    | .error (Fault.error _) => .ok none
    | .ok (quotient_int, remainder_int) =>
      let integer_part_str := bigIntToString quotient_int
      if precision > 0 then
        let p := integer_part_str ++ ['.']
        let current_remainder := { copyBigInt remainder_int with sign := 1 }
        let b_abs := { copyBigInt b with sign := 1 }
        match bigIntToDecimalString.loop b_abs precision.toNat current_remainder p with
        | .error Fault.assertFailed => .error Fault.assertFailed
        | .error Fault.undefined => .error Fault.undefined
        | .error (Fault.error _) => .ok none
        | .ok final_str => .ok (some final_str)
      else .ok (some integer_part_str)

/-- The rational number a decimal text `[sign]digits[.digits]` denotes. -/
def decimalTextValue (s : List Char) : Rat :=
  let body := stripSign s
  let whole := body.takeWhile (fun c => c ≠ '.')
  let frac := (body.dropWhile (fun c => c ≠ '.')).drop 1
  (signOf s : Rat) * ((decimalValue whole : Rat) + (decimalValue frac : Rat) / 10 ^ frac.length)

/-! ## Long division with another estimate

The loop body of `divideBigIntAbs` first sets `quotient_block` to an estimate
from the leading blocks and then runs the binary search.  The definitions below
are the same procedure with the estimate replaced by the value of an arbitrary
function of the divisor and the partial dividend. -/

/-- Step 2 of the loop body of `divideBigIntAbs`, the binary search being
started with `quotient_block = estimate`. -/
def divideBigIntAbs.quotientBlockWith (estimate : Int) (b_abs current : BigInt) :
    Except Fault Int :=
  if compareAbsolute current b_abs ≥ 0 then
    divideBigIntAbs.search b_abs current current.base.toNat 0 (current.base - 1) estimate
  else .ok 0

/-- One iteration of the main loop of `divideBigIntAbs` with the estimate
`est b_abs current`. -/
def divideBigIntAbs.stepWith (est : BigInt → BigInt → Int) (a_abs b_abs : BigInt) (i : Nat)
    (current q : BigInt) : Except Fault (BigInt × BigInt) :=
  let current := divideBigIntAbs.bringDown a_abs i current
  match divideBigIntAbs.quotientBlockWith (est b_abs current) b_abs current with
  | .error e => .error e
  | .ok quotient_block =>
    let q := { q with digits := q.digits ++ [quotient_block] }
    if quotient_block > 0 then
      match multiplyByInt b_abs quotient_block with
      | .error e => .error e
      | .ok product =>
        match subtractBigIntAbs current product with
        | .error e => .error e
        | .ok new_part => .ok (new_part, q)
    else .ok (current, q)

/-- The main loop of `divideBigIntAbs` with the estimate `est`. -/
def divideBigIntAbs.loopWith (est : BigInt → BigInt → Int) (a_abs b_abs : BigInt) :
    Nat → BigInt → BigInt → Except Fault (BigInt × BigInt)
  | 0, current, q => .ok (current, q)
  | n + 1, current, q =>
    match divideBigIntAbs.stepWith est a_abs b_abs n current q with
    | .error e => .error e
    | .ok s => loopWith est a_abs b_abs n s.1 s.2

/-- `divideBigIntAbs` with the estimate `est`. -/
def divideBigIntAbsWith (est : BigInt → BigInt → Int) (a_abs b_abs : BigInt) :
    Except Fault (BigInt × BigInt) :=
  if a_abs.sign ≥ 0 ∧ b_abs.sign > 0 ∧ !isBigIntZero b_abs then
    if compareAbsolute a_abs b_abs < 0 then .ok (createBigInt 1, copyBigInt a_abs)
    else
      let q := { createBigInt a_abs.length with digits := [] }
      let current_dividend_part := createBigInt (b_abs.length + 1)
      match divideBigIntAbs.loopWith est a_abs b_abs a_abs.length current_dividend_part q with
      | .error e => .error e
      | .ok s =>
        let q := normalize { s.2 with digits := s.2.digits.reverse }
        let r := normalize (copyBigInt s.1)
        .ok (q, r)
  else .error Fault.assertFailed

/-! ## The calculator (`calculator.c`)

Scales and precisions are C `int`s; they are kept as integers, which is what
the C code computes as long as none of them leaves the range of `int`. -/

/-- `BigDecimal`: the integer `value` (`none` for a `NULL` pointer) stands for
`value / 10^scale`. -/
structure BigDecimal where
  value : Option BigInt
  scale : Int
  deriving DecidableEq

/-- What ends an evaluation without a result: a failed `assert` of the library
(the program aborts), undefined behaviour in the library, or the bound that this
embedding puts on the depth of the recursion of the parser. -/
inductive Stop
  | assertFailed
  | undefined
  | depth
  deriving DecidableEq

/-- `isspace` of `<ctype.h>` in the C locale. -/
def isspace (c : Char) : Bool :=
  c = ' ' ∨ c = '\t' ∨ c = '\n' ∨ c = Char.ofNat 11 ∨ c = Char.ofNat 12 ∨ c = '\r'

/-- The loop of `bigintPow10`: `k` multiplications by 10 remain.  `.ok none` is
the `NULL` result. -/
def bigintPow10.loop : Nat → BigInt → Except Stop (Option BigInt)
  | 0, result => .ok (some result)
  | k + 1, result =>
    match multiplyBigIntByLL result 10 with
    | .error Fault.assertFailed => .error Stop.assertFailed
    | .error Fault.undefined => .error Stop.undefined
    | .error (Fault.error _) => .ok none
    | .ok temp => loop k temp

/-- `bigintPow10`: the loop `for (int i = 0; i < n; i++)` runs `n` times, and
not at all for `n <= 0`. -/
def bigintPow10 (n : Int) : Except Stop (Option BigInt) :=
  match createBigIntFromLL 1 with
  | none => .ok none
  | some result => bigintPow10.loop n.toNat result

/-- The loop `while (isspace(*s)) s++;` of `parseBigDecimal`. -/
def parseBigDecimal.skip : List Char → List Char
  | [] => []
  | c :: s => if isspace c then skip s else c :: s

/-- The loop of `parseBigDecimal` over the characters from index `i` on; `none`
when an illegal character is met. -/
def parseBigDecimal.loop : List Char → Nat → List Char → Int → Bool → Option (List Char × Int)
  | [], _, numStr, scale, _ => some (numStr, scale)
  | c :: rest, i, numStr, scale, seenDot =>
    if c = '.' then loop rest (i + 1) numStr scale true
    else if isdigit c ∨ ((c = '-' ∨ c = '+') ∧ i = 0) then
      loop rest (i + 1) (numStr ++ [c]) (if seenDot ∧ isdigit c then scale + 1 else scale) seenDot
    else if isspace c then loop rest (i + 1) numStr scale seenDot
    else none

/-- `parseBigDecimal`. -/
def parseBigDecimal (s : List Char) : BigDecimal :=
  let s := parseBigDecimal.skip s
  match parseBigDecimal.loop s 0 [] 0 false with
  | none => { value := none, scale := 0 }
  | some (numStr, scale) => { value := createBigIntFromString numStr, scale := scale }

/-- `alignScale` (in place in C: returns the updated object). -/
def alignScale (d : BigDecimal) (newScale : Int) : Except Stop BigDecimal :=
  match d.value with
  | none => .ok d
  | some v =>
    let delta := newScale - d.scale
    if delta ≤ 0 then .ok d
    else
      match bigintPow10 delta with
      | .error e => .error e
      | .ok none => .ok d
      | .ok (some factor) =>
        match nttMultiplyBigInt v factor with
        | .error Fault.assertFailed => .error Stop.assertFailed
        | .error Fault.undefined => .error Stop.undefined
        | .error (Fault.error _) => .ok d
        | .ok newVal => .ok { value := some newVal, scale := newScale }

/-- `addBigDecimal`. -/
def addBigDecimal (a b : BigDecimal) : Except Stop BigDecimal :=
  let newScale := if a.scale > b.scale then a.scale else b.scale
  match alignScale a newScale with
  | .error e => .error e
  | .ok a =>
    match alignScale b newScale with
    | .error e => .error e
    | .ok b =>
      match a.value, b.value with
      | some x, some y =>
        match addBigInt x y with
        | .error Fault.assertFailed => .error Stop.assertFailed
        | .error Fault.undefined => .error Stop.undefined
        | .error (Fault.error _) => .ok { value := none, scale := 0 }
        | .ok r => .ok { value := some r, scale := newScale }
      | _, _ => .ok { value := none, scale := 0 }

/-- `subBigDecimal`. -/
def subBigDecimal (a b : BigDecimal) : Except Stop BigDecimal :=
  let newScale := if a.scale > b.scale then a.scale else b.scale
  match alignScale a newScale with
  | .error e => .error e
  | .ok a =>
    match alignScale b newScale with
    | .error e => .error e
    | .ok b =>
      match a.value, b.value with
      | some x, some y =>
        match subtractBigInt x y with
        | .error Fault.assertFailed => .error Stop.assertFailed
        | .error Fault.undefined => .error Stop.undefined
        | .error (Fault.error _) => .ok { value := none, scale := 0 }
        | .ok r => .ok { value := some r, scale := newScale }
      | _, _ => .ok { value := none, scale := 0 }

/-- `mulBigDecimal`. -/
def mulBigDecimal (a b : BigDecimal) : Except Stop BigDecimal :=
  match a.value, b.value with
  | some x, some y =>
    match nttMultiplyBigInt x y with
    | .error Fault.assertFailed => .error Stop.assertFailed
    | .error Fault.undefined => .error Stop.undefined
    | .error (Fault.error _) => .ok { value := none, scale := a.scale + b.scale }
    | .ok r => .ok { value := some r, scale := a.scale + b.scale }
  | _, _ => .ok { value := none, scale := a.scale + b.scale }

/-- `divBigDecimal`. -/
def divBigDecimal (a b : BigDecimal) (precision : Int) : Except Stop BigDecimal :=
  match b.value with
  | none => .ok { value := none, scale := precision }
  | some bv =>
    if isBigIntZero bv then .ok { value := none, scale := precision }
    else
      let delta := precision + b.scale - a.scale
      match bigintPow10 delta with
      | .error e => .error e
      | .ok none => .ok { value := none, scale := precision }
      | .ok (some factor) =>
        match a.value with
        | none => .ok { value := none, scale := precision }
        | some av =>
          match nttMultiplyBigInt av factor with
          | .error Fault.assertFailed => .error Stop.assertFailed
          | .error Fault.undefined => .error Stop.undefined
          | .error (Fault.error _) => .ok { value := none, scale := precision }
          | .ok numerator =>
            match divideBigInt numerator bv with
            | .error Fault.assertFailed => .error Stop.assertFailed
            | .error Fault.undefined => .error Stop.undefined
            | .error (Fault.error _) => .ok { value := none, scale := precision }
            | .ok (quotient, _) => .ok { value := some quotient, scale := precision }

/-- `TokenType`. -/
inductive TokenType
  | TOKEN_NUM
  | TOKEN_PLUS
  | TOKEN_MINUS
  | TOKEN_MUL
  | TOKEN_DIV
  | TOKEN_LPAREN
  | TOKEN_RPAREN
  | TOKEN_END
  | TOKEN_INVALID
  deriving DecidableEq

/-- `Token`; the buffer `lexeme` holds at most 999 characters. -/
structure Token where
  type : TokenType
  lexeme : List Char
  deriving DecidableEq

/-- The global variables `input_str`, `pos` and `current_token`.  Reading
`input_str` at its length gives the terminating NUL. -/
structure CalcState where
  input_str : List Char
  pos : Nat
  current_token : Token
  deriving DecidableEq

/-- The loop `while (input_str[pos] && isspace(input_str[pos])) pos++;` of
`nextToken`, with a bound on the number of iterations. -/
def nextToken.skip (input_str : List Char) : Nat → Nat → Nat
  | 0, pos => pos
  | fuel + 1, pos =>
    if input_str.getD pos NUL ≠ NUL ∧ isspace (input_str.getD pos NUL) then
      skip input_str fuel (pos + 1)
    else pos

/-- The loop `while (input_str[pos] && (isdigit(input_str[pos]) ||
input_str[pos]=='.')) pos++;` of `nextToken`, with a bound on the number of
iterations. -/
def nextToken.scan (input_str : List Char) : Nat → Nat → Nat
  | 0, pos => pos
  | fuel + 1, pos =>
    if input_str.getD pos NUL ≠ NUL ∧
        (isdigit (input_str.getD pos NUL) ∨ input_str.getD pos NUL = '.') then
      scan input_str fuel (pos + 1)
    else pos

/-- `nextToken`.  Each of its loops moves `pos` forward, so the length of the
input bounds the number of their iterations. -/
def nextToken (st : CalcState) : CalcState :=
  let pos := nextToken.skip st.input_str st.input_str.length st.pos
  if st.input_str.getD pos NUL = NUL then
    { st with pos := pos, current_token := { st.current_token with type := TokenType.TOKEN_END } }
  else
    let c := st.input_str.getD pos NUL
    if isdigit c ∨ c = '.' ∨ ((c = '-' ∨ c = '+') ∧ isdigit (st.input_str.getD (pos + 1) NUL)) then
      let start := pos
      let pos := if c = '-' ∨ c = '+' then pos + 1 else pos
      let pos := nextToken.scan st.input_str st.input_str.length pos
      let len := pos - start
      let len := if len ≥ 1000 then 1000 - 1 else len
      { st with pos := pos,
                current_token := { type := TokenType.TOKEN_NUM,
                                   lexeme := (st.input_str.drop start).take len } }
    else
      let type :=
        if c = '+' then TokenType.TOKEN_PLUS
        else if c = '-' then TokenType.TOKEN_MINUS
        else if c = '*' then TokenType.TOKEN_MUL
        else if c = '/' then TokenType.TOKEN_DIV
        else if c = '(' then TokenType.TOKEN_LPAREN
        else if c = ')' then TokenType.TOKEN_RPAREN
        else TokenType.TOKEN_INVALID
      { st with pos := pos + 1, current_token := { type := type, lexeme := [c] } }

/-- `parseFactor`; `parseExpression` is the parser called for a parenthesis, and
the first argument bounds the chain of recursive calls for signs.  The messages
printed are left out. -/
def parseFactor (parseExpression : CalcState → Except Stop (BigDecimal × CalcState)) :
    Nat → CalcState → Except Stop (BigDecimal × CalcState)
  | 0, _ => .error Stop.depth
  | fuel + 1, st =>
    if st.current_token.type = TokenType.TOKEN_NUM then
      let result := parseBigDecimal st.current_token.lexeme
      .ok (result, nextToken st)
    else if st.current_token.type = TokenType.TOKEN_MINUS then
      match parseFactor parseExpression fuel (nextToken st) with
      | .error e => .error e
      | .ok (result, st) =>
        if result.value.isSome then
          let zero : BigDecimal := { value := createBigIntFromLL 0, scale := 0 }
          match subBigDecimal zero result with
          | .error e => .error e
          | .ok tmp => .ok (tmp, st)
        else .ok (result, st)
    else if st.current_token.type = TokenType.TOKEN_PLUS then
      parseFactor parseExpression fuel (nextToken st)
    else if st.current_token.type = TokenType.TOKEN_LPAREN then
      match parseExpression (nextToken st) with
      | .error e => .error e
      | .ok (result, st) =>
        if st.current_token.type ≠ TokenType.TOKEN_RPAREN then
          .ok ({ result with value := none }, st)
        else .ok (result, nextToken st)
    else .ok ({ value := none, scale := 0 }, st)

/-- The loop of `parseTerm`, with a bound on the number of iterations. -/
def parseTerm.loop (parseFactor : CalcState → Except Stop (BigDecimal × CalcState)) :
    Nat → BigDecimal → CalcState → Except Stop (BigDecimal × CalcState)
  | 0, _, _ => .error Stop.depth
  | fuel + 1, result, st =>
    if st.current_token.type = TokenType.TOKEN_MUL ∨
        st.current_token.type = TokenType.TOKEN_DIV then
      let op := st.current_token.type
      match parseFactor (nextToken st) with
      | .error e => .error e
      | .ok (right, st) =>
        match (if op = TokenType.TOKEN_MUL then mulBigDecimal result right
               else divBigDecimal result right 100) with
        | .error e => .error e
        | .ok tmp => loop parseFactor fuel tmp st
    else .ok (result, st)

/-- `parseTerm`. -/
def parseTerm (parseFactor : CalcState → Except Stop (BigDecimal × CalcState)) (fuel : Nat)
    (st : CalcState) : Except Stop (BigDecimal × CalcState) :=
  match parseFactor st with
  | .error e => .error e
  | .ok (result, st) => parseTerm.loop parseFactor fuel result st

/-- The loop of `parseExpression`, with a bound on the number of iterations. -/
def parseExpression.loop (parseTerm : CalcState → Except Stop (BigDecimal × CalcState)) :
    Nat → BigDecimal → CalcState → Except Stop (BigDecimal × CalcState)
  | 0, _, _ => .error Stop.depth
  | fuel + 1, result, st =>
    if st.current_token.type = TokenType.TOKEN_PLUS ∨
        st.current_token.type = TokenType.TOKEN_MINUS then
      let op := st.current_token.type
      match parseTerm (nextToken st) with
      | .error e => .error e
      | .ok (right, st) =>
        match (if op = TokenType.TOKEN_PLUS then addBigDecimal result right
               else subBigDecimal result right) with
        | .error e => .error e
        | .ok tmp => loop parseTerm fuel tmp st
    else .ok (result, st)

/-- `parseExpression`; `n` bounds the loops and the chains of signs, the second
argument the nesting of parentheses.  Every recursive call and every iteration
follows a call of `nextToken` that has consumed a character, so that the length
of the input plus one is a bound for all of them. -/
def parseExpression (n : Nat) : Nat → CalcState → Except Stop (BigDecimal × CalcState)
  | 0, _ => .error Stop.depth
  | depth + 1, st =>
    let factor := parseFactor (fun s => parseExpression n depth s) n
    let term := parseTerm factor n
    match term st with
    | .error e => .error e
    | .ok (result, st) => parseExpression.loop term n result st

/-- The body of the loop of `main` for one input line: `input_str = line;
pos = 0; nextToken(); result = parseExpression();`.  `token` is the value that
`current_token` has from the line before. -/
def evaluate (token : Token) (line : List Char) : Except Stop BigDecimal :=
  let st := nextToken { input_str := line, pos := 0, current_token := token }
  match parseExpression (line.length + 1) (line.length + 1) st with
  | .error e => .error e
  | .ok (result, _) => .ok result

/-! # Theorems -/

/-! ## Basic facts about block lists -/

theorem InRange.nil : InRange [] := by intro d hd; simp at hd

theorem InRange.append {xs ys : List Int} (hx : InRange xs) (hy : InRange ys) :
    InRange (xs ++ ys) := by
  intro d hd
  rcases List.mem_append.mp hd with h | h
  · exact hx d h
  · exact hy d h

theorem InRange.single {d : Int} (h0 : 0 ≤ d) (h1 : d < 1000) : InRange [d] := by
  intro e he
  simp at he
  subst he
  exact ⟨h0, h1⟩

theorem InRange.sub {xs ys : List Int} (hy : InRange ys) (h : ∀ d ∈ xs, d ∈ ys) : InRange xs :=
  fun d hd => hy d (h d hd)

theorem InRange.take {xs : List Int} (h : InRange xs) (n : Nat) : InRange (xs.take n) :=
  h.sub (fun _ hd => List.mem_of_mem_take hd)

theorem InRange.getD {xs : List Int} (h : InRange xs) (i : Nat) :
    0 ≤ xs.getD i 0 ∧ xs.getD i 0 < 1000 := by
  by_cases hi : i < xs.length
  · rw [List.getD_eq_getElem xs 0 hi]
    exact h _ (List.getElem_mem hi)
  · rw [List.getD_eq_default xs 0 (by omega)]
    omega

theorem blocksValue_append (xs ys : List Int) :
    blocksValue (xs ++ ys) = blocksValue xs + 1000 ^ xs.length * blocksValue ys := by
  induction xs with
  | nil => simp [blocksValue]
  | cons x xs ih =>
    rw [List.cons_append]
    simp only [blocksValue, List.length_cons, pow_succ]
    rw [ih]
    ring

theorem blocksValue_single (d : Int) : blocksValue [d] = d := by simp [blocksValue]

theorem blocksValue_nonneg {ds : List Int} (h : InRange ds) : 0 ≤ blocksValue ds := by
  induction ds with
  | nil => simp [blocksValue]
  | cons d ds ih =>
    have h1 := h d (List.mem_cons_self _ _)
    have h2 := ih (h.sub (fun _ hd => List.mem_cons_of_mem _ hd))
    simp only [blocksValue]
    omega

theorem blocksValue_lt {ds : List Int} (h : InRange ds) : blocksValue ds < 1000 ^ ds.length := by
  induction ds with
  | nil => simp [blocksValue]
  | cons d ds ih =>
    have h1 := h d (List.mem_cons_self _ _)
    have h2 := ih (h.sub (fun _ hd => List.mem_cons_of_mem _ hd))
    simp only [blocksValue, List.length_cons, pow_succ]
    omega

theorem prefixValue_zero (ds : List Int) : prefixValue ds 0 = 0 := by
  simp [prefixValue, blocksValue]

theorem prefixValue_succ (ds : List Int) (i : Nat) :
    prefixValue ds (i + 1) = prefixValue ds i + ds.getD i 0 * 1000 ^ i := by
  unfold prefixValue
  by_cases hi : i < ds.length
  · rw [List.take_succ, blocksValue_append, List.getD_eq_getElem ds 0 hi]
    simp [List.getElem?_eq_getElem hi, blocksValue, List.length_take, Nat.min_eq_left (le_of_lt hi)]
    ring
  · rw [List.getD_eq_default ds 0 (by omega), List.take_of_length_le (by omega),
      List.take_of_length_le (by omega)]
    simp

theorem prefixValue_of_le (ds : List Int) {i : Nat} (h : ds.length ≤ i) :
    prefixValue ds i = blocksValue ds := by
  unfold prefixValue
  rw [List.take_of_length_le h]

theorem prefixValue_nonneg {ds : List Int} (h : InRange ds) (i : Nat) : 0 ≤ prefixValue ds i :=
  blocksValue_nonneg (h.take i)

theorem prefixValue_lt {ds : List Int} (h : InRange ds) (i : Nat) :
    prefixValue ds i < 1000 ^ i := by
  have h1 := blocksValue_lt (h.take i)
  have h2 : (ds.take i).length ≤ i := by simp
  have h3 : (1000 : Int) ^ (ds.take i).length ≤ 1000 ^ i :=
    pow_le_pow_right₀ (by norm_num) h2
  unfold prefixValue
  omega

/-! ## Trimming and normalisation -/

theorem dropLast_append_last (ds : List Int) (h : ds ≠ []) :
    ds.dropLast ++ [ds.getD (ds.length - 1) 0] = ds := by
  have hl : ds.length - 1 < ds.length := by
    have := List.length_pos.mpr h
    omega
  rw [List.getD_eq_getElem ds 0 hl, ← List.getLast_eq_getElem ds h]
  exact List.dropLast_append_getLast h

theorem InRange.dropLast {xs : List Int} (h : InRange xs) : InRange xs.dropLast :=
  h.sub (fun _ hd => List.mem_of_mem_dropLast hd)

theorem trimLoop_value (f : Nat) (ds : List Int) :
    blocksValue (trimLeadingZeros.loop f ds) = blocksValue ds := by
  induction f generalizing ds with
  | zero => rfl
  | succ f ih =>
    unfold trimLeadingZeros.loop
    split
    · rename_i hc
      have hne : ds ≠ [] := by
        intro h0
        rw [h0] at hc
        simp at hc
      rw [ih]
      conv_rhs => rw [← dropLast_append_last ds hne, hc.2, blocksValue_append]
      simp [blocksValue]
    · rfl

theorem trimLoop_inRange (f : Nat) {ds : List Int} (h : InRange ds) :
    InRange (trimLeadingZeros.loop f ds) := by
  induction f generalizing ds with
  | zero => exact h
  | succ f ih =>
    unfold trimLeadingZeros.loop
    split
    · exact ih h.dropLast
    · exact h

theorem trimLoop_length_pos (f : Nat) {ds : List Int} (h : 1 ≤ ds.length) :
    1 ≤ (trimLeadingZeros.loop f ds).length := by
  induction f generalizing ds with
  | zero => exact h
  | succ f ih =>
    unfold trimLeadingZeros.loop
    split
    · rename_i hc
      apply ih
      rw [List.length_dropLast]
      omega
    · exact h

theorem trimLoop_top (f : Nat) {ds : List Int} (h : ds.length ≤ f + 1) :
    1 < (trimLeadingZeros.loop f ds).length →
      (trimLeadingZeros.loop f ds).getD ((trimLeadingZeros.loop f ds).length - 1) 0 ≠ 0 := by
  induction f generalizing ds with
  | zero =>
    intro h1
    simp only [trimLeadingZeros.loop] at h1
    omega
  | succ f ih =>
    unfold trimLeadingZeros.loop
    split
    · apply ih
      rw [List.length_dropLast]
      omega
    · rename_i hc
      intro h1 h2
      exact hc ⟨h1, h2⟩

theorem trimLoop_id (f : Nat) {ds : List Int}
    (h : 1 < ds.length → ds.getD (ds.length - 1) 0 ≠ 0) : trimLeadingZeros.loop f ds = ds := by
  cases f with
  | zero => rfl
  | succ f =>
    unfold trimLeadingZeros.loop
    rw [if_neg]
    intro hc
    exact h hc.1 hc.2

theorem normalize_digits (x : BigInt) :
    (normalize x).digits = trimLeadingZeros.loop x.length x.digits := by
  unfold normalize trimLeadingZeros
  simp only
  split <;> rfl

theorem normalize_base (x : BigInt) : (normalize x).base = x.base := by
  unfold normalize trimLeadingZeros
  simp only
  split <;> rfl

theorem normalize_base_digits (x : BigInt) : (normalize x).base_digits = x.base_digits := by
  unfold normalize trimLeadingZeros
  simp only
  split <;> rfl

theorem normalize_sign (x : BigInt) :
    (normalize x).sign = if (normalize x).digits = [0] then 1 else x.sign := by
  rw [normalize_digits]
  unfold normalize trimLeadingZeros
  simp only
  generalize trimLeadingZeros.loop x.length x.digits = t
  have key : (t.length = 1 ∧ t.getD 0 0 = 0) ↔ t = [0] := by
    constructor
    · rintro ⟨h1, h2⟩
      match t, h1, h2 with
      | [d], _, h2 => simpa using h2
    · rintro rfl
      simp
  by_cases ht : t = [0]
  · rw [if_pos (key.mpr ht), if_pos ht]
  · rw [if_neg (fun h => ht (key.mp h)), if_neg ht]

theorem blocksValue_zero : blocksValue [0] = 0 := by simp [blocksValue]

theorem normalize_value (x : BigInt) : (normalize x).value = x.value := by
  unfold BigInt.value
  rw [normalize_sign]
  split
  · rename_i h
    have h1 : blocksValue (normalize x).digits = blocksValue x.digits := by
      rw [normalize_digits, trimLoop_value]
    rw [h] at h1
    rw [h, ← h1]
    simp [blocksValue]
  · rw [normalize_digits, trimLoop_value]

theorem normalize_canonical {x : BigInt} (hb : x.base = 1000) (hbd : x.base_digits = 3)
    (hr : InRange x.digits) (hl : 1 ≤ x.length) (hs : x.sign = 1 ∨ x.sign = -1) :
    Canonical (normalize x) := by
  refine ⟨by rw [normalize_base, hb], by rw [normalize_base_digits, hbd], ?_, ?_, ?_, ?_, ?_⟩
  · show 1 ≤ (normalize x).digits.length
    rw [normalize_digits]
    exact trimLoop_length_pos _ hl
  · rw [normalize_digits]
    exact trimLoop_inRange _ hr
  · show 1 < (normalize x).digits.length →
      (normalize x).digits.getD ((normalize x).digits.length - 1) 0 ≠ 0
    rw [normalize_digits]
    exact trimLoop_top _ (by show x.digits.length ≤ x.digits.length + 1; omega)
  · rw [normalize_sign]
    split
    · left; rfl
    · exact hs
  · intro h
    rw [normalize_sign, if_pos h]

theorem Canonical.inRange {x : BigInt} (h : Canonical x) : InRange x.digits := h.2.2.2.1

theorem normalize_of_canonical {x : BigInt} (h : Canonical x) : normalize x = x := by
  obtain ⟨_, _, hl, hr, ht, hs, hz⟩ := h
  have hd : (normalize x).digits = x.digits := by
    rw [normalize_digits]
    exact trimLoop_id _ ht
  have hsg : (normalize x).sign = x.sign := by
    rw [normalize_sign, hd]
    split
    · rename_i h0
      exact (hz h0).symm
    · rfl
  have hb := normalize_base x
  have hbd := normalize_base_digits x
  have hc : (normalize x).capacity = x.capacity := by
    unfold normalize trimLeadingZeros
    simp only
    split <;> rfl
  cases hx : normalize x
  cases x
  simp_all

/-! ## Magnitude addition and subtraction -/

theorem addLoop_spec (a b : BigInt) (ha : InRange a.digits) (hb : InRange b.digits) (k : Nat) :
    ∀ (i : Nat) (carry : Int) (out : List Int), out.length = i → (carry = 0 ∨ carry = 1) →
      InRange out →
      (addBigIntAbs.loop a b 1000 k i carry out).1.length = i + k ∧
      InRange (addBigIntAbs.loop a b 1000 k i carry out).1 ∧
      ((addBigIntAbs.loop a b 1000 k i carry out).2 = 0 ∨
        (addBigIntAbs.loop a b 1000 k i carry out).2 = 1) ∧
      blocksValue (addBigIntAbs.loop a b 1000 k i carry out).1 +
          (addBigIntAbs.loop a b 1000 k i carry out).2 * 1000 ^ (i + k) +
          prefixValue a.digits i + prefixValue b.digits i =
        blocksValue out + carry * 1000 ^ i +
          prefixValue a.digits (i + k) + prefixValue b.digits (i + k) := by
  induction k with
  | zero =>
    intro i carry out hl hc ho
    exact ⟨hl, ho, hc, rfl⟩
  | succ k ih =>
    intro i carry out hl hc ho
    unfold addBigIntAbs.loop
    simp only
    have hda : (if i < a.length then a.digits.getD i 0 else 0) = a.digits.getD i 0 := by
      split
      · rfl
      · rename_i h
        rw [List.getD_eq_default]
        simp only [BigInt.length] at h
        omega
    have hdb : (if i < b.length then b.digits.getD i 0 else 0) = b.digits.getD i 0 := by
      split
      · rfl
      · rename_i h
        rw [List.getD_eq_default]
        simp only [BigInt.length] at h
        omega
    rw [hda, hdb]
    have ra := ha.getD i
    have rb := hb.getD i
    have pa := prefixValue_succ a.digits i
    have pb := prefixValue_succ b.digits i
    generalize a.digits.getD i 0 = da at ra pa ⊢
    generalize b.digits.getD i 0 = db at rb pb ⊢
    have hs0 : 0 ≤ da + db + carry := by omega
    rw [Int.tdiv_eq_ediv hs0 (by norm_num), Int.tmod_eq_emod hs0 (by norm_num)]
    have hcar : (da + db + carry) / 1000 = 0 ∨ (da + db + carry) / 1000 = 1 := by omega
    have hdig : InRange [(da + db + carry) % 1000] := InRange.single (by omega) (by omega)
    obtain ⟨h1, h2, h3, h4⟩ := ih (i + 1) ((da + db + carry) / 1000)
      (out ++ [(da + db + carry) % 1000]) (by simp [hl]) hcar (ho.append hdig)
    refine ⟨by omega, h2, h3, ?_⟩
    have e1 : i + 1 + k = i + (k + 1) := by omega
    rw [e1] at h4
    rw [blocksValue_append, blocksValue_single, hl] at h4
    have hm : (da + db + carry) % 1000 + 1000 * ((da + db + carry) / 1000) = da + db + carry :=
      Int.emod_add_ediv _ _
    rw [pa, pb] at h4
    have hp : (1000 : Int) ^ (i + 1) = 1000 ^ i * 1000 := pow_succ _ _
    rw [hp] at h4
    linear_combination h4 + (1000 : Int) ^ i * hm

theorem subLoop_spec (l s : BigInt) (hl : InRange l.digits) (hs : InRange s.digits) (k : Nat) :
    ∀ (i : Nat) (borrow : Int) (out : List Int), out.length = i → (borrow = 0 ∨ borrow = 1) →
      InRange out →
      (subtractBigIntAbs.loop l s 1000 k i borrow out).1.length = i + k ∧
      InRange (subtractBigIntAbs.loop l s 1000 k i borrow out).1 ∧
      ((subtractBigIntAbs.loop l s 1000 k i borrow out).2 = 0 ∨
        (subtractBigIntAbs.loop l s 1000 k i borrow out).2 = 1) ∧
      blocksValue (subtractBigIntAbs.loop l s 1000 k i borrow out).1 +
          prefixValue l.digits i + prefixValue s.digits (i + k) + borrow * 1000 ^ i =
        blocksValue out + (subtractBigIntAbs.loop l s 1000 k i borrow out).2 * 1000 ^ (i + k) +
          prefixValue l.digits (i + k) + prefixValue s.digits i := by
  induction k with
  | zero =>
    intro i borrow out ho hb hr
    refine ⟨ho, hr, hb, ?_⟩
    simp only [subtractBigIntAbs.loop, Nat.add_zero]
    ring
  | succ k ih =>
    intro i borrow out ho hb hr
    unfold subtractBigIntAbs.loop
    simp only
    have hds : (if i < s.length then s.digits.getD i 0 else 0) = s.digits.getD i 0 := by
      split
      · rfl
      · rename_i h
        rw [List.getD_eq_default]
        simp only [BigInt.length] at h
        omega
    rw [hds]
    have rl := hl.getD i
    have rs := hs.getD i
    have pl := prefixValue_succ l.digits i
    have ps := prefixValue_succ s.digits i
    generalize l.digits.getD i 0 = dl at rl pl ⊢
    generalize s.digits.getD i 0 = ds at rs ps ⊢
    have e1 : i + 1 + k = i + (k + 1) := by omega
    have hp : (1000 : Int) ^ (i + 1) = 1000 ^ i * 1000 := pow_succ _ _
    split
    · rename_i hneg
      obtain ⟨h1, h2, h3, h4⟩ := ih (i + 1) 1 (out ++ [dl - ds - borrow + 1000]) (by simp [ho])
        (Or.inr rfl) (hr.append (InRange.single (by omega) (by omega)))
      refine ⟨by omega, h2, h3, ?_⟩
      rw [e1] at h4
      rw [blocksValue_append, blocksValue_single, ho, pl, ps, hp] at h4
      linear_combination h4
    · rename_i hpos
      obtain ⟨h1, h2, h3, h4⟩ := ih (i + 1) 0 (out ++ [dl - ds - borrow]) (by simp [ho])
        (Or.inl rfl) (hr.append (InRange.single (by omega) (by omega)))
      refine ⟨by omega, h2, h3, ?_⟩
      rw [e1] at h4
      rw [blocksValue_append, blocksValue_single, ho, pl, ps, hp] at h4
      linear_combination h4

/-! ## Magnitude comparison -/

theorem compareLoop_spec (a b : List Int) (ha : InRange a) (hb : InRange b) (n : Nat) :
    compareAbsolute.loop a b n = Int.sign (prefixValue a n - prefixValue b n) := by
  induction n with
  | zero => simp [compareAbsolute.loop, prefixValue_zero]
  | succ n ih =>
    unfold compareAbsolute.loop
    rw [prefixValue_succ, prefixValue_succ]
    have ra := ha.getD n
    have rb := hb.getD n
    have a0 := prefixValue_nonneg ha n
    have b0 := prefixValue_nonneg hb n
    have a1 := prefixValue_lt ha n
    have b1 := prefixValue_lt hb n
    generalize a.getD n 0 = da at ra ⊢
    generalize b.getD n 0 = db at rb ⊢
    generalize prefixValue a n = pa at ih a0 a1 ⊢
    generalize prefixValue b n = pb at ih b0 b1 ⊢
    have hP : (0 : Int) < 1000 ^ n := by positivity
    generalize (1000 : Int) ^ n = P at a1 b1 hP ⊢
    split
    · rename_i h
      symm
      apply Int.sign_eq_one_of_pos
      have : P ≤ (da - db) * P := by nlinarith
      nlinarith
    · split
      · rename_i h
        symm
        apply Int.sign_eq_neg_one_of_neg
        have : P ≤ (db - da) * P := by nlinarith
        nlinarith
      · rename_i h1 h2
        have : da = db := by omega
        rw [ih, this]
        congr 1
        ring

theorem blocksValue_ge_pow {ds : List Int} (hr : InRange ds) (hn : NoLeadingZero ds)
    (hl : 1 < ds.length) : 1000 ^ (ds.length - 1) ≤ blocksValue ds := by
  have h1 := prefixValue_succ ds (ds.length - 1)
  have e : ds.length - 1 + 1 = ds.length := by omega
  rw [e, prefixValue_of_le ds (le_refl _)] at h1
  have h2 := prefixValue_nonneg hr (ds.length - 1)
  have h3 := hr.getD (ds.length - 1)
  have h4 := hn hl
  have hP : (0 : Int) < 1000 ^ (ds.length - 1) := by positivity
  rw [h1]
  generalize ds.getD (ds.length - 1) 0 = t at h3 h4
  have : 1 ≤ t := by omega
  nlinarith

theorem compareAbsolute_spec (a b : BigInt) (ha : InRange a.digits) (hb : InRange b.digits)
    (na : NoLeadingZero a.digits) (nb : NoLeadingZero b.digits) (lb : 1 ≤ b.length)
    (la : 1 ≤ a.length) :
    compareAbsolute a b = Int.sign (blocksValue a.digits - blocksValue b.digits) := by
  unfold compareAbsolute
  simp only [BigInt.length] at *
  split
  · rename_i h
    symm
    apply Int.sign_eq_one_of_pos
    have h1 := blocksValue_ge_pow ha na (by omega)
    have h2 := blocksValue_lt hb
    have h3 : (1000 : Int) ^ b.digits.length ≤ 1000 ^ (a.digits.length - 1) :=
      pow_le_pow_right₀ (by norm_num) (by omega)
    omega
  · split
    · rename_i h
      symm
      apply Int.sign_eq_neg_one_of_neg
      have h1 := blocksValue_ge_pow hb nb (by omega)
      have h2 := blocksValue_lt ha
      have h3 : (1000 : Int) ^ a.digits.length ≤ 1000 ^ (b.digits.length - 1) :=
        pow_le_pow_right₀ (by norm_num) (by omega)
      omega
    · rename_i h1 h2
      have e : a.digits.length = b.digits.length := by omega
      rw [compareLoop_spec a.digits b.digits ha hb, prefixValue_of_le _ (le_refl _),
        prefixValue_of_le _ (by omega)]

theorem Canonical.noLeadingZero {x : BigInt} (h : Canonical x) : NoLeadingZero x.digits :=
  h.2.2.2.2.1

theorem Canonical.length_pos {x : BigInt} (h : Canonical x) : 1 ≤ x.digits.length := h.2.2.1

theorem Canonical.sign_cases {x : BigInt} (h : Canonical x) : x.sign = 1 ∨ x.sign = -1 :=
  h.2.2.2.2.2.1

theorem compareAbsolute_canonical {a b : BigInt} (ha : Canonical a) (hb : Canonical b) :
    compareAbsolute a b = Int.sign (blocksValue a.digits - blocksValue b.digits) :=
  compareAbsolute_spec a b ha.inRange hb.inRange ha.noLeadingZero hb.noLeadingZero
    hb.length_pos ha.length_pos

theorem compareAbsolute_ge_length {l s : BigInt} (h : compareAbsolute l s ≥ 0) :
    s.digits.length ≤ l.digits.length := by
  unfold compareAbsolute at h
  simp only [BigInt.length] at h
  by_contra hc
  rw [if_neg (by omega), if_pos (by omega)] at h
  omega

/-- What `addBigIntAbs` returns on operands in radix 1000 with blocks in range. -/
theorem addBigIntAbs_spec (a b : BigInt) (hbase : a.base = 1000)
    (ha : InRange a.digits) (hb : InRange b.digits) (la : 1 ≤ a.digits.length) :
    blocksValue (addBigIntAbs a b).digits = blocksValue a.digits + blocksValue b.digits ∧
    InRange (addBigIntAbs a b).digits ∧ 1 ≤ (addBigIntAbs a b).digits.length ∧
    (addBigIntAbs a b).base = 1000 ∧ (addBigIntAbs a b).base_digits = a.base_digits := by
  unfold addBigIntAbs
  simp only [hbase]
  generalize hm : (if a.length > b.length then a.length else b.length) = max_len
  have hma : a.digits.length ≤ max_len := by
    rw [← hm]; simp only [BigInt.length]; split <;> omega
  have hmb : b.digits.length ≤ max_len := by
    rw [← hm]; simp only [BigInt.length]; split <;> omega
  obtain ⟨h1, h2, h3, h4⟩ := addLoop_spec a b ha hb max_len 0 0 [] rfl (Or.inl rfl) InRange.nil
  simp only [Nat.zero_add, prefixValue_zero, prefixValue_of_le _ hma, prefixValue_of_le _ hmb,
    blocksValue] at h4
  generalize addBigIntAbs.loop a b 1000 max_len 0 0 [] = r at h1 h2 h3 h4
  rw [normalize_digits, trimLoop_value, normalize_base, normalize_base_digits]
  split
  · rename_i hc
    have hc1 : r.2 = 1 := by omega
    refine ⟨?_, trimLoop_inRange _ ?_, trimLoop_length_pos _ ?_, rfl, rfl⟩
    · simp only [blocksValue_append, blocksValue_single, h1]
      linear_combination h4
    · simp only
      exact h2.append (InRange.single (by omega) (by omega))
    · simp
  · rename_i hc
    have hc1 : r.2 = 0 := by omega
    refine ⟨?_, trimLoop_inRange _ h2, trimLoop_length_pos _ ?_, rfl, rfl⟩
    · simp only
      rw [hc1] at h4
      linear_combination h4
    · simp only
      omega

/-- What `subtractBigIntAbs` returns when the first magnitude is the larger one. -/
theorem subtractBigIntAbs_spec (l s : BigInt) (hbase : l.base = 1000)
    (hl : InRange l.digits) (hs : InRange s.digits) (ll : 1 ≤ l.digits.length)
    (hcmp : compareAbsolute l s ≥ 0) (hle : blocksValue s.digits ≤ blocksValue l.digits) :
    ∃ r, subtractBigIntAbs l s = .ok r ∧
      blocksValue r.digits = blocksValue l.digits - blocksValue s.digits ∧
      InRange r.digits ∧ 1 ≤ r.digits.length ∧ r.base = 1000 ∧
      r.base_digits = l.base_digits ∧ r.sign = 1 ∧ NoLeadingZero r.digits := by
  unfold subtractBigIntAbs
  rw [if_pos hcmp]
  refine ⟨_, rfl, ?_⟩
  simp only [hbase]
  have hlen := compareAbsolute_ge_length hcmp
  obtain ⟨h1, h2, h3, h4⟩ :=
    subLoop_spec l s hl hs l.length 0 0 [] rfl (Or.inl rfl) InRange.nil
  simp only [Nat.zero_add, prefixValue_zero, prefixValue_of_le _ (le_refl l.digits.length),
    prefixValue_of_le _ hlen, blocksValue, BigInt.length] at h4
  have h5 := blocksValue_lt h2
  rw [h1] at h5
  simp only [Nat.zero_add, BigInt.length] at h5 h1
  simp only [BigInt.length]
  generalize subtractBigIntAbs.loop l s 1000 l.digits.length 0 0 [] = r at h1 h2 h3 h4 h5
  have hP : (0 : Int) < 1000 ^ l.digits.length := by positivity
  have hb0 : r.2 = 0 := by
    rcases h3 with h | h
    · exact h
    · rw [h] at h4
      omega
  rw [hb0] at h4
  rw [normalize_digits, normalize_base, normalize_base_digits, normalize_sign, trimLoop_value]
  refine ⟨by simp only; omega, trimLoop_inRange _ h2, trimLoop_length_pos _ ?_, rfl, rfl, ?_, ?_⟩
  · simp only
    omega
  · split <;> rfl
  · exact trimLoop_top _ (by simp)

theorem value_normalize_sign (x : BigInt) (s : Int) :
    (normalize { x with sign := s }).value = s * blocksValue x.digits := by
  rw [normalize_value]
  rfl

/-- What `addBigInt` returns on canonical operands. -/
theorem addBigInt_spec (a b : BigInt) (ha : Canonical a) (hb : Canonical b) :
    ∃ r, addBigInt a b = .ok r ∧ r.value = a.value + b.value ∧ Canonical r := by
  have sa := ha.sign_cases
  have sb := hb.sign_cases
  unfold addBigInt
  split
  · rename_i hs
    obtain ⟨h1, h2, h3, h4, h5⟩ := addBigIntAbs_spec a b ha.1 ha.inRange hb.inRange ha.length_pos
    refine ⟨_, rfl, ?_, ?_⟩
    · rw [value_normalize_sign, h1]
      unfold BigInt.value
      rw [← hs]
      ring
    · exact normalize_canonical h4 (by rw [h5]; exact ha.2.1) h2 h3 sa
  · rename_i hs
    have hcmp := compareAbsolute_canonical ha hb
    have hcmp2 := compareAbsolute_canonical hb ha
    simp only
    split
    · rename_i hc
      have hle : blocksValue b.digits ≤ blocksValue a.digits := by
        by_contra hlt
        rw [hcmp, Int.sign_eq_neg_one_of_neg (by omega)] at hc
        omega
      obtain ⟨r, hr, h1, h2, h3, h4, h5, _⟩ :=
        subtractBigIntAbs_spec a b ha.1 ha.inRange hb.inRange ha.length_pos hc hle
      rw [hr]
      refine ⟨_, rfl, ?_, ?_⟩
      · rw [value_normalize_sign, h1]
        unfold BigInt.value
        have : b.sign = -a.sign := by omega
        rw [this]
        ring
      · exact normalize_canonical h4 (by rw [h5]; exact ha.2.1) h2 h3 sa
    · rename_i hc
      have hlt : blocksValue a.digits < blocksValue b.digits := by
        by_contra hge
        rw [hcmp] at hc
        have := Int.sign_nonneg.mpr (show 0 ≤ blocksValue a.digits - blocksValue b.digits by omega)
        omega
      have hc2 : compareAbsolute b a ≥ 0 := by
        rw [hcmp2]
        exact Int.sign_nonneg.mpr (by omega)
      obtain ⟨r, hr, h1, h2, h3, h4, h5, _⟩ :=
        subtractBigIntAbs_spec b a hb.1 hb.inRange ha.inRange hb.length_pos hc2 (by omega)
      rw [hr]
      refine ⟨_, rfl, ?_, ?_⟩
      · rw [value_normalize_sign, h1]
        unfold BigInt.value
        have : a.sign = -b.sign := by omega
        rw [this]
        ring
      · exact normalize_canonical h4 (by rw [h5]; exact hb.2.1) h2 h3 sb

/-! ## Multiplication by a small integer -/

theorem toULL_of_range {x : Int} (h0 : 0 ≤ x) (h1 : x < 18446744073709551616) : toULL x = x := by
  unfold toULL
  exact Int.emod_eq_of_lt h0 h1

theorem mulLoop_spec (a : BigInt) (m : Int) (ha : InRange a.digits) (hm0 : 0 ≤ m)
    (hm1 : m < 1000) (k : Nat) :
    ∀ (i : Nat) (carry : Int) (out : List Int), out.length = i → 0 ≤ carry → carry ≤ 998 →
      InRange out →
      (multiplyByInt.loop a m 1000 k i carry out).1.length = i + k ∧
      InRange (multiplyByInt.loop a m 1000 k i carry out).1 ∧
      0 ≤ (multiplyByInt.loop a m 1000 k i carry out).2 ∧
      (multiplyByInt.loop a m 1000 k i carry out).2 ≤ 998 ∧
      blocksValue (multiplyByInt.loop a m 1000 k i carry out).1 +
          (multiplyByInt.loop a m 1000 k i carry out).2 * 1000 ^ (i + k) +
          prefixValue a.digits i * m =
        blocksValue out + carry * 1000 ^ i + prefixValue a.digits (i + k) * m := by
  induction k with
  | zero =>
    intro i carry out hl hc0 hc1 ho
    exact ⟨hl, ho, hc0, hc1, rfl⟩
  | succ k ih =>
    intro i carry out hl hc0 hc1 ho
    unfold multiplyByInt.loop
    simp only
    have ra := ha.getD i
    have pa := prefixValue_succ a.digits i
    generalize a.digits.getD i 0 = d at ra pa ⊢
    have hdm0 : 0 ≤ d * m := mul_nonneg ra.1 hm0
    have hdm1 : d * m ≤ 999 * 999 := by nlinarith
    rw [toULL_of_range ra.1 (by omega), toULL_of_range hm0 (by omega),
      toULL_of_range hdm0 (by omega), toULL_of_range (by omega) (by omega),
      toULL_of_range (show (0 : Int) ≤ 1000 by norm_num) (by norm_num)]
    generalize hdm : d * m = dm at hdm0 hdm1 ⊢
    obtain ⟨h1, h2, h3, h4, h5⟩ := ih (i + 1) ((dm + carry) / 1000)
      (out ++ [(dm + carry) % 1000]) (by simp [hl]) (by omega) (by omega)
      (ho.append (InRange.single (by omega) (by omega)))
    refine ⟨by omega, h2, h3, h4, ?_⟩
    have e1 : i + 1 + k = i + (k + 1) := by omega
    rw [e1] at h5
    rw [blocksValue_append, blocksValue_single, hl, pa] at h5
    have hmod : (dm + carry) % 1000 + 1000 * ((dm + carry) / 1000) = dm + carry :=
      Int.emod_add_ediv _ _
    have hp : (1000 : Int) ^ (i + 1) = 1000 ^ i * 1000 := pow_succ _ _
    rw [hp] at h5
    linear_combination h5 + (1000 : Int) ^ i * hmod - (1000 : Int) ^ i * hdm

theorem blocksValue_eq_zero_of_isZero {a : BigInt} (h : isBigIntZero a = true) :
    blocksValue a.digits = 0 := by
  unfold isBigIntZero at h
  simp only [decide_eq_true_eq, BigInt.length] at h
  obtain ⟨h1, h2⟩ := h
  match hd : a.digits, h1, h2 with
  | [d], _, h2 =>
    simp at h2
    simp [blocksValue, h2]

theorem noLeadingZero_single (d : Int) : NoLeadingZero [d] := by
  intro h
  simp at h

theorem inRange_zero : InRange [0] := InRange.single (le_refl _) (by norm_num)

/-- What `multiplyByInt` returns for a multiplier in `[0, 1000)`. -/
theorem multiplyByInt_spec (a : BigInt) (m : Int) (hbase : a.base = 1000)
    (ha : InRange a.digits) (hn : NoLeadingZero a.digits) (hl : 1 ≤ a.digits.length)
    (hm0 : 0 ≤ m) (hm1 : m < 1000) :
    ∃ p, multiplyByInt a m = .ok p ∧ blocksValue p.digits = blocksValue a.digits * m ∧
      InRange p.digits ∧ NoLeadingZero p.digits ∧ 1 ≤ p.digits.length := by
  unfold multiplyByInt
  rw [if_pos ⟨hm0, by rw [hbase]; exact hm1⟩]
  split
  · rename_i hz
    refine ⟨_, rfl, ?_, inRange_zero, noLeadingZero_single 0, by simp [createBigInt]⟩
    rcases hz with hz | hz
    · rw [blocksValue_eq_zero_of_isZero hz]
      simp [createBigInt, blocksValue]
    · rw [hz]
      simp [createBigInt, blocksValue]
  · split
    · rename_i h1
      refine ⟨_, rfl, ?_, ha, hn, hl⟩
      rw [h1]
      simp [copyBigInt]
    · refine ⟨_, rfl, ?_⟩
      obtain ⟨h1, h2, h3, h4, h5⟩ :=
        mulLoop_spec a m ha hm0 hm1 a.length 0 0 [] rfl (le_refl _) (by norm_num) InRange.nil
      simp only [Nat.zero_add, prefixValue_zero, prefixValue_of_le _ (le_refl a.digits.length),
        blocksValue, BigInt.length] at h5 h1
      have hb : (createBigInt (a.length + 1)).base = 1000 := rfl
      simp only [hb]
      simp only [BigInt.length]
      generalize multiplyByInt.loop a m 1000 a.digits.length 0 0 [] = r at h1 h2 h3 h4 h5
      rw [normalize_digits, trimLoop_value]
      refine ⟨?_, trimLoop_inRange _ ?_, trimLoop_top _ (by simp), trimLoop_length_pos _ ?_⟩
      · split
        · simp only [blocksValue_append, blocksValue_single, h1]
          linear_combination h5
        · rename_i hc
          have : r.2 = 0 := by omega
          rw [this] at h5
          simp only
          linear_combination h5
      · split
        · exact h2.append (InRange.single h3 (by omega))
        · exact h2
      · split
        · simp
        · simp only [BigInt.length]
          omega

/-! ## Long division -/

theorem canonical_of_parts {x : BigInt} (hb : x.base = 1000) (hbd : x.base_digits = 3)
    (hl : 1 ≤ x.digits.length) (hr : InRange x.digits) (hn : NoLeadingZero x.digits)
    (hs : x.sign = 1) : Canonical x :=
  ⟨hb, hbd, hl, hr, hn, Or.inl hs, fun _ => hs⟩

theorem canonical_createBigInt (n : Nat) : Canonical (createBigInt n) := by
  refine canonical_of_parts rfl rfl (by simp [createBigInt]) inRange_zero (noLeadingZero_single 0) rfl

theorem canonical_copyBigInt {x : BigInt} (h : Canonical x) : Canonical (copyBigInt x) := h

theorem ensureCapacity_digits (x : BigInt) (n : Nat) : (ensureCapacity x n).digits = x.digits := by
  unfold ensureCapacity
  split <;> rfl

theorem ensureCapacity_sign (x : BigInt) (n : Nat) : (ensureCapacity x n).sign = x.sign := by
  unfold ensureCapacity
  split <;> rfl

theorem ensureCapacity_base (x : BigInt) (n : Nat) : (ensureCapacity x n).base = x.base := by
  unfold ensureCapacity
  split <;> rfl

theorem ensureCapacity_base_digits (x : BigInt) (n : Nat) :
    (ensureCapacity x n).base_digits = x.base_digits := by
  unfold ensureCapacity
  split <;> rfl

theorem trimLoop_cons (f : Nat) (x : Int) (xs : List Int) :
    ∃ ys, trimLeadingZeros.loop f (x :: xs) = x :: ys := by
  induction f generalizing xs with
  | zero => exact ⟨xs, rfl⟩
  | succ f ih =>
    unfold trimLeadingZeros.loop
    split
    · rename_i hc
      match xs, hc with
      | y :: ys, _ =>
        rw [List.dropLast_cons₂]
        exact ih _
    · exact ⟨xs, rfl⟩

/-- Step 1 of the division loop: the partial dividend becomes
`1000 * current + v`. -/
theorem bringDown_spec (a : BigInt) (i : Nat) (cur : BigInt) (ha : InRange a.digits)
    (hc : Canonical cur) (hs : cur.sign = 1) :
    Canonical (divideBigIntAbs.bringDown a i cur) ∧
    (divideBigIntAbs.bringDown a i cur).sign = 1 ∧
    blocksValue (divideBigIntAbs.bringDown a i cur).digits =
      1000 * blocksValue cur.digits + a.digits.getD i 0 := by
  have hv := ha.getD i
  generalize hvd : a.digits.getD i 0 = v at hv
  unfold divideBigIntAbs.bringDown
  rw [hvd]
  have hlen : cur.length > 0 := hc.length_pos
  rw [if_pos (Or.inl hlen)]
  simp only
  unfold multiplyByBase
  simp only
  obtain ⟨ys, hys⟩ := trimLoop_cons (cur.digits.length + 1) 0 cur.digits
  have hval := trimLoop_value (cur.digits.length + 1) (0 :: cur.digits)
  have hrg := trimLoop_inRange (cur.digits.length + 1)
    (show InRange (0 :: cur.digits) from inRange_zero.append hc.inRange)
  rw [hys] at hval hrg
  have hd1 : (normalize { ensureCapacity cur (cur.length + 1) with
      digits := 0 :: (ensureCapacity cur (cur.length + 1)).digits }).digits = 0 :: ys := by
    rw [normalize_digits]
    simp only [ensureCapacity_digits, BigInt.length, List.length_cons]
    exact hys
  have hys_r : InRange (v :: ys) :=
    (InRange.single hv.1 hv.2).append (hrg.sub (fun _ hd => List.mem_cons_of_mem _ hd))
  have hfin : ∀ y : BigInt, y.base = 1000 → y.base_digits = 3 → (y.sign = 1) →
      y.digits = v :: ys →
      Canonical (normalize y) ∧ (normalize y).sign = 1 ∧
        blocksValue (normalize y).digits = 1000 * blocksValue cur.digits + v := by
    intro y hb hbd hsg hdg
    have hcan : Canonical (normalize y) :=
      normalize_canonical hb hbd (by rw [hdg]; exact hys_r) (by simp [BigInt.length, hdg])
        (Or.inl hsg)
    refine ⟨hcan, ?_, ?_⟩
    · rw [normalize_sign]
      split
      · rfl
      · exact hsg
    · rw [normalize_digits, trimLoop_value, hdg]
      simp only [blocksValue] at hval ⊢
      omega
  apply hfin
  · simp [normalize_base, ensureCapacity_base, hc.1]
  · simp [normalize_base_digits, ensureCapacity_base_digits, hc.2.1]
  · simp only
    rw [normalize_sign]
    split
    · rfl
    · simp [ensureCapacity_sign, hs]
  · simp only
    rw [hd1]
    rfl

theorem sign_nonpos_iff (x : Int) : Int.sign x ≤ 0 ↔ x ≤ 0 := by
  rcases lt_trichotomy x 0 with h | h | h
  · rw [Int.sign_eq_neg_one_of_neg h]; omega
  · rw [h]; simp
  · rw [Int.sign_eq_one_of_pos h]; omega

theorem sign_nonneg_iff (x : Int) : 0 ≤ Int.sign x ↔ 0 ≤ x := Int.sign_nonneg

theorem sign_neg_iff (x : Int) : Int.sign x < 0 ↔ x < 0 := by
  rcases lt_trichotomy x 0 with h | h | h
  · rw [Int.sign_eq_neg_one_of_neg h]; omega
  · rw [h]; simp
  · rw [Int.sign_eq_one_of_pos h]; omega

theorem multiplyByInt_canonical (a : BigInt) (m : Int) (ha : Canonical a)
    (hm0 : 0 ≤ m) (hm1 : m < 1000) :
    ∃ p, multiplyByInt a m = .ok p ∧ blocksValue p.digits = blocksValue a.digits * m ∧
      InRange p.digits ∧ NoLeadingZero p.digits ∧ 1 ≤ p.digits.length :=
  multiplyByInt_spec a m ha.1 ha.inRange ha.noLeadingZero ha.length_pos hm0 hm1

/-- The binary search returns the largest multiplier whose product with the
divisor does not exceed the partial dividend. -/
theorem search_spec (b cur : BigInt) (hb : Canonical b) (hc : Canonical cur)
    (fuel : Nat) :
    ∀ (low high qb : Int), 0 ≤ low → high ≤ 999 → low ≤ high + 1 → high - low + 1 ≤ fuel →
      (low = 0 ∨ (qb = low - 1 ∧ blocksValue b.digits * qb ≤ blocksValue cur.digits)) →
      (high = 999 ∨ blocksValue cur.digits < blocksValue b.digits * (high + 1)) →
      ∃ d, divideBigIntAbs.search b cur fuel low high qb = .ok d ∧ 0 ≤ d ∧ d ≤ 999 ∧
        blocksValue b.digits * d ≤ blocksValue cur.digits ∧
        (d = 999 ∨ blocksValue cur.digits < blocksValue b.digits * (d + 1)) := by
  have hP := blocksValue_nonneg hc.inRange
  have hfinal : ∀ (low high qb : Int), 0 ≤ low → high ≤ 999 → low ≤ high + 1 → ¬ low ≤ high →
      (low = 0 ∨ (qb = low - 1 ∧ blocksValue b.digits * qb ≤ blocksValue cur.digits)) →
      (high = 999 ∨ blocksValue cur.digits < blocksValue b.digits * (high + 1)) →
      0 ≤ qb ∧ qb ≤ 999 ∧ blocksValue b.digits * qb ≤ blocksValue cur.digits ∧
        (qb = 999 ∨ blocksValue cur.digits < blocksValue b.digits * (qb + 1)) := by
    intro low high qb h0 h9 hlh hn hlo hhi
    have e : low = high + 1 := by omega
    have hl0 : low ≠ 0 := by
      intro hl0
      have : high + 1 = 0 := by omega
      rcases hhi with hhi | hhi
      · omega
      · rw [this] at hhi
        simp at hhi
        omega
    rcases hlo with hlo | ⟨hq, hle⟩
    · exact absurd hlo hl0
    · have hq' : qb = high := by omega
      subst hq'
      exact ⟨by clear hhi hle; omega, h9, hle, hhi⟩
  induction fuel with
  | zero =>
    intro low high qb h0 h9 hlh hf hlo hhi
    exact ⟨qb, rfl, hfinal low high qb h0 h9 hlh (by simp at hf; omega) hlo hhi⟩
  | succ fuel ih =>
    intro low high qb h0 h9 hlh hf hlo hhi
    unfold divideBigIntAbs.search
    split
    · rename_i hle
      simp only
      have hmid : Int.tdiv (low + high) 2 = (low + high) / 2 :=
        Int.tdiv_eq_ediv (by omega) (by norm_num)
      rw [hmid]
      generalize hm : (low + high) / 2 = mid
      have hm0 : low ≤ mid := by omega
      have hm1 : mid ≤ high := by omega
      obtain ⟨p, hp, hpv, hpr, hpn, hpl⟩ :=
        multiplyByInt_canonical b mid hb (by omega) (by omega)
      rw [hp]
      simp only
      have hcmp := compareAbsolute_spec p cur hpr hc.inRange hpn hc.noLeadingZero
        hc.length_pos hpl
      by_cases hok : blocksValue b.digits * mid ≤ blocksValue cur.digits
      · have hle0 : compareAbsolute p cur ≤ 0 := by
          rw [hcmp, sign_nonpos_iff, hpv]
          omega
        rw [if_pos hle0]
        exact ih (mid + 1) high mid (by omega) h9 (by omega) (by push_cast at hf ⊢; omega)
          (Or.inr ⟨by omega, hok⟩) hhi
      · have hle0 : ¬ compareAbsolute p cur ≤ 0 := by
          rw [hcmp, sign_nonpos_iff, hpv]
          omega
        rw [if_neg hle0]
        exact ih low (mid - 1) qb h0 (by omega) (by omega) (by push_cast at hf ⊢; omega) hlo
          (Or.inr (by
            have : mid - 1 + 1 = mid := by omega
            rw [this]
            omega))
    · rename_i hn
      exact ⟨qb, rfl, hfinal low high qb h0 h9 hlh hn hlo hhi⟩

/-- Step 2 of the division loop: the quotient block `d` satisfies
`B * d <= P < B * (d + 1)`. -/
theorem quotientBlock_spec (b cur : BigInt) (hb : Canonical b)
    (hc : Canonical cur) (hlt : blocksValue cur.digits < 1000 * blocksValue b.digits) :
    ∃ d, divideBigIntAbs.quotientBlock b cur = .ok d ∧ 0 ≤ d ∧ d ≤ 999 ∧
      blocksValue b.digits * d ≤ blocksValue cur.digits ∧
      blocksValue cur.digits < blocksValue b.digits * (d + 1) := by
  unfold divideBigIntAbs.quotientBlock
  have hcmp := compareAbsolute_canonical hc hb
  split
  · simp only [hc.1]
    obtain ⟨d, hd, h0, h9, hle, hub⟩ := search_spec b cur hb hc (Int.toNat 1000) 0 (1000 - 1)
      (if Int.tdiv
              (if cur.length > b.length then
                if cur.length ≥ 2 then
                  cur.digits.getD (cur.length - 1) 0 * 1000 + cur.digits.getD (cur.length - 2) 0
                else cur.digits.getD (cur.length - 1) 0 * 1000
              else cur.digits.getD (cur.length - 1) 0)
              (b.digits.getD (b.length - 1) 0 + 1) > 1000 - 1 then 1000 - 1
        else Int.tdiv
              (if cur.length > b.length then
                if cur.length ≥ 2 then
                  cur.digits.getD (cur.length - 1) 0 * 1000 + cur.digits.getD (cur.length - 2) 0
                else cur.digits.getD (cur.length - 1) 0 * 1000
              else cur.digits.getD (cur.length - 1) 0)
              (b.digits.getD (b.length - 1) 0 + 1))
      (le_refl _) (by norm_num) (by norm_num) (by norm_num) (Or.inl rfl) (Or.inl (by norm_num))
    refine ⟨d, hd, h0, h9, hle, ?_⟩
    rcases hub with hub | hub
    · rw [hub]
      have : blocksValue b.digits * (999 + 1) = 1000 * blocksValue b.digits := by ring
      omega
    · exact hub
  · rename_i hn
    rw [hcmp] at hn
    have : blocksValue cur.digits - blocksValue b.digits < 0 := by
      by_contra h
      exact hn (Int.sign_nonneg.mpr (by omega))
    exact ⟨0, rfl, le_refl _, by norm_num, by simp [blocksValue_nonneg hc.inRange], by omega⟩

/-- One iteration of the division loop. -/
theorem step_spec (a b : BigInt) (i : Nat) (cur q : BigInt) (ha : InRange a.digits)
    (hb : Canonical b) (hc : Canonical cur) (hcs : cur.sign = 1)
    (hlt : blocksValue cur.digits < blocksValue b.digits) :
    ∃ cur' d, divideBigIntAbs.step a b i cur q =
        .ok (cur', { q with digits := q.digits ++ [d] }) ∧
      Canonical cur' ∧ cur'.sign = 1 ∧ blocksValue cur'.digits < blocksValue b.digits ∧
      0 ≤ d ∧ d ≤ 999 ∧
      blocksValue cur'.digits + blocksValue b.digits * d =
        1000 * blocksValue cur.digits + a.digits.getD i 0 := by
  obtain ⟨c1, c2, c3⟩ := bringDown_spec a i cur ha hc hcs
  have hv := ha.getD i
  unfold divideBigIntAbs.step
  simp only
  generalize divideBigIntAbs.bringDown a i cur = cur1 at c1 c2 c3
  obtain ⟨d, hd, d0, d9, dle, dub⟩ := quotientBlock_spec b cur1 hb c1 (by omega)
  rw [hd]
  simp only
  split
  · rename_i hpos
    obtain ⟨p, hp, hpv, hpr, hpn, hpl⟩ := multiplyByInt_canonical b d hb d0 (by omega)
    rw [hp]
    simp only
    have hcmp := compareAbsolute_spec cur1 p c1.inRange hpr c1.noLeadingZero hpn hpl
      c1.length_pos
    have hge : compareAbsolute cur1 p ≥ 0 := by
      rw [hcmp]
      exact Int.sign_nonneg.mpr (by omega)
    obtain ⟨r, hr, r1, r2, r3, r4, r5, r6, r7⟩ :=
      subtractBigIntAbs_spec cur1 p c1.1 c1.inRange hpr c1.length_pos hge (by omega)
    rw [hr]
    refine ⟨r, d, rfl, canonical_of_parts r4 (by rw [r5]; exact c1.2.1) r3 r2 r7 r6, r6, ?_, d0,
      d9, ?_⟩
    · rw [r1, hpv]
      have : blocksValue b.digits * (d + 1) = blocksValue b.digits * d + blocksValue b.digits := by
        ring
      omega
    · rw [r1, hpv]
      omega
  · rename_i hnpos
    have hd0 : d = 0 := by omega
    subst hd0
    refine ⟨cur1, 0, rfl, c1, c2, ?_, le_refl _, by norm_num, ?_⟩
    · simp at dub
      exact dub
    · rw [mul_zero, add_zero]
      exact c3

/-- The main division loop over the `n` low blocks of the dividend. -/
theorem divLoop_spec (a b : BigInt) (ha : InRange a.digits) (hb : Canonical b) (n : Nat) :
    ∀ (cur q : BigInt), Canonical cur → cur.sign = 1 →
      blocksValue cur.digits < blocksValue b.digits →
      ∃ cur' qs, divideBigIntAbs.loop a b n cur q =
          .ok (cur', { q with digits := q.digits ++ qs }) ∧
        Canonical cur' ∧ cur'.sign = 1 ∧ blocksValue cur'.digits < blocksValue b.digits ∧
        InRange qs ∧ qs.length = n ∧
        blocksValue cur'.digits + blocksValue b.digits * blocksValue qs.reverse =
          1000 ^ n * blocksValue cur.digits + prefixValue a.digits n := by
  induction n with
  | zero =>
    intro cur q hc hcs hlt
    refine ⟨cur, [], ?_, hc, hcs, hlt, InRange.nil, rfl, ?_⟩
    · simp [divideBigIntAbs.loop]
    · simp [blocksValue, prefixValue_zero]
  | succ n ih =>
    intro cur q hc hcs hlt
    obtain ⟨cur1, d, hstep, c1, c2, c3, d0, d9, hval⟩ := step_spec a b n cur q ha hb hc hcs hlt
    unfold divideBigIntAbs.loop
    rw [hstep]
    simp only
    obtain ⟨cur2, qs, hloop, e1, e2, e3, e4, e5, e6⟩ :=
      ih cur1 { q with digits := q.digits ++ [d] } c1 c2 c3
    rw [hloop]
    refine ⟨cur2, d :: qs, ?_, e1, e2, e3,
      (InRange.single d0 (by omega)).append e4, by simp [e5], ?_⟩
    · simp
    · rw [List.reverse_cons, blocksValue_append, blocksValue_single, List.length_reverse, e5,
        prefixValue_succ, pow_succ]
      linear_combination e6 + (1000 : Int) ^ n * hval

theorem magnitude_pos_of_not_zero {b : BigInt} (hb : Canonical b) (hz : isBigIntZero b = false) :
    0 < blocksValue b.digits := by
  have hr := hb.inRange
  have hn := hb.noLeadingZero
  have hl := hb.length_pos
  by_cases h1 : 1 < b.digits.length
  · have := blocksValue_ge_pow hr hn h1
    have hP : (0 : Int) < 1000 ^ (b.digits.length - 1) := by positivity
    omega
  · have h1' : b.digits.length = 1 := by omega
    unfold isBigIntZero at hz
    simp only [BigInt.length, decide_eq_false_iff_not, not_and] at hz
    have h2 := hz h1'
    have h3 := hr.getD 0
    match hd : b.digits, h1' with
    | [d], _ =>
      rw [hd] at h2 h3
      simp at h2 h3
      simp [blocksValue]
      omega

/-- Magnitude division: the quotient and remainder of canonical non-negative
operands, the divisor being non-zero. -/
theorem divideBigIntAbs_spec (a b : BigInt) (ha : Canonical a) (has : a.sign = 1)
    (hb : Canonical b) (hbs : b.sign = 1) (hz : isBigIntZero b = false) :
    ∃ q r, divideBigIntAbs a b = .ok (q, r) ∧ Canonical q ∧ q.sign = 1 ∧ Canonical r ∧
      r.sign = 1 ∧
      blocksValue a.digits = blocksValue q.digits * blocksValue b.digits + blocksValue r.digits ∧
      blocksValue r.digits < blocksValue b.digits := by
  have hB := magnitude_pos_of_not_zero hb hz
  unfold divideBigIntAbs
  rw [if_pos ⟨by omega, by omega, by simp [hz]⟩]
  have hcmp := compareAbsolute_canonical ha hb
  split
  · rename_i hlt
    rw [hcmp, sign_neg_iff] at hlt
    refine ⟨_, _, rfl, canonical_createBigInt 1, rfl, canonical_copyBigInt ha, has, ?_, ?_⟩
    · simp [createBigInt, copyBigInt, blocksValue]
    · simp only [copyBigInt]
      omega
  · obtain ⟨cur, qs, hloop, c1, c2, c3, q1, q2, hval⟩ :=
      divLoop_spec a b ha.inRange hb a.length (createBigInt (b.length + 1))
        { createBigInt a.length with digits := [] } (canonical_createBigInt _) rfl
        (by simpa [createBigInt, blocksValue] using hB)
    simp only
    rw [hloop]
    simp only [List.nil_append]
    refine ⟨_, _, rfl, ?_, ?_, ?_, ?_, ?_, ?_⟩
    · exact normalize_canonical rfl rfl (by
        simp only
        exact q1.sub (fun _ hd => List.mem_reverse.mp hd)) (by
        simp only [BigInt.length, List.length_reverse, q2]
        exact ha.length_pos) (Or.inl rfl)
    · rw [normalize_sign]
      split <;> rfl
    · rw [normalize_of_canonical (canonical_copyBigInt c1)]
      exact canonical_copyBigInt c1
    · rw [normalize_of_canonical (canonical_copyBigInt c1)]
      exact c2
    · rw [normalize_digits, trimLoop_value, normalize_of_canonical (canonical_copyBigInt c1)]
      simp only [copyBigInt]
      simp only [createBigInt, blocksValue, mul_zero, add_zero, zero_add,
        prefixValue_of_le a.digits (le_refl a.digits.length), BigInt.length] at hval
      linear_combination -hval
    · rw [normalize_of_canonical (canonical_copyBigInt c1)]
      exact c3

/-! ## Signed division -/

theorem isBigIntZero_iff (x : BigInt) : isBigIntZero x = true ↔ x.digits = [0] := by
  unfold isBigIntZero
  simp only [decide_eq_true_eq, BigInt.length]
  constructor
  · rintro ⟨h1, h2⟩
    match hd : x.digits, h1, h2 with
    | [d], _, h2 =>
      simp at h2
      rw [h2]
  · intro h
    rw [h]
    simp

theorem isBigIntZero_false_iff (x : BigInt) : isBigIntZero x = false ↔ x.digits ≠ [0] := by
  have h := isBigIntZero_iff x
  cases hx : isBigIntZero x
  · simp only [true_iff]
    intro h0
    rw [h.mpr h0] at hx
    cases hx
  · constructor
    · intro hc
      cases hc
    · intro hc
      exact absurd (h.mp hx) hc

theorem magnitude_eq_zero_iff {x : BigInt} (h : Canonical x) :
    blocksValue x.digits = 0 ↔ x.digits = [0] := by
  constructor
  · intro h0
    by_contra hne
    have := magnitude_pos_of_not_zero h ((isBigIntZero_false_iff x).mpr hne)
    omega
  · intro h0
    rw [h0]
    simp [blocksValue]

/-- Re-signing a canonical magnitude (zero is left alone) gives a canonical
BigInt. -/
theorem canonical_resign {x : BigInt} (h : Canonical x) (s : Int) (hs : s = 1 ∨ s = -1) :
    Canonical (if (!isBigIntZero x) = true then { x with sign := s } else x) := by
  split
  · rename_i hz
    simp only [Bool.not_eq_true', isBigIntZero_false_iff] at hz
    obtain ⟨h1, h2, h3, h4, h5, h6, h7⟩ := h
    exact ⟨h1, h2, h3, h4, h5, hs, fun h0 => absurd h0 hz⟩
  · exact h

theorem resign_digits (x : BigInt) (s : Int) :
    (if (!isBigIntZero x) = true then { x with sign := s } else x).digits = x.digits := by
  split <;> rfl

theorem resign_sign {x : BigInt} (s : Int) (h : x.digits ≠ [0]) :
    (if (!isBigIntZero x) = true then { x with sign := s } else x).sign = s := by
  rw [if_pos]
  simp only [Bool.not_eq_true', isBigIntZero_false_iff]
  exact h

/-- What `divideBigInt` returns on canonical operands with a non-zero divisor. -/
theorem divideBigInt_spec (a b : BigInt) (ha : Canonical a) (hb : Canonical b)
    (hz : isBigIntZero b = false) :
    ∃ q r, divideBigInt a b = .ok (q, r) ∧ Canonical q ∧ Canonical r ∧
      blocksValue a.digits = blocksValue q.digits * blocksValue b.digits + blocksValue r.digits ∧
      blocksValue r.digits < blocksValue b.digits ∧
      (q.digits ≠ [0] → q.sign = if a.sign = b.sign then 1 else -1) ∧
      (r.digits ≠ [0] → r.sign = a.sign) := by
  have hB := magnitude_pos_of_not_zero hb hz
  unfold divideBigInt
  rw [if_neg (by simp [hz])]
  split
  · rename_i hza
    refine ⟨_, _, rfl, canonical_createBigInt 1, canonical_createBigInt 1, ?_, ?_, ?_, ?_⟩
    · rw [blocksValue_eq_zero_of_isZero hza]
      simp [createBigInt, blocksValue]
    · simpa [createBigInt, blocksValue] using hB
    · intro h
      exact absurd rfl h
    · intro h
      exact absurd rfl h
  · have ha' : Canonical { copyBigInt a with sign := 1 } :=
      canonical_of_parts ha.1 ha.2.1 ha.length_pos ha.inRange ha.noLeadingZero rfl
    have hb' : Canonical { copyBigInt b with sign := 1 } :=
      canonical_of_parts hb.1 hb.2.1 hb.length_pos hb.inRange hb.noLeadingZero rfl
    have hz' : isBigIntZero { copyBigInt b with sign := 1 } = false := by
      rw [isBigIntZero_false_iff] at hz ⊢
      exact hz
    obtain ⟨q, r, hdiv, q1, q2, r1, r2, hval, hlt⟩ :=
      divideBigIntAbs_spec _ _ ha' rfl hb' rfl hz'
    simp only
    rw [hdiv]
    simp only
    refine ⟨_, _, rfl, canonical_resign q1 _ ?_, canonical_resign r1 _ ha.sign_cases, ?_, ?_, ?_,
      ?_⟩
    · split
      · left; rfl
      · right; rfl
    · rw [resign_digits, resign_digits]
      exact hval
    · rw [resign_digits]
      exact hlt
    · rw [resign_digits]
      intro h
      rw [resign_sign _ h]
    · rw [resign_digits]
      intro h
      rw [resign_sign _ h]

theorem value_eq_of_sign {x : BigInt} {s : Int} (h : x.digits ≠ [0] → x.sign = s) :
    x.value = s * blocksValue x.digits := by
  unfold BigInt.value
  by_cases h0 : x.digits = [0]
  · rw [h0]
    simp [blocksValue]
  · rw [h h0]

theorem abs_value {x : BigInt} (h : Canonical x) : |x.value| = blocksValue x.digits := by
  unfold BigInt.value
  have h0 := blocksValue_nonneg h.inRange
  rcases h.sign_cases with hs | hs
  · rw [hs, one_mul, abs_of_nonneg h0]
  · rw [hs, neg_one_mul, abs_neg, abs_of_nonneg h0]

/-- Quotient and remainder of `divideBigInt` in terms of magnitudes and signs. -/
theorem divideBigInt_values (a b : BigInt) (ha : Canonical a) (hb : Canonical b)
    (hz : isBigIntZero b = false) :
    ∃ q r, divideBigInt a b = .ok (q, r) ∧ Canonical q ∧ Canonical r ∧
      q.value = (if a.sign = b.sign then 1 else -1) * blocksValue q.digits ∧
      r.value = a.sign * blocksValue r.digits ∧
      blocksValue a.digits = blocksValue q.digits * blocksValue b.digits + blocksValue r.digits ∧
      blocksValue r.digits < blocksValue b.digits := by
  obtain ⟨q, r, h, cq, cr, hval, hlt, hq, hr⟩ := divideBigInt_spec a b ha hb hz
  exact ⟨q, r, h, cq, cr, value_eq_of_sign hq, value_eq_of_sign hr, hval, hlt⟩

theorem sign_mul_sign {s t : Int} (hs : s = 1 ∨ s = -1) (ht : t = 1 ∨ t = -1) :
    (if s = t then (1 : Int) else -1) * t = s := by
  rcases hs with rfl | rfl <;> rcases ht with rfl | rfl <;> simp

/-- C1. Division identity: for canonical `a` and canonical non-zero `b`,
`divideBigInt a b` succeeds with a quotient `q` and a remainder `r` such that
`value q * value b + value r = value a` and `|value r| < |value b|`, which
`compareAbsolute r b < 0` reports. -/
theorem divideBigInt_division_identity (a b : BigInt) (ha : Canonical a) (hb : Canonical b)
    (hz : isBigIntZero b = false) :
    ∃ q r, divideBigInt a b = .ok (q, r) ∧ q.value * b.value + r.value = a.value ∧
      |r.value| < |b.value| ∧ compareAbsolute r b < 0 := by
  obtain ⟨q, r, h, cq, cr, hq, hr, hval, hlt⟩ := divideBigInt_values a b ha hb hz
  refine ⟨q, r, h, ?_, ?_, ?_⟩
  · rw [hq, hr]
    have hs := sign_mul_sign ha.sign_cases hb.sign_cases
    unfold BigInt.value
    rw [hval]
    linear_combination (blocksValue q.digits * blocksValue b.digits) * hs
  · rw [abs_value cr, abs_value hb]
    exact hlt
  · rw [compareAbsolute_canonical cr hb, sign_neg_iff]
    omega

/-- Witness for `divideBigInt_division_identity`: 12345 divided by -567. -/
theorem divideBigInt_division_identity_witness :
    Canonical (mk 1 [345, 12]) ∧ Canonical (mk (-1) [567]) ∧
    isBigIntZero (mk (-1) [567]) = false ∧
    ∃ q r, divideBigInt (mk 1 [345, 12]) (mk (-1) [567]) = .ok (q, r) ∧
      q.value * (mk (-1) [567]).value + r.value = (mk 1 [345, 12]).value ∧
      |r.value| < |(mk (-1) [567]).value| ∧ compareAbsolute r (mk (-1) [567]) < 0 :=
  ⟨by decide, by decide, by decide,
    divideBigInt_division_identity (mk 1 [345, 12]) (mk (-1) [567]) (by decide) (by decide)
      (by decide)⟩

theorem tdiv_of_signs {s t A B Q R : Int} (hs : s = 1 ∨ s = -1) (ht : t = 1 ∨ t = -1)
    (hB : 0 < B) (hR0 : 0 ≤ R) (hR : R < B) (hQ : 0 ≤ Q) (h : A = Q * B + R) :
    Int.tdiv (s * A) (t * B) = (if s = t then 1 else -1) * Q := by
  have hA : 0 ≤ A := by rw [h]; positivity
  have hdiv : A / B = Q := by
    have := (Int.ediv_emod_unique (a := A) (r := R) (q := Q) hB).mpr
      ⟨by rw [h]; ring, hR0, hR⟩
    exact this.1
  have h1 : Int.tdiv A B = Q := by rw [Int.tdiv_eq_ediv hA (le_of_lt hB), hdiv]
  rcases hs with rfl | rfl <;> rcases ht with rfl | rfl
  · simp [h1]
  · rw [one_mul, neg_one_mul, Int.tdiv_neg, h1]
    simp
  · rw [one_mul, neg_one_mul, Int.neg_tdiv, h1]
    simp
  · rw [neg_one_mul, neg_one_mul, Int.neg_tdiv, Int.tdiv_neg, h1]
    simp

/-- C2. Truncating division: for canonical `a` and canonical non-zero `b`, the
quotient of `divideBigInt a b` is `a / b` rounded toward zero (so it is
non-negative when the signs agree and non-positive otherwise), the remainder is
the matching truncated remainder and is either zero or carries the sign of the
dividend; and `-100 / 3`, `100 / -3`, `-100 / -3` give `(-33, -1)`, `(-33, 1)`
and `(33, -1)`. -/
theorem divideBigInt_truncates :
    (∀ a b : BigInt, Canonical a → Canonical b → isBigIntZero b = false →
      ∃ q r, divideBigInt a b = .ok (q, r) ∧
        q.value = Int.tdiv a.value b.value ∧ r.value = Int.tmod a.value b.value ∧
        (a.sign = b.sign → 0 ≤ q.value) ∧ (a.sign ≠ b.sign → q.value ≤ 0) ∧
        (r.value = 0 ∨ r.sign = a.sign)) ∧
    (∃ q r, divideBigInt (mk (-1) [100]) (mk 1 [3]) = .ok (q, r) ∧
      q.same (mk (-1) [33]) ∧ r.same (mk (-1) [1])) ∧
    (∃ q r, divideBigInt (mk 1 [100]) (mk (-1) [3]) = .ok (q, r) ∧
      q.same (mk (-1) [33]) ∧ r.same (mk 1 [1])) ∧
    (∃ q r, divideBigInt (mk (-1) [100]) (mk (-1) [3]) = .ok (q, r) ∧
      q.same (mk 1 [33]) ∧ r.same (mk (-1) [1])) := by
  refine ⟨?_, ⟨_, _, rfl, by decide, by decide⟩, ⟨_, _, rfl, by decide, by decide⟩,
    ⟨_, _, rfl, by decide, by decide⟩⟩
  intro a b ha hb hz
  obtain ⟨q, r, h, cq, cr, hval, hlt, hqs, hrs⟩ := divideBigInt_spec a b ha hb hz
  have hq := value_eq_of_sign hqs
  have hr := value_eq_of_sign hrs
  have hB := magnitude_pos_of_not_zero hb hz
  have hQ := blocksValue_nonneg cq.inRange
  have hR := blocksValue_nonneg cr.inRange
  have htd : q.value = Int.tdiv a.value b.value := by
    rw [hq]
    unfold BigInt.value
    rw [tdiv_of_signs ha.sign_cases hb.sign_cases hB hR hlt hQ hval]
  have hid : q.value * b.value + r.value = a.value := by
    rw [hq, hr]
    have hs := sign_mul_sign ha.sign_cases hb.sign_cases
    unfold BigInt.value
    rw [hval]
    linear_combination (blocksValue q.digits * blocksValue b.digits) * hs
  refine ⟨q, r, h, htd, ?_, ?_, ?_, ?_⟩
  · have := Int.tmod_add_tdiv a.value b.value
    rw [← htd] at this
    linear_combination hid - this
  · intro hs
    rw [hq, if_pos hs]
    omega
  · intro hs
    rw [hq, if_neg hs]
    omega
  · by_cases h0 : r.digits = [0]
    · left
      unfold BigInt.value
      rw [h0]
      simp [blocksValue]
    · right
      exact hrs h0

/-- Witness for `divideBigInt_truncates`: -12345 divided by 567. -/
theorem divideBigInt_truncates_witness :
    Canonical (mk (-1) [345, 12]) ∧ Canonical (mk 1 [567]) ∧ isBigIntZero (mk 1 [567]) = false ∧
    ∃ q r, divideBigInt (mk (-1) [345, 12]) (mk 1 [567]) = .ok (q, r) ∧
      q.value = Int.tdiv (mk (-1) [345, 12]).value (mk 1 [567]).value ∧
      r.value = Int.tmod (mk (-1) [345, 12]).value (mk 1 [567]).value ∧
      ((mk (-1) [345, 12]).sign = (mk 1 [567]).sign → 0 ≤ q.value) ∧
      ((mk (-1) [345, 12]).sign ≠ (mk 1 [567]).sign → q.value ≤ 0) ∧
      (r.value = 0 ∨ r.sign = (mk (-1) [345, 12]).sign) :=
  ⟨by decide, by decide, by decide,
    divideBigInt_truncates.1 (mk (-1) [345, 12]) (mk 1 [567]) (by decide) (by decide) (by decide)⟩

/-- C4. Addition is exact for every sign combination: for canonical `a` and `b`,
`addBigInt a b` succeeds and the value of the result is `value a + value b`;
with equal signs the magnitudes are added and the common sign is kept, with
differing signs the smaller magnitude is subtracted from the larger and the
result takes the sign of the operand of larger magnitude. -/
theorem addBigInt_exact (a b : BigInt) (ha : Canonical a) (hb : Canonical b) :
    ∃ r, addBigInt a b = .ok r ∧ r.value = a.value + b.value ∧
      (a.sign = b.sign →
        r.magnitude = a.magnitude + b.magnitude ∧ (r.digits ≠ [0] → r.sign = a.sign)) ∧
      (a.sign ≠ b.sign → b.magnitude ≤ a.magnitude →
        r.magnitude = a.magnitude - b.magnitude ∧ (r.digits ≠ [0] → r.sign = a.sign)) ∧
      (a.sign ≠ b.sign → a.magnitude < b.magnitude →
        r.magnitude = b.magnitude - a.magnitude ∧ r.sign = b.sign) := by
  obtain ⟨r, hr, hv, hc⟩ := addBigInt_spec a b ha hb
  refine ⟨r, hr, hv, ?_⟩
  have hA := blocksValue_nonneg ha.inRange
  have hB := blocksValue_nonneg hb.inRange
  have hR := blocksValue_nonneg hc.inRange
  have hz := magnitude_eq_zero_iff hc
  unfold BigInt.value at hv
  unfold BigInt.magnitude
  generalize blocksValue a.digits = A at *
  generalize blocksValue b.digits = B at *
  generalize blocksValue r.digits = R at *
  have hnz : r.digits ≠ [0] → R ≠ 0 := fun h h0 => h (hz.mp h0)
  rcases ha.sign_cases with sa | sa <;> rcases hb.sign_cases with sb | sb <;>
    rcases hc.sign_cases with sr | sr <;> rw [sa, sb, sr] at hv <;> rw [sa, sb, sr] <;>
    refine ⟨?_, ?_, ?_⟩ <;> intro h1 <;> first
      | (exfalso; revert h1; decide)
      | (refine ⟨by omega, fun h2 => ?_⟩
         have := hnz h2
         omega)
      | (intro h2
         refine ⟨by omega, fun h3 => ?_⟩
         have := hnz h3
         omega)
      | (intro h2
         refine ⟨by omega, by omega⟩)

/-- Witness for `addBigInt_exact`: 999999 + (-1000001). -/
theorem addBigInt_exact_witness :
    Canonical (mk 1 [999, 999]) ∧ Canonical (mk (-1) [1, 0, 1]) ∧
    ∃ r, addBigInt (mk 1 [999, 999]) (mk (-1) [1, 0, 1]) = .ok r ∧
      r.value = (mk 1 [999, 999]).value + (mk (-1) [1, 0, 1]).value ∧
      ((mk 1 [999, 999]).sign = (mk (-1) [1, 0, 1]).sign →
        r.magnitude = (mk 1 [999, 999]).magnitude + (mk (-1) [1, 0, 1]).magnitude ∧
          (r.digits ≠ [0] → r.sign = (mk 1 [999, 999]).sign)) ∧
      ((mk 1 [999, 999]).sign ≠ (mk (-1) [1, 0, 1]).sign →
        (mk (-1) [1, 0, 1]).magnitude ≤ (mk 1 [999, 999]).magnitude →
        r.magnitude = (mk 1 [999, 999]).magnitude - (mk (-1) [1, 0, 1]).magnitude ∧
          (r.digits ≠ [0] → r.sign = (mk 1 [999, 999]).sign)) ∧
      ((mk 1 [999, 999]).sign ≠ (mk (-1) [1, 0, 1]).sign →
        (mk 1 [999, 999]).magnitude < (mk (-1) [1, 0, 1]).magnitude →
        r.magnitude = (mk (-1) [1, 0, 1]).magnitude - (mk 1 [999, 999]).magnitude ∧
          r.sign = (mk (-1) [1, 0, 1]).sign) :=
  ⟨by decide, by decide,
    addBigInt_exact (mk 1 [999, 999]) (mk (-1) [1, 0, 1]) (by decide) (by decide)⟩

theorem canonical_negate_copy {b : BigInt} (hb : Canonical b) :
    Canonical (negateBigInt (copyBigInt b)) ∧
    (negateBigInt (copyBigInt b)).digits = b.digits ∧
    (negateBigInt (copyBigInt b)).sign = (if isBigIntZero b then b.sign else -b.sign) ∧
    (negateBigInt (copyBigInt b)).value = -b.value := by
  have hzc : isBigIntZero (copyBigInt b) = isBigIntZero b := rfl
  unfold negateBigInt
  rw [hzc]
  cases hz : isBigIntZero b
  · have hne := (isBigIntZero_false_iff b).mp hz
    simp only [Bool.not_false, if_true, Bool.false_eq_true, if_false]
    refine ⟨?_, rfl, ?_, ?_⟩
    · obtain ⟨h1, h2, h3, h4, h5, h6, h7⟩ := hb
      refine ⟨h1, h2, h3, h4, h5, ?_, fun h0 => absurd h0 hne⟩
      show (copyBigInt b).sign * -1 = 1 ∨ (copyBigInt b).sign * -1 = -1
      have : (copyBigInt b).sign = b.sign := rfl
      rw [this]
      omega
    · show (copyBigInt b).sign * -1 = -b.sign
      have : (copyBigInt b).sign = b.sign := rfl
      rw [this]
      ring
    · unfold BigInt.value
      show (copyBigInt b).sign * -1 * blocksValue b.digits = -(b.sign * blocksValue b.digits)
      have : (copyBigInt b).sign = b.sign := rfl
      rw [this]
      ring
  · simp only [Bool.not_true, Bool.false_eq_true, if_false, if_true]
    refine ⟨canonical_copyBigInt hb, rfl, rfl, ?_⟩
    unfold BigInt.value
    rw [blocksValue_eq_zero_of_isZero hz]
    show b.sign * blocksValue b.digits = _
    rw [blocksValue_eq_zero_of_isZero hz]
    simp

/-- C5. Subtraction is exact: for canonical `a` and `b`, `subtractBigInt a b`
returns what `addBigInt a nb` returns, `nb` being a copy of `b` (same blocks)
with the sign flipped, zero being left positive; the call succeeds and the
value of the result is `value a - value b`. -/
theorem subtractBigInt_exact (a b : BigInt) (ha : Canonical a) (hb : Canonical b) :
    subtractBigInt a b = addBigInt a (negateBigInt (copyBigInt b)) ∧
    (negateBigInt (copyBigInt b)).digits = b.digits ∧
    (negateBigInt (copyBigInt b)).sign = (if isBigIntZero b then 1 else -b.sign) ∧
    ∃ r, subtractBigInt a b = .ok r ∧ r.value = a.value - b.value := by
  obtain ⟨c1, c2, c3, c4⟩ := canonical_negate_copy hb
  obtain ⟨r, hr, hv, _⟩ := addBigInt_spec a (negateBigInt (copyBigInt b)) ha c1
  refine ⟨rfl, c2, ?_, r, hr, ?_⟩
  · rw [c3]
    cases hz : isBigIntZero b
    · rfl
    · simp only [if_true]
      exact hb.2.2.2.2.2.2 ((isBigIntZero_iff b).mp hz)
  · rw [hv, c4]
    ring

/-- Witness for `subtractBigInt_exact`: 5 - 1007. -/
theorem subtractBigInt_exact_witness :
    Canonical (mk 1 [5]) ∧ Canonical (mk 1 [7, 1]) ∧
    (subtractBigInt (mk 1 [5]) (mk 1 [7, 1]) =
        addBigInt (mk 1 [5]) (negateBigInt (copyBigInt (mk 1 [7, 1]))) ∧
      (negateBigInt (copyBigInt (mk 1 [7, 1]))).digits = (mk 1 [7, 1]).digits ∧
      (negateBigInt (copyBigInt (mk 1 [7, 1]))).sign =
        (if isBigIntZero (mk 1 [7, 1]) then 1 else -(mk 1 [7, 1]).sign) ∧
      ∃ r, subtractBigInt (mk 1 [5]) (mk 1 [7, 1]) = .ok r ∧
        r.value = (mk 1 [5]).value - (mk 1 [7, 1]).value) :=
  ⟨by decide, by decide, subtractBigInt_exact (mk 1 [5]) (mk 1 [7, 1]) (by decide) (by decide)⟩

/-! ## Decimal digits and numerals -/

theorem digitChar_facts :
    ∀ k, k < 10 → digitValue (Nat.digitChar k) = k ∧ isdigit (Nat.digitChar k) = true := by
  decide

theorem digitValue_digitChar {k : Nat} (h : k < 10) : digitValue (Nat.digitChar k) = k :=
  (digitChar_facts k h).1

theorem isdigit_digitChar {k : Nat} (h : k < 10) : isdigit (Nat.digitChar k) = true :=
  (digitChar_facts k h).2

theorem isdigit_iff (c : Char) : isdigit c = true ↔ 48 ≤ c.toNat ∧ c.toNat ≤ 57 := by
  unfold isdigit
  simp only [decide_eq_true_eq, Char.le_def]
  rfl

theorem digitValue_lt {c : Char} (h : isdigit c = true) : digitValue c < 10 := by
  rw [isdigit_iff] at h
  unfold digitValue
  have : '0'.toNat = 48 := rfl
  omega

theorem char_eq_zero_of_toNat {c : Char} (h : c.toNat = 48) : c = '0' := by
  apply Char.ext
  apply UInt32.ext
  exact h

theorem digitValue_eq_zero_iff {c : Char} (h : isdigit c = true) : digitValue c = 0 ↔ c = '0' := by
  rw [isdigit_iff] at h
  constructor
  · intro h0
    apply char_eq_zero_of_toNat
    unfold digitValue at h0
    have : '0'.toNat = 48 := rfl
    omega
  · rintro rfl
    rfl

theorem charDiff_eq {c : Char} (h : isdigit c = true) :
    (c.toNat : Int) - ('0'.toNat : Int) = (digitValue c : Int) := by
  rw [isdigit_iff] at h
  unfold digitValue
  have : '0'.toNat = 48 := rfl
  omega

/-! ### `Nat.toDigits` in base ten -/

theorem toDigitsCore_acc (f n : Nat) (acc : List Char) :
    Nat.toDigitsCore 10 f n acc = Nat.toDigitsCore 10 f n [] ++ acc := by
  induction f generalizing n acc with
  | zero => simp [Nat.toDigitsCore]
  | succ f ih =>
    simp only [Nat.toDigitsCore]
    split
    · simp
    · rw [ih _ (_ :: acc), ih _ [_]]
      simp

theorem toDigitsCore_fuel (f g n : Nat) (hf : n < f) (hg : n < g) :
    Nat.toDigitsCore 10 f n [] = Nat.toDigitsCore 10 g n [] := by
  induction f generalizing n g with
  | zero => omega
  | succ f ih =>
    cases g with
    | zero => omega
    | succ g =>
      simp only [Nat.toDigitsCore]
      split
      · rfl
      · rename_i hne
        rw [toDigitsCore_acc f, toDigitsCore_acc g, ih g (n / 10) (by omega) (by omega)]

theorem toDigits_lt {n : Nat} (h : n < 10) : Nat.toDigits 10 n = [Nat.digitChar n] := by
  unfold Nat.toDigits
  simp only [Nat.toDigitsCore]
  rw [if_pos (by omega), Nat.mod_eq_of_lt h]

theorem toDigits_step {n : Nat} (h : 10 ≤ n) :
    Nat.toDigits 10 n = Nat.toDigits 10 (n / 10) ++ [Nat.digitChar (n % 10)] := by
  unfold Nat.toDigits
  rw [Nat.toDigitsCore.eq_2]
  rw [if_neg (by omega), toDigitsCore_acc, toDigitsCore_fuel n (n / 10 + 1) (n / 10) (by omega)
    (by omega)]

theorem decimalValue_append_single (xs : List Char) (c : Char) :
    decimalValue (xs ++ [c]) = 10 * decimalValue xs + digitValue c := by
  unfold decimalValue
  rw [List.foldl_append]
  rfl

theorem toDigits_spec (n : Nat) :
    decimalValue (Nat.toDigits 10 n) = n ∧ (∀ c ∈ Nat.toDigits 10 n, isdigit c = true) ∧
      Nat.toDigits 10 n ≠ [] ∧ (0 < n → (Nat.toDigits 10 n).head? ≠ some '0') := by
  induction n using Nat.strong_induction_on with
  | _ n ih =>
    by_cases h : n < 10
    · rw [toDigits_lt h]
      refine ⟨?_, ?_, by simp, ?_⟩
      · simp [decimalValue, digitValue_digitChar h]
      · intro c hc
        simp at hc
        rw [hc]
        exact isdigit_digitChar h
      · intro hpos hh
        simp at hh
        have := digitValue_digitChar h
        rw [hh] at this
        have h0 : digitValue '0' = 0 := rfl
        omega
    · have h10 : 10 ≤ n := by omega
      obtain ⟨i1, i2, i3, i4⟩ := ih (n / 10) (by omega)
      rw [toDigits_step h10]
      refine ⟨?_, ?_, by simp, ?_⟩
      · rw [decimalValue_append_single, i1, digitValue_digitChar (by omega)]
        omega
      · intro c hc
        rcases List.mem_append.mp hc with hc | hc
        · exact i2 c hc
        · simp at hc
          rw [hc]
          exact isdigit_digitChar (by omega)
      · intro _
        have := i4 (by omega)
        cases hd : Nat.toDigits 10 (n / 10) with
        | nil => exact absurd hd i3
        | cons x xs =>
          rw [hd] at this
          simpa using this

/-- Appending a block of three digits to the numeral of a positive number. -/
theorem toDigits_block {H : Nat} {d : Int} (hH : 0 < H) (h0 : 0 ≤ d) (h1 : d < 1000) :
    Nat.toDigits 10 (1000 * H + d.toNat) = Nat.toDigits 10 H ++ threeDigits d := by
  obtain ⟨k, rfl⟩ : ∃ k : Nat, d = k := ⟨d.toNat, by omega⟩
  simp only [Int.toNat_ofNat, threeDigits]
  have hk : k < 1000 := by omega
  rw [toDigits_step (n := 1000 * H + k) (by omega)]
  have e1 : (1000 * H + k) / 10 = 100 * H + k / 10 := by omega
  rw [e1, toDigits_step (n := 100 * H + k / 10) (by omega)]
  have e2 : (100 * H + k / 10) / 10 = 10 * H + k / 100 := by omega
  rw [e2, toDigits_step (n := 10 * H + k / 100) (by omega)]
  have e3 : (10 * H + k / 100) / 10 = H := by omega
  have e4 : (10 * H + k / 100) % 10 = k / 100 := by omega
  have e5 : (100 * H + k / 10) % 10 = k / 10 % 10 := by omega
  have e6 : (1000 * H + k) % 10 = k % 10 := by omega
  rw [e3, e4, e5, e6]
  simp

/-- What `"%03d"` writes for a block in `[0, 1000)`. -/
theorem sprintf_0d_block {d : Int} (h0 : 0 ≤ d) (h1 : d < 1000) :
    sprintf_0d 3 d = threeDigits d := by
  obtain ⟨k, rfl⟩ : ∃ k : Nat, d = k := ⟨d.toNat, by omega⟩
  have hk : k < 1000 := by omega
  unfold sprintf_0d threeDigits
  rw [if_neg (by omega)]
  simp only [Int.natAbs_ofNat, Int.toNat_ofNat]
  by_cases c1 : k < 10
  · rw [toDigits_lt c1]
    have a1 : k / 100 = 0 := by omega
    have a2 : k / 10 % 10 = 0 := by omega
    have a3 : k % 10 = k := by omega
    rw [a1, a2, a3]
    rfl
  · by_cases c2 : k < 100
    · rw [toDigits_step (by omega), toDigits_lt (n := k / 10) (by omega)]
      have a1 : k / 100 = 0 := by omega
      have a2 : k / 10 % 10 = k / 10 := by omega
      rw [a1, a2]
      rfl
    · rw [toDigits_step (by omega), toDigits_step (n := k / 10) (by omega),
        toDigits_lt (n := k / 10 / 10) (by omega)]
      have a1 : k / 10 / 10 = k / 100 := by omega
      rw [a1]
      rfl

/-! ## Formatting -/

theorem threeDigitsEach_append (xs ys : List Int) :
    threeDigitsEach (xs ++ ys) = threeDigitsEach xs ++ threeDigitsEach ys := by
  induction xs with
  | nil => rfl
  | cons x xs ih => simp [threeDigitsEach, ih]

theorem take_succ_reverse (ds : List Int) {i : Nat} (h : i < ds.length) :
    (ds.take (i + 1)).reverse = ds.getD i 0 :: (ds.take i).reverse := by
  rw [List.take_succ, List.getD_eq_getElem ds 0 h]
  simp [List.getElem?_eq_getElem h]

theorem formatLoop_spec (x : BigInt) (hbd : x.base_digits = 3) (hr : InRange x.digits) (i : Nat) :
    ∀ p : List Char, i ≤ x.digits.length →
      bigIntToString.loop x i p = p ++ threeDigitsEach (x.digits.take i).reverse := by
  induction i with
  | zero =>
    intro p _
    simp [bigIntToString.loop, threeDigitsEach]
  | succ i ih =>
    intro p hi
    unfold bigIntToString.loop
    have hd := hr.getD i
    rw [hbd]
    have h3 : (3 : Int).toNat = 3 := rfl
    rw [h3, sprintf_0d_block hd.1 hd.2, ih _ (by omega), take_succ_reverse x.digits (by omega)]
    simp [threeDigitsEach, threeDigits]

theorem blocksValue_drop (ds : List Int) {i : Nat} (h : i < ds.length) :
    blocksValue (ds.drop i) = ds.getD i 0 + 1000 * blocksValue (ds.drop (i + 1)) := by
  rw [List.drop_eq_getElem_cons h, List.getD_eq_getElem ds 0 h]
  rfl

theorem blocksValue_take_drop (ds : List Int) (i : Nat) :
    blocksValue ds = prefixValue ds i + 1000 ^ (min i ds.length) * blocksValue (ds.drop i) := by
  conv_lhs => rw [← List.take_append_drop i ds, blocksValue_append]
  simp [prefixValue, List.length_take]

theorem InRange.drop {xs : List Int} (h : InRange xs) (n : Nat) : InRange (xs.drop n) :=
  h.sub (fun _ hd => List.mem_of_mem_drop hd)

theorem blocksValue_drop_pos {x : BigInt} (hx : Canonical x) (hz : x.digits ≠ [0]) {j : Nat}
    (hj : j + 1 ≤ x.digits.length) : 0 < blocksValue (x.digits.drop j) := by
  have hpos := magnitude_pos_of_not_zero hx ((isBigIntZero_false_iff x).mpr hz)
  have h0 := blocksValue_nonneg (hx.inRange.drop j)
  cases j with
  | zero => simpa using hpos
  | succ j =>
    have h1 := blocksValue_take_drop x.digits (j + 1)
    rw [Nat.min_eq_left (by omega)] at h1
    have h2 := prefixValue_lt hx.inRange (j + 1)
    have h3 := blocksValue_ge_pow hx.inRange hx.noLeadingZero (by omega)
    have h4 : (1000 : Int) ^ (j + 1) ≤ 1000 ^ (x.digits.length - 1) :=
      pow_le_pow_right₀ (by norm_num) (by omega)
    by_contra hc
    have h5 : blocksValue (x.digits.drop (j + 1)) = 0 := by omega
    rw [h5] at h1
    simp at h1
    omega

/-- The numeral of the high blocks followed by the low blocks, three digits
each, is the numeral of the whole magnitude. -/
theorem numeral_blocks {x : BigInt} (hx : Canonical x) (hz : x.digits ≠ [0]) (i : Nat) :
    i + 1 ≤ x.digits.length →
      Nat.toDigits 10 (blocksValue (x.digits.drop i)).toNat ++
          threeDigitsEach (x.digits.take i).reverse =
        Nat.toDigits 10 (blocksValue x.digits).toNat := by
  induction i with
  | zero =>
    intro _
    simp [threeDigitsEach]
  | succ i ih =>
    intro hi
    rw [take_succ_reverse x.digits (by omega)]
    simp only [threeDigitsEach]
    rw [← List.append_assoc]
    have hd := hx.inRange.getD i
    have hH := blocksValue_drop_pos hx hz hi
    have hb := blocksValue_drop x.digits (show i < x.digits.length by omega)
    have key : (blocksValue (x.digits.drop i)).toNat =
        1000 * (blocksValue (x.digits.drop (i + 1))).toNat + (x.digits.getD i 0).toNat := by
      rw [hb]
      omega
    rw [← toDigits_block (by omega) hd.1 hd.2, ← key]
    exact ih (by omega)

theorem top_block_eq {x : BigInt} (hx : Canonical x) :
    blocksValue (x.digits.drop (x.digits.length - 1)) = x.digits.getD (x.digits.length - 1) 0 := by
  have hl := hx.length_pos
  rw [blocksValue_drop x.digits (by omega)]
  have : x.digits.length - 1 + 1 = x.digits.length := by omega
  rw [this, List.drop_length]
  simp [blocksValue]

/-- The text written by `bigIntToString` for a canonical non-zero BigInt. -/
theorem bigIntToString_shape {x : BigInt} (hx : Canonical x) (hz : x.digits ≠ [0]) :
    bigIntToString x = (if x.sign < 0 then ['-'] else []) ++
      Nat.toDigits 10 (x.digits.getD (x.length - 1) 0).toNat ++
      threeDigitsEach x.digits.dropLast.reverse := by
  unfold bigIntToString
  rw [(isBigIntZero_false_iff x).mpr hz]
  simp only [Bool.false_eq_true, if_false]
  have htop := blocksValue_drop_pos hx hz (j := x.digits.length - 1) (by have := hx.length_pos; omega)
  rw [top_block_eq hx] at htop
  rw [formatLoop_spec x hx.2.1 hx.inRange _ _ (by simp only [BigInt.length]; omega)]
  have hsd : sprintf_d (x.digits.getD (x.digits.length - 1) 0) =
      Nat.toDigits 10 (x.digits.getD (x.digits.length - 1) 0).toNat := by
    unfold sprintf_d
    rw [if_neg (by omega)]
    have : (x.digits.getD (x.digits.length - 1) 0).natAbs =
        (x.digits.getD (x.digits.length - 1) 0).toNat := by omega
    rw [this]
  simp only [BigInt.length]
  rw [hsd, List.dropLast_eq_take]

theorem decimalNumeral_of_sign {x : BigInt} (hx : Canonical x) (hz : x.digits ≠ [0]) :
    decimalNumeral x.value =
      (if x.sign < 0 then ['-'] else []) ++ Nat.toDigits 10 (blocksValue x.digits).toNat := by
  have hpos := magnitude_pos_of_not_zero hx ((isBigIntZero_false_iff x).mpr hz)
  unfold decimalNumeral BigInt.value
  rcases hx.sign_cases with hs | hs
  · rw [hs, one_mul, if_neg (by omega), if_neg (by omega)]
    have : (blocksValue x.digits).natAbs = (blocksValue x.digits).toNat := by omega
    rw [this]
    rfl
  · rw [hs, neg_one_mul, if_pos (by omega), if_pos (by omega)]
    have : (-blocksValue x.digits).natAbs = (blocksValue x.digits).toNat := by omega
    rw [this]
    rfl

/-- `bigIntToString` writes the canonical decimal numeral of the value. -/
theorem bigIntToString_eq_decimalNumeral (x : BigInt) (hx : Canonical x) :
    bigIntToString x = decimalNumeral x.value := by
  by_cases hz : x.digits = [0]
  · have h0 : bigIntToString x = ['0'] := by
      unfold bigIntToString
      rw [(isBigIntZero_iff x).mpr hz]
      rfl
    rw [h0]
    unfold BigInt.value
    rw [hz]
    simp [blocksValue]
    rfl
  · rw [bigIntToString_shape hx hz, decimalNumeral_of_sign hx hz, List.append_assoc]
    congr 1
    have hl := hx.length_pos
    have h := numeral_blocks hx hz (x.digits.length - 1) (by omega)
    rw [top_block_eq hx, ← List.dropLast_eq_take] at h
    exact h

/-- C8. Formatting: for a canonical `x`, `bigIntToString x` is the canonical
decimal numeral of `value x`; it is `"0"` for zero, and otherwise a `-` exactly
when `x` is negative, then the most significant block without padding (so the
text has no leading zero), then every remaining block as exactly three
zero-padded digits. -/
theorem bigIntToString_numeral (x : BigInt) (hx : Canonical x) :
    bigIntToString x = decimalNumeral x.value ∧
    (x.digits = [0] → bigIntToString x = ['0']) ∧
    (x.digits ≠ [0] →
      bigIntToString x = (if x.value < 0 then ['-'] else []) ++
        Nat.toDigits 10 (x.digits.getD (x.length - 1) 0).toNat ++
        threeDigitsEach x.digits.dropLast.reverse ∧
      (Nat.toDigits 10 (x.digits.getD (x.length - 1) 0).toNat).head? ≠ some '0') := by
  have hzero : x.digits = [0] → bigIntToString x = ['0'] := by
    intro h0
    unfold bigIntToString
    rw [(isBigIntZero_iff x).mpr h0]
    rfl
  refine ⟨?_, hzero, ?_⟩
  · exact bigIntToString_eq_decimalNumeral x hx
  · intro hz
    have hpos := magnitude_pos_of_not_zero hx ((isBigIntZero_false_iff x).mpr hz)
    have htop := blocksValue_drop_pos hx hz (j := x.digits.length - 1)
      (by have := hx.length_pos; omega)
    rw [top_block_eq hx] at htop
    refine ⟨?_, (toDigits_spec _).2.2.2 (by simp only [BigInt.length]; omega)⟩
    rw [bigIntToString_shape hx hz]
    have hs : (x.sign < 0) ↔ (x.value < 0) := by
      unfold BigInt.value
      rcases hx.sign_cases with hs | hs <;> rw [hs] <;> constructor <;> intro h <;> omega
    simp only [hs]

/-- Witness for `bigIntToString_numeral`: the text of -12000007. -/
theorem bigIntToString_numeral_witness :
    Canonical (mk (-1) [7, 0, 12]) ∧
    (bigIntToString (mk (-1) [7, 0, 12]) = decimalNumeral (mk (-1) [7, 0, 12]).value ∧
    ((mk (-1) [7, 0, 12]).digits = [0] → bigIntToString (mk (-1) [7, 0, 12]) = ['0']) ∧
    ((mk (-1) [7, 0, 12]).digits ≠ [0] →
      bigIntToString (mk (-1) [7, 0, 12]) =
        (if (mk (-1) [7, 0, 12]).value < 0 then ['-'] else []) ++
        Nat.toDigits 10
          ((mk (-1) [7, 0, 12]).digits.getD ((mk (-1) [7, 0, 12]).length - 1) 0).toNat ++
        threeDigitsEach (mk (-1) [7, 0, 12]).digits.dropLast.reverse ∧
      (Nat.toDigits 10
          ((mk (-1) [7, 0, 12]).digits.getD ((mk (-1) [7, 0, 12]).length - 1) 0).toNat).head? ≠
        some '0')) :=
  ⟨by decide, bigIntToString_numeral (mk (-1) [7, 0, 12]) (by decide)⟩

/-! ## Parsing -/

theorem skipZeros_spec (str : List Char) (fuel : Nat) :
    ∀ start, str.length - start ≤ fuel →
      start ≤ createBigIntFromString.skipZeros str fuel start ∧
      (start ≤ str.length → createBigIntFromString.skipZeros str fuel start ≤ str.length) ∧
      (∀ j, start ≤ j → j < createBigIntFromString.skipZeros str fuel start →
        str.getD j NUL = '0') ∧
      (createBigIntFromString.skipZeros str fuel start < str.length →
        str.getD (createBigIntFromString.skipZeros str fuel start) NUL ≠ '0') := by
  induction fuel with
  | zero =>
    intro start hf
    simp only [createBigIntFromString.skipZeros]
    exact ⟨le_refl _, fun h => h, fun j h1 h2 => by omega, fun h => by omega⟩
  | succ fuel ih =>
    intro start hf
    unfold createBigIntFromString.skipZeros
    split
    · rename_i hc
      obtain ⟨h1, h2, h3, h4⟩ := ih (start + 1) (by omega)
      refine ⟨by omega, fun _ => h2 (by omega), ?_, h4⟩
      intro j hj1 hj2
      by_cases hj : j = start
      · rw [hj]
        exact hc.2
      · exact h3 j (by omega) hj2
    · rename_i hc
      refine ⟨le_refl _, fun h => h, fun j h1 h2 => by omega, ?_⟩
      intro hlt h0
      exact hc ⟨hlt, h0⟩

theorem allZero_iff (str : List Char) (k : Nat) :
    ∀ i, createBigIntFromString.allZero str k i = true ↔
      ∀ j, i ≤ j → j < i + k → str.getD j NUL = '0' := by
  induction k with
  | zero =>
    intro i
    simp only [createBigIntFromString.allZero, true_iff]
    intro j h1 h2
    omega
  | succ k ih =>
    intro i
    unfold createBigIntFromString.allZero
    split
    · rename_i hc
      simp only [Bool.false_eq_true, false_iff]
      intro h
      exact hc (h i (le_refl _) (by omega))
    · rename_i hc
      simp only [ne_eq, not_not] at hc
      rw [ih]
      constructor
      · intro h j h1 h2
        by_cases hj : j = i
        · rw [hj]
          exact hc
        · exact h j (by omega) (by omega)
      · intro h j h1 h2
        exact h j (by omega) (by omega)

theorem allDigits_iff (str : List Char) (k : Nat) :
    ∀ i, createBigIntFromString.allDigits str k i = true ↔
      ∀ j, i ≤ j → j < i + k → isdigit (str.getD j NUL) = true := by
  induction k with
  | zero =>
    intro i
    simp only [createBigIntFromString.allDigits, true_iff]
    intro j h1 h2
    omega
  | succ k ih =>
    intro i
    unfold createBigIntFromString.allDigits
    split
    · rename_i hc
      simp only [Bool.false_eq_true, false_iff]
      intro h
      rw [h i (le_refl _) (by omega)] at hc
      simp at hc
    · rename_i hc
      simp only [Bool.not_eq_true', Bool.not_eq_false] at hc
      rw [ih]
      constructor
      · intro h j h1 h2
        by_cases hj : j = i
        · rw [hj]
          exact hc
        · exact h j (by omega) (by omega)
      · intro h j h1 h2
        exact h j (by omega) (by omega)

theorem foldl_decimal (xs : List Char) (a : Nat) :
    xs.foldl (fun acc c => 10 * acc + digitValue c) a =
      a * 10 ^ xs.length + xs.foldl (fun acc c => 10 * acc + digitValue c) 0 := by
  induction xs generalizing a with
  | nil => simp
  | cons x xs ih =>
    simp only [List.foldl_cons, List.length_cons]
    rw [ih (10 * a + digitValue x), ih (10 * 0 + digitValue x)]
    ring

theorem decimalValue_cons (c : Char) (xs : List Char) :
    decimalValue (c :: xs) = digitValue c * 10 ^ xs.length + decimalValue xs := by
  unfold decimalValue
  rw [List.foldl_cons, foldl_decimal]
  simp

theorem decimalValue_nil : decimalValue [] = 0 := rfl

theorem decimalValue_drop (str : List Char) {j : Nat} (h : j < str.length) :
    decimalValue (str.drop j) =
      digitValue (str.getD j NUL) * 10 ^ (str.length - j - 1) + decimalValue (str.drop (j + 1)) := by
  rw [List.drop_eq_getElem_cons h, decimalValue_cons, List.getD_eq_getElem str NUL h]
  simp only [List.length_drop]
  have : str.length - (j + 1) = str.length - j - 1 := by omega
  rw [this]

theorem decimalValue_drop_zeros (str : List Char) (a : Nat) :
    ∀ n, a + n ≤ str.length → (∀ j, a ≤ j → j < a + n → str.getD j NUL = '0') →
      decimalValue (str.drop (a + n)) = decimalValue (str.drop a) := by
  intro n
  induction n with
  | zero =>
    intro _ _
    rfl
  | succ n ih =>
    intro hle hz
    rw [← ih (by omega) (fun j h1 h2 => hz j h1 (by omega))]
    rw [decimalValue_drop str (show a + n < str.length by omega), hz (a + n) (by omega) (by omega)]
    have : digitValue '0' = 0 := rfl
    rw [this]
    simp
    rfl

theorem pow10_split (i : Nat) : (10 : Int) ^ i = 1000 ^ (i / 3) * 10 ^ (i % 3) := by
  have h : (1000 : Int) = 10 ^ 3 := by norm_num
  rw [h, ← pow_mul, ← pow_add, Nat.div_add_mod]

theorem parseLoop_spec (str : List Char) (n : Nat) (hn : n ≤ str.length)
    (hdig : ∀ j, str.length - n ≤ j → j < str.length → isdigit (str.getD j NUL) = true)
    (k : Nat) :
    ∀ (i : Nat) (cbv power : Int) (out : List Int), i + k = n → out.length = i / 3 →
      power = 10 ^ (i % 3) → 0 ≤ cbv → cbv < power → InRange out → (k = 0 → cbv = 0) →
      blocksValue out + 1000 ^ (i / 3) * cbv = (decimalValue (str.drop (str.length - i)) : Int) →
      ∃ out', createBigIntFromString.parse str n 3 k i cbv power out = some out' ∧
        InRange out' ∧
        blocksValue out' = (decimalValue (str.drop (str.length - n)) : Int) ∧
        out.length + (if 0 < k then 1 else 0) ≤ out'.length := by
  induction k with
  | zero =>
    intro i cbv power out hik hlen hpow h0 h1 hr hk hval
    refine ⟨out, rfl, hr, ?_, by simp⟩
    have hi : i = n := by omega
    rw [hk rfl, hi] at hval
    simpa using hval
  | succ k ih =>
    intro i cbv power out hik hlen hpow h0 h1 hr hk hval
    have hilt : i < n := by omega
    have hc := hdig (str.length - 1 - i) (by omega) (by omega)
    have hstep := decimalValue_drop str (show str.length - 1 - i < str.length by omega)
    have e1 : str.length - (str.length - 1 - i) - 1 = i := by omega
    have e2 : str.length - 1 - i + 1 = str.length - i := by omega
    have e3 : str.length - (i + 1) = str.length - 1 - i := by omega
    rw [e1, e2] at hstep
    unfold createBigIntFromString.parse
    simp only [hc, Bool.not_true, Bool.false_eq_true, if_false]
    rw [charDiff_eq hc]
    have hd := digitValue_lt hc
    generalize digitValue (str.getD (str.length - 1 - i) NUL) = d at hd hstep
    have hsplit := pow10_split i
    have hV : (decimalValue (str.drop (str.length - (i + 1))) : Int) =
        blocksValue out + 1000 ^ (i / 3) * (cbv + (d : Int) * power) := by
      rw [e3, hstep]
      push_cast
      rw [hsplit, ← hval, hpow]
      ring
    have hmod : i % 3 = 0 ∨ i % 3 = 1 ∨ i % 3 = 2 := by omega
    have hpw : power = 1 ∨ power = 10 ∨ power = 100 := by
      rcases hmod with h | h | h <;> rw [h] at hpow <;> rw [hpow] <;> norm_num
    have hcb : cbv + (d : Int) * power < power * 10 := by
      rcases hpw with h | h | h <;> rw [h] at h1 ⊢ <;> omega
    have hcb0 : 0 ≤ cbv + (d : Int) * power := by
      rcases hpw with h | h | h <;> rw [h] <;> omega
    have hp1000 : power * 10 ≤ 1000 := by
      rcases hpw with h | h | h <;> rw [h] <;> norm_num
    by_cases hk0 : k = 0
    · have hlast : i = n - 1 := by omega
      rw [if_pos (Or.inr hlast), hk0]
      refine ⟨_, rfl, hr.append (InRange.single hcb0 (by omega)), ?_, by simp⟩
      rw [blocksValue_append, blocksValue_single, hlen]
      have hn1 : i + 1 = n := by omega
      rw [← hn1, hV]
    · by_cases hst : (i + 1) % 3 = 0
      · rw [if_pos (Or.inl hst)]
        obtain ⟨out', ho, hr', hv', hl'⟩ := ih (i + 1) 0 1 (out ++ [cbv + (d : Int) * power])
          (by omega) (by simp [hlen]; omega) (by rw [hst]; norm_num) (le_refl _) (by norm_num)
          (hr.append (InRange.single hcb0 (by omega))) (fun _ => rfl) (by
            rw [blocksValue_append, blocksValue_single, hlen, hV]
            ring)
        refine ⟨out', ho, hr', hv', ?_⟩
        simp at hl'
        simp
        omega
      · have hne : ¬ ((i + 1) % 3 = 0 ∨ i = n - 1) := by
          intro h
          rcases h with h | h
          · exact hst h
          · omega
        rw [if_neg hne]
        have hdiv : (i + 1) / 3 = i / 3 := by omega
        have hm1 : (i + 1) % 3 = i % 3 + 1 := by omega
        obtain ⟨out', ho, hr', hv', hl'⟩ := ih (i + 1) (cbv + (d : Int) * power) (power * 10) out
          (by omega) (by omega) (by rw [hm1, pow_succ, hpow]) hcb0 hcb hr
          (fun h => absurd h hk0) (by rw [hdiv, hV])
        refine ⟨out', ho, hr', hv', ?_⟩
        have : 0 < k := by omega
        simp [this] at hl'
        simp
        omega

theorem signLength_le_one (str : List Char) : signLength str ≤ 1 := by
  unfold signLength
  split
  · exact le_refl _
  · split <;> omega

/-- The part of `createBigIntFromString` after the sign has been read, on a
string whose remaining characters are all decimal digits, at least one. -/
theorem createBigIntFromString_digits (str : List Char) (hs0 : signLength str < str.length)
    (hdig : ∀ j, signLength str ≤ j → j < str.length → isdigit (str.getD j NUL) = true) :
    ∃ r, createBigIntFromString str = some r ∧ Canonical r ∧
      r.value = (if str.length > 0 ∧ str.getD 0 NUL = '-' then -1 else 1) *
        (decimalValue (str.drop (signLength str)) : Int) := by
  unfold createBigIntFromString
  simp only
  have hsl : (if str.length > 0 ∧ str.getD 0 NUL = '-' then 1
      else if str.length > 0 ∧ str.getD 0 NUL = '+' then 1 else 0) = signLength str := rfl
  rw [hsl]
  generalize hsg : (if str.length > 0 ∧ str.getD 0 NUL = '-' then (-1 : Int) else 1) = sgn
  have hsgn : sgn = 1 ∨ sgn = -1 := by
    rw [← hsg]
    split
    · right; rfl
    · left; rfl
  generalize hs0' : signLength str = s0 at hs0 hdig
  obtain ⟨k1, k2, k3, k4⟩ := skipZeros_spec str str.length s0 (by omega)
  have k2' := k2 (by omega)
  generalize createBigIntFromString.skipZeros str str.length s0 = s at k1 k2' k3 k4
  have hzeros : decimalValue (str.drop s) = decimalValue (str.drop s0) := by
    have := decimalValue_drop_zeros str s0 (s - s0) (by omega)
      (fun j h1 h2 => k3 j h1 (by omega))
    have e : s0 + (s - s0) = s := by omega
    rw [e] at this
    exact this
  by_cases hall : createBigIntFromString.allZero str (str.length - s) s = true
  · rw [if_pos hall]
    have hsl : s = str.length := by
      by_contra hne
      have hlt : s < str.length := by omega
      exact k4 hlt ((allZero_iff str _ s).mp hall s (le_refl _) (by omega))
    rw [if_neg (by omega)]
    refine ⟨_, rfl, ?_, ?_⟩
    · exact canonical_of_parts rfl rfl (by simp [createBigInt]) inRange_zero
        (noLeadingZero_single 0) rfl
    · rw [← hzeros, hsl, List.drop_length]
      simp [BigInt.value, createBigInt, blocksValue, decimalValue_nil]
  · rw [if_neg hall]
    have hlt : s < str.length := by
      by_contra hge
      apply hall
      rw [allZero_iff]
      intro j h1 h2
      omega
    have hd : createBigIntFromString.allDigits str (str.length - s) s = true := by
      rw [allDigits_iff]
      intro j h1 h2
      exact hdig j (by omega) (by omega)
    rw [hd]
    simp only [Bool.not_true, Bool.false_eq_true, if_false]
    obtain ⟨out, ho, hr, hv, hl⟩ := parseLoop_spec str (str.length - s) (by omega)
      (fun j h1 h2 => hdig j (by omega) h2) (str.length - s) 0 0 1 [] (by omega) rfl rfl
      (le_refl _) (by norm_num) InRange.nil (fun _ => rfl) (by simp [blocksValue, decimalValue_nil])
    rw [ho]
    simp only
    have e : str.length - (str.length - s) = s := by omega
    rw [e, hzeros] at hv
    refine ⟨_, rfl, ?_, ?_⟩
    · apply normalize_canonical rfl rfl hr
      · have : 0 < str.length - s := by omega
        simp [this] at hl
        exact hl
      · simp only
        rcases hsgn with h | h
        · left; exact h
        · right; exact h
    · rw [normalize_value]
      unfold BigInt.value
      simp only
      rw [hv]

theorem not_isdigit_minus : isdigit '-' = false := by decide

theorem not_isdigit_plus : isdigit '+' = false := by decide

theorem stripSign_eq_drop (str : List Char) : stripSign str = str.drop (signLength str) := by
  unfold signLength
  match str with
  | [] => rfl
  | c :: rest =>
    by_cases h1 : c = '-'
    · subst h1
      simp [stripSign]
    · by_cases h2 : c = '+'
      · subst h2
        simp [stripSign]
      · have e : stripSign (c :: rest) = c :: rest := by
          unfold stripSign
          split
          · rename_i h
            simp at h
            exact absurd h.1 h2
          · rename_i h
            simp at h
            exact absurd h.1 h1
          · rfl
        rw [e]
        simp [h1, h2]

theorem signOf_eq (str : List Char) :
    signOf str = if str.length > 0 ∧ str.getD 0 NUL = '-' then -1 else 1 := by
  match str with
  | [] => rfl
  | c :: rest =>
    by_cases h1 : c = '-'
    · subst h1
      simp [signOf]
    · have e : signOf (c :: rest) = 1 := by
        unfold signOf
        split
        · rename_i h
          simp at h
          exact absurd h.1 h1
        · rfl
      rw [e]
      simp [h1]

/-- Parsing a string whose characters after the optional sign are all decimal
digits, at least one. -/
theorem createBigIntFromString_numeral (str : List Char) (hne : stripSign str ≠ [])
    (hdig : ∀ c ∈ stripSign str, isdigit c = true) :
    ∃ r, createBigIntFromString str = some r ∧ Canonical r ∧
      r.value = signOf str * (decimalValue (stripSign str) : Int) := by
  rw [signOf_eq]
  rw [stripSign_eq_drop] at hne hdig ⊢
  have hlen : signLength str < str.length := by
    by_contra h
    apply hne
    exact List.drop_eq_nil_of_le (by omega)
  apply createBigIntFromString_digits str hlen
  intro j h1 h2
  apply hdig
  rw [List.getD_eq_getElem str NUL h2]
  have hb : j - signLength str < (str.drop (signLength str)).length := by
    rw [List.length_drop]
    omega
  have : str[j] = (str.drop (signLength str))[j - signLength str] := by
    rw [List.getElem_drop]
    congr 1
    omega
  rw [this]
  exact List.getElem_mem _

/-! ## Blocks and digit groups of a number -/

theorem getD_eq_div_mod (i : Nat) :
    ∀ ds : List Int, InRange ds → ds.getD i 0 = blocksValue ds / 1000 ^ i % 1000 := by
  induction i with
  | zero =>
    intro ds hr
    cases ds with
    | nil => simp [blocksValue]
    | cons d t =>
      have h := hr d (List.mem_cons_self _ _)
      simp only [List.getD_cons_zero, blocksValue, pow_zero, Int.ediv_one]
      omega
  | succ i ih =>
    intro ds hr
    cases ds with
    | nil => simp [blocksValue]
    | cons d t =>
      have h := hr d (List.mem_cons_self _ _)
      have ht : InRange t := hr.sub (fun _ hd => List.mem_cons_of_mem _ hd)
      rw [List.getD_cons_succ, ih t ht]
      simp only [blocksValue]
      have e : (1000 : Int) ^ (i + 1) = 1000 * 1000 ^ i := by rw [pow_succ]; ring
      rw [e]
      have hP : (0 : Int) < 1000 ^ i := by positivity
      generalize (1000 : Int) ^ i = P at hP
      generalize blocksValue t = B
      have hq := Int.emod_add_ediv B P
      have hr0 := Int.emod_nonneg B (ne_of_gt hP)
      have hr1 := Int.emod_lt_of_pos B hP
      have key := (Int.ediv_emod_unique (a := d + 1000 * B) (r := 1000 * (B % P) + d)
        (q := B / P) (show (0 : Int) < 1000 * P by omega)).mpr
        ⟨by linear_combination 1000 * hq, by omega, by omega⟩
      rw [key.1]

theorem digits_unique {xs ys : List Int} (hx : InRange xs) (hy : InRange ys)
    (nx : NoLeadingZero xs) (ny : NoLeadingZero ys) (lx : 1 ≤ xs.length) (ly : 1 ≤ ys.length)
    (h : blocksValue xs = blocksValue ys) : xs = ys := by
  have hlen : xs.length = ys.length := by
    have bx := blocksValue_lt hx
    have by' := blocksValue_lt hy
    rcases lt_trichotomy xs.length ys.length with hlt | heq | hgt
    · exfalso
      have h1 := blocksValue_ge_pow hy ny (by omega)
      have h2 : (1000 : Int) ^ xs.length ≤ 1000 ^ (ys.length - 1) :=
        pow_le_pow_right₀ (by norm_num) (by omega)
      omega
    · exact heq
    · exfalso
      have h1 := blocksValue_ge_pow hx nx (by omega)
      have h2 : (1000 : Int) ^ ys.length ≤ 1000 ^ (xs.length - 1) :=
        pow_le_pow_right₀ (by norm_num) (by omega)
      omega
  apply List.ext_getElem hlen
  intro i h1 h2
  have e1 := getD_eq_div_mod i xs hx
  have e2 := getD_eq_div_mod i ys hy
  rw [List.getD_eq_getElem xs 0 h1] at e1
  rw [List.getD_eq_getElem ys 0 h2] at e2
  rw [e1, e2, h]

/-- A canonical BigInt is determined by its value. -/
theorem canonical_unique {x y : BigInt} (hx : Canonical x) (hy : Canonical y)
    (h : x.value = y.value) : x.sign = y.sign ∧ x.digits = y.digits := by
  have hm : blocksValue x.digits = blocksValue y.digits := by
    rw [← abs_value hx, ← abs_value hy, h]
  have hd := digits_unique hx.inRange hy.inRange hx.noLeadingZero hy.noLeadingZero hx.length_pos
    hy.length_pos hm
  refine ⟨?_, hd⟩
  by_cases hz : x.digits = [0]
  · rw [hx.2.2.2.2.2.2 hz, hy.2.2.2.2.2.2 (hd ▸ hz)]
  · have hpos := magnitude_pos_of_not_zero hx ((isBigIntZero_false_iff x).mpr hz)
    unfold BigInt.value at h
    rw [← hm] at h
    rcases hx.sign_cases with sx | sx <;> rcases hy.sign_cases with sy | sy <;>
      rw [sx, sy] at h <;> rw [sx, sy] <;> omega

theorem leValue_cons (c : Char) (xs : List Char) :
    decimalValue (c :: xs).reverse = digitValue c + 10 * decimalValue xs.reverse := by
  rw [List.reverse_cons, decimalValue_append_single]
  omega

theorem leValue_div_mod (m : Nat) :
    ∀ xs : List Char, (∀ c ∈ xs, isdigit c = true) →
      decimalValue xs.reverse / 10 ^ m = decimalValue (xs.drop m).reverse ∧
      decimalValue xs.reverse % 10 ^ m = decimalValue (xs.take m).reverse := by
  induction m with
  | zero =>
    intro xs _
    simp [decimalValue_nil, Nat.mod_one]
  | succ m ih =>
    intro xs hd
    cases xs with
    | nil => simp [decimalValue_nil]
    | cons c t =>
      have hc := digitValue_lt (hd c (List.mem_cons_self _ _))
      obtain ⟨i1, i2⟩ := ih t (fun c hc => hd c (List.mem_cons_of_mem _ hc))
      rw [List.drop_succ_cons, List.take_succ_cons, leValue_cons, leValue_cons, ← i1, ← i2]
      have e : 10 ^ (m + 1) = 10 * 10 ^ m := by rw [pow_succ]; ring
      rw [e]
      constructor
      · rw [← Nat.div_div_eq_div_mul]
        congr 1
        omega
      · rw [Nat.mod_mul]
        have a1 : (digitValue c + 10 * decimalValue t.reverse) % 10 = digitValue c := by omega
        have a2 : (digitValue c + 10 * decimalValue t.reverse) / 10 = decimalValue t.reverse := by
          omega
        rw [a1, a2]

/-- The `i`-th group of three digits of a digit string is the `i`-th base-1000
digit of the number it denotes. -/
theorem groupOfThree_eq (ds : List Char) (hd : ∀ c ∈ ds, isdigit c = true) (i : Nat) :
    groupOfThree ds i = decimalValue ds / 1000 ^ i % 1000 := by
  unfold groupOfThree
  have hr : ∀ c ∈ ds.reverse, isdigit c = true := fun c hc => hd c (List.mem_reverse.mp hc)
  have h1 := (leValue_div_mod (3 * i) ds.reverse hr).1
  have h2 := (leValue_div_mod 3 (ds.reverse.drop (3 * i))
    (fun c hc => hr c (List.mem_of_mem_drop hc))).2
  rw [List.reverse_reverse] at h1
  have e : (1000 : Nat) ^ i = 10 ^ (3 * i) := by
    rw [pow_mul]
    norm_num
  norm_num at h2
  rw [e, h1, ← h2]

theorem decimalValue_zeros (ds : List Char) (h : ∀ c ∈ ds, c = '0') : decimalValue ds = 0 := by
  induction ds with
  | nil => rfl
  | cons c t ih =>
    rw [decimalValue_cons, h c (List.mem_cons_self _ _),
      ih (fun c hc => h c (List.mem_cons_of_mem _ hc))]
    have : digitValue '0' = 0 := rfl
    rw [this]
    simp

theorem decimalValue_replicate_zero (k : Nat) (ds : List Char) :
    decimalValue (List.replicate k '0' ++ ds) = decimalValue ds := by
  induction k with
  | zero => rfl
  | succ k ih =>
    rw [List.replicate_succ, List.cons_append, decimalValue_cons, ih]
    have : digitValue '0' = 0 := rfl
    rw [this]
    simp

theorem stripSign_of_digit {c : Char} (t : List Char) (h : isdigit c = true) :
    stripSign (c :: t) = c :: t ∧ signOf (c :: t) = 1 := by
  have h1 : c ≠ '-' := by
    intro hc
    rw [hc] at h
    exact absurd h (by decide)
  have h2 : c ≠ '+' := by
    intro hc
    rw [hc] at h
    exact absurd h (by decide)
  constructor
  · unfold stripSign
    split
    · rename_i hh
      simp at hh
      exact absurd hh.1 h2
    · rename_i hh
      simp at hh
      exact absurd hh.1 h1
    · rfl
  · unfold signOf
    split
    · rename_i hh
      simp at hh
      exact absurd hh.1 h1
    · rfl

theorem strip_pre_digits {pre ds : List Char} (hpre : pre = [] ∨ pre = ['+'] ∨ pre = ['-'])
    (hne : ds ≠ []) (hdig : ∀ c ∈ ds, isdigit c = true) :
    stripSign (pre ++ ds) = ds ∧ signOf (pre ++ ds) = (if pre = ['-'] then -1 else 1) := by
  rcases hpre with rfl | rfl | rfl
  · cases ds with
    | nil => exact absurd rfl hne
    | cons c t =>
      have := stripSign_of_digit t (hdig c (List.mem_cons_self _ _))
      simpa using this
  · simp [stripSign, signOf]
  · simp [stripSign, signOf]

/-- C7. Parsing a valid numeral: for a string made of an optional single leading
`+` or `-` followed by one or more decimal digits, `createBigIntFromString`
succeeds and the value of the result is the integer the text denotes; block `i`
holds the `i`-th group of three decimal digits counted from the right; leading
zeros are ignored; an all-zero digit string gives zero with sign `+1`, also
after a `-`. -/
theorem createBigIntFromString_valid (pre ds : List Char)
    (hpre : pre = [] ∨ pre = ['+'] ∨ pre = ['-']) (hne : ds ≠ [])
    (hdig : ∀ c ∈ ds, isdigit c = true) :
    ∃ r, createBigIntFromString (pre ++ ds) = some r ∧
      r.value = (if pre = ['-'] then -1 else 1) * (decimalValue ds : Int) ∧
      (∀ i, r.digits.getD i 0 = (groupOfThree ds i : Int)) ∧
      (∀ k, ∃ r', createBigIntFromString (pre ++ (List.replicate k '0' ++ ds)) = some r' ∧
        r'.same r) ∧
      ((∀ c ∈ ds, c = '0') → r.digits = [0] ∧ r.sign = 1) := by
  obtain ⟨hs1, hs2⟩ := strip_pre_digits hpre hne hdig
  obtain ⟨r, hr, hc, hv⟩ := createBigIntFromString_numeral (pre ++ ds) (by rw [hs1]; exact hne)
    (by rw [hs1]; exact hdig)
  rw [hs1, hs2] at hv
  have hmag : blocksValue r.digits = (decimalValue ds : Int) := by
    rw [← abs_value hc, hv]
    split
    · rw [neg_one_mul, abs_neg]
      exact abs_of_nonneg (by positivity)
    · rw [one_mul]
      exact abs_of_nonneg (by positivity)
  refine ⟨r, hr, hv, ?_, ?_, ?_⟩
  · intro i
    rw [getD_eq_div_mod i r.digits hc.inRange, hmag, groupOfThree_eq ds hdig i]
    push_cast
    rfl
  · intro k
    have hne' : List.replicate k '0' ++ ds ≠ [] := by
      intro h
      exact hne (List.append_eq_nil.mp h).2
    have hdig' : ∀ c ∈ List.replicate k '0' ++ ds, isdigit c = true := by
      intro c hcm
      rcases List.mem_append.mp hcm with h | h
      · rw [(List.mem_replicate.mp h).2]
        decide
      · exact hdig c h
    obtain ⟨hs1', hs2'⟩ := strip_pre_digits hpre hne' hdig'
    obtain ⟨r', hr', hc', hv'⟩ := createBigIntFromString_numeral
      (pre ++ (List.replicate k '0' ++ ds)) (by rw [hs1']; exact hne') (by rw [hs1']; exact hdig')
    rw [hs1', hs2', decimalValue_replicate_zero] at hv'
    exact ⟨r', hr', canonical_unique hc' hc (by rw [hv, hv'])⟩
  · intro hz
    have h0 : blocksValue r.digits = 0 := by
      rw [hmag, decimalValue_zeros ds hz]
      rfl
    have hd0 := (magnitude_eq_zero_iff hc).mp h0
    exact ⟨hd0, hc.2.2.2.2.2.2 hd0⟩

/-- Witness for `createBigIntFromString_valid`: the text `-0012345`. -/
theorem createBigIntFromString_valid_witness :
    (['-'] = ([] : List Char) ∨ ['-'] = ['+'] ∨ ['-'] = ['-']) ∧
    "0012345".toList ≠ [] ∧ (∀ c ∈ "0012345".toList, isdigit c = true) ∧
    ∃ r, createBigIntFromString (['-'] ++ "0012345".toList) = some r ∧
      r.value = (if ['-'] = ['-'] then -1 else 1) * (decimalValue "0012345".toList : Int) ∧
      (∀ i, r.digits.getD i 0 = (groupOfThree "0012345".toList i : Int)) ∧
      (∀ k, ∃ r', createBigIntFromString
          (['-'] ++ (List.replicate k '0' ++ "0012345".toList)) = some r' ∧ r'.same r) ∧
      ((∀ c ∈ "0012345".toList, c = '0') → r.digits = [0] ∧ r.sign = 1) :=
  ⟨by decide, by decide, by decide,
    createBigIntFromString_valid ['-'] "0012345".toList (by decide) (by decide) (by decide)⟩

/-- A character that is not a decimal digit, after the optional sign, makes
`createBigIntFromString` return `NULL`. -/
theorem createBigIntFromString_none_of_nondigit (str : List Char) (c : Char)
    (hc : c ∈ stripSign str) (hnd : isdigit c = false) : createBigIntFromString str = none := by
  rw [stripSign_eq_drop] at hc
  obtain ⟨j0, hj0, hcj⟩ := List.mem_iff_getElem.mp hc
  rw [List.length_drop] at hj0
  rw [List.getElem_drop] at hcj
  have hjlt : signLength str + j0 < str.length := by omega
  have hcj' : str.getD (signLength str + j0) NUL = c := by
    rw [List.getD_eq_getElem str NUL hjlt]
    exact hcj
  clear hcj
  generalize hjdef : signLength str + j0 = j at hcj' hjlt
  have hs1 := signLength_le_one str
  unfold createBigIntFromString
  simp only
  have hsl : (if str.length > 0 ∧ str.getD 0 NUL = '-' then 1
      else if str.length > 0 ∧ str.getD 0 NUL = '+' then 1 else 0) = signLength str := rfl
  rw [hsl]
  generalize hs0' : signLength str = s0 at hjdef hs1
  obtain ⟨k1, k2, k3, k4⟩ := skipZeros_spec str str.length s0 (by omega)
  have k2' := k2 (by omega)
  generalize createBigIntFromString.skipZeros str str.length s0 = s at k1 k2' k3 k4
  have hsj : s ≤ j := by
    by_contra hlt
    have h0 := k3 j (by omega) (by omega)
    rw [hcj'] at h0
    rw [h0] at hnd
    exact absurd hnd (by decide)
  have hall : ¬ createBigIntFromString.allZero str (str.length - s) s = true := by
    intro h
    exact k4 (by omega) ((allZero_iff str _ s).mp h s (le_refl _) (by omega))
  have hdig : ¬ createBigIntFromString.allDigits str (str.length - s) s = true := by
    intro h
    have := (allDigits_iff str _ s).mp h j hsj (by omega)
    rw [hcj', hnd] at this
    exact absurd this (by decide)
  rw [if_neg hall]
  simp only [Bool.not_eq_true] at hdig
  rw [hdig]
  rfl

/-- C9. Parse rejects non-digits: whenever a string contains, after its
optional leading `+` or `-`, a character that is not a decimal digit,
`createBigIntFromString` returns `NULL`. -/
theorem createBigIntFromString_rejects_nondigit (str : List Char) (c : Char)
    (hc : c ∈ stripSign str) (hnd : isdigit c = false) : createBigIntFromString str = none :=
  createBigIntFromString_none_of_nondigit str c hc hnd

/-- Witness for `createBigIntFromString_rejects_nondigit`: the text `12a34`. -/
theorem createBigIntFromString_rejects_nondigit_witness :
    'a' ∈ stripSign "12a34".toList ∧ isdigit 'a' = false ∧
    createBigIntFromString "12a34".toList = none :=
  ⟨by decide, by decide,
    createBigIntFromString_rejects_nondigit "12a34".toList 'a' (by decide) (by decide)⟩

/-- C10, as stated, fails on the empty string: no digit remains after the
optional sign, yet `createBigIntFromString` returns a valid zero. -/
theorem createBigIntFromString_empty_is_zero :
    stripSign [] = [] ∧ createBigIntFromString [] = some (createBigInt 1) ∧
    createBigIntFromString [] ≠ none := by
  decide

theorem stripSign_nil_cases {str : List Char} (h : stripSign str = []) :
    str = [] ∨ str = ['+'] ∨ str = ['-'] := by
  rw [stripSign_eq_drop] at h
  have hl := List.drop_eq_nil_iff.mp h
  have h1 := signLength_le_one str
  match str, hl, h1 with
  | [], _, _ => left; rfl
  | [c], _, _ =>
    unfold signLength at h
    by_cases hm : c = '-'
    · right; right; rw [hm]
    · by_cases hp : c = '+'
      · right; left; rw [hp]
      · simp [hm, hp] at h
  | _ :: _ :: _, hl, h1 =>
    simp at hl
    omega

/-- C10, amended. Among the strings in which no digit remains after the
optional leading sign, `createBigIntFromString` returns `NULL` exactly for those
that do have a sign character, `+` and `-`; the empty string is accepted and
gives the canonical zero. -/
theorem createBigIntFromString_no_digits (str : List Char) (h : stripSign str = []) :
    (str ≠ [] → createBigIntFromString str = none) ∧
    (str = [] → createBigIntFromString str = some (createBigInt 1)) := by
  rcases stripSign_nil_cases h with rfl | rfl | rfl <;> decide

/-- Witness for `createBigIntFromString_no_digits`: the text `-`. -/
theorem createBigIntFromString_no_digits_witness :
    stripSign ['-'] = [] ∧
    (['-'] ≠ [] → createBigIntFromString ['-'] = none) ∧
    (['-'] = [] → createBigIntFromString ['-'] = some (createBigInt 1)) :=
  ⟨by decide, createBigIntFromString_no_digits ['-'] (by decide)⟩

theorem decimalNumeral_parts (v : Int) :
    stripSign (decimalNumeral v) = Nat.toDigits 10 v.natAbs ∧
    signOf (decimalNumeral v) = (if v < 0 then -1 else 1) := by
  unfold decimalNumeral
  obtain ⟨_, h2, h3, _⟩ := toDigits_spec v.natAbs
  split
  · simp [stripSign, signOf]
  · cases hd : Nat.toDigits 10 v.natAbs with
    | nil => exact absurd hd h3
    | cons c t =>
      rw [hd] at h2
      exact stripSign_of_digit t (h2 c (List.mem_cons_self _ _))

/-- Parsing the canonical numeral of an integer gives a canonical BigInt with
that value. -/
theorem createBigIntFromString_decimalNumeral (v : Int) :
    ∃ r, createBigIntFromString (decimalNumeral v) = some r ∧ Canonical r ∧ r.value = v := by
  obtain ⟨p1, p2⟩ := decimalNumeral_parts v
  obtain ⟨t1, t2, t3, _⟩ := toDigits_spec v.natAbs
  obtain ⟨r, hr, hc, hv⟩ := createBigIntFromString_numeral (decimalNumeral v)
    (by rw [p1]; exact t3) (by rw [p1]; exact t2)
  refine ⟨r, hr, hc, ?_⟩
  rw [hv, p1, p2, t1]
  split <;> omega

/-- C6. Round trip: for a canonical `x`, zero and negative numbers included,
parsing the text `bigIntToString x` succeeds and gives back `x`: same sign, same
length, same blocks. -/
theorem createBigIntFromString_bigIntToString (x : BigInt) (hx : Canonical x) :
    ∃ r, createBigIntFromString (bigIntToString x) = some r ∧
      r.sign = x.sign ∧ r.length = x.length ∧ r.digits = x.digits := by
  rw [bigIntToString_eq_decimalNumeral x hx]
  obtain ⟨r, hr, hc, hv⟩ := createBigIntFromString_decimalNumeral x.value
  obtain ⟨h1, h2⟩ := canonical_unique hc hx hv
  exact ⟨r, hr, h1, by simp only [BigInt.length, h2], h2⟩

/-- Witness for `createBigIntFromString_bigIntToString`: -12000007. -/
theorem createBigIntFromString_bigIntToString_witness :
    Canonical (mk (-1) [7, 0, 12]) ∧
    ∃ r, createBigIntFromString (bigIntToString (mk (-1) [7, 0, 12])) = some r ∧
      r.sign = (mk (-1) [7, 0, 12]).sign ∧ r.length = (mk (-1) [7, 0, 12]).length ∧
      r.digits = (mk (-1) [7, 0, 12]).digits :=
  ⟨by decide, createBigIntFromString_bigIntToString (mk (-1) [7, 0, 12]) (by decide)⟩

/-! ## Modular exponentiation -/

theorem mod_pow_loop_spec (m : Nat) (hm1 : 1 < m) (hm : m ≤ 4294967296) (fuel : Nat) :
    ∀ result a b, result < m → a < m → b < 2 ^ fuel →
      mod_pow.loop m fuel result a b = (result * a ^ b) % m := by
  induction fuel with
  | zero =>
    intro result a b hr ha hb
    have hb0 : b = 0 := by simpa using hb
    subst hb0
    simp [mod_pow.loop, Nat.mod_eq_of_lt hr]
  | succ fuel ih =>
    intro result a b hr ha hb
    unfold mod_pow.loop
    split
    · rename_i hpos
      have hwrap : ∀ x y, x < m → y < m → (x * y) % ULL % m = (x * y) % m := by
        intro x y hx hy
        have : x * y < 4294967296 * 4294967296 := by
          have h1 : x * y ≤ m * m := Nat.mul_le_mul (le_of_lt hx) (le_of_lt hy)
          have h2 : m * m ≤ 4294967296 * 4294967296 := Nat.mul_le_mul hm hm
          have h3 : x * y < m * m := by
            rcases Nat.eq_zero_or_pos y with h0 | h0
            · subst h0
              simp
              omega
            · calc x * y < m * y := Nat.mul_lt_mul_of_pos_right hx h0
                _ ≤ m * m := Nat.mul_le_mul (le_refl _) (le_of_lt hy)
          omega
        have hU : x * y % ULL = x * y := Nat.mod_eq_of_lt (by simpa [ULL] using this)
        rw [hU]
      simp only
      rw [hwrap a a ha ha]
      have hlt : a * a % m < m := Nat.mod_lt _ (by omega)
      have hbd : b / 2 < 2 ^ fuel := by
        rw [pow_succ] at hb
        omega
      have hb2 : b = 2 * (b / 2) + b % 2 := by omega
      have hpow : a ^ b = (a * a) ^ (b / 2) * a ^ (b % 2) := by
        conv_lhs => rw [hb2, pow_add, pow_mul, pow_two]
      split
      · rename_i hodd
        rw [hwrap result a hr ha, ih _ _ _ (Nat.mod_lt _ (by omega)) hlt hbd, hpow, hodd, pow_one]
        rw [Nat.mul_mod, Nat.mod_mod, Nat.pow_mod (a * a % m), Nat.mod_mod, ← Nat.pow_mod,
          ← Nat.mul_mod]
        congr 1
        ring
      · rename_i heven
        have h0 : b % 2 = 0 := by omega
        rw [ih _ _ _ hr hlt hbd, hpow, h0, pow_zero, mul_one]
        rw [Nat.mul_mod, Nat.pow_mod (a * a % m), Nat.mod_mod, ← Nat.pow_mod, ← Nat.mul_mod]
    · rename_i hz
      have hb0 : b = 0 := by omega
      subst hb0
      simp [Nat.mod_eq_of_lt hr]

/-- `mod_pow` computes `a^b mod m` for a modulus of at most 32 bits and a 64-bit
exponent. -/
theorem mod_pow_spec (a b m : Nat) (hm1 : 1 < m) (hm : m ≤ 4294967296)
    (hb : b < 18446744073709551616) : mod_pow a b m = a ^ b % m := by
  unfold mod_pow
  rw [mod_pow_loop_spec m hm1 hm 64 1 (a % m) b hm1 (Nat.mod_lt _ (by omega))
    (by norm_num; exact hb), one_mul, ← Nat.pow_mod]

theorem mod_pow_MOD (a b : Nat) (hb : b < 18446744073709551616) :
    mod_pow a b MOD = a ^ b % MOD :=
  mod_pow_spec a b MOD (by norm_num) (by norm_num) hb

theorem mod_pow_lt (a b : Nat) (hb : b < 18446744073709551616) : mod_pow a b MOD < MOD := by
  rw [mod_pow_MOD a b hb]
  exact Nat.mod_lt _ (by norm_num)

theorem mod_pow_cast (a b : Nat) (hb : b < 18446744073709551616) :
    ((mod_pow a b MOD : Nat) : ZMod MOD) = (a : ZMod MOD) ^ b := by
  rw [mod_pow_MOD a b hb, ZMod.natCast_mod]
  push_cast
  rfl

/-- The modulus is prime: 3 has order `MOD - 1 = 2^23 * 7 * 17` modulo `MOD`. -/
theorem prime_MOD : Nat.Prime MOD := by
  have hne : ∀ v : Nat, v % MOD ≠ 1 % MOD → ((v : Nat) : ZMod MOD) ≠ 1 := by
    intro v hv h
    apply hv
    have h1 : ((v : Nat) : ZMod MOD) = ((1 : Nat) : ZMod MOD) := by
      rw [h, Nat.cast_one]
    exact (ZMod.natCast_eq_natCast_iff' v 1 MOD).mp h1
  apply lucas_primality MOD ((G : Nat) : ZMod MOD)
  · have h : mod_pow G (MOD - 1) MOD = 1 := by decide
    rw [← mod_pow_cast G (MOD - 1) (by decide), h, Nat.cast_one]
  · intro q hq hdvd
    have hfac : MOD - 1 = 2 ^ 23 * 7 * 17 := by decide
    have hq3 : q = 2 ∨ q = 7 ∨ q = 17 := by
      rw [hfac] at hdvd
      rcases (Nat.Prime.dvd_mul hq).mp hdvd with h | h
      · rcases (Nat.Prime.dvd_mul hq).mp h with h | h
        · exact Or.inl ((Nat.prime_dvd_prime_iff_eq hq Nat.prime_two).mp (hq.dvd_of_dvd_pow h))
        · exact Or.inr (Or.inl ((Nat.prime_dvd_prime_iff_eq hq (by norm_num)).mp h))
      · exact Or.inr (Or.inr ((Nat.prime_dvd_prime_iff_eq hq (by norm_num)).mp h))
    rcases hq3 with rfl | rfl | rfl
    · have h : mod_pow G ((MOD - 1) / 2) MOD = 998244352 := by decide
      rw [← mod_pow_cast G _ (by decide), h]
      exact hne _ (by decide)
    · have h : mod_pow G ((MOD - 1) / 7) MOD = 779057549 := by decide
      rw [← mod_pow_cast G _ (by decide), h]
      exact hne _ (by decide)
    · have h : mod_pow G ((MOD - 1) / 17) MOD = 337827833 := by decide
      rw [← mod_pow_cast G _ (by decide), h]
      exact hne _ (by decide)

theorem mod_inverse_cast (a : Nat) (ha : (a : ZMod MOD) ≠ 0) :
    ((mod_inverse a MOD : Nat) : ZMod MOD) = (a : ZMod MOD)⁻¹ := by
  haveI : Fact (Nat.Prime MOD) := ⟨prime_MOD⟩
  unfold mod_inverse
  have e : (MOD + ULL - 2) % ULL = MOD - 2 := by decide
  rw [e, mod_pow_cast a (MOD - 2) (by decide)]
  have h1 : (a : ZMod MOD) ^ (MOD - 1) = 1 := ZMod.pow_card_sub_one_eq_one ha
  have h2 : (a : ZMod MOD) ^ (MOD - 2) * (a : ZMod MOD) = 1 := by
    rw [← pow_succ]
    exact h1
  exact eq_inv_of_mul_eq_one_left h2

/-! ## Bit reversal -/

theorem bitRev_lt (L : Nat) : ∀ x, bitRev L x < 2 ^ L := by
  induction L with
  | zero => intro x; simp [bitRev]
  | succ L ih =>
    intro x
    have h := ih (x / 2)
    have h2 : x % 2 < 2 := Nat.mod_lt _ (by norm_num)
    simp only [bitRev, pow_succ]
    rcases Nat.mod_two_eq_zero_or_one x with h0 | h0 <;> rw [h0] <;> omega

theorem bitRev_high (L : Nat) :
    ∀ h r, h < 2 → r < 2 ^ L → bitRev (L + 1) (h * 2 ^ L + r) = 2 * bitRev L r + h := by
  induction L with
  | zero =>
    intro h r hh hr
    have : r = 0 := by simpa using hr
    subst this
    simp [bitRev]
    omega
  | succ L ih =>
    intro h r hh hr
    have e1 : (h * 2 ^ (L + 1) + r) % 2 = r % 2 := by
      rw [pow_succ]
      rcases (by omega : h = 0 ∨ h = 1) with rfl | rfl <;> omega
    have e2 : (h * 2 ^ (L + 1) + r) / 2 = h * 2 ^ L + r / 2 := by
      rw [pow_succ]
      rcases (by omega : h = 0 ∨ h = 1) with rfl | rfl <;> omega
    have hr2 : r / 2 < 2 ^ L := by
      rw [pow_succ] at hr
      omega
    rw [bitRev, e1, e2, ih h (r / 2) hh hr2]
    conv_rhs => rw [bitRev]
    rw [pow_succ]
    ring

theorem bitRev_involutive (L : Nat) : ∀ x, x < 2 ^ L → bitRev L (bitRev L x) = x := by
  induction L with
  | zero =>
    intro x hx
    simp at hx
    simp [bitRev, hx]
  | succ L ih =>
    intro x hx
    have hx2 : x / 2 < 2 ^ L := by
      rw [pow_succ] at hx
      omega
    conv_lhs => arg 2; rw [bitRev]
    rw [bitRev_high L (x % 2) _ (Nat.mod_lt _ (by norm_num)) (bitRev_lt L _), ih _ hx2]
    omega

theorem bitRev_double (L b : Nat) : bitRev (L + 1) (2 * b) = bitRev L b := by
  rw [bitRev]
  have e1 : 2 * b % 2 = 0 := by omega
  have e2 : 2 * b / 2 = b := by omega
  rw [e1, e2]
  simp

theorem bitRev_double_succ (L b : Nat) : bitRev (L + 1) (2 * b + 1) = 2 ^ L + bitRev L b := by
  rw [bitRev]
  have e1 : (2 * b + 1) % 2 = 1 := by omega
  have e2 : (2 * b + 1) / 2 = b := by omega
  rw [e1, e2]
  simp

theorem bitRev_zero (L : Nat) : bitRev L 0 = 0 := by
  induction L with
  | zero => rfl
  | succ L ih => simp [bitRev, ih]

/-- The inner loop of `bit_reverse_ntt` turns the reversal of `x` into the
reversal of `x + 1`. -/
theorem reverse_increment (L : Nat) :
    ∀ (fuel x : Nat), 1 ≤ L → L ≤ fuel → x + 1 < 2 ^ L →
      (bit_reverse_ntt.inner fuel (bitRev L x) (2 ^ L / 2)).1 +
        (bit_reverse_ntt.inner fuel (bitRev L x) (2 ^ L / 2)).2 = bitRev L (x + 1) := by
  induction L with
  | zero =>
    intro fuel x h1
    omega
  | succ L ih =>
    intro fuel x _ hf hx
    have hhalf : 2 ^ (L + 1) / 2 = 2 ^ L := by
      rw [pow_succ]
      omega
    rw [hhalf]
    obtain ⟨f, rfl⟩ : ∃ f, fuel = f + 1 := ⟨fuel - 1, by omega⟩
    have hlt := bitRev_lt L (x / 2)
    rcases Nat.mod_two_eq_zero_or_one x with h0 | h0
    · have e : bitRev (L + 1) x = bitRev L (x / 2) := by
        rw [bitRev, h0]
        simp
      rw [e]
      unfold bit_reverse_ntt.inner
      rw [if_neg (by omega)]
      simp only
      have e1 : (x + 1) % 2 = 1 := by omega
      have e2 : (x + 1) / 2 = x / 2 := by omega
      rw [bitRev, e1, e2]
      omega
    · have e : bitRev (L + 1) x = 2 ^ L + bitRev L (x / 2) := by
        rw [bitRev, h0]
        simp
      rw [e]
      unfold bit_reverse_ntt.inner
      rw [if_pos (by omega)]
      have e3 : 2 ^ L + bitRev L (x / 2) - 2 ^ L = bitRev L (x / 2) := by omega
      rw [e3]
      have hL : 1 ≤ L := by
        by_contra hc
        have : L = 0 := by omega
        subst this
        simp at hx
        omega
      have hx2 : x / 2 + 1 < 2 ^ L := by
        rw [pow_succ] at hx
        omega
      rw [ih f (x / 2) hL (by omega) hx2]
      have e1 : (x + 1) % 2 = 0 := by omega
      have e2 : (x + 1) / 2 = x / 2 + 1 := by omega
      conv_rhs => rw [bitRev, e1, e2]
      simp

theorem getD_set_eq (l : List Nat) (i j v : Nat) :
    (l.set i v).getD j 0 = if i = j ∧ i < l.length then v else l.getD j 0 := by
  simp only [List.getD_eq_getElem?_getD, List.getElem?_set]
  by_cases h : i = j
  · subst h
    by_cases hl : i < l.length
    · simp [hl]
    · simp [hl]
      rw [List.getElem?_eq_none (by omega)]
      rfl
  · simp [h]

/-- The swap loop of `bit_reverse_ntt` puts element `bitRev L t` at position
`t`. -/
theorem bitReverse_outer_spec (L : Nat) (hL1 : 1 ≤ L) (hL : L ≤ 32) (a0 : List Nat) (k : Nat) :
    ∀ (i : Nat) (cur : List Nat), i + k = 2 ^ L → 1 ≤ i → cur.length = 2 ^ L →
      (∀ t, t < 2 ^ L →
        cur.getD t 0 = a0.getD (if min t (bitRev L t) < i then bitRev L t else t) 0) →
      (bit_reverse_ntt.outer (2 ^ L) k i (bitRev L (i - 1)) cur).length = 2 ^ L ∧
      ∀ t, t < 2 ^ L →
        (bit_reverse_ntt.outer (2 ^ L) k i (bitRev L (i - 1)) cur).getD t 0 =
          a0.getD (bitRev L t) 0 := by
  induction k with
  | zero =>
    intro i cur hik hi hlen hinv
    refine ⟨hlen, ?_⟩
    intro t ht
    simp only [bit_reverse_ntt.outer]
    rw [hinv t ht, if_pos]
    have : t < i := by omega
    exact lt_of_le_of_lt (Nat.min_le_left _ _) this
  | succ k ih =>
    intro i cur hik hi hlen hinv
    unfold bit_reverse_ntt.outer
    simp only
    have hrev := reverse_increment L 32 (i - 1) hL1 hL (by omega)
    have ei : i - 1 + 1 = i := by omega
    rw [ei] at hrev
    rw [hrev]
    have hjlt := bitRev_lt L i
    have hinvol := bitRev_involutive L i (by omega)
    generalize hj : bitRev L i = j at hrev hjlt hinvol
    have hnext : bitRev L (i + 1 - 1) = j := by
      have : i + 1 - 1 = i := by omega
      rw [this, hj]
    have key : ∀ cur' : List Nat, cur'.length = 2 ^ L →
        (∀ t, t < 2 ^ L →
          cur'.getD t 0 = a0.getD (if min t (bitRev L t) < i + 1 then bitRev L t else t) 0) →
        (bit_reverse_ntt.outer (2 ^ L) k (i + 1) j cur').length = 2 ^ L ∧
        ∀ t, t < 2 ^ L →
          (bit_reverse_ntt.outer (2 ^ L) k (i + 1) j cur').getD t 0 = a0.getD (bitRev L t) 0 := by
      intro cur' hl' hinv'
      have := ih (i + 1) cur' (by omega) (by omega) hl' hinv'
      rw [hnext] at this
      exact this
    apply key
    · split
      · simp [hlen]
      · exact hlen
    · intro t ht
      have hti := hinv t ht
      have hrt := bitRev_lt L t
      have hinvt := bitRev_involutive L t ht
      by_cases hsw : i < j
      · rw [if_pos hsw, getD_set_eq, getD_set_eq]
        simp only [List.length_set, hlen]
        by_cases htj : j = t
        · subst htj
          rw [if_pos ⟨rfl, hjlt⟩]
          have hii := hinv i (by omega)
          rw [hj, if_neg (by rw [Nat.min_eq_left (le_of_lt hsw)]; omega)] at hii
          rw [hii, hinvol, if_pos (by rw [Nat.min_eq_right (le_of_lt hsw)]; omega)]
        · rw [if_neg (fun h => htj h.1)]
          by_cases hti' : i = t
          · subst hti'
            rw [if_pos ⟨rfl, by omega⟩]
            have hjj := hinv j hjlt
            rw [hinvol, if_neg (by rw [Nat.min_eq_right (le_of_lt hsw)]; omega)] at hjj
            rw [hjj, hj, if_pos (by rw [Nat.min_eq_left (le_of_lt hsw)]; omega)]
          · rw [if_neg (fun h => hti' h.1), hti]
            have hne : bitRev L t ≠ i := by
              intro h
              apply htj
              rw [← hinvt, h, hj]
            by_cases hm : min t (bitRev L t) < i
            · rw [if_pos hm, if_pos (by omega)]
            · rw [if_neg hm, if_neg]
              intro hlt
              have : min t (bitRev L t) = i := by omega
              rcases Nat.le_total t (bitRev L t) with hle | hle
              · rw [Nat.min_eq_left hle] at this
                exact hti' this.symm
              · rw [Nat.min_eq_right hle] at this
                exact hne this
      · rw [if_neg hsw, hti]
        by_cases hm : min t (bitRev L t) < i
        · rw [if_pos hm, if_pos (by omega)]
        · by_cases hm1 : min t (bitRev L t) < i + 1
          · rw [if_neg hm, if_pos hm1]
            have hmi : min t (bitRev L t) = i := by omega
            rcases Nat.le_total t (bitRev L t) with hle | hle
            · rw [Nat.min_eq_left hle] at hmi
              have hrt' : bitRev L t = j := by rw [hmi, hj]
              have hjt : j = t := by omega
              rw [hrt', hjt]
            · rw [Nat.min_eq_right hle] at hmi
              have htj : t = j := by rw [← hinvt, hmi, hj]
              have hit : i = t := by omega
              rw [hmi, hit]
          · rw [if_neg hm, if_neg hm1]

/-- `bit_reverse_ntt` on an array of `2^L` elements puts element `bitRev L t` at
position `t`. -/
theorem bit_reverse_ntt_spec (L : Nat) (hL : L ≤ 32) (a : List Nat) (h : a.length = 2 ^ L) :
    (bit_reverse_ntt a (2 ^ L)).length = 2 ^ L ∧
    ∀ t, t < 2 ^ L → (bit_reverse_ntt a (2 ^ L)).getD t 0 = a.getD (bitRev L t) 0 := by
  unfold bit_reverse_ntt
  by_cases hL0 : L = 0
  · subst hL0
    simp only [pow_zero, Nat.sub_self, bit_reverse_ntt.outer]
    refine ⟨by simpa using h, ?_⟩
    intro t ht
    have : t = 0 := by omega
    subst this
    rfl
  · have h1 : 1 ≤ L := by omega
    have hpow : 2 ≤ 2 ^ L := by
      calc 2 = 2 ^ 1 := by norm_num
        _ ≤ 2 ^ L := Nat.pow_le_pow_right (by norm_num) h1
    have := bitReverse_outer_spec L h1 hL a (2 ^ L - 1) 1 a (by omega) (le_refl _) h (by
      intro t ht
      by_cases hm : min t (bitRev L t) < 1
      · rw [if_pos hm]
        have hm0 : min t (bitRev L t) = 0 := by omega
        rcases Nat.le_total t (bitRev L t) with hle | hle
        · rw [Nat.min_eq_left hle] at hm0
          subst hm0
          rw [bitRev_zero]
        · rw [Nat.min_eq_right hle] at hm0
          have := bitRev_involutive L t ht
          rw [hm0, bitRev_zero] at this
          rw [hm0, ← this]
      · rw [if_neg hm])
    simpa [bitRev_zero] using this

/-! ## The butterfly passes -/

theorem cast_mod_MOD (x : Nat) : ((x % MOD : Nat) : ZMod MOD) = (x : ZMod MOD) :=
  ZMod.natCast_mod x MOD

theorem wrap_small {x : Nat} (h : x < ULL) : x % ULL = x := Nat.mod_eq_of_lt h

theorem mul_lt_ULL {x y : Nat} (hx : x < MOD) (hy : y < MOD) : x * y < ULL := by
  have h1 : x * y ≤ MOD * MOD := Nat.mul_le_mul (le_of_lt hx) (le_of_lt hy)
  have h2 : MOD * MOD < ULL := by decide
  omega

/-- One run of the butterfly loop on the block starting at `i`. -/
theorem butterflies_spec (wlen i half : Nat) (hw : wlen < MOD) (k : Nat) :
    ∀ (j w : Nat) (a : List Nat), j + k = half → w < MOD → (∀ t, a.getD t 0 < MOD) →
      i + 2 * half ≤ a.length →
      (ntt.butterflies wlen i half k j w a).length = a.length ∧
      (∀ t, (ntt.butterflies wlen i half k j w a).getD t 0 < MOD) ∧
      ∀ t, (((ntt.butterflies wlen i half k j w a).getD t 0 : Nat) : ZMod MOD) =
        if i + j ≤ t ∧ t < i + half then
          (a.getD t 0 : ZMod MOD) +
            (a.getD (t + half) 0 : ZMod MOD) * ((w : ZMod MOD) * (wlen : ZMod MOD) ^ (t - i - j))
        else if i + half + j ≤ t ∧ t < i + 2 * half then
          (a.getD (t - half) 0 : ZMod MOD) -
            (a.getD t 0 : ZMod MOD) * ((w : ZMod MOD) * (wlen : ZMod MOD) ^ (t - half - i - j))
        else (a.getD t 0 : ZMod MOD) := by
  induction k with
  | zero =>
    intro j w a hjk hw' hb hlen
    refine ⟨rfl, hb, ?_⟩
    intro t
    simp only [ntt.butterflies]
    rw [if_neg (by omega), if_neg (by omega)]
  | succ k ih =>
    intro j w a hjk hw' hb hlen
    unfold ntt.butterflies
    simp only
    have hu := hb (i + j)
    have hx := hb (i + j + half)
    generalize hue : a.getD (i + j) 0 = u at hu
    generalize hxe : a.getD (i + j + half) 0 = x at hx
    have hv : (x * w) % ULL % MOD < MOD := Nat.mod_lt _ (by decide)
    have hvc : (((x * w) % ULL % MOD : Nat) : ZMod MOD) = (x : ZMod MOD) * (w : ZMod MOD) := by
      rw [wrap_small (mul_lt_ULL hx hw'), cast_mod_MOD]
      push_cast
      rfl
    generalize hve : (x * w) % ULL % MOD = v at hv hvc
    have hMOD : MOD < 4294967296 := by decide
    have hU : (18446744073709551616 : Nat) = ULL := rfl
    have h1 : (u + v) % ULL = u + v := wrap_small (by rw [← hU]; omega)
    have h2 : (u + MOD - v) % ULL = u + MOD - v := wrap_small (by rw [← hU]; omega)
    have h3 : (w * wlen) % ULL = w * wlen := wrap_small (mul_lt_ULL hw' hw)
    rw [h1, h2, h3]
    have hc1 : (((u + v) % MOD : Nat) : ZMod MOD) = (u : ZMod MOD) + (x : ZMod MOD) * w := by
      rw [cast_mod_MOD]
      push_cast
      rw [hvc]
    have hc2 : (((u + MOD - v) % MOD : Nat) : ZMod MOD) = (u : ZMod MOD) - (x : ZMod MOD) * w := by
      have hz : ((MOD : Nat) : ZMod MOD) = 0 := ZMod.natCast_self MOD
      rw [cast_mod_MOD, Nat.cast_sub (by omega), Nat.cast_add, hz, hvc]
      ring
    have hc3 : (((w * wlen) % MOD : Nat) : ZMod MOD) = (w : ZMod MOD) * wlen := by
      rw [cast_mod_MOD]
      push_cast
      rfl
    generalize hn1 : (u + v) % MOD = n1 at hc1
    generalize hn2 : (u + MOD - v) % MOD = n2 at hc2
    generalize hw2 : (w * wlen) % MOD = w2 at hc3
    have hn1lt : n1 < MOD := by rw [← hn1]; exact Nat.mod_lt _ (by decide)
    have hn2lt : n2 < MOD := by rw [← hn2]; exact Nat.mod_lt _ (by decide)
    have hw2lt : w2 < MOD := by rw [← hw2]; exact Nat.mod_lt _ (by decide)
    have hget : ∀ t, ((a.set (i + j) n1).set (i + j + half) n2).getD t 0 =
        if t = i + j + half then n2 else if t = i + j then n1 else a.getD t 0 := by
      intro t
      rw [getD_set_eq, getD_set_eq]
      simp only [List.length_set]
      by_cases e1 : t = i + j + half
      · subst e1
        rw [if_pos ⟨rfl, by omega⟩, if_pos rfl]
      · rw [if_neg (fun h => e1 h.1.symm), if_neg e1]
        by_cases e2 : t = i + j
        · subst e2
          rw [if_pos ⟨rfl, by omega⟩, if_pos rfl]
        · rw [if_neg (fun h => e2 h.1.symm), if_neg e2]
    have hb' : ∀ t, ((a.set (i + j) n1).set (i + j + half) n2).getD t 0 < MOD := by
      intro t
      rw [hget]
      split
      · exact hn2lt
      · split
        · exact hn1lt
        · exact hb t
    obtain ⟨r1, r2, r3⟩ := ih (j + 1) w2 ((a.set (i + j) n1).set (i + j + half) n2) (by omega)
      hw2lt hb' (by simp only [List.length_set]; exact hlen)
    refine ⟨by rw [r1]; simp only [List.length_set], r2, ?_⟩
    intro t
    rw [r3 t, hget, hget, hget]
    by_cases c1 : i + j ≤ t ∧ t < i + half
    · rw [if_pos c1]
      by_cases c2 : t = i + j
      · subst c2
        rw [if_neg (by omega), if_neg (by omega), if_neg (by omega), if_pos rfl, hc1, hxe]
        have : i + j - i - j = 0 := by omega
        rw [this, pow_zero, mul_one, hue]
      · rw [if_pos (by omega), if_neg (by omega), if_neg c2, if_neg (by omega), if_neg (by omega),
          hc3]
        have : t - i - j = (t - i - (j + 1)) + 1 := by omega
        rw [this, pow_succ]
        ring
    · rw [if_neg c1]
      by_cases c3 : i + half + j ≤ t ∧ t < i + 2 * half
      · rw [if_pos c3]
        by_cases c4 : t = i + j + half
        · subst c4
          rw [if_neg (by omega), if_neg (by omega), if_pos rfl, hc2]
          have e1 : i + j + half - half = i + j := by omega
          have e2 : i + j - i - j = 0 := by omega
          rw [e1, e2, hue, hxe, pow_zero, mul_one]
        · rw [if_neg (by omega), if_pos (by omega), if_neg c4, if_neg (by omega),
            if_neg (by omega), if_neg (by omega), hc3]
          have : t - half - i - j = (t - half - i - (j + 1)) + 1 := by omega
          rw [this, pow_succ]
          ring
      · rw [if_neg c3, if_neg (by omega), if_neg (by omega), if_neg (by omega), if_neg (by omega)]

theorem mod_block {q len t : Nat} (h1 : q * len ≤ t) (h2 : t < (q + 1) * len) :
    t % len = t - q * len := by
  have e : t = (t - q * len) + q * len := by omega
  have hlt : t - q * len < len := by
    have : (q + 1) * len = q * len + len := by ring
    omega
  conv_lhs => rw [e]
  rw [Nat.add_mul_mod_self_right, Nat.mod_eq_of_lt hlt]

/-- One pass over all blocks of length `len = 2 * half`. -/
theorem blocks_spec (len half wlen n : Nat) (hlen : len = 2 * half) (hw : wlen < MOD)
    (a0 : List Nat) (k : Nat) :
    ∀ (q : Nat) (cur : List Nat), (q + k) * len = n → cur.length = n →
      (∀ t, cur.getD t 0 < MOD) →
      (∀ t, ((cur.getD t 0 : Nat) : ZMod MOD) =
        if t < q * len then
          (if t % len < half then
            (a0.getD t 0 : ZMod MOD) + (a0.getD (t + half) 0 : ZMod MOD) * (wlen : ZMod MOD) ^ (t % len)
          else (a0.getD (t - half) 0 : ZMod MOD) -
            (a0.getD t 0 : ZMod MOD) * (wlen : ZMod MOD) ^ (t % len - half))
        else (a0.getD t 0 : ZMod MOD)) →
      (ntt.blocks len wlen k (q * len) cur).length = n ∧
      (∀ t, (ntt.blocks len wlen k (q * len) cur).getD t 0 < MOD) ∧
      ∀ t, t < n → (((ntt.blocks len wlen k (q * len) cur).getD t 0 : Nat) : ZMod MOD) =
        if t % len < half then
          (a0.getD t 0 : ZMod MOD) + (a0.getD (t + half) 0 : ZMod MOD) * (wlen : ZMod MOD) ^ (t % len)
        else (a0.getD (t - half) 0 : ZMod MOD) -
          (a0.getD t 0 : ZMod MOD) * (wlen : ZMod MOD) ^ (t % len - half) := by
  induction k with
  | zero =>
    intro q cur hq hl hb hinv
    refine ⟨hl, hb, ?_⟩
    intro t ht
    simp only [ntt.blocks]
    rw [hinv t, if_pos (by simp at hq; omega)]
  | succ k ih =>
    intro q cur hq hl hb hinv
    unfold ntt.blocks
    have hh : len / 2 = half := by omega
    rw [hh]
    have hqn : (q + 1) * len ≤ n := by
      rw [← hq]
      exact Nat.mul_le_mul_right _ (by omega)
    have hexp : (q + 1) * len = q * len + len := by ring
    obtain ⟨b1, b2, b3⟩ := butterflies_spec wlen (q * len) half hw half 0 1 cur (by omega)
      (by decide) hb (by omega)
    have hnext : q * len + len = (q + 1) * len := by ring
    rw [hnext]
    apply ih (q + 1) _ (by rw [← hq]; ring) (by rw [b1, hl]) b2
    intro t
    rw [b3 t]
    simp only [Nat.add_zero, Nat.cast_one, one_mul, Nat.sub_zero]
    by_cases c1 : q * len ≤ t ∧ t < q * len + half
    · rw [if_pos c1, if_pos (by omega)]
      have hm := @mod_block q len t c1.1 (by omega)
      rw [hm, if_pos (by omega), hinv t, if_neg (by omega), hinv (t + half), if_neg (by omega)]
    · rw [if_neg c1]
      by_cases c2 : q * len + half ≤ t ∧ t < q * len + 2 * half
      · rw [if_pos c2, if_pos (by omega)]
        have hm := @mod_block q len t (by omega) (by omega)
        rw [hm, if_neg (by omega), hinv t, if_neg (by omega), hinv (t - half),
          if_neg (by omega)]
        have : t - half - q * len = t - q * len - half := by omega
        rw [this]
      · rw [if_neg c2, hinv t]
        by_cases c3 : t < q * len
        · rw [if_pos c3, if_pos (show t < (q + 1) * len by omega)]
        · rw [if_neg c3, if_neg (show ¬ t < (q + 1) * len by omega)]

theorem sum_range_even_odd (f : Nat → ZMod MOD) (N : Nat) :
    ∑ m in Finset.range (2 * N), f m =
      ∑ m in Finset.range N, f (2 * m) + ∑ m in Finset.range N, f (2 * m + 1) := by
  induction N with
  | zero => simp
  | succ N ih =>
    have e : 2 * (N + 1) = 2 * N + 1 + 1 := by ring
    rw [e, Finset.sum_range_succ, Finset.sum_range_succ, ih, Finset.sum_range_succ,
      Finset.sum_range_succ]
    ring

/-- The radix-2 step: a transform of size `2^(s+1)` from the two transforms of
size `2^s` of the even and the odd part. -/
theorem blockDFT_step (ρ : ZMod MOD) (d s : Nat) (x : Nat → ZMod MOD) (c k : Nat)
    (hneg : ρ ^ (2 ^ s) = -1) :
    blockDFT ρ d (s + 1) x c k =
      blockDFT (ρ ^ 2) (d + 1) s x (2 * c) k + ρ ^ k * blockDFT (ρ ^ 2) (d + 1) s x (2 * c + 1) k ∧
    blockDFT ρ d (s + 1) x c (k + 2 ^ s) =
      blockDFT (ρ ^ 2) (d + 1) s x (2 * c) k - ρ ^ k * blockDFT (ρ ^ 2) (d + 1) s x (2 * c + 1) k := by
  unfold blockDFT
  have e : 2 ^ (s + 1) = 2 * 2 ^ s := by rw [pow_succ]; ring
  rw [e, sum_range_even_odd, sum_range_even_odd, bitRev_double, bitRev_double_succ,
    Finset.mul_sum]
  have hsq : (ρ ^ (2 ^ s)) ^ 2 = 1 := by rw [hneg]; ring
  constructor
  · congr 1
    · apply Finset.sum_congr rfl
      intro m _
      have e1 : bitRev d c + 2 ^ d * (2 * m) = bitRev d c + 2 ^ (d + 1) * m := by
        rw [pow_succ]; ring
      rw [e1, ← pow_mul]
      congr 2
      ring
    · apply Finset.sum_congr rfl
      intro m _
      have e1 : bitRev d c + 2 ^ d * (2 * m + 1) = 2 ^ d + bitRev d c + 2 ^ (d + 1) * m := by
        rw [pow_succ]; ring
      rw [e1, ← pow_mul]
      have e2 : (2 * m + 1) * k = k + 2 * (m * k) := by ring
      rw [e2, pow_add ρ]
      ring
  · rw [sub_eq_add_neg, ← Finset.sum_neg_distrib]
    congr 1
    · apply Finset.sum_congr rfl
      intro m _
      have e1 : bitRev d c + 2 ^ d * (2 * m) = bitRev d c + 2 ^ (d + 1) * m := by
        rw [pow_succ]; ring
      rw [e1, ← pow_mul]
      have e2 : 2 * m * (k + 2 ^ s) = 2 * (m * k) + 2 ^ s * 2 * m := by ring
      rw [e2, pow_add ρ, pow_mul ρ (2 ^ s * 2) m, pow_mul ρ (2 ^ s) 2, hsq, one_pow, mul_one]
    · apply Finset.sum_congr rfl
      intro m _
      have e1 : bitRev d c + 2 ^ d * (2 * m + 1) = 2 ^ d + bitRev d c + 2 ^ (d + 1) * m := by
        rw [pow_succ]; ring
      rw [e1, ← pow_mul]
      have e2 : (2 * m + 1) * (k + 2 ^ s) = k + 2 * (m * k) + 2 ^ s * 2 * m + 2 ^ s := by ring
      rw [e2, pow_add ρ, pow_add ρ, pow_add ρ, pow_mul ρ (2 ^ s * 2) m, pow_mul ρ (2 ^ s) 2, hsq,
        one_pow, hneg]
      ring

/-! ## Roots of unity -/

theorem G_pow_half : (G : ZMod MOD) ^ ((MOD - 1) / 2) = -1 := by
  have h : mod_pow G ((MOD - 1) / 2) MOD = MOD - 1 := by decide
  have hc := mod_pow_cast G ((MOD - 1) / 2) (by decide)
  rw [h] at hc
  rw [← hc, Nat.cast_sub (by decide), ZMod.natCast_self]
  simp

theorem G_ne_zero : ((G : Nat) : ZMod MOD) ≠ 0 := by
  haveI : Fact (Nat.Prime MOD) := ⟨prime_MOD⟩
  intro h
  have h1 := G_pow_half
  rw [h, zero_pow (by decide)] at h1
  have h2 : (1 : ZMod MOD) = 0 := by linear_combination h1
  exact one_ne_zero h2

theorem exponent_split : ∀ s, s ≤ 23 → (MOD - 1) / 2 ^ s * 2 ^ s = MOD - 1 := by decide

theorem exponent_double (s : Nat) (hs : s + 1 ≤ 23) :
    (MOD - 1) / 2 ^ (s + 1) * 2 = (MOD - 1) / 2 ^ s := by
  have h1 := exponent_split (s + 1) hs
  have h2 := exponent_split s (by omega)
  have hp : 0 < 2 ^ s := by positivity
  rw [pow_succ] at h1
  have h3 : (MOD - 1) / (2 ^ s * 2) * 2 * 2 ^ s = (MOD - 1) / 2 ^ s * 2 ^ s := by
    have e : (MOD - 1) / (2 ^ s * 2) * 2 * 2 ^ s = (MOD - 1) / (2 ^ s * 2) * (2 ^ s * 2) := by
      ring
    rw [e, h1, h2]
  rw [pow_succ]
  exact Nat.eq_of_mul_eq_mul_right hp h3

theorem stageRoot_sq (s : Nat) (hs : s + 1 ≤ 23) : stageRoot (s + 1) ^ 2 = stageRoot s := by
  unfold stageRoot
  rw [← pow_mul, exponent_double s hs]

theorem stageRoot_half (s : Nat) (hs : s + 1 ≤ 23) : stageRoot (s + 1) ^ (2 ^ s) = -1 := by
  unfold stageRoot
  rw [← pow_mul, ← G_pow_half]
  congr 1
  have h1 := exponent_split (s + 1) hs
  have h2 : (MOD - 1) / 2 * 2 = MOD - 1 := by decide
  rw [pow_succ] at h1
  have h3 : (MOD - 1) / (2 ^ s * 2) * 2 ^ s * 2 = (MOD - 1) / 2 * 2 := by
    have e : (MOD - 1) / (2 ^ s * 2) * 2 ^ s * 2 = (MOD - 1) / (2 ^ s * 2) * (2 ^ s * 2) := by
      ring
    rw [e, h1, h2]
  rw [pow_succ]
  exact Nat.eq_of_mul_eq_mul_right (by norm_num) h3

theorem stageRoot_pow (s : Nat) (hs : s ≤ 23) : stageRoot s ^ (2 ^ s) = 1 := by
  haveI : Fact (Nat.Prime MOD) := ⟨prime_MOD⟩
  unfold stageRoot
  rw [← pow_mul, exponent_split s hs]
  exact ZMod.pow_card_sub_one_eq_one G_ne_zero

theorem stageRoot_ne_zero (s : Nat) (hs : s ≤ 23) : stageRoot s ≠ 0 := by
  haveI : Fact (Nat.Prime MOD) := ⟨prime_MOD⟩
  intro h
  have h1 := stageRoot_pow s hs
  rw [h, zero_pow (by positivity)] at h1
  exact zero_ne_one h1

theorem passRoot_sq (invert : Bool) (s : Nat) (hs : s + 1 ≤ 23) :
    passRoot invert (s + 1) ^ 2 = passRoot invert s := by
  haveI : Fact (Nat.Prime MOD) := ⟨prime_MOD⟩
  unfold passRoot
  cases invert
  · simpa using stageRoot_sq s hs
  · simp only [if_true]
    rw [inv_pow, stageRoot_sq s hs]

theorem passRoot_half (invert : Bool) (s : Nat) (hs : s + 1 ≤ 23) :
    passRoot invert (s + 1) ^ (2 ^ s) = -1 := by
  haveI : Fact (Nat.Prime MOD) := ⟨prime_MOD⟩
  unfold passRoot
  cases invert
  · simpa using stageRoot_half s hs
  · simp only [if_true]
    rw [inv_pow, stageRoot_half s hs]
    exact inv_neg_one

/-- The root computed by `ntt` for the pass of block length `2^s`. -/
theorem wlen_spec (invert : Bool) (s : Nat) (hs : s ≤ 23) :
    (if invert = true then mod_inverse (mod_pow G ((MOD - 1) / 2 ^ s) MOD) MOD
      else mod_pow G ((MOD - 1) / 2 ^ s) MOD) < MOD ∧
    (((if invert = true then mod_inverse (mod_pow G ((MOD - 1) / 2 ^ s) MOD) MOD
      else mod_pow G ((MOD - 1) / 2 ^ s) MOD : Nat) : ZMod MOD)) = passRoot invert s := by
  have hexp : (MOD - 1) / 2 ^ s < 18446744073709551616 := by
    have : (MOD - 1) / 2 ^ s ≤ MOD - 1 := Nat.div_le_self _ _
    have h2 : MOD - 1 < 18446744073709551616 := by decide
    omega
  have hc : ((mod_pow G ((MOD - 1) / 2 ^ s) MOD : Nat) : ZMod MOD) = stageRoot s := by
    rw [mod_pow_cast G _ hexp]
    rfl
  unfold passRoot
  cases invert
  · simp only [Bool.false_eq_true, if_false]
    exact ⟨mod_pow_lt G _ hexp, hc⟩
  · simp only [if_true]
    refine ⟨mod_pow_lt _ _ (by decide), ?_⟩
    rw [mod_inverse_cast _ (by rw [hc]; exact stageRoot_ne_zero s hs), hc]

/-! ## The passes of `ntt` -/

/-- The passes of `ntt` from block length `2^(s+1)` on, started on the array
that holds the transforms of size `2^s`, end with the transform of size `2^L`. -/
theorem stages_spec (invert : Bool) (x : Nat → ZMod MOD) (L : Nat) (hL : L ≤ 23) (d : Nat) :
    ∀ (s fuel : Nat) (a : List Nat), s + d = L → d ≤ fuel → a.length = 2 ^ L →
      (∀ t, a.getD t 0 < MOD) →
      (∀ c k, c < 2 ^ d → k < 2 ^ s →
        ((a.getD (c * 2 ^ s + k) 0 : Nat) : ZMod MOD) = blockDFT (passRoot invert s) d s x c k) →
      (ntt.stages (2 ^ L) invert fuel (2 ^ (s + 1)) a).length = 2 ^ L ∧
      (∀ t, (ntt.stages (2 ^ L) invert fuel (2 ^ (s + 1)) a).getD t 0 < MOD) ∧
      ∀ k, k < 2 ^ L →
        (((ntt.stages (2 ^ L) invert fuel (2 ^ (s + 1)) a).getD k 0 : Nat) : ZMod MOD) =
          blockDFT (passRoot invert L) 0 L x 0 k := by
  induction d with
  | zero =>
    intro s fuel a hs hf hl hb hinv
    have hsL : s = L := by omega
    subst hsL
    have hgt : ¬ 2 ^ (s + 1) ≤ 2 ^ s := by
      rw [pow_succ]
      have : 0 < 2 ^ s := by positivity
      omega
    have hret : ntt.stages (2 ^ s) invert fuel (2 ^ (s + 1)) a = a := by
      cases fuel with
      | zero => rfl
      | succ f =>
        unfold ntt.stages
        rw [if_neg hgt]
    rw [hret]
    refine ⟨hl, hb, ?_⟩
    intro k hk
    have := hinv 0 k (by norm_num) hk
    simpa using this
  | succ d ih =>
    intro s fuel a hs hf hl hb hinv
    obtain ⟨f, rfl⟩ : ∃ f, fuel = f + 1 := ⟨fuel - 1, by omega⟩
    have hs1 : s + 1 ≤ 23 := by omega
    have hLe : L = d + (s + 1) := by omega
    have hn : 2 ^ L = 2 ^ d * 2 ^ (s + 1) := by rw [hLe, pow_add]
    have hlenpos : 0 < 2 ^ (s + 1) := by positivity
    have hle : 2 ^ (s + 1) ≤ 2 ^ L := by
      rw [hn]
      exact Nat.le_mul_of_pos_left _ (by positivity)
    unfold ntt.stages
    rw [if_pos hle]
    simp only
    obtain ⟨w1, w2⟩ := wlen_spec invert (s + 1) hs1
    generalize (if invert = true then mod_inverse (mod_pow G ((MOD - 1) / 2 ^ (s + 1)) MOD) MOD
      else mod_pow G ((MOD - 1) / 2 ^ (s + 1)) MOD) = wlen at w1 w2
    have hcount : (2 ^ L + 2 ^ (s + 1) - 1) / 2 ^ (s + 1) = 2 ^ d := by
      rw [hn]
      have e : 2 ^ d * 2 ^ (s + 1) + 2 ^ (s + 1) - 1 = (2 ^ (s + 1) - 1) + 2 ^ (s + 1) * 2 ^ d := by
        have : 2 ^ d * 2 ^ (s + 1) = 2 ^ (s + 1) * 2 ^ d := by ring
        omega
      rw [e, Nat.add_mul_div_left _ _ hlenpos, Nat.div_eq_of_lt (by omega)]
      simp
    rw [hcount]
    have hhalf : 2 ^ (s + 1) = 2 * 2 ^ s := by rw [pow_succ]; ring
    obtain ⟨b1, b2, b3⟩ := blocks_spec (2 ^ (s + 1)) (2 ^ s) wlen (2 ^ L) hhalf w1 a (2 ^ d) 0 a
      (by rw [hn]; ring) hl hb (by
        intro t
        rw [if_neg (by omega)])
    rw [Nat.zero_mul] at b1 b2 b3
    have hnext : 2 ^ (s + 1) * 2 = 2 ^ (s + 1 + 1) := by rw [pow_succ (n := s + 1)]
    rw [hnext]
    apply ih (s + 1) f _ (by omega) (by omega) b1 b2
    intro c k hc hk
    have hidx : c * 2 ^ (s + 1) + k < 2 ^ L := by
      rw [hn]
      have h1 : (c + 1) * 2 ^ (s + 1) ≤ 2 ^ d * 2 ^ (s + 1) := Nat.mul_le_mul_right _ (by omega)
      have h2 : (c + 1) * 2 ^ (s + 1) = c * 2 ^ (s + 1) + 2 ^ (s + 1) := by ring
      omega
    have hmod : (c * 2 ^ (s + 1) + k) % 2 ^ (s + 1) = k := by
      rw [Nat.add_comm, Nat.add_mul_mod_self_right, Nat.mod_eq_of_lt hk]
    have hc2 : 2 * c < 2 ^ (d + 1) := by rw [pow_succ]; omega
    have hc3 : 2 * c + 1 < 2 ^ (d + 1) := by rw [pow_succ]; omega
    have hstep := blockDFT_step (passRoot invert (s + 1)) d s x c
    rw [passRoot_sq invert s hs1] at hstep
    rw [b3 _ hidx, hmod, w2]
    by_cases hlo : k < 2 ^ s
    · rw [if_pos hlo]
      have i1 : c * 2 ^ (s + 1) + k = 2 * c * 2 ^ s + k := by rw [pow_succ]; ring
      have i2 : c * 2 ^ (s + 1) + k + 2 ^ s = (2 * c + 1) * 2 ^ s + k := by rw [pow_succ]; ring
      rw [i2, i1, hinv (2 * c) k hc2 hlo, hinv (2 * c + 1) k hc3 hlo,
        (hstep k (passRoot_half invert s hs1)).1]
      ring
    · rw [if_neg hlo]
      have hk2 : k - 2 ^ s < 2 ^ s := by omega
      have i1 : c * 2 ^ (s + 1) + k - 2 ^ s = 2 * c * 2 ^ s + (k - 2 ^ s) := by
        have : c * 2 ^ (s + 1) = 2 * c * 2 ^ s := by rw [pow_succ]; ring
        omega
      have i2 : c * 2 ^ (s + 1) + k = (2 * c + 1) * 2 ^ s + (k - 2 ^ s) := by
        have : c * 2 ^ (s + 1) = 2 * c * 2 ^ s := by rw [pow_succ]; ring
        have : (2 * c + 1) * 2 ^ s = 2 * c * 2 ^ s + 2 ^ s := by ring
        omega
      rw [i1]
      rw [i2, hinv (2 * c) _ hc2 hk2, hinv (2 * c + 1) _ hc3 hk2]
      have hk3 : k = (k - 2 ^ s) + 2 ^ s := by omega
      conv_rhs => rw [hk3]
      rw [(hstep (k - 2 ^ s) (passRoot_half invert s hs1)).2]
      ring

/-! ## The transform computed by `ntt` -/

theorem toInt_of_lt (n : Nat) (h : n < 2147483648) : toInt n = (n : Int) := by
  unfold toInt
  rw [if_pos h]

/-- `ntt` on a power of two `n` with `2 * n` in the range of `int`: the bit
reversal, the passes, and for the inverse transform the scaling. -/
theorem ntt_eq (a : List Nat) (n : Nat) (invert : Bool) (h0 : n > 0)
    (hp : Nat.land n (n - 1) = 0) (hlt : 2 * n < 2147483648) :
    ntt a n invert =
      (if invert then
        .ok (((ntt.stages n invert 64 2 (bit_reverse_ntt a n)).take n).map
            (fun x => (x * mod_inverse n MOD) % ULL % MOD) ++
          (ntt.stages n invert 64 2 (bit_reverse_ntt a n)).drop n)
      else .ok (ntt.stages n invert 64 2 (bit_reverse_ntt a n))) := by
  unfold ntt
  simp only [toInt_of_lt n (by omega), Int.toNat_ofNat]
  rw [if_pos ⟨by omega, hp⟩, if_pos hlt]

theorem two_pow_le_29 {L : Nat} (hL : L ≤ 29) : 2 * 2 ^ L < 2147483648 := by
  have h : 2 ^ L ≤ 2 ^ 29 := Nat.pow_le_pow_right (by norm_num) hL
  norm_num at h
  omega

theorem getD_map_zero (f : Nat → Nat) (hf : f 0 = 0) (l : List Nat) (t : Nat) :
    (l.map f).getD t 0 = f (l.getD t 0) := by
  have h := List.getD_map l 0 (n := t) f
  rw [hf] at h
  exact h

theorem two_pow_ne_zero (L : Nat) : ((2 ^ L : Nat) : ZMod MOD) ≠ 0 := by
  haveI : Fact (Nat.Prime MOD) := ⟨prime_MOD⟩
  push_cast
  apply pow_ne_zero
  intro h
  have h2 : ((2 : Nat) : ZMod MOD) = 0 := by exact_mod_cast h
  rw [ZMod.natCast_zmod_eq_zero_iff_dvd] at h2
  have : MOD ≤ 2 := Nat.le_of_dvd (by norm_num) h2
  exact absurd this (by decide)

/-- On `2^L` residues `ntt` succeeds and returns the discrete transform for the
root `passRoot invert L`, divided by `2^L` when `invert` is set. -/
theorem ntt_spec (invert : Bool) (L : Nat) (hL : L ≤ 23) (a : List Nat)
    (hl : a.length = 2 ^ L) (hb : ∀ t, a.getD t 0 < MOD) :
    ∃ r, ntt a (2 ^ L) invert = .ok r ∧ r.length = 2 ^ L ∧ (∀ t, r.getD t 0 < MOD) ∧
      ∀ k, k < 2 ^ L → ((r.getD k 0 : Nat) : ZMod MOD) =
        (if invert = true then (((2 ^ L : Nat) : ZMod MOD))⁻¹ else 1) *
          ∑ m in Finset.range (2 ^ L), residues a m * passRoot invert L ^ (m * k) := by
  have hcond : 2 ^ L > 0 ∧ Nat.land (2 ^ L) (2 ^ L - 1) = 0 := by
    refine ⟨by positivity, ?_⟩
    show 2 ^ L &&& (2 ^ L - 1) = 0
    rw [Nat.and_pow_two_sub_one_eq_mod]
    simp
  obtain ⟨r1, r2⟩ := bit_reverse_ntt_spec L (by omega) a hl
  have hb1 : ∀ t, (bit_reverse_ntt a (2 ^ L)).getD t 0 < MOD := by
    intro t
    by_cases ht : t < 2 ^ L
    · rw [r2 t ht]
      exact hb _
    · rw [List.getD_eq_default _ _ (by omega)]
      decide
  obtain ⟨s1, s2, s3⟩ := stages_spec invert (residues a) L hL L 0 64
    (bit_reverse_ntt a (2 ^ L)) (by omega) (by omega) r1 hb1 (by
      intro c k hc hk
      have hk0 : k = 0 := by omega
      subst hk0
      unfold blockDFT
      rw [pow_zero, Nat.mul_one, Nat.add_zero, r2 c hc, Finset.sum_range_one]
      simp [residues])
  have e2 : 2 ^ (0 + 1) = 2 := by norm_num
  rw [e2] at s1 s2 s3
  have hsum : ∀ k, blockDFT (passRoot invert L) 0 L (residues a) 0 k =
      ∑ m in Finset.range (2 ^ L), residues a m * passRoot invert L ^ (m * k) := by
    intro k
    unfold blockDFT
    apply Finset.sum_congr rfl
    intro m _
    simp [bitRev]
  rw [ntt_eq _ _ _ hcond.1 hcond.2 (two_pow_le_29 (by omega))]
  cases invert
  · refine ⟨_, rfl, s1, s2, ?_⟩
    intro k hk
    rw [s3 k hk, hsum]
    simp
  · simp only [if_true]
    refine ⟨_, rfl, ?_, ?_, ?_⟩
    · rw [List.length_append, List.length_map, List.length_take, List.length_drop, s1]
      simp
    · intro t
      rw [List.take_of_length_le (le_of_eq s1), List.drop_of_length_le (le_of_eq s1),
        List.append_nil]
      by_cases ht : t < ((ntt.stages (2 ^ L) true 64 2 (bit_reverse_ntt a (2 ^ L))).map
          (fun x => (x * mod_inverse (2 ^ L) MOD) % ULL % MOD)).length
      · rw [List.getD_eq_getElem _ _ ht, List.getElem_map]
        exact Nat.mod_lt _ (by decide)
      · rw [List.getD_eq_default _ _ (by omega)]
        decide
    · intro k hk
      have hinv : mod_inverse (2 ^ L) MOD < MOD := mod_pow_lt _ _ (by decide)
      rw [List.take_of_length_le (le_of_eq s1), List.drop_of_length_le (le_of_eq s1),
        List.append_nil, getD_map_zero _ (by simp), wrap_small (mul_lt_ULL (s2 k) hinv), cast_mod_MOD,
        Nat.cast_mul, mod_inverse_cast _ (two_pow_ne_zero L), s3 k hk, hsum]
      ring

/-! ## Orthogonality of the roots and the convolution theorem -/

theorem neg_one_ne_one : (-1 : ZMod MOD) ≠ 1 := by
  haveI : Fact (Nat.Prime MOD) := ⟨prime_MOD⟩
  intro h
  have h2 : ((2 : Nat) : ZMod MOD) = 0 := by
    push_cast
    linear_combination -h
  rw [ZMod.natCast_zmod_eq_zero_iff_dvd] at h2
  have : MOD ≤ 2 := Nat.le_of_dvd (by norm_num) h2
  exact absurd this (by decide)

theorem stageRoot_order (L : Nat) (hL : L ≤ 23) : orderOf (stageRoot L) = 2 ^ L := by
  haveI : Fact (Nat.Prime 2) := ⟨Nat.prime_two⟩
  cases L with
  | zero =>
    have h := stageRoot_pow 0 hL
    rw [pow_zero, pow_one] at h
    rw [h, pow_zero, orderOf_one]
  | succ s =>
    apply orderOf_eq_prime_pow
    · rw [stageRoot_half s hL]
      exact neg_one_ne_one
    · exact stageRoot_pow (s + 1) hL

theorem stageRoot_pow_eq_one_iff (L : Nat) (hL : L ≤ 23) (t : Nat) :
    stageRoot L ^ t = 1 ↔ 2 ^ L ∣ t := by
  rw [← stageRoot_order L hL]
  exact (orderOf_dvd_iff_pow_eq_one).symm

theorem stageRoot_inv (L : Nat) (hL : L ≤ 23) : (stageRoot L)⁻¹ = stageRoot L ^ (2 ^ L - 1) := by
  haveI : Fact (Nat.Prime MOD) := ⟨prime_MOD⟩
  apply inv_eq_of_mul_eq_one_right
  have hp : 0 < 2 ^ L := by positivity
  rw [← pow_succ', Nat.sub_add_cancel hp]
  exact stageRoot_pow L hL

/-- Orthogonality: the sum of the powers of `ω^t` over a full period. -/
theorem root_sum (L : Nat) (hL : L ≤ 23) (t : Nat) :
    ∑ k in Finset.range (2 ^ L), (stageRoot L ^ t) ^ k =
      if 2 ^ L ∣ t then ((2 ^ L : Nat) : ZMod MOD) else 0 := by
  haveI : Fact (Nat.Prime MOD) := ⟨prime_MOD⟩
  by_cases h : 2 ^ L ∣ t
  · rw [if_pos h, (stageRoot_pow_eq_one_iff L hL t).mpr h]
    simp
  · rw [if_neg h]
    have hne : stageRoot L ^ t ≠ 1 := fun h1 => h ((stageRoot_pow_eq_one_iff L hL t).mp h1)
    rw [geom_sum_eq hne, ← pow_mul, mul_comm, pow_mul, stageRoot_pow L hL, one_pow, sub_self,
      zero_div]

theorem sum_transform_product (n : Nat) (a b : Nat → ZMod MOD) (w v : ZMod MOD) (j : Nat) :
    ∑ k in Finset.range n,
      ((∑ m in Finset.range n, a m * w ^ (m * k)) * (∑ m in Finset.range n, b m * w ^ (m * k))) *
        v ^ (k * j) =
    ∑ m in Finset.range n, ∑ p in Finset.range n,
      a m * b p * ∑ k in Finset.range n, (w ^ m * w ^ p * v ^ j) ^ k := by
  simp only [Finset.sum_mul_sum, Finset.sum_mul, Finset.mul_sum]
  rw [Finset.sum_comm]
  conv_rhs => rw [Finset.sum_comm]
  apply Finset.sum_congr rfl
  intro m _
  rw [Finset.sum_comm]
  apply Finset.sum_congr rfl
  intro p _
  apply Finset.sum_congr rfl
  intro k _
  ring

/-- The three transforms of the multiplication: forward on both arrays,
pointwise product, inverse.  The result is the cyclic convolution. -/
theorem ntt_convolution (L : Nat) (hL : L ≤ 23) (A B : List Nat)
    (hA : A.length = 2 ^ L) (hB : B.length = 2 ^ L)
    (hAb : ∀ t, A.getD t 0 < MOD) (hBb : ∀ t, B.getD t 0 < MOD) :
    ∃ fa fb c, ntt A (2 ^ L) false = .ok fa ∧ ntt B (2 ^ L) false = .ok fb ∧
      ntt (List.zipWith (fun x y => (x * y) % ULL % MOD) fa fb) (2 ^ L) true = .ok c ∧
      c.length = 2 ^ L ∧ (∀ t, c.getD t 0 < MOD) ∧
      ∀ j, j < 2 ^ L → ((c.getD j 0 : Nat) : ZMod MOD) =
        ∑ m in Finset.range (2 ^ L), ∑ p in Finset.range (2 ^ L),
          residues A m * residues B p *
            (if 2 ^ L ∣ m + p + (2 ^ L - 1) * j then 1 else 0) := by
  haveI : Fact (Nat.Prime MOD) := ⟨prime_MOD⟩
  obtain ⟨fa, a1, a2, a3, a4⟩ := ntt_spec false L hL A hA hAb
  obtain ⟨fb, b1, b2, b3, b4⟩ := ntt_spec false L hL B hB hBb
  have hzl : (List.zipWith (fun x y => (x * y) % ULL % MOD) fa fb).length = 2 ^ L := by
    rw [List.length_zipWith, a2, b2, Nat.min_self]
  have hzg : ∀ t, t < 2 ^ L →
      (List.zipWith (fun x y => (x * y) % ULL % MOD) fa fb).getD t 0 =
        (fa.getD t 0 * fb.getD t 0) % ULL % MOD := by
    intro t ht
    rw [List.getD_eq_getElem _ _ (by rw [hzl]; exact ht), List.getElem_zipWith,
      List.getD_eq_getElem _ _ (by rw [a2]; exact ht),
      List.getD_eq_getElem _ _ (by rw [b2]; exact ht)]
  have hzb : ∀ t, (List.zipWith (fun x y => (x * y) % ULL % MOD) fa fb).getD t 0 < MOD := by
    intro t
    by_cases ht : t < 2 ^ L
    · rw [hzg t ht]
      exact Nat.mod_lt _ (by decide)
    · rw [List.getD_eq_default _ _ (by omega)]
      decide
  obtain ⟨c, c1, c2, c3, c4⟩ := ntt_spec true L hL _ hzl hzb
  refine ⟨fa, fb, c, a1, b1, c1, c2, c3, ?_⟩
  intro j hj
  rw [c4 j hj]
  simp only [if_true]
  have hres : ∀ k ∈ Finset.range (2 ^ L),
      residues (List.zipWith (fun x y => (x * y) % ULL % MOD) fa fb) k *
          passRoot true L ^ (k * j) =
        ((∑ m in Finset.range (2 ^ L), residues A m * stageRoot L ^ (m * k)) *
          (∑ m in Finset.range (2 ^ L), residues B m * stageRoot L ^ (m * k))) *
            ((stageRoot L)⁻¹) ^ (k * j) := by
    intro k hk
    have hk1 : k < 2 ^ L := Finset.mem_range.mp hk
    have e1 := a4 k hk1
    have e2 := b4 k hk1
    simp only [Bool.false_eq_true, if_false, one_mul] at e1 e2
    unfold residues at e1 e2 ⊢
    rw [hzg k hk1, wrap_small (mul_lt_ULL (a3 k) (b3 k)), cast_mod_MOD, Nat.cast_mul, e1, e2]
    simp [passRoot]
  rw [Finset.sum_congr rfl hres, sum_transform_product, Finset.mul_sum]
  apply Finset.sum_congr rfl
  intro m _
  rw [Finset.mul_sum]
  apply Finset.sum_congr rfl
  intro p _
  have hx : stageRoot L ^ m * stageRoot L ^ p * (stageRoot L)⁻¹ ^ j =
      stageRoot L ^ (m + p + (2 ^ L - 1) * j) := by
    rw [stageRoot_inv L hL, ← pow_mul, ← pow_add, ← pow_add]
  rw [hx, root_sum L hL]
  by_cases hd : 2 ^ L ∣ m + p + (2 ^ L - 1) * j
  · rw [if_pos hd, if_pos hd]
    have hn := two_pow_ne_zero L
    rw [mul_one, mul_comm, mul_assoc, mul_inv_cancel₀ hn, mul_one]
  · rw [if_neg hd, if_neg hd]
    simp

/-! ## From the cyclic to the plain convolution -/

theorem getD_zero_of_length_le (as : List Int) {t : Nat} (h : as.length ≤ t) : as.getD t 0 = 0 :=
  List.getD_eq_default _ _ h

/-- The buffer filled by `nttMultiplyBigInt` holds the blocks, then zeros. -/
theorem buffer_getD (as : List Int) (hr : InRange as) (n t : Nat) :
    (as.map (fun d => (toULL d).toNat) ++ List.replicate (n - as.length) 0).getD t 0 =
      (as.getD t 0).toNat := by
  by_cases ht : t < as.length
  · rw [List.getD_append _ _ _ _ (by rw [List.length_map]; exact ht),
      List.getD_eq_getElem _ _ (by rw [List.length_map]; exact ht), List.getElem_map,
      List.getD_eq_getElem _ _ ht]
    have h := hr _ (List.getElem_mem ht)
    rw [toULL_of_range h.1 (by omega)]
  · rw [getD_zero_of_length_le as (by omega)]
    by_cases h2 : t < (as.map (fun d => (toULL d).toNat) ++
        List.replicate (n - as.length) 0).length
    · rw [List.getD_eq_getElem _ _ h2, List.getElem_append_right (by
        rw [List.length_map]; omega), List.getElem_replicate]
      rfl
    · rw [List.getD_eq_default _ _ (by omega)]
      rfl

theorem buffer_length (as : List Int) (n : Nat) (h : as.length ≤ n) :
    (as.map (fun d => (toULL d).toNat) ++ List.replicate (n - as.length) 0).length = n := by
  rw [List.length_append, List.length_map, List.length_replicate]
  omega

theorem buffer_residue (as : List Int) (hr : InRange as) (n t : Nat) :
    residues (as.map (fun d => (toULL d).toNat) ++ List.replicate (n - as.length) 0) t =
      ((as.getD t 0 : Int) : ZMod MOD) := by
  unfold residues
  rw [buffer_getD as hr]
  have h := (hr.getD t).1
  conv_rhs => rw [← Int.toNat_of_nonneg h]
  rw [Int.cast_natCast]

theorem cyclic_index {n m p j : Nat} (hn : 0 < n) (hmp : m + p < n) (hj : j < n) :
    n ∣ m + p + (n - 1) * j ↔ m + p = j := by
  have e : (n - 1) * j + j = n * j := by
    obtain ⟨k, rfl⟩ : ∃ k, n = k + 1 := ⟨n - 1, by omega⟩
    rw [Nat.add_sub_cancel]
    ring
  constructor
  · rintro ⟨q, hq⟩
    have h1 : m + p + n * j = j + n * q := by omega
    have h2 : (m + p + n * j) % n = m + p := by
      rw [Nat.add_mul_mod_self_left, Nat.mod_eq_of_lt hmp]
    have h3 : (j + n * q) % n = j := by
      rw [Nat.add_mul_mod_self_left, Nat.mod_eq_of_lt hj]
    rw [h1, h3] at h2
    exact h2.symm
  · intro h
    refine ⟨j, ?_⟩
    omega

/-- With room for the product (`length as + length bs ≤ n`) the cyclic
convolution of length `n` is the plain one. -/
theorem cyclic_eq_convCoeff (as bs : List Int) (n j : Nat) (hlen : as.length + bs.length ≤ n)
    (hj : j < n) :
    ∑ m in Finset.range n, ∑ p in Finset.range n,
      ((as.getD m 0 : Int) : ZMod MOD) * ((bs.getD p 0 : Int) : ZMod MOD) *
        (if n ∣ m + p + (n - 1) * j then 1 else 0) =
    ((convCoeff as bs j : Int) : ZMod MOD) := by
  have hn : 0 < n := by omega
  have inner : ∀ m ∈ Finset.range n, ∑ p in Finset.range n,
      ((as.getD m 0 : Int) : ZMod MOD) * ((bs.getD p 0 : Int) : ZMod MOD) *
        (if n ∣ m + p + (n - 1) * j then 1 else 0) =
      if m ≤ j then ((as.getD m 0 : Int) : ZMod MOD) * ((bs.getD (j - m) 0 : Int) : ZMod MOD)
      else 0 := by
    intro m hm
    have hm1 : m < n := Finset.mem_range.mp hm
    by_cases hma : as.length ≤ m
    · rw [getD_zero_of_length_le as hma]
      simp
    · have hterm : ∀ p ∈ Finset.range n,
          ((as.getD m 0 : Int) : ZMod MOD) * ((bs.getD p 0 : Int) : ZMod MOD) *
            (if n ∣ m + p + (n - 1) * j then 1 else 0) =
          if p = j - m then
            (if m ≤ j then ((as.getD m 0 : Int) : ZMod MOD) * ((bs.getD p 0 : Int) : ZMod MOD)
              else 0)
          else 0 := by
        intro p _
        by_cases hpb : bs.length ≤ p
        · rw [getD_zero_of_length_le bs hpb]
          simp
        · have hc := cyclic_index (m := m) (p := p) hn (by omega) hj
          by_cases h1 : m + p = j
          · rw [if_pos (hc.mpr h1), if_pos (by omega), if_pos (by omega), mul_one]
          · rw [if_neg (fun h => h1 (hc.mp h)), mul_zero]
            by_cases h2 : p = j - m
            · rw [if_pos h2, if_neg (by omega)]
            · rw [if_neg h2]
      rw [Finset.sum_congr rfl hterm, Finset.sum_ite_eq']
      by_cases hmj : m ≤ j
      · rw [if_pos (Finset.mem_range.mpr (by omega)), if_pos hmj]
      · rw [if_neg hmj]
        simp
  rw [Finset.sum_congr rfl inner]
  unfold convCoeff
  rw [Int.cast_sum]
  symm
  have hsub : Finset.range (j + 1) ⊆ Finset.range n := by
    intro m hm
    have := Finset.mem_range.mp hm
    exact Finset.mem_range.mpr (by omega)
  have hzero : ∀ m ∈ Finset.range n, m ∉ Finset.range (j + 1) →
      (if m ≤ j then
        ((as.getD m 0 : Int) : ZMod MOD) * ((bs.getD (j - m) 0 : Int) : ZMod MOD) else 0) = 0 := by
    intro m _ hm
    have : ¬ m ≤ j := by
      intro h
      exact hm (Finset.mem_range.mpr (by omega))
    rw [if_neg this]
  rw [← Finset.sum_subset hsub hzero]
  apply Finset.sum_congr rfl
  intro m hm
  have : m ≤ j := by
    have := Finset.mem_range.mp hm
    omega
  rw [if_pos this, Int.cast_mul]

theorem convCoeff_nonneg (as bs : List Int) (ha : InRange as) (hb : InRange bs) (j : Nat) :
    0 ≤ convCoeff as bs j := by
  unfold convCoeff
  apply Finset.sum_nonneg
  intro i _
  exact mul_nonneg (ha.getD i).1 (hb.getD _).1

/-- A residue below the modulus that is congruent to an integer is its
remainder. -/
theorem residue_eq_emod (c : Nat) (hc : c < MOD) (z : Int)
    (h : ((c : Nat) : ZMod MOD) = ((z : Int) : ZMod MOD)) : (c : Int) = z % (MOD : Int) := by
  have h1 : (((c : Int)) : ZMod MOD) = ((z : Int) : ZMod MOD) := by
    rw [Int.cast_natCast]
    exact h
  rw [ZMod.intCast_eq_intCast_iff] at h1
  have h2 : (c : Int) % (MOD : Int) = z % (MOD : Int) := h1
  rw [← h2]
  refine (Int.emod_eq_of_lt (by omega) ?_).symm
  exact_mod_cast hc

/-- The three transforms of `nttMultiplyBigInt` on the blocks of two numbers
return the convolution coefficients reduced modulo `MOD`. -/
theorem ntt_blocks_convolution (L : Nat) (hL : L ≤ 23) (as bs : List Int)
    (ha : InRange as) (hb : InRange bs) (hlen : as.length + bs.length ≤ 2 ^ L) :
    ∃ fa fb c,
      ntt (as.map (fun d => (toULL d).toNat) ++ List.replicate (2 ^ L - as.length) 0)
        (2 ^ L) false = .ok fa ∧
      ntt (bs.map (fun d => (toULL d).toNat) ++ List.replicate (2 ^ L - bs.length) 0)
        (2 ^ L) false = .ok fb ∧
      ntt (List.zipWith (fun x y => (x * y) % ULL % MOD) fa fb) (2 ^ L) true = .ok c ∧
      c.length = 2 ^ L ∧ (∀ t, c.getD t 0 < MOD) ∧
      ∀ j, j < 2 ^ L → ((c.getD j 0 : Nat) : Int) = convCoeff as bs j % (MOD : Int) := by
  have hbound : ∀ (xs : List Int), InRange xs → ∀ t,
      (xs.map (fun d => (toULL d).toNat) ++ List.replicate (2 ^ L - xs.length) 0).getD t 0
        < MOD := by
    intro xs hx t
    rw [buffer_getD xs hx]
    have h := hx.getD t
    have h3 : (MOD : Nat) = 998244353 := rfl
    omega
  obtain ⟨fa, fb, c, h1, h2, h3, h4, h5, h6⟩ := ntt_convolution L hL _ _
    (buffer_length as (2 ^ L) (by omega)) (buffer_length bs (2 ^ L) (by omega))
    (hbound as ha) (hbound bs hb)
  refine ⟨fa, fb, c, h1, h2, h3, h4, h5, ?_⟩
  intro j hj
  apply residue_eq_emod _ (h5 j)
  rw [h6 j hj, ← cyclic_eq_convCoeff as bs (2 ^ L) j hlen hj]
  apply Finset.sum_congr rfl
  intro m _
  apply Finset.sum_congr rfl
  intro p _
  rw [buffer_residue as ha, buffer_residue bs hb]

/-! ## Re-basing the coefficients, and `nttMultiplyBigInt` -/

/-- The loop `while (n < combined_len) n <<= 1;` ends at a power of two. -/
theorem size_spec (cl : Nat) (fuel : Nat) :
    ∀ i, cl ≤ 2 ^ i + fuel →
      ∃ L, nttMultiplyBigInt.size cl fuel (2 ^ i) = 2 ^ L ∧ cl ≤ 2 ^ L ∧
        (L = i ∨ 2 ^ (L - 1) < cl) := by
  induction fuel with
  | zero =>
    intro i h
    exact ⟨i, rfl, by omega, Or.inl rfl⟩
  | succ f ih =>
    intro i h
    unfold nttMultiplyBigInt.size
    by_cases hlt : 2 ^ i < cl
    · rw [if_pos hlt]
      have hp : 0 < 2 ^ i := by positivity
      have e : 2 ^ i * 2 = 2 ^ (i + 1) := by rw [pow_succ]
      rw [e]
      obtain ⟨L, h1, h2, h3⟩ := ih (i + 1) (by rw [pow_succ]; omega)
      refine ⟨L, h1, h2, Or.inr ?_⟩
      rcases h3 with h3 | h3
      · rw [h3, Nat.add_sub_cancel]
        exact hlt
      · exact h3
    · rw [if_neg hlt]
      exact ⟨i, rfl, by omega, Or.inl rfl⟩

/-- The transform length chosen by `nttMultiplyBigInt`. -/
theorem size_of_le (cl : Nat) (h : cl ≤ 2 ^ 23) :
    ∃ L, L ≤ 23 ∧ nttMultiplyBigInt.size cl cl 1 = 2 ^ L ∧ cl ≤ 2 ^ L := by
  obtain ⟨L, h1, h2, h3⟩ := size_spec cl cl 0 (by omega)
  rw [pow_zero] at h1
  refine ⟨L, ?_, h1, h2⟩
  rcases h3 with h3 | h3
  · omega
  · have h4 : 2 ^ (L - 1) < 2 ^ 23 := by omega
    have h5 := (Nat.pow_lt_pow_iff_right (by norm_num : 1 < 2)).mp h4
    omega

/-- The value of a list of coefficients, as natural numbers. -/
theorem rebase_spec (cs : List Nat) (hc : ∀ c ∈ cs, c < MOD) :
    ∀ (carry : Nat) (out : List Int), carry < MOD →
      ∃ ds carry1, nttMultiplyBigInt.rebase 1000 cs carry out = (out ++ ds, carry1) ∧
        ds.length = cs.length ∧ InRange ds ∧ carry1 < MOD ∧
        blocksValue ds + 1000 ^ cs.length * (carry1 : Int) =
          (carry : Int) + blocksValue (cs.map (fun (c : Nat) => (c : Int))) := by
  induction cs with
  | nil =>
    intro carry out h
    exact ⟨[], carry, by simp [nttMultiplyBigInt.rebase], rfl, InRange.nil, h,
      by simp [blocksValue]⟩
  | cons c cs ih =>
    intro carry out h
    have hc1 : c < MOD := hc c (List.mem_cons_self _ _)
    have hM : (MOD : Nat) = 998244353 := rfl
    have hU : (ULL : Nat) = 18446744073709551616 := rfl
    have hw : (carry + c) % ULL = carry + c := Nat.mod_eq_of_lt (by omega)
    obtain ⟨ds, carry1, h1, h2, h3, h4, h5⟩ :=
      ih (fun x hx => hc x (List.mem_cons_of_mem _ hx)) ((carry + c) / 1000)
        (out ++ [(((carry + c) % 1000 : Nat) : Int)]) (by omega)
    refine ⟨(((carry + c) % 1000 : Nat) : Int) :: ds, carry1, ?_, by simp [h2], ?_, h4, ?_⟩
    · unfold nttMultiplyBigInt.rebase
      simp only [hw]
      rw [h1, List.append_assoc]
      rfl
    · intro d hd
      rcases List.mem_cons.mp hd with hd | hd
      · subst hd
        omega
      · exact h3 d hd
    · simp only [blocksValue, List.map_cons, List.length_cons, pow_succ]
      have h6 : ((((carry + c) % 1000 : Nat) : Int)) + 1000 * (((carry + c) / 1000 : Nat) : Int) =
          (carry : Int) + (c : Int) := by
        have := Nat.mod_add_div (carry + c) 1000
        omega
      linear_combination h6 + 1000 * h5

/-- The loop `while (carry > 0)`: the blocks of the last carry are appended. -/
theorem finalCarry_spec (fuel : Nat) :
    ∀ (carry : Nat) (result : BigInt), carry < 1000 ^ fuel →
      ∃ es, (nttMultiplyBigInt.finalCarry 1000 fuel carry result).digits = result.digits ++ es ∧
        InRange es ∧ blocksValue es = (carry : Int) ∧
        (nttMultiplyBigInt.finalCarry 1000 fuel carry result).base = result.base ∧
        (nttMultiplyBigInt.finalCarry 1000 fuel carry result).base_digits = result.base_digits := by
  induction fuel with
  | zero =>
    intro carry result h
    have h0 : carry = 0 := by simpa using h
    subst h0
    exact ⟨[], by simp [nttMultiplyBigInt.finalCarry], InRange.nil, by simp [blocksValue],
      rfl, rfl⟩
  | succ f ih =>
    intro carry result h
    unfold nttMultiplyBigInt.finalCarry
    by_cases hpos : carry > 0
    · rw [if_pos hpos]
      simp only
      have hq : carry / 1000 < 1000 ^ f := by
        rw [pow_succ] at h
        exact Nat.div_lt_of_lt_mul (by rw [Nat.mul_comm]; exact h)
      generalize hres : (if result.length ≥ result.capacity then
        ensureCapacity result (result.length + 1) else result) = res
      have hd : res.digits = result.digits := by
        rw [← hres]
        split
        · exact ensureCapacity_digits _ _
        · rfl
      have hb1 : res.base = result.base := by
        rw [← hres]
        split
        · exact ensureCapacity_base _ _
        · rfl
      have hb2 : res.base_digits = result.base_digits := by
        rw [← hres]
        split
        · exact ensureCapacity_base_digits _ _
        · rfl
      obtain ⟨es, e1, e2, e3, e4, e5⟩ := ih (carry / 1000)
        { res with digits := res.digits ++ [((carry % 1000 : Nat) : Int)] } hq
      refine ⟨((carry % 1000 : Nat) : Int) :: es, ?_, ?_, ?_, ?_, ?_⟩
      · rw [e1, hd]
        simp
      · intro d hd'
        rcases List.mem_cons.mp hd' with hd' | hd'
        · subst hd'
          omega
        · exact e2 d hd'
      · simp only [blocksValue]
        rw [e3]
        have := Nat.mod_add_div carry 1000
        omega
      · rw [e4, hb1]
      · rw [e5, hb2]
    · rw [if_neg hpos]
      have h0 : carry = 0 := by omega
      subst h0
      exact ⟨[], by simp, InRange.nil, by simp [blocksValue], rfl, rfl⟩

theorem blocksValue_eq_sum (ds : List Int) :
    ∀ N, ds.length ≤ N →
      blocksValue ds = ∑ j in Finset.range N, ds.getD j 0 * 1000 ^ j := by
  induction ds with
  | nil =>
    intro N _
    simp [blocksValue]
  | cons d ds ih =>
    intro N hN
    obtain ⟨M, rfl⟩ : ∃ M, N = M + 1 := ⟨N - 1, by simp at hN; omega⟩
    rw [Finset.sum_range_succ', blocksValue, ih M (by simpa using hN), Finset.mul_sum]
    simp only [List.getD_cons_succ, List.getD_cons_zero, pow_zero, mul_one, pow_succ]
    rw [add_comm]
    congr 1
    apply Finset.sum_congr rfl
    intro j _
    ring

theorem convCoeff_eq_zero (as bs : List Int) (j : Nat) (h : as.length + bs.length ≤ j + 1) :
    convCoeff as bs j = 0 := by
  unfold convCoeff
  apply Finset.sum_eq_zero
  intro i hi
  have := Finset.mem_range.mp hi
  by_cases hia : as.length ≤ i
  · rw [getD_zero_of_length_le as hia, zero_mul]
  · rw [getD_zero_of_length_le bs (by omega), mul_zero]

/-- The end of `nttMultiplyBigInt`: re-basing, last carry, sign and `normalize`. -/
theorem rebase_normalize_spec (c : List Nat) (hc : ∀ t, c.getD t 0 < MOD) (hl : 1 ≤ c.length)
    (res : BigInt) (hb : res.base = 1000) (hbd : res.base_digits = 3) (s : Int)
    (hs : s = 1 ∨ s = -1) :
    Canonical (normalize { nttMultiplyBigInt.finalCarry 1000 64
        (nttMultiplyBigInt.rebase 1000 c 0 []).2
        { res with digits := (nttMultiplyBigInt.rebase 1000 c 0 []).1 } with sign := s }) ∧
    (normalize { nttMultiplyBigInt.finalCarry 1000 64
        (nttMultiplyBigInt.rebase 1000 c 0 []).2
        { res with digits := (nttMultiplyBigInt.rebase 1000 c 0 []).1 } with sign := s }).value =
      s * blocksValue (c.map (fun (x : Nat) => (x : Int))) := by
  have hc1 : ∀ x ∈ c, x < MOD := by
    intro x hx
    obtain ⟨i, hi, rfl⟩ := List.mem_iff_getElem.mp hx
    have := hc i
    rw [List.getD_eq_getElem _ _ hi] at this
    exact this
  obtain ⟨ds, carry1, h1, h2, h3, h4, h5⟩ := rebase_spec c hc1 0 [] (by decide)
  rw [h1]
  simp only [List.nil_append]
  obtain ⟨es, e1, e2, e3, e4, e5⟩ := finalCarry_spec 64 carry1 { res with digits := ds } (by
    have hM : (MOD : Nat) = 998244353 := rfl
    have : (1000 : Nat) ^ 64 ≥ 998244353 := by norm_num
    omega)
  constructor
  · apply normalize_canonical
    · exact e4.trans hb
    · exact e5.trans hbd
    · show InRange (nttMultiplyBigInt.finalCarry 1000 64 carry1 { res with digits := ds }).digits
      rw [e1]
      exact h3.append e2
    · show 1 ≤ (nttMultiplyBigInt.finalCarry 1000 64 carry1 { res with digits := ds }).digits.length
      rw [e1, List.length_append, h2]
      omega
    · exact hs
  · rw [value_normalize_sign, e1, blocksValue_append, e3, h2]
    rw [Nat.cast_zero, zero_add] at h5
    rw [← h5]

/-- On canonical non-zero operands with at most `2^23` blocks in all,
`nttMultiplyBigInt` succeeds with a canonical result whose magnitude is the sum
of the convolution coefficients, each reduced modulo `MOD`, times the powers
of the radix. -/
theorem nttMultiplyBigInt_spec (a b : BigInt) (ha : Canonical a) (hb : Canonical b)
    (hza : isBigIntZero a = false) (hzb : isBigIntZero b = false)
    (hlen : a.length + b.length ≤ 2 ^ 23) :
    ∃ r, nttMultiplyBigInt a b = .ok r ∧ Canonical r ∧
      r.value = a.sign * b.sign *
        ∑ j in Finset.range (a.length + b.length),
          (convCoeff a.digits b.digits j % (MOD : Int)) * 1000 ^ j := by
  obtain ⟨L, hL, hsize, hfit⟩ := size_of_le (a.length + b.length) hlen
  obtain ⟨fa, fb, c, h1, h2, h3, h4, h5, h6⟩ :=
    ntt_blocks_convolution L hL a.digits b.digits ha.inRange hb.inRange hfit
  have hbase : (toULL a.base).toNat = 1000 := by
    rw [ha.1]
    rfl
  have hs : a.sign * b.sign = 1 ∨ a.sign * b.sign = -1 := by
    rcases ha.sign_cases with h | h <;> rcases hb.sign_cases with k | k <;> rw [h, k] <;> simp
  have hpos : 1 ≤ c.length := by
    rw [h4]
    exact Nat.one_le_two_pow
  obtain ⟨t1, t2⟩ := rebase_normalize_spec c h5 hpos
    { createBigInt (2 ^ L + 1) with base := a.base, base_digits := a.base_digits }
    ha.1 ha.2.1 (a.sign * b.sign) hs
  unfold nttMultiplyBigInt
  rw [if_neg (by
    rw [ha.1, hb.1]
    simp [DEFAULT_BASE]), if_neg (by simp [hza, hzb])]
  simp only [hsize, BigInt.length, h1, h2, h3, hbase]
  refine ⟨_, rfl, t1, ?_⟩
  rw [t2]
  congr 1
  rw [blocksValue_eq_sum _ (2 ^ L) (by rw [List.length_map, h4])]
  have hterm : ∀ j ∈ Finset.range (2 ^ L),
      (c.map (fun (x : Nat) => (x : Int))).getD j 0 * 1000 ^ j =
        (convCoeff a.digits b.digits j % (MOD : Int)) * 1000 ^ j := by
    intro j hj
    have hj1 := Finset.mem_range.mp hj
    have hg := List.getD_map c 0 (n := j) (fun (x : Nat) => (x : Int))
    simp only [Nat.cast_zero] at hg
    rw [hg, h6 j hj1]
  rw [Finset.sum_congr rfl hterm]
  symm
  apply Finset.sum_subset
  · intro j hj
    have := Finset.mem_range.mp hj
    exact Finset.mem_range.mpr (by simp only [BigInt.length] at hfit; omega)
  · intro j _ hj
    have hge : a.digits.length + b.digits.length ≤ j := by
      by_contra hcon
      exact hj (Finset.mem_range.mpr (by omega))
    rw [convCoeff_eq_zero _ _ _ (by omega)]
    simp

/-! ## The product as a sum of convolution coefficients -/

theorem convCoeff_cons_zero (x : Int) (as bs : List Int) :
    convCoeff (x :: as) bs 0 = x * bs.getD 0 0 := by
  simp [convCoeff]

theorem convCoeff_cons_succ (x : Int) (as bs : List Int) (j : Nat) :
    convCoeff (x :: as) bs (j + 1) = x * bs.getD (j + 1) 0 + convCoeff as bs j := by
  unfold convCoeff
  rw [Finset.sum_range_succ']
  simp only [List.getD_cons_succ, List.getD_cons_zero, Nat.add_sub_add_right, Nat.sub_zero]
  rw [add_comm]

/-- The radix-1000 value of the convolution coefficients is the product of the
two magnitudes. -/
theorem convCoeff_sum (as bs : List Int) :
    ∀ N, as.length + bs.length ≤ N →
      ∑ j in Finset.range N, convCoeff as bs j * 1000 ^ j = blocksValue as * blocksValue bs := by
  induction as with
  | nil =>
    intro N _
    simp [convCoeff, blocksValue]
  | cons x as ih =>
    intro N hN
    obtain ⟨M, rfl⟩ : ∃ M, N = M + 1 := ⟨N - 1, by simp at hN; omega⟩
    have hM : as.length + bs.length ≤ M := by simp at hN; omega
    have hb := blocksValue_eq_sum bs (M + 1) (by omega)
    rw [Finset.sum_range_succ'] at hb
    rw [Finset.sum_range_succ', convCoeff_cons_zero]
    have hterm : ∀ j ∈ Finset.range M, convCoeff (x :: as) bs (j + 1) * 1000 ^ (j + 1) =
        x * (bs.getD (j + 1) 0 * 1000 ^ (j + 1)) + 1000 * (convCoeff as bs j * 1000 ^ j) := by
      intro j _
      rw [convCoeff_cons_succ]
      ring
    rw [Finset.sum_congr rfl hterm, Finset.sum_add_distrib, ← Finset.mul_sum, ← Finset.mul_sum,
      ih M hM, blocksValue, hb]
    ring

/-! ## The coefficients of a number whose blocks are all 999 -/

theorem getD_replicate_999 (n i : Nat) :
    (List.replicate n (999 : Int)).getD i 0 = if i < n then 999 else 0 := by
  by_cases h : i < n
  · rw [if_pos h, List.getD_eq_getElem _ _ (by rw [List.length_replicate]; exact h),
      List.getElem_replicate]
  · rw [if_neg h, List.getD_eq_default _ _ (by rw [List.length_replicate]; omega)]

theorem blocksValue_replicate_999 (n : Nat) :
    blocksValue (List.replicate n 999) = 1000 ^ n - 1 := by
  induction n with
  | zero => simp [blocksValue]
  | succ n ih =>
    rw [List.replicate_succ, blocksValue, ih, pow_succ]
    ring

theorem canonical_replicate_999 (n : Nat) (hn : 1 ≤ n) :
    Canonical (mk 1 (List.replicate n 999)) := by
  refine ⟨rfl, rfl, ?_, ?_, ?_, Or.inl rfl, fun _ => rfl⟩
  · show 1 ≤ (List.replicate n (999 : Int)).length
    rw [List.length_replicate]
    exact hn
  · intro d hd
    have : d = 999 := List.eq_of_mem_replicate hd
    subst this
    decide
  · intro _
    show (List.replicate n (999 : Int)).getD ((List.replicate n (999 : Int)).length - 1) 0 ≠ 0
    rw [getD_replicate_999, List.length_replicate, if_pos (by omega)]
    decide

theorem not_zero_replicate_999 (n : Nat) (hn : 1 ≤ n) :
    isBigIntZero (mk 1 (List.replicate n 999)) = false := by
  rw [isBigIntZero_false_iff]
  intro h
  have h1 : (List.replicate n (999 : Int)).getD 0 0 = 0 := by
    have h2 : (mk 1 (List.replicate n 999)).digits = List.replicate n 999 := rfl
    rw [← h2, h]
    rfl
  rw [getD_replicate_999, if_pos (by omega)] at h1
  norm_num at h1

theorem convCoeff_999_term_le (n j i : Nat) :
    (List.replicate n (999 : Int)).getD i 0 * (List.replicate n (999 : Int)).getD (j - i) 0
      ≤ 998001 := by
  rw [getD_replicate_999, getD_replicate_999]
  split <;> split <;> norm_num

/-- The middle coefficient of the square of `n` blocks 999. -/
theorem convCoeff_999_middle (n : Nat) (hn : 1 ≤ n) :
    convCoeff (List.replicate n 999) (List.replicate n 999) (n - 1) = 998001 * n := by
  unfold convCoeff
  have hterm : ∀ i ∈ Finset.range (n - 1 + 1),
      (List.replicate n (999 : Int)).getD i 0 *
        (List.replicate n (999 : Int)).getD (n - 1 - i) 0 = 998001 := by
    intro i hi
    have := Finset.mem_range.mp hi
    rw [getD_replicate_999, getD_replicate_999, if_pos (by omega), if_pos (by omega)]
    norm_num
  rw [Finset.sum_congr rfl hterm, Finset.sum_const, Finset.card_range, Nat.sub_add_cancel hn]
  simp
  ring

/-- Every other coefficient has at most `n - 1` non-zero terms. -/
theorem convCoeff_999_other (n j : Nat) (hn : 1 ≤ n) (hj : j ≠ n - 1) :
    convCoeff (List.replicate n 999) (List.replicate n 999) j ≤ 998001 * ((n - 1 : Nat) : Int) := by
  unfold convCoeff
  by_cases hlt : j < n - 1
  · have h := Finset.sum_le_card_nsmul (Finset.range (j + 1))
      (fun i => (List.replicate n (999 : Int)).getD i 0 *
        (List.replicate n (999 : Int)).getD (j - i) 0) 998001
      (fun i _ => convCoeff_999_term_le n j i)
    rw [Finset.card_range] at h
    have h2 : ((j + 1 : Nat) : Int) ≤ ((n - 1 : Nat) : Int) := by exact_mod_cast (by omega : j + 1 ≤ n - 1)
    simp only [nsmul_eq_mul] at h
    linarith
  · have hge : n ≤ j := by omega
    rw [Finset.sum_range_succ']
    have h0 : (List.replicate n (999 : Int)).getD 0 0 *
        (List.replicate n (999 : Int)).getD (j - 0) 0 = 0 := by
      rw [getD_replicate_999 n (j - 0), if_neg (by omega), mul_zero]
    rw [h0, add_zero]
    have hsub : ∑ i in Finset.range (n - 1),
        (List.replicate n (999 : Int)).getD (i + 1) 0 *
          (List.replicate n (999 : Int)).getD (j - (i + 1)) 0 =
        ∑ i in Finset.range j,
          (List.replicate n (999 : Int)).getD (i + 1) 0 *
            (List.replicate n (999 : Int)).getD (j - (i + 1)) 0 := by
      apply Finset.sum_subset
      · intro i hi
        have := Finset.mem_range.mp hi
        exact Finset.mem_range.mpr (by omega)
      · intro i _ hi
        have hi1 : ¬ i < n - 1 := fun h => hi (Finset.mem_range.mpr h)
        rw [getD_replicate_999 n (i + 1), if_neg (by omega), zero_mul]
    rw [← hsub]
    have h := Finset.sum_le_card_nsmul (Finset.range (n - 1))
      (fun i => (List.replicate n (999 : Int)).getD (i + 1) 0 *
        (List.replicate n (999 : Int)).getD (j - (i + 1)) 0) 998001
      (fun i _ => convCoeff_999_term_le n j (i + 1))
    rw [Finset.card_range] at h
    simp only [nsmul_eq_mul] at h
    linarith

/-! ## The range in which the convolution does not wrap -/

theorem convCoeff_comm (as bs : List Int) (j : Nat) : convCoeff as bs j = convCoeff bs as j := by
  unfold convCoeff
  rw [← Finset.sum_range_reflect]
  apply Finset.sum_congr rfl
  intro i hi
  have := Finset.mem_range.mp hi
  have e1 : j + 1 - 1 - i = j - i := by omega
  have e2 : j - (j - i) = i := by omega
  rw [e1, e2, mul_comm]

theorem block_mul_le {x y : Int} (hx : 0 ≤ x ∧ x < 1000) (hy : 0 ≤ y ∧ y < 1000) :
    x * y ≤ 998001 := by
  have h1 : x * y ≤ 999 * y := Int.mul_le_mul_of_nonneg_right (by omega) hy.1
  omega

/-- A convolution coefficient has at most `length as` non-zero terms. -/
theorem convCoeff_le_left (as bs : List Int) (ha : InRange as) (hb : InRange bs) (j : Nat) :
    convCoeff as bs j ≤ 998001 * (as.length : Int) := by
  unfold convCoeff
  have hterm : ∀ i, as.getD i 0 * bs.getD (j - i) 0 ≤ 998001 :=
    fun i => block_mul_le (ha.getD i) (hb.getD (j - i))
  by_cases hlt : j + 1 ≤ as.length
  · have h := Finset.sum_le_card_nsmul (Finset.range (j + 1))
      (fun i => as.getD i 0 * bs.getD (j - i) 0) 998001 (fun i _ => hterm i)
    rw [Finset.card_range] at h
    simp only [nsmul_eq_mul] at h
    have h2 : ((j + 1 : Nat) : Int) ≤ (as.length : Int) := by exact_mod_cast hlt
    linarith
  · have hsub : Finset.range as.length ⊆ Finset.range (j + 1) := by
      intro i hi
      have := Finset.mem_range.mp hi
      exact Finset.mem_range.mpr (by omega)
    have hzero : ∀ i ∈ Finset.range (j + 1), i ∉ Finset.range as.length →
        as.getD i 0 * bs.getD (j - i) 0 = 0 := by
      intro i _ hi
      have : as.length ≤ i := by
        by_contra hcon
        exact hi (Finset.mem_range.mpr (by omega))
      rw [getD_zero_of_length_le as this, zero_mul]
    rw [← Finset.sum_subset hsub hzero]
    have h := Finset.sum_le_card_nsmul (Finset.range as.length)
      (fun i => as.getD i 0 * bs.getD (j - i) 0) 998001 (fun i _ => hterm i)
    rw [Finset.card_range] at h
    simp only [nsmul_eq_mul] at h
    linarith

/-- When the shorter operand has at most 1000 blocks every convolution
coefficient is below the modulus. -/
theorem convCoeff_lt_MOD (as bs : List Int) (ha : InRange as) (hb : InRange bs)
    (hshort : min as.length bs.length ≤ 1000) (j : Nat) :
    convCoeff as bs j < (MOD : Int) := by
  have hM : ((MOD : Nat) : Int) = 998244353 := rfl
  rw [hM]
  rcases Nat.le_total as.length bs.length with h | h
  · have h1 := convCoeff_le_left as bs ha hb j
    have h2 : as.length ≤ 1000 := by
      rw [Nat.min_eq_left h] at hshort
      exact hshort
    have h3 : (as.length : Int) ≤ 1000 := by exact_mod_cast h2
    omega
  · have h1 := convCoeff_le_left bs as hb ha j
    rw [convCoeff_comm]
    have h2 : bs.length ≤ 1000 := by
      rw [Nat.min_eq_right h] at hshort
      exact hshort
    have h3 : (bs.length : Int) ≤ 1000 := by exact_mod_cast h2
    omega

/-- In that range `nttMultiplyBigInt` is exact. -/
theorem nttMultiplyBigInt_exact_of_short (a b : BigInt) (ha : Canonical a) (hb : Canonical b)
    (hlen : a.length + b.length ≤ 2 ^ 23) (hshort : min a.length b.length ≤ 1000) :
    ∃ r, nttMultiplyBigInt a b = .ok r ∧ Canonical r ∧ r.value = a.value * b.value := by
  by_cases hz : isBigIntZero a = true ∨ isBigIntZero b = true
  · refine ⟨createBigInt 1, ?_, canonical_createBigInt 1, ?_⟩
    · unfold nttMultiplyBigInt
      rw [if_neg (by
        rw [ha.1, hb.1]
        simp [DEFAULT_BASE]), if_pos hz]
    · have h0 : (createBigInt 1).value = 0 := by decide
      rw [h0]
      unfold BigInt.value
      rcases hz with h | h
      · rw [(isBigIntZero_iff a).mp h, blocksValue_zero]
        ring
      · rw [(isBigIntZero_iff b).mp h, blocksValue_zero]
        ring
  · have hza : isBigIntZero a = false := by
      cases h : isBigIntZero a
      · rfl
      · exact absurd (Or.inl h) hz
    have hzb : isBigIntZero b = false := by
      cases h : isBigIntZero b
      · rfl
      · exact absurd (Or.inr h) hz
    obtain ⟨r, h1, h2, h3⟩ := nttMultiplyBigInt_spec a b ha hb hza hzb hlen
    refine ⟨r, h1, h2, ?_⟩
    have hterm : ∀ j ∈ Finset.range (a.length + b.length),
        (convCoeff a.digits b.digits j % (MOD : Int)) * 1000 ^ j =
          convCoeff a.digits b.digits j * 1000 ^ j := by
      intro j _
      rw [Int.emod_eq_of_lt (convCoeff_nonneg _ _ ha.inRange hb.inRange j)
        (convCoeff_lt_MOD _ _ ha.inRange hb.inRange hshort j)]
    rw [h3, Finset.sum_congr rfl hterm, convCoeff_sum _ _ _ (le_refl _)]
    unfold BigInt.value
    ring

/-- C3 (the code at the failing input): the canonical number with 1001 blocks
999, that is `10^3003 - 1`, multiplied by itself.  `nttMultiplyBigInt` returns
success with a canonical result whose value is the product less
`998244353 * 1000^1000`: the coefficient of index 1000, `1001 * 999 * 999`,
is not below the modulus and comes back reduced.  The result is not the
product.  The two examples of the claim, `123 * 456` and the product of the
two 20-digit numbers, are computed exactly. -/
theorem nttMultiplyBigInt_wraps_at_1001_blocks :
    (Canonical (mk 1 (List.replicate 1001 999)) ∧
      (mk 1 (List.replicate 1001 999)).value = 10 ^ 3003 - 1 ∧
      ∃ r, nttMultiplyBigInt (mk 1 (List.replicate 1001 999)) (mk 1 (List.replicate 1001 999))
          = .ok r ∧ Canonical r ∧
        r.value = (10 ^ 3003 - 1) * (10 ^ 3003 - 1) - 998244353 * 1000 ^ 1000 ∧
        r.value ≠
          (mk 1 (List.replicate 1001 999)).value * (mk 1 (List.replicate 1001 999)).value) ∧
    (∃ r, nttMultiplyBigInt (mk 1 [123]) (mk 1 [456]) = .ok r ∧ r.value = 56088) ∧
    (mk 1 [890, 567, 234, 901, 678, 345, 12]).value = 12345678901234567890 ∧
    (mk (-1) [210, 543, 876, 109, 432, 765, 98]).value = -98765432109876543210 ∧
    (∃ r, nttMultiplyBigInt (mk 1 [890, 567, 234, 901, 678, 345, 12])
        (mk (-1) [210, 543, 876, 109, 432, 765, 98]) = .ok r ∧
      r.value = -1219326311370217952237463801111263526900) := by
  have main : Canonical (mk 1 (List.replicate 1001 999)) ∧
      (mk 1 (List.replicate 1001 999)).value = 10 ^ 3003 - 1 ∧
      ∃ r, nttMultiplyBigInt (mk 1 (List.replicate 1001 999)) (mk 1 (List.replicate 1001 999))
          = .ok r ∧ Canonical r ∧
        r.value = (10 ^ 3003 - 1) * (10 ^ 3003 - 1) - 998244353 * 1000 ^ 1000 ∧
        r.value ≠
          (mk 1 (List.replicate 1001 999)).value * (mk 1 (List.replicate 1001 999)).value := by
    have ha := canonical_replicate_999 1001 (by norm_num)
    have hz := not_zero_replicate_999 1001 (by norm_num)
    have hb : blocksValue (List.replicate 1001 999) = 10 ^ 3003 - 1 := by
      rw [blocksValue_replicate_999]
      norm_num
    have hv : (mk 1 (List.replicate 1001 999)).value = 10 ^ 3003 - 1 := by
      show (1 : Int) * blocksValue (List.replicate 1001 999) = 10 ^ 3003 - 1
      rw [hb, one_mul]
    have hl : (mk 1 (List.replicate 1001 999)).length = 1001 := by
      simp only [BigInt.length, mk, List.length_replicate]
    obtain ⟨r, h1, h2, h3⟩ := nttMultiplyBigInt_spec _ _ ha ha hz hz (by
      rw [hl]
      norm_num)
    rw [hl] at h3
    have hmid : convCoeff (List.replicate 1001 999) (List.replicate 1001 999) 1000 = 998999001 := by
      have h := convCoeff_999_middle 1001 (by norm_num)
      norm_num at h
      exact h
    have hmod : ∀ j, convCoeff (List.replicate 1001 999) (List.replicate 1001 999) j % (MOD : Int) =
        convCoeff (List.replicate 1001 999) (List.replicate 1001 999) j -
          (if j = 1000 then 998244353 else 0) := by
      intro j
      by_cases hj : j = 1000
      · subst hj
        rw [hmid, if_pos rfl]
        decide
      · rw [if_neg hj, sub_zero]
        have h0 := convCoeff_nonneg (List.replicate 1001 999) (List.replicate 1001 999)
          ha.inRange ha.inRange j
        have h4 := convCoeff_999_other 1001 j (by norm_num) (by omega)
        apply Int.emod_eq_of_lt h0
        have hM : ((MOD : Nat) : Int) = 998244353 := rfl
        rw [hM]
        norm_num at h4
        omega
    have hsum : ∑ j in Finset.range 2002,
        (convCoeff (List.replicate 1001 999) (List.replicate 1001 999) j % (MOD : Int)) * 1000 ^ j =
        (10 ^ 3003 - 1) * (10 ^ 3003 - 1) - 998244353 * 1000 ^ 1000 := by
      have hterm : ∀ j ∈ Finset.range 2002,
          (convCoeff (List.replicate 1001 999) (List.replicate 1001 999) j % (MOD : Int)) * 1000 ^ j =
            convCoeff (List.replicate 1001 999) (List.replicate 1001 999) j * 1000 ^ j -
              (if j = 1000 then 998244353 * 1000 ^ j else 0) := by
        intro j _
        rw [hmod j, sub_mul, ite_mul, zero_mul]
      rw [Finset.sum_congr rfl hterm, Finset.sum_sub_distrib, Finset.sum_ite_eq',
        if_pos (Finset.mem_range.mpr (by norm_num)),
        convCoeff_sum _ _ 2002 (by rw [List.length_replicate]), hb]
    have hval : r.value = (10 ^ 3003 - 1) * (10 ^ 3003 - 1) - 998244353 * 1000 ^ 1000 := by
      have hs : (mk 1 (List.replicate 1001 999)).sign = 1 := rfl
      have hd : (mk 1 (List.replicate 1001 999)).digits = List.replicate 1001 999 := rfl
      rw [hs, hd, one_mul, one_mul] at h3
      rw [h3]
      exact hsum
    refine ⟨ha, hv, r, h1, h2, hval, ?_⟩
    rw [hval, hv]
    intro h
    have hpos : (0 : Int) < 998244353 * 1000 ^ 1000 := by positivity
    linarith
  have ex1 : ∃ r, nttMultiplyBigInt (mk 1 [123]) (mk 1 [456]) = .ok r ∧ r.value = 56088 := by
    obtain ⟨r, h1, _, h3⟩ := nttMultiplyBigInt_exact_of_short (mk 1 [123]) (mk 1 [456])
      (by decide) (by decide) (by decide) (by decide)
    exact ⟨r, h1, by rw [h3]; decide⟩
  have v1 : (mk 1 [890, 567, 234, 901, 678, 345, 12]).value = 12345678901234567890 := by decide
  have v2 : (mk (-1) [210, 543, 876, 109, 432, 765, 98]).value = -98765432109876543210 := by
    decide
  have ex2 : ∃ r, nttMultiplyBigInt (mk 1 [890, 567, 234, 901, 678, 345, 12])
        (mk (-1) [210, 543, 876, 109, 432, 765, 98]) = .ok r ∧
      r.value = -1219326311370217952237463801111263526900 := by
    obtain ⟨r, h1, _, h3⟩ := nttMultiplyBigInt_exact_of_short
      (mk 1 [890, 567, 234, 901, 678, 345, 12]) (mk (-1) [210, 543, 876, 109, 432, 765, 98])
      (by decide) (by decide) (by decide) (by decide)
    exact ⟨r, h1, by rw [h3, v1, v2]; decide⟩
  exact ⟨main, ex1, v1, v2, ex2⟩

/-! ## Division by zero -/

/-- C11. Divide by zero: for every dividend `x`, zero included, and every divisor
whose blocks are the single block zero (whatever its sign field), `divideBigInt`
returns the error `BIGINT_DIVIDE_BY_ZERO`; no quotient and no remainder is
produced. -/
theorem divideBigInt_by_zero (x b : BigInt) (hb : b.digits = [0]) :
    divideBigInt x b = .error (Fault.error BigIntError.BIGINT_DIVIDE_BY_ZERO) ∧
    ∀ q r, divideBigInt x b ≠ .ok (q, r) := by
  have hz : isBigIntZero b = true := (isBigIntZero_iff b).mpr hb
  have h : divideBigInt x b = .error (Fault.error BigIntError.BIGINT_DIVIDE_BY_ZERO) := by
    unfold divideBigInt
    rw [if_pos hz]
  refine ⟨h, ?_⟩
  intro q r hqr
  rw [h] at hqr
  cases hqr

/-- Witness for `divideBigInt_by_zero`: 0 divided by the zero of sign `-1`. -/
theorem divideBigInt_by_zero_witness :
    (mk (-1) [0]).digits = [0] ∧
    divideBigInt (createBigInt 1) (mk (-1) [0]) =
      .error (Fault.error BigIntError.BIGINT_DIVIDE_BY_ZERO) ∧
    ∀ q r, divideBigInt (createBigInt 1) (mk (-1) [0]) ≠ .ok (q, r) :=
  ⟨rfl, divideBigInt_by_zero (createBigInt 1) (mk (-1) [0]) rfl⟩

/-! ## Comparison -/

theorem sign_cases_int (x : Int) : Int.sign x = -1 ∨ Int.sign x = 0 ∨ Int.sign x = 1 := by
  rcases lt_trichotomy x 0 with h | h | h
  · exact Or.inl (Int.sign_eq_neg_one_of_neg h)
  · right; left
    rw [h]
    rfl
  · exact Or.inr (Or.inr (Int.sign_eq_one_of_pos h))

theorem magnitude_pos_of_negative {x : BigInt} (h : Canonical x) (hs : x.sign = -1) :
    0 < blocksValue x.digits := by
  apply magnitude_pos_of_not_zero h
  rw [isBigIntZero_false_iff]
  intro h0
  have := h.2.2.2.2.2.2 h0
  omega

/-- What `compareBigInt` returns on canonical operands. -/
theorem compareBigInt_spec (a b : BigInt) (ha : Canonical a) (hb : Canonical b) :
    compareBigInt a b = Int.sign (a.value - b.value) := by
  have hA := blocksValue_nonneg ha.inRange
  have hB := blocksValue_nonneg hb.inRange
  have hc := compareAbsolute_canonical ha hb
  unfold compareBigInt BigInt.value
  rcases ha.sign_cases with sa | sa <;> rcases hb.sign_cases with sb | sb
  · rw [sa, sb, if_neg (by decide), if_neg (by decide)]
    simp only [one_mul]
    rw [if_pos (by decide), hc]
  · have hp := magnitude_pos_of_negative hb sb
    rw [sa, sb, if_pos (by decide)]
    symm
    apply Int.sign_eq_one_of_pos
    omega
  · have hp := magnitude_pos_of_negative ha sa
    rw [sa, sb, if_neg (by decide), if_pos (by decide)]
    symm
    apply Int.sign_eq_neg_one_of_neg
    omega
  · rw [sa, sb, if_neg (by decide), if_neg (by decide)]
    simp only
    rw [if_neg (by decide), hc, ← Int.sign_neg]
    congr 1
    ring

/-- C15. Signed comparison is the mathematical order: on canonical operands
`compareBigInt a b` is the sign of `value a - value b`, one of `-1`, `0`, `1`;
it is `0` exactly when `a` and `b` have the same sign and blocks; and
`compareBigInt a b = -compareBigInt b a`. -/
theorem compareBigInt_order (a b : BigInt) (ha : Canonical a) (hb : Canonical b) :
    compareBigInt a b = Int.sign (a.value - b.value) ∧
    (compareBigInt a b = -1 ∨ compareBigInt a b = 0 ∨ compareBigInt a b = 1) ∧
    (compareBigInt a b = 0 ↔ a.sign = b.sign ∧ a.digits = b.digits) ∧
    compareBigInt a b = -compareBigInt b a := by
  have h1 := compareBigInt_spec a b ha hb
  have h2 := compareBigInt_spec b a hb ha
  refine ⟨h1, ?_, ?_, ?_⟩
  · rw [h1]
    exact sign_cases_int _
  · rw [h1, Int.sign_eq_zero_iff_zero]
    constructor
    · intro h
      exact canonical_unique ha hb (by omega)
    · rintro ⟨hs, hd⟩
      unfold BigInt.value
      rw [hs, hd]
      ring
  · rw [h1, h2, ← Int.sign_neg]
    congr 1
    ring

/-- Witness for `compareBigInt_order`: -1000 against 999. -/
theorem compareBigInt_order_witness :
    Canonical (mk (-1) [0, 1]) ∧ Canonical (mk 1 [999]) ∧
    compareBigInt (mk (-1) [0, 1]) (mk 1 [999]) =
      Int.sign ((mk (-1) [0, 1]).value - (mk 1 [999]).value) ∧
    (compareBigInt (mk (-1) [0, 1]) (mk 1 [999]) = -1 ∨
      compareBigInt (mk (-1) [0, 1]) (mk 1 [999]) = 0 ∨
      compareBigInt (mk (-1) [0, 1]) (mk 1 [999]) = 1) ∧
    (compareBigInt (mk (-1) [0, 1]) (mk 1 [999]) = 0 ↔
      (mk (-1) [0, 1]).sign = (mk 1 [999]).sign ∧ (mk (-1) [0, 1]).digits = (mk 1 [999]).digits) ∧
    compareBigInt (mk (-1) [0, 1]) (mk 1 [999]) = -compareBigInt (mk 1 [999]) (mk (-1) [0, 1]) :=
  ⟨by decide, by decide, compareBigInt_order (mk (-1) [0, 1]) (mk 1 [999]) (by decide) (by decide)⟩

/-- C16. Magnitude comparison is the order on absolute values: for operands of
at least one block, with blocks in `[0, 1000)` and no leading zero block (the
single block zero apart), `compareAbsolute a b` is the sign of the difference
of the magnitudes `sum of digits[i] * 1000^i`, one of `-1`, `0`, `1`; it does not
depend on the sign fields; and when these are `+1` or `-1` the magnitudes are
`|value a|` and `|value b|`. -/
theorem compareAbsolute_order (a b : BigInt) (ha : InRange a.digits) (hb : InRange b.digits)
    (na : NoLeadingZero a.digits) (nb : NoLeadingZero b.digits)
    (la : 1 ≤ a.length) (lb : 1 ≤ b.length) :
    compareAbsolute a b = Int.sign (a.magnitude - b.magnitude) ∧
    (compareAbsolute a b = -1 ∨ compareAbsolute a b = 0 ∨ compareAbsolute a b = 1) ∧
    (∀ s t : Int, compareAbsolute { a with sign := s } { b with sign := t } =
      compareAbsolute a b) ∧
    ((a.sign = 1 ∨ a.sign = -1) → (b.sign = 1 ∨ b.sign = -1) →
      compareAbsolute a b = Int.sign (|a.value| - |b.value|)) := by
  have h := compareAbsolute_spec a b ha hb na nb lb la
  refine ⟨h, ?_, fun _ _ => rfl, ?_⟩
  · rw [h]
    exact sign_cases_int _
  · intro sa sb
    have hA := blocksValue_nonneg ha
    have hB := blocksValue_nonneg hb
    have e1 : |a.value| = blocksValue a.digits := by
      unfold BigInt.value
      rcases sa with s | s
      · rw [s, one_mul, abs_of_nonneg hA]
      · rw [s, neg_one_mul, abs_neg, abs_of_nonneg hA]
    have e2 : |b.value| = blocksValue b.digits := by
      unfold BigInt.value
      rcases sb with s | s
      · rw [s, one_mul, abs_of_nonneg hB]
      · rw [s, neg_one_mul, abs_neg, abs_of_nonneg hB]
    rw [h, e1, e2]

/-- Witness for `compareAbsolute_order`: the blocks of 1000 against those of 999,
with sign fields `-1` and `+1`. -/
theorem compareAbsolute_order_witness :
    InRange (mk (-1) [0, 1]).digits ∧ InRange (mk 1 [999]).digits ∧
    NoLeadingZero (mk (-1) [0, 1]).digits ∧ NoLeadingZero (mk 1 [999]).digits ∧
    1 ≤ (mk (-1) [0, 1]).length ∧ 1 ≤ (mk 1 [999]).length ∧
    compareAbsolute (mk (-1) [0, 1]) (mk 1 [999]) =
      Int.sign ((mk (-1) [0, 1]).magnitude - (mk 1 [999]).magnitude) ∧
    (compareAbsolute (mk (-1) [0, 1]) (mk 1 [999]) = -1 ∨
      compareAbsolute (mk (-1) [0, 1]) (mk 1 [999]) = 0 ∨
      compareAbsolute (mk (-1) [0, 1]) (mk 1 [999]) = 1) ∧
    (∀ s t : Int, compareAbsolute { mk (-1) [0, 1] with sign := s } { mk 1 [999] with sign := t } =
      compareAbsolute (mk (-1) [0, 1]) (mk 1 [999])) ∧
    (((mk (-1) [0, 1]).sign = 1 ∨ (mk (-1) [0, 1]).sign = -1) →
      ((mk 1 [999]).sign = 1 ∨ (mk 1 [999]).sign = -1) →
      compareAbsolute (mk (-1) [0, 1]) (mk 1 [999]) =
        Int.sign (|(mk (-1) [0, 1]).value| - |(mk 1 [999]).value|)) :=
  have c1 : Canonical (mk (-1) [0, 1]) := by decide
  have c2 : Canonical (mk 1 [999]) := by decide
  ⟨c1.inRange, c2.inRange, c1.noLeadingZero, c2.noLeadingZero, by decide, by decide,
    compareAbsolute_order (mk (-1) [0, 1]) (mk 1 [999]) c1.inRange c2.inRange
      c1.noLeadingZero c2.noLeadingZero (by decide) (by decide)⟩

/-! ## Addition is commutative and associative -/

/-- C19. Addition is commutative: on canonical operands `addBigInt a b` and
`addBigInt b a` both succeed and return equal BigInts: same sign, same length,
same blocks. -/
theorem addBigInt_commutative (a b : BigInt) (ha : Canonical a) (hb : Canonical b) :
    ∃ r s, addBigInt a b = .ok r ∧ addBigInt b a = .ok s ∧
      r.sign = s.sign ∧ r.length = s.length ∧ r.digits = s.digits := by
  obtain ⟨r, hr, vr, cr⟩ := addBigInt_spec a b ha hb
  obtain ⟨s, hs, vs, cs⟩ := addBigInt_spec b a hb ha
  obtain ⟨h1, h2⟩ := canonical_unique cr cs (by rw [vr, vs]; ring)
  exact ⟨r, s, hr, hs, h1, by simp only [BigInt.length, h2], h2⟩

/-- Witness for `addBigInt_commutative`: 999999 and -1000001. -/
theorem addBigInt_commutative_witness :
    Canonical (mk 1 [999, 999]) ∧ Canonical (mk (-1) [1, 0, 1]) ∧
    ∃ r s, addBigInt (mk 1 [999, 999]) (mk (-1) [1, 0, 1]) = .ok r ∧
      addBigInt (mk (-1) [1, 0, 1]) (mk 1 [999, 999]) = .ok s ∧
      r.sign = s.sign ∧ r.length = s.length ∧ r.digits = s.digits :=
  ⟨by decide, by decide,
    addBigInt_commutative (mk 1 [999, 999]) (mk (-1) [1, 0, 1]) (by decide) (by decide)⟩

/-- C20. Addition is associative: on canonical operands the two ways of adding
three numbers succeed at every step and return equal BigInts: same sign, same
length, same blocks. -/
theorem addBigInt_associative (a b c : BigInt) (ha : Canonical a) (hb : Canonical b)
    (hc : Canonical c) :
    ∃ ab l bc r, addBigInt a b = .ok ab ∧ addBigInt ab c = .ok l ∧
      addBigInt b c = .ok bc ∧ addBigInt a bc = .ok r ∧
      l.sign = r.sign ∧ l.length = r.length ∧ l.digits = r.digits := by
  obtain ⟨ab, h1, v1, c1⟩ := addBigInt_spec a b ha hb
  obtain ⟨l, h2, v2, c2⟩ := addBigInt_spec ab c c1 hc
  obtain ⟨bc, h3, v3, c3⟩ := addBigInt_spec b c hb hc
  obtain ⟨r, h4, v4, c4⟩ := addBigInt_spec a bc ha c3
  obtain ⟨e1, e2⟩ := canonical_unique c2 c4 (by rw [v2, v1, v4, v3]; ring)
  exact ⟨ab, l, bc, r, h1, h2, h3, h4, e1, by simp only [BigInt.length, e2], e2⟩

/-- Witness for `addBigInt_associative`: 999999, -1000001 and 2. -/
theorem addBigInt_associative_witness :
    Canonical (mk 1 [999, 999]) ∧ Canonical (mk (-1) [1, 0, 1]) ∧ Canonical (mk 1 [2]) ∧
    ∃ ab l bc r, addBigInt (mk 1 [999, 999]) (mk (-1) [1, 0, 1]) = .ok ab ∧
      addBigInt ab (mk 1 [2]) = .ok l ∧
      addBigInt (mk (-1) [1, 0, 1]) (mk 1 [2]) = .ok bc ∧
      addBigInt (mk 1 [999, 999]) bc = .ok r ∧
      l.sign = r.sign ∧ l.length = r.length ∧ l.digits = r.digits :=
  ⟨by decide, by decide, by decide,
    addBigInt_associative (mk 1 [999, 999]) (mk (-1) [1, 0, 1]) (mk 1 [2])
      (by decide) (by decide) (by decide)⟩

/-! ## Canonical form of what the operations return -/

/-- Whatever `createBigIntFromString` returns is canonical. -/
theorem createBigIntFromString_canonical (str : List Char) (x : BigInt)
    (h : createBigIntFromString str = some x) : Canonical x := by
  by_cases hs : stripSign str = []
  · rcases stripSign_nil_cases hs with rfl | rfl | rfl
    · have h0 : createBigIntFromString [] = some (createBigInt 1) := by decide
      rw [h0] at h
      cases h
      exact canonical_createBigInt 1
    · have h0 : createBigIntFromString ['+'] = none := by decide
      rw [h0] at h
      cases h
    · have h0 : createBigIntFromString ['-'] = none := by decide
      rw [h0] at h
      cases h
  · by_cases hd : ∀ c ∈ stripSign str, isdigit c = true
    · obtain ⟨r, hr, hc, _⟩ := createBigIntFromString_numeral str hs hd
      rw [hr] at h
      cases h
      exact hc
    · push_neg at hd
      obtain ⟨c, hc, hnd⟩ := hd
      have hf : isdigit c = false := by
        cases hx : isdigit c
        · rfl
        · exact absurd hx hnd
      rw [createBigIntFromString_none_of_nondigit str c hc hf] at h
      cases h

/-- `createBigIntFromLL` succeeds, with a canonical result of the given value. -/
theorem createBigIntFromLL_spec (val : Int) :
    ∃ x, createBigIntFromLL val = some x ∧ Canonical x ∧ x.value = val :=
  createBigIntFromString_decimalNumeral val

/-- `subtractBigInt` on canonical operands. -/
theorem subtractBigInt_spec (a b : BigInt) (ha : Canonical a) (hb : Canonical b) :
    ∃ r, subtractBigInt a b = .ok r ∧ r.value = a.value - b.value ∧ Canonical r := by
  obtain ⟨c1, _, _, c4⟩ := canonical_negate_copy hb
  obtain ⟨r, hr, hv, hc⟩ := addBigInt_spec a (negateBigInt (copyBigInt b)) ha c1
  refine ⟨r, hr, ?_, hc⟩
  rw [hv, c4]
  ring

/-- C17. Canonical form is preserved by construction, addition and
subtraction: whatever `createBigIntFromString` returns is canonical;
`createBigIntFromLL` returns a canonical BigInt for every value; `addBigInt`
and `subtractBigInt` on canonical operands succeed with a canonical result.
Canonical: every block in `[0, 1000)`, at least one block, no leading zero block
unless the number is the single block zero, sign `+1` or `-1`, zero with sign
`+1` (and radix 1000 with 3 digits a block). -/
theorem canonical_of_construct_add_subtract :
    (∀ (str : List Char) (x : BigInt), createBigIntFromString str = some x → Canonical x) ∧
    (∀ val : Int, ∃ x, createBigIntFromLL val = some x ∧ Canonical x) ∧
    (∀ a b : BigInt, Canonical a → Canonical b → ∃ r, addBigInt a b = .ok r ∧ Canonical r) ∧
    (∀ a b : BigInt, Canonical a → Canonical b →
      ∃ r, subtractBigInt a b = .ok r ∧ Canonical r) := by
  refine ⟨createBigIntFromString_canonical, ?_, ?_, ?_⟩
  · intro val
    obtain ⟨x, h1, h2, _⟩ := createBigIntFromLL_spec val
    exact ⟨x, h1, h2⟩
  · intro a b ha hb
    obtain ⟨r, h1, _, h2⟩ := addBigInt_spec a b ha hb
    exact ⟨r, h1, h2⟩
  · intro a b ha hb
    obtain ⟨r, h1, _, h2⟩ := subtractBigInt_spec a b ha hb
    exact ⟨r, h1, h2⟩

/-- Witness for `canonical_of_construct_add_subtract`: the text `-0012000`, the
value `-9223372036854775808`, and 999999 with -1000001. -/
theorem canonical_of_construct_add_subtract_witness :
    (∀ x, createBigIntFromString "-0012000".toList = some x → Canonical x) ∧
    createBigIntFromString "-0012000".toList = some (mk (-1) [0, 12]) ∧
    (∃ x, createBigIntFromLL (-9223372036854775808) = some x ∧ Canonical x) ∧
    Canonical (mk 1 [999, 999]) ∧ Canonical (mk (-1) [1, 0, 1]) ∧
    (∃ r, addBigInt (mk 1 [999, 999]) (mk (-1) [1, 0, 1]) = .ok r ∧ Canonical r) ∧
    (∃ r, subtractBigInt (mk 1 [999, 999]) (mk (-1) [1, 0, 1]) = .ok r ∧ Canonical r) :=
  ⟨canonical_of_construct_add_subtract.1 _, by decide,
    canonical_of_construct_add_subtract.2.1 _, by decide, by decide,
    canonical_of_construct_add_subtract.2.2.1 _ _ (by decide) (by decide),
    canonical_of_construct_add_subtract.2.2.2 _ _ (by decide) (by decide)⟩

/-! ## The shape of what `ntt` returns, and the lengths for which it returns -/

theorem bitReverse_outer_length (n k : Nat) :
    ∀ (i j : Nat) (a : List Nat), (bit_reverse_ntt.outer n k i j a).length = a.length := by
  induction k with
  | zero =>
    intro i j a
    rfl
  | succ k ih =>
    intro i j a
    unfold bit_reverse_ntt.outer
    simp only
    rw [ih]
    split
    · rw [List.length_set, List.length_set]
    · rfl

theorem butterflies_length (wlen i half k : Nat) :
    ∀ (j w : Nat) (a : List Nat), (ntt.butterflies wlen i half k j w a).length = a.length := by
  induction k with
  | zero =>
    intro j w a
    rfl
  | succ k ih =>
    intro j w a
    unfold ntt.butterflies
    simp only
    rw [ih, List.length_set, List.length_set]

theorem blocks_length (len wlen k : Nat) :
    ∀ (i : Nat) (a : List Nat), (ntt.blocks len wlen k i a).length = a.length := by
  induction k with
  | zero =>
    intro i a
    rfl
  | succ k ih =>
    intro i a
    unfold ntt.blocks
    rw [ih, butterflies_length]

theorem stages_length (n : Nat) (invert : Bool) (fuel : Nat) :
    ∀ (len : Nat) (a : List Nat), (ntt.stages n invert fuel len a).length = a.length := by
  induction fuel with
  | zero =>
    intro len a
    rfl
  | succ fuel ih =>
    intro len a
    unfold ntt.stages
    split
    · simp only
      rw [ih, blocks_length]
    · rfl

/-- On an array of `2^L` elements, `L <= 29`, `ntt` returns an array of the same
length; the inverse transform leaves every element below the modulus. -/
theorem ntt_shape (invert : Bool) (L : Nat) (hL : L ≤ 29) (a : List Nat)
    (hl : a.length = 2 ^ L) :
    ∃ r, ntt a (2 ^ L) invert = .ok r ∧ r.length = 2 ^ L ∧
      (invert = true → ∀ t, r.getD t 0 < MOD) := by
  have hcond : 2 ^ L > 0 ∧ Nat.land (2 ^ L) (2 ^ L - 1) = 0 := by
    refine ⟨by positivity, ?_⟩
    show 2 ^ L &&& (2 ^ L - 1) = 0
    rw [Nat.and_pow_two_sub_one_eq_mod]
    simp
  have hs : (ntt.stages (2 ^ L) invert 64 2 (bit_reverse_ntt a (2 ^ L))).length = 2 ^ L := by
    rw [stages_length]
    unfold bit_reverse_ntt
    rw [bitReverse_outer_length, hl]
  rw [ntt_eq _ _ _ hcond.1 hcond.2 (two_pow_le_29 hL)]
  cases invert
  · exact ⟨_, rfl, hs, fun h => absurd h (by decide)⟩
  · simp only [if_true]
    refine ⟨_, rfl, ?_, ?_⟩
    · rw [List.take_of_length_le (le_of_eq hs), List.drop_of_length_le (le_of_eq hs),
        List.append_nil, List.length_map, hs]
    · intro _ t
      rw [List.take_of_length_le (le_of_eq hs), List.drop_of_length_le (le_of_eq hs),
        List.append_nil]
      by_cases ht : t < ((ntt.stages (2 ^ L) true 64 2 (bit_reverse_ntt a (2 ^ L))).map
          (fun x => (x * mod_inverse (2 ^ L) MOD) % ULL % MOD)).length
      · rw [List.getD_eq_getElem _ _ ht, List.getElem_map]
        exact Nat.mod_lt _ (by decide)
      · rw [List.getD_eq_default _ _ (by omega)]
        decide

/-- A transform length from `2^31` on does not arrive in `ntt` as a positive
`int`. -/
theorem toInt_two_pow (L : Nat) (hL : 31 ≤ L) : toInt (2 ^ L) ≤ 0 := by
  have e : (2 : Nat) ^ L = 2147483648 * 2 ^ (L - 31) := by
    rw [show (2147483648 : Nat) = 2 ^ 31 by norm_num, ← pow_add]
    congr 1
    omega
  have hpos : 0 < 2 ^ (L - 31) := by positivity
  generalize 2 ^ (L - 31) = m at e hpos
  unfold toInt
  rw [e, if_neg (by omega)]
  omega

/-- From `2^30` elements on `ntt` returns nothing: at `2^30` the last shift of
`len` overflows, from `2^31` on the `assert` fails. -/
theorem ntt_fault (invert : Bool) (L : Nat) (hL : 30 ≤ L) (a : List Nat) :
    ntt a (2 ^ L) invert =
      .error (if L = 30 then Fault.undefined else Fault.assertFailed) := by
  by_cases h30 : L = 30
  · subst h30
    have hcond : Nat.land (2 ^ 30) (2 ^ 30 - 1) = 0 := by
      show 2 ^ 30 &&& (2 ^ 30 - 1) = 0
      rw [Nat.and_pow_two_sub_one_eq_mod]
      simp
    have hlt : (2 : Nat) ^ 30 < 2147483648 := by norm_num
    unfold ntt
    simp only [toInt_of_lt _ hlt, Int.toNat_ofNat]
    rw [if_pos ⟨by positivity, hcond⟩, if_neg (by norm_num)]
    rfl
  · have h := toInt_two_pow L (by omega)
    unfold ntt
    simp only
    rw [if_neg (fun hc => absurd hc.1 (by omega)), if_neg h30]

/-- The transform length chosen by `nttMultiplyBigInt`: the least power of two
that is not below the combined length. -/
theorem size_of_le_pow (cl K : Nat) (h : cl ≤ 2 ^ K) :
    ∃ L, L ≤ K ∧ nttMultiplyBigInt.size cl cl 1 = 2 ^ L ∧ cl ≤ 2 ^ L := by
  obtain ⟨L, h1, h2, h3⟩ := size_spec cl cl 0 (by omega)
  rw [pow_zero] at h1
  refine ⟨L, ?_, h1, h2⟩
  rcases h3 with h3 | h3
  · omega
  · have h4 : 2 ^ (L - 1) < 2 ^ K := by omega
    have h5 := (Nat.pow_lt_pow_iff_right (by norm_num : 1 < 2)).mp h4
    omega

theorem size_of_gt_pow (cl K : Nat) (h : 2 ^ K < cl) :
    ∃ L, K < L ∧ nttMultiplyBigInt.size cl cl 1 = 2 ^ L ∧ (cl ≤ 2 ^ (K + 1) → L = K + 1) := by
  obtain ⟨L, h1, h2, h3⟩ := size_spec cl cl 0 (by omega)
  rw [pow_zero] at h1
  have hK : K < L := by
    have h4 : 2 ^ K < 2 ^ L := by omega
    exact (Nat.pow_lt_pow_iff_right (by norm_num : 1 < 2)).mp h4
  refine ⟨L, hK, h1, ?_⟩
  intro hle
  rcases h3 with h3 | h3
  · omega
  · have h4 : 2 ^ (L - 1) < 2 ^ (K + 1) := by omega
    have h5 := (Nat.pow_lt_pow_iff_right (by norm_num : 1 < 2)).mp h4
    omega

/-- On canonical operands of at most `2^29` blocks in all `nttMultiplyBigInt`
succeeds with a canonical result. -/
theorem nttMultiplyBigInt_canonical (a b : BigInt) (ha : Canonical a) (hb : Canonical b)
    (hlen : a.length + b.length ≤ 2 ^ 29) :
    ∃ r, nttMultiplyBigInt a b = .ok r ∧ Canonical r := by
  by_cases hz : isBigIntZero a = true ∨ isBigIntZero b = true
  · refine ⟨createBigInt 1, ?_, canonical_createBigInt 1⟩
    unfold nttMultiplyBigInt
    rw [if_neg (by
      rw [ha.1, hb.1]
      simp [DEFAULT_BASE]), if_pos hz]
  · obtain ⟨L, hL, hsize, hfit⟩ := size_of_le_pow (a.length + b.length) 29 hlen
    simp only [BigInt.length] at hfit hsize
    obtain ⟨fa, a1, a2, _⟩ := ntt_shape false L hL _ (buffer_length a.digits (2 ^ L) (by omega))
    obtain ⟨fb, b1, b2, _⟩ := ntt_shape false L hL _ (buffer_length b.digits (2 ^ L) (by omega))
    have hzl : (List.zipWith (fun x y => (x * y) % ULL % MOD) fa fb).length = 2 ^ L := by
      rw [List.length_zipWith, a2, b2, Nat.min_self]
    obtain ⟨c, c1, c2, c3⟩ := ntt_shape true L hL _ hzl
    have hbase : (toULL a.base).toNat = 1000 := by
      rw [ha.1]
      rfl
    have hs : a.sign * b.sign = 1 ∨ a.sign * b.sign = -1 := by
      rcases ha.sign_cases with h | h <;> rcases hb.sign_cases with k | k <;> rw [h, k] <;> simp
    have hpos : 1 ≤ c.length := by
      rw [c2]
      exact Nat.one_le_two_pow
    obtain ⟨t1, _⟩ := rebase_normalize_spec c (c3 rfl) hpos
      { createBigInt (2 ^ L + 1) with base := a.base, base_digits := a.base_digits }
      ha.1 ha.2.1 (a.sign * b.sign) hs
    unfold nttMultiplyBigInt
    rw [if_neg (by
      rw [ha.1, hb.1]
      simp [DEFAULT_BASE]), if_neg hz]
    simp only [hsize, BigInt.length, a1, b1, c1, hbase]
    exact ⟨_, rfl, t1⟩

/-- A zero operand: the canonical zero, whatever the length of the other. -/
theorem nttMultiplyBigInt_zero (a b : BigInt) (ha : Canonical a) (hb : Canonical b)
    (hz : isBigIntZero a = true ∨ isBigIntZero b = true) :
    nttMultiplyBigInt a b = .ok (createBigInt 1) := by
  unfold nttMultiplyBigInt
  rw [if_neg (by
    rw [ha.1, hb.1]
    simp [DEFAULT_BASE]), if_pos hz]

/-- Non-zero canonical operands of more than `2^29` blocks in all: the transform
length is `2^30` or more and `nttMultiplyBigInt` returns nothing.  Up to `2^30`
blocks the behaviour is undefined (overflow of `len` in `ntt`), beyond the
`assert` of `ntt` fails. -/
theorem nttMultiplyBigInt_fault (a b : BigInt) (ha : Canonical a) (hb : Canonical b)
    (hza : a.digits ≠ [0]) (hzb : b.digits ≠ [0]) (hlen : 2 ^ 29 < a.length + b.length) :
    nttMultiplyBigInt a b =
      .error (if a.length + b.length ≤ 2 ^ 30 then Fault.undefined else Fault.assertFailed) := by
  have hz : ¬ (isBigIntZero a = true ∨ isBigIntZero b = true) := by
    rw [isBigIntZero_iff, isBigIntZero_iff]
    exact fun h => h.elim hza hzb
  obtain ⟨L, hL, hsize, h30⟩ := size_of_gt_pow (a.length + b.length) 29 hlen
  obtain ⟨M, hsize2, hfit, _⟩ := size_spec (a.length + b.length) (a.length + b.length) 0
    (by omega)
  rw [pow_zero, hsize] at hsize2
  have hLM : L = M := Nat.pow_right_injective (le_refl 2) hsize2
  subst hLM
  have hcase : (L = 30) ↔ a.length + b.length ≤ 2 ^ 30 := by
    constructor
    · intro h
      rw [h] at hfit
      exact hfit
    · intro h
      have := h30 h
      omega
  simp only [BigInt.length] at hsize hcase
  unfold nttMultiplyBigInt
  rw [if_neg (by
    rw [ha.1, hb.1]
    simp [DEFAULT_BASE]), if_neg hz]
  simp only [hsize, BigInt.length, ntt_fault false L (by omega)]
  by_cases h : L = 30
  · rw [if_pos h, if_pos (hcase.mp h)]
  · rw [if_neg h, if_neg (fun k => h (hcase.mpr k))]

/-- Whatever `nttMultiplyBigInt` returns on canonical operands is canonical. -/
theorem nttMultiplyBigInt_canonical_of_ok (a b : BigInt) (ha : Canonical a) (hb : Canonical b)
    (r : BigInt) (h : nttMultiplyBigInt a b = .ok r) : Canonical r := by
  by_cases hlen : a.length + b.length ≤ 2 ^ 29
  · obtain ⟨r2, h1, h2⟩ := nttMultiplyBigInt_canonical a b ha hb hlen
    rw [h1] at h
    cases h
    exact h2
  · by_cases hz : isBigIntZero a = true ∨ isBigIntZero b = true
    · rw [nttMultiplyBigInt_zero a b ha hb hz] at h
      cases h
      exact canonical_createBigInt 1
    · rw [isBigIntZero_iff, isBigIntZero_iff] at hz
      rw [nttMultiplyBigInt_fault a b ha hb (fun k => hz (Or.inl k)) (fun k => hz (Or.inr k))
        (by omega)] at h
      cases h

/-! ## Operands of `2^29` blocks and more -/

theorem getD_replicate_append (N : Nat) (x : Int) :
    (List.replicate N (0 : Int) ++ [x]).getD N 0 = x := by
  induction N with
  | zero => rfl
  | succ N ih =>
    rw [List.replicate_succ, List.cons_append, List.getD_cons_succ]
    exact ih

/-- The number `s * 1000^N`, `s` a sign: `N` zero blocks below the block 1. -/
theorem power_canonical (s : Int) (hs : s = 1 ∨ s = -1) (N : Nat) :
    Canonical (mk s (List.replicate N 0 ++ [1])) ∧
    (mk s (List.replicate N 0 ++ [1])).digits ≠ [0] ∧
    (mk s (List.replicate N 0 ++ [1])).length = N + 1 ∧
    (mk s (List.replicate N 0 ++ [1])).sign = s := by
  have hlen : (List.replicate N (0 : Int) ++ [1]).length = N + 1 := by
    rw [List.length_append, List.length_replicate, List.length_singleton]
  have hne : (List.replicate N (0 : Int) ++ [1]) ≠ [0] := by
    intro h
    have h1 := congrArg (fun l => l.getD N 0) h
    simp only [getD_replicate_append] at h1
    cases N with
    | zero => exact absurd h1 (by decide)
    | succ N => exact absurd h1 (by simp)
  refine ⟨⟨rfl, rfl, ?_, ?_, ?_, hs, fun h => absurd h hne⟩, hne, hlen, rfl⟩
  · show 1 ≤ (List.replicate N (0 : Int) ++ [1]).length
    rw [hlen]
    omega
  · intro d hd
    have hd1 : d ∈ (List.replicate N (0 : Int) ++ [1]) := hd
    simp only [List.mem_append, List.mem_replicate, List.mem_singleton] at hd1
    rcases hd1 with h | h
    · rw [h.2]
      decide
    · rw [h]
      decide
  · intro _
    have e : (mk s (List.replicate N 0 ++ [1])).length - 1 = N := by
      show (List.replicate N (0 : Int) ++ [1]).length - 1 = N
      rw [hlen]
      omega
    rw [e]
    intro h0
    have h1 : (List.replicate N (0 : Int) ++ [1]).getD N 0 = 0 := h0
    rw [getD_replicate_append] at h1
    exact absurd h1 (by decide)

/-- The product of `s * 1000^N` and `t * 1000^K` is not returned when the two
have more than `2^29` blocks in all. -/
theorem nttMultiplyBigInt_power_fault (s t : Int) (hs : s = 1 ∨ s = -1) (ht : t = 1 ∨ t = -1)
    (N K : Nat) (h : 2 ^ 29 < N + 1 + (K + 1)) :
    nttMultiplyBigInt (mk s (List.replicate N 0 ++ [1])) (mk t (List.replicate K 0 ++ [1])) =
      .error (if N + 1 + (K + 1) ≤ 2 ^ 30 then Fault.undefined else Fault.assertFailed) := by
  obtain ⟨a1, a2, a3, _⟩ := power_canonical s hs N
  obtain ⟨b1, b2, b3, _⟩ := power_canonical t ht K
  have := nttMultiplyBigInt_fault _ _ a1 b1 a2 b2 (by rw [a3, b3]; exact h)
  rw [a3, b3] at this
  exact this

/-- C18. Canonical form is preserved by multiplication and division, where a
result is returned.  On canonical operands of at most `2^29` blocks in all
`nttMultiplyBigInt` returns a canonical result, and whatever it returns on
canonical operands of any length is canonical; for a non-zero divisor
`divideBigInt` returns a canonical quotient and a canonical remainder.
Canonical: every block in `[0, 1000)`, at least one block, no leading zero block
unless the number is the single block zero, sign `+1` or `-1`, and sign `+1`
when the value is zero.  For non-zero operands of more than `2^29` blocks in all
`nttMultiplyBigInt` returns no result: the transform length `2^30` makes the
`int` `len` of `ntt` overflow (undefined behaviour), a longer one fails the
`assert` of `ntt`; so for `1000^(2^29 - 1)` times 1 and `1000^(2^30 - 1)` times
1. -/
theorem canonical_product_only_up_to_2_29_blocks :
    (∀ a b : BigInt, Canonical a → Canonical b → a.length + b.length ≤ 2 ^ 29 →
      ∃ r, nttMultiplyBigInt a b = .ok r ∧ Canonical r ∧ (r.value = 0 → r.sign = 1)) ∧
    (∀ a b r : BigInt, Canonical a → Canonical b → nttMultiplyBigInt a b = .ok r →
      Canonical r ∧ (r.value = 0 → r.sign = 1)) ∧
    (∀ a b : BigInt, Canonical a → Canonical b → a.digits ≠ [0] → b.digits ≠ [0] →
      2 ^ 29 < a.length + b.length →
      nttMultiplyBigInt a b =
        .error (if a.length + b.length ≤ 2 ^ 30 then Fault.undefined else Fault.assertFailed)) ∧
    (Canonical (mk 1 (List.replicate (2 ^ 29 - 1) 0 ++ [1])) ∧ Canonical (mk 1 [1]) ∧
      (mk 1 (List.replicate (2 ^ 29 - 1) 0 ++ [1])).length = 2 ^ 29 ∧
      nttMultiplyBigInt (mk 1 (List.replicate (2 ^ 29 - 1) 0 ++ [1])) (mk 1 [1]) =
        .error Fault.undefined ∧
      Canonical (mk 1 (List.replicate (2 ^ 30 - 1) 0 ++ [1])) ∧
      (mk 1 (List.replicate (2 ^ 30 - 1) 0 ++ [1])).length = 2 ^ 30 ∧
      nttMultiplyBigInt (mk 1 (List.replicate (2 ^ 30 - 1) 0 ++ [1])) (mk 1 [1]) =
        .error Fault.assertFailed) ∧
    (∀ a b : BigInt, Canonical a → Canonical b → isBigIntZero b = false →
      ∃ q r, divideBigInt a b = .ok (q, r) ∧ Canonical q ∧ Canonical r ∧
        (q.value = 0 → q.sign = 1) ∧ (r.value = 0 → r.sign = 1)) := by
  have hzero : ∀ x : BigInt, Canonical x → x.value = 0 → x.sign = 1 := by
    intro x hx hv
    apply hx.2.2.2.2.2.2
    apply (magnitude_eq_zero_iff hx).mp
    rw [← abs_value hx, hv]
    rfl
  have e29 : (2 : Nat) ^ 29 - 1 + 1 = 2 ^ 29 := by norm_num
  have e30 : (2 : Nat) ^ 30 - 1 + 1 = 2 ^ 30 := by norm_num
  refine ⟨?_, ?_, ?_, ?_, ?_⟩
  · intro a b ha hb hlen
    obtain ⟨r, h1, h2⟩ := nttMultiplyBigInt_canonical a b ha hb hlen
    exact ⟨r, h1, h2, hzero r h2⟩
  · intro a b r ha hb h
    have h2 := nttMultiplyBigInt_canonical_of_ok a b ha hb r h
    exact ⟨h2, hzero r h2⟩
  · intro a b ha hb hza hzb hlen
    exact nttMultiplyBigInt_fault a b ha hb hza hzb hlen
  · obtain ⟨c1, _, c3, _⟩ := power_canonical 1 (Or.inl rfl) (2 ^ 29 - 1)
    obtain ⟨d1, _, d3, _⟩ := power_canonical 1 (Or.inl rfl) (2 ^ 30 - 1)
    have h1 := nttMultiplyBigInt_power_fault 1 1 (Or.inl rfl) (Or.inl rfl) (2 ^ 29 - 1) 0
      (by norm_num)
    rw [if_pos (by norm_num)] at h1
    have h2 := nttMultiplyBigInt_power_fault 1 1 (Or.inl rfl) (Or.inl rfl) (2 ^ 30 - 1) 0
      (by norm_num)
    rw [if_neg (by norm_num)] at h2
    exact ⟨c1, by decide, c3.trans e29, h1, d1, d3.trans e30, h2⟩
  · intro a b ha hb hz
    obtain ⟨q, r, h, cq, cr, _⟩ := divideBigInt_spec a b ha hb hz
    exact ⟨q, r, h, cq, cr, hzero q cq, hzero r cr⟩

/-! ## Multiplication by ten -/

theorem multiplyBy10_loop_eq (num : BigInt) (k : Nat) :
    ∀ (i : Nat) (carry : Int) (out : List Int),
      multiplyBy10.loop num k i carry out = multiplyByInt.loop num 10 num.base k i carry out := by
  induction k with
  | zero =>
    intro i carry out
    rfl
  | succ k ih =>
    intro i carry out
    unfold multiplyBy10.loop multiplyByInt.loop
    simp only
    rw [ih]

/-- A block list whose value reaches `1000^(length - 1)` has a non-zero top
block. -/
theorem top_ne_zero_of_ge_pow {ds : List Int} (hr : InRange ds)
    (h : 1000 ^ (ds.length - 1) ≤ blocksValue ds) : NoLeadingZero ds := by
  intro hl h0
  have h1 := prefixValue_succ ds (ds.length - 1)
  have e : ds.length - 1 + 1 = ds.length := by omega
  rw [e, prefixValue_of_le ds (le_refl _), h0, zero_mul, add_zero] at h1
  have h2 := prefixValue_lt hr (ds.length - 1)
  omega

/-- The fields of `multiplyBy10 num` for a non-zero `num`. -/
theorem multiplyBy10_fields (num : BigInt) (hz : isBigIntZero num = false) :
    (multiplyBy10 num).digits =
      (if (multiplyBy10.loop num num.length 0 0 []).2 > 0 then
        (multiplyBy10.loop num num.length 0 0 []).1 ++ [(multiplyBy10.loop num num.length 0 0 []).2]
      else (multiplyBy10.loop num num.length 0 0 []).1) ∧
    (multiplyBy10 num).sign = num.sign ∧ (multiplyBy10 num).base = num.base ∧
    (multiplyBy10 num).base_digits = num.base_digits := by
  unfold multiplyBy10
  rw [hz]
  simp only [Bool.false_eq_true, if_false]
  split
  · refine ⟨?_, ?_, ?_, ?_⟩
    · show (ensureCapacity _ _).digits ++ _ = _
      rw [ensureCapacity_digits]
    · show (ensureCapacity _ _).sign = _
      rw [ensureCapacity_sign]
    · show (ensureCapacity _ _).base = _
      rw [ensureCapacity_base]
    · show (ensureCapacity _ _).base_digits = _
      rw [ensureCapacity_base_digits]
  · exact ⟨rfl, rfl, rfl, rfl⟩

/-- `multiplyBy10` on a non-negative canonical number: the result is canonical,
of sign `+1`, and has ten times the value. -/
theorem multiplyBy10_spec (num : BigInt) (hc : Canonical num) (hs : num.sign = 1) :
    Canonical (multiplyBy10 num) ∧ (multiplyBy10 num).sign = 1 ∧
    blocksValue (multiplyBy10 num).digits = 10 * blocksValue num.digits := by
  by_cases hz : isBigIntZero num = true
  · have e : multiplyBy10 num = num := by
      unfold multiplyBy10
      rw [if_pos hz]
    rw [e]
    refine ⟨hc, hs, ?_⟩
    rw [blocksValue_eq_zero_of_isZero hz]
    rfl
  · have hz' : isBigIntZero num = false := by
      cases h : isBigIntZero num
      · rfl
      · exact absurd h hz
    have hpos := magnitude_pos_of_not_zero hc hz'
    obtain ⟨f1, f2, f3, f4⟩ := multiplyBy10_fields num hz'
    obtain ⟨h1, h2, h3, h4, h5⟩ := mulLoop_spec num 10 hc.inRange (by norm_num) (by norm_num)
      num.length 0 0 [] rfl (le_refl _) (by norm_num) InRange.nil
    rw [multiplyBy10_loop_eq, hc.1] at f1
    simp only [Nat.zero_add, prefixValue_zero, prefixValue_of_le _ (le_refl _), blocksValue,
      zero_mul, add_zero, BigInt.length] at h1 h5
    simp only [BigInt.length] at f1
    generalize multiplyByInt.loop num 10 1000 num.digits.length 0 0 [] = r at h1 h2 h3 h4 h5 f1
    have hl := hc.length_pos
    have hge : 1 < num.digits.length → 1000 ^ (num.digits.length - 1) ≤ blocksValue num.digits :=
      fun h => blocksValue_ge_pow hc.inRange hc.noLeadingZero h
    have hsgn : (multiplyBy10 num).sign = 1 := by rw [f2, hs]
    have key : InRange (multiplyBy10 num).digits ∧ NoLeadingZero (multiplyBy10 num).digits ∧
        1 ≤ (multiplyBy10 num).digits.length ∧
        blocksValue (multiplyBy10 num).digits = 10 * blocksValue num.digits := by
      rw [f1]
      by_cases hcar : r.2 > 0
      · rw [if_pos hcar]
        refine ⟨h2.append (InRange.single (by omega) (by omega)), ?_, ?_, ?_⟩
        · intro _
          rw [List.length_append, List.length_singleton, Nat.add_sub_cancel,
            List.getD_append_right _ _ _ _ (le_refl _), Nat.sub_self]
          simp only [List.getD_cons_zero]
          omega
        · rw [List.length_append]
          simp
        · rw [blocksValue_append, blocksValue_single, h1]
          linear_combination h5
      · rw [if_neg hcar]
        have hc0 : r.2 = 0 := by omega
        rw [hc0, zero_mul, add_zero] at h5
        refine ⟨h2, ?_, by omega, by rw [h5]; ring⟩
        by_cases h1l : 1 < num.digits.length
        · apply top_ne_zero_of_ge_pow h2
          rw [h1, h5]
          have := hge h1l
          omega
        · intro hcon
          omega
    obtain ⟨k1, k2, k3, k4⟩ := key
    exact ⟨⟨by rw [f3]; exact hc.1, by rw [f4]; exact hc.2.1, k3, k1, k2, Or.inl hsgn,
      fun _ => hsgn⟩, hsgn, k4⟩

/-! ## The fraction digits of `bigIntToDecimalString` -/

theorem digit_char : ∀ d : Nat, d < 10 → Char.ofNat ('0'.toNat + d) = Nat.digitChar d := by
  decide

/-- A canonical number below 1000 is its lowest block. -/
theorem low_block_eq {q : BigInt} (hq : Canonical q) (h : blocksValue q.digits < 1000) :
    q.digits.getD 0 0 = blocksValue q.digits := by
  have h0 := blocksValue_nonneg hq.inRange
  rw [getD_eq_div_mod 0 q.digits hq.inRange, pow_zero, Int.ediv_one]
  omega

/-- One round of the loop of `bigIntToDecimalString`: the next digit of the
quotient of the running remainder by the divisor is written, and the remainder
of that division is the new running remainder. -/
theorem decimalLoop_step (b_abs cur : BigInt) (hb : Canonical b_abs)
    (hbz : isBigIntZero b_abs = false) (hc : Canonical cur) (hs : cur.sign = 1)
    (hlt : blocksValue cur.digits < blocksValue b_abs.digits) (k : Nat) (p : List Char) :
    ∃ next d, Canonical next ∧ next.sign = 1 ∧ 0 ≤ d ∧ d < 10 ∧
      10 * blocksValue cur.digits = d * blocksValue b_abs.digits + blocksValue next.digits ∧
      blocksValue next.digits < blocksValue b_abs.digits ∧
      bigIntToDecimalString.loop b_abs (k + 1) cur p =
        bigIntToDecimalString.loop b_abs k next (p ++ [Nat.digitChar d.toNat]) := by
  have hB := magnitude_pos_of_not_zero hb hbz
  rw [bigIntToDecimalString.loop]
  by_cases hz : isBigIntZero cur = true
  · rw [if_pos hz]
    have h0 := blocksValue_eq_zero_of_isZero hz
    refine ⟨cur, 0, hc, hs, le_refl _, by norm_num, ?_, hlt, rfl⟩
    rw [h0]
    ring
  · rw [if_neg hz]
    simp only
    obtain ⟨m1, m2, m3⟩ := multiplyBy10_spec cur hc hs
    obtain ⟨q, r, hdiv, cq, cr, hval, hrlt, _, hrs⟩ :=
      divideBigInt_spec (multiplyBy10 cur) b_abs m1 hb hbz
    rw [hdiv]
    simp only
    rw [m3] at hval
    have hq0 := blocksValue_nonneg cq.inRange
    have hr0 := blocksValue_nonneg cr.inRange
    have hq9 : blocksValue q.digits < 10 := by
      by_contra hcon
      have h10 : 10 * blocksValue b_abs.digits ≤ blocksValue q.digits * blocksValue b_abs.digits :=
        Int.mul_le_mul_of_nonneg_right (by omega) (le_of_lt hB)
      omega
    have hrsign : r.sign = 1 := by
      by_cases hr1 : r.digits = [0]
      · exact cr.2.2.2.2.2.2 hr1
      · rw [hrs hr1, m2]
    rw [if_neg (by omega)]
    have hdigit : (if (!isBigIntZero q) = true then
        (if Int.tmod (q.digits.getD 0 0) 10 < 0 then Int.tmod (q.digits.getD 0 0) 10 + 10
          else Int.tmod (q.digits.getD 0 0) 10)
        else 0) = blocksValue q.digits := by
      rw [low_block_eq cq (by omega)]
      have ht : Int.tmod (blocksValue q.digits) 10 = blocksValue q.digits := by
        rw [Int.tmod_eq_emod hq0 (by norm_num)]
        omega
      rw [ht]
      cases hzq : isBigIntZero q
      · simp only [Bool.not_false, if_true]
        rw [if_neg (by omega)]
      · simp only [Bool.not_true, Bool.false_eq_true, if_false]
        rw [blocksValue_eq_zero_of_isZero hzq]
    rw [hdigit]
    have hdn : (blocksValue q.digits).toNat < 10 := by omega
    rw [digit_char _ hdn]
    exact ⟨r, blocksValue q.digits, cr, hrsign, hq0, hq9, hval, hrlt, rfl⟩

theorem three_part_div (R B d R1 : Int) (k : Nat) (hB : 0 < B) (h : 10 * R = d * B + R1) :
    R * 10 ^ (k + 1) / B = d * 10 ^ k + R1 * 10 ^ k / B := by
  have e : R * 10 ^ (k + 1) = R1 * 10 ^ k + B * (d * 10 ^ k) := by
    rw [pow_succ]
    linear_combination (10 : Int) ^ k * h
  rw [e, Int.add_mul_ediv_left _ _ (by omega)]
  ring

/-- The loop of `bigIntToDecimalString` writes `k` decimal digits, which are the
digits of the quotient of `remainder * 10^k` by the divisor. -/
theorem decimalLoop_spec (b_abs : BigInt) (hb : Canonical b_abs)
    (hbz : isBigIntZero b_abs = false) (k : Nat) :
    ∀ (cur : BigInt) (p : List Char), Canonical cur → cur.sign = 1 →
      blocksValue cur.digits < blocksValue b_abs.digits →
      ∃ frac, bigIntToDecimalString.loop b_abs k cur p = .ok (p ++ frac) ∧
        frac.length = k ∧ (∀ c ∈ frac, isdigit c = true) ∧
        (decimalValue frac : Int) = blocksValue cur.digits * 10 ^ k / blocksValue b_abs.digits := by
  have hB := magnitude_pos_of_not_zero hb hbz
  induction k with
  | zero =>
    intro cur p hc hs hlt
    refine ⟨[], by simp [bigIntToDecimalString.loop], rfl, by simp, ?_⟩
    have h0 := blocksValue_nonneg hc.inRange
    rw [pow_zero, mul_one, Int.ediv_eq_zero_of_lt h0 hlt]
    rfl
  | succ k ih =>
    intro cur p hc hs hlt
    obtain ⟨next, d, n1, n2, d0, d9, hval, hnlt, hstep⟩ :=
      decimalLoop_step b_abs cur hb hbz hc hs hlt k p
    obtain ⟨frac, f1, f2, f3, f4⟩ := ih next (p ++ [Nat.digitChar d.toNat]) n1 n2 hnlt
    have hdn : d.toNat < 10 := by omega
    refine ⟨Nat.digitChar d.toNat :: frac, ?_, by simp [f2], ?_, ?_⟩
    · rw [hstep, f1, List.append_assoc]
      rfl
    · intro c hc'
      rcases List.mem_cons.mp hc' with h | h
      · rw [h]
        exact isdigit_digitChar hdn
      · exact f3 c h
    · rw [decimalValue_cons, digitValue_digitChar hdn, f2, three_part_div _ _ d _ k hB hval]
      push_cast
      rw [f4, Int.toNat_of_nonneg d0]

/-! ## `bigIntToDecimalString` -/

/-- What `bigIntToDecimalString` returns on canonical operands, a non-zero
divisor and a non-negative precision: the text of the quotient, then, for a
positive precision, a point and `precision` digits, which are the digits of the
quotient of `|remainder| * 10^precision` by `|b|`. -/
theorem bigIntToDecimalString_spec (a b : BigInt) (ha : Canonical a) (hb : Canonical b)
    (hz : isBigIntZero b = false) (p : Int) (hp : 0 ≤ p) :
    ∃ q r frac, divideBigInt a b = .ok (q, r) ∧ Canonical q ∧ Canonical r ∧
      bigIntToDecimalString a b p =
        .ok (some (if p > 0 then bigIntToString q ++ '.' :: frac else bigIntToString q)) ∧
      frac.length = p.toNat ∧ (∀ c ∈ frac, isdigit c = true) ∧
      (decimalValue frac : Int) = blocksValue r.digits * 10 ^ p.toNat / blocksValue b.digits ∧
      q.value = (if a.sign = b.sign then 1 else -1) * blocksValue q.digits ∧
      blocksValue a.digits = blocksValue q.digits * blocksValue b.digits + blocksValue r.digits ∧
      blocksValue r.digits < blocksValue b.digits := by
  obtain ⟨q, r, hdiv, cq, cr, hval, hrlt, hqs, _⟩ := divideBigInt_spec a b ha hb hz
  have hqv := value_eq_of_sign hqs
  have hr0 := blocksValue_nonneg cr.inRange
  unfold bigIntToDecimalString
  rw [if_neg (by omega), hz, hdiv]
  simp only [Bool.false_eq_true, if_false]
  by_cases hpos : p > 0
  · rw [if_pos hpos]
    have hb' : Canonical { copyBigInt b with sign := 1 } :=
      canonical_of_parts hb.1 hb.2.1 hb.length_pos hb.inRange hb.noLeadingZero rfl
    have hr' : Canonical { copyBigInt r with sign := 1 } :=
      canonical_of_parts cr.1 cr.2.1 cr.length_pos cr.inRange cr.noLeadingZero rfl
    have hbz' : isBigIntZero { copyBigInt b with sign := 1 } = false := hz
    obtain ⟨frac, f1, f2, f3, f4⟩ := decimalLoop_spec { copyBigInt b with sign := 1 } hb' hbz'
      p.toNat { copyBigInt r with sign := 1 } (bigIntToString q ++ ['.']) hr' rfl hrlt
    rw [f1]
    refine ⟨q, r, frac, rfl, cq, cr, ?_, f2, f3, f4, hqv, hval, hrlt⟩
    rw [if_pos hpos, List.append_assoc]
    rfl
  · rw [if_neg hpos]
    have hp0 : p = 0 := by omega
    refine ⟨q, r, [], rfl, cq, cr, ?_, by rw [hp0]; rfl, by simp, ?_, hqv, hval, hrlt⟩
    · rw [if_neg hpos]
    · rw [hp0]
      simp only [Int.toNat_zero, pow_zero, mul_one]
      rw [Int.ediv_eq_zero_of_lt hr0 hrlt]
      rfl

theorem no_point_in_numeral (v : Int) : '.' ∉ decimalNumeral v := by
  obtain ⟨_, h2, _, _⟩ := toDigits_spec v.natAbs
  have hd : '.' ∉ Nat.toDigits 10 v.natAbs := by
    intro h
    exact absurd (h2 _ h) (by decide)
  unfold decimalNumeral
  split
  · intro h
    rcases List.mem_cons.mp h with h | h
    · exact absurd h (by decide)
    · exact hd h
  · exact hd

/-- C13. Shape of the decimal expansion: for canonical `a`, canonical non-zero
`b` and a precision `p ≥ 0`, `bigIntToDecimalString a b p` returns the text
`bigIntToString q` of the quotient `q` of `divideBigInt a b`, followed, when
`p > 0`, by a point and exactly `p` characters in `'0'..'9'`; when `p = 0` it
is `bigIntToString q` alone, which holds no point. -/
theorem bigIntToDecimalString_shape (a b : BigInt) (ha : Canonical a) (hb : Canonical b)
    (hz : isBigIntZero b = false) (p : Int) (hp : 0 ≤ p) :
    ∃ q r frac, divideBigInt a b = .ok (q, r) ∧
      bigIntToDecimalString a b p =
        .ok (some (if p > 0 then bigIntToString q ++ '.' :: frac else bigIntToString q)) ∧
      (frac.length : Int) = p ∧ (∀ c ∈ frac, '0' ≤ c ∧ c ≤ '9') ∧
      '.' ∉ bigIntToString q := by
  obtain ⟨q, r, frac, h1, cq, _, h2, h3, h4, _⟩ := bigIntToDecimalString_spec a b ha hb hz p hp
  refine ⟨q, r, frac, h1, h2, ?_, ?_, ?_⟩
  · rw [h3]
    exact Int.toNat_of_nonneg hp
  · intro c hc
    have := h4 c hc
    unfold isdigit at this
    simpa using this
  · rw [bigIntToString_eq_decimalNumeral q cq]
    exact no_point_in_numeral _

/-- Witness for `bigIntToDecimalString_shape`: -100 / 3 with 5 digits. -/
theorem bigIntToDecimalString_shape_witness :
    Canonical (mk (-1) [100]) ∧ Canonical (mk 1 [3]) ∧ isBigIntZero (mk 1 [3]) = false ∧
    (0 : Int) ≤ 5 ∧
    ∃ q r frac, divideBigInt (mk (-1) [100]) (mk 1 [3]) = .ok (q, r) ∧
      bigIntToDecimalString (mk (-1) [100]) (mk 1 [3]) 5 =
        .ok (some (if (5 : Int) > 0 then bigIntToString q ++ '.' :: frac else bigIntToString q)) ∧
      (frac.length : Int) = 5 ∧ (∀ c ∈ frac, '0' ≤ c ∧ c ≤ '9') ∧
      '.' ∉ bigIntToString q :=
  ⟨by decide, by decide, by decide, by decide,
    bigIntToDecimalString_shape (mk (-1) [100]) (mk 1 [3]) (by decide) (by decide) (by decide) 5
      (by decide)⟩

/-- C14. Decimal expansion fails exactly on bad arguments:
`bigIntToDecimalString a b p` returns `NULL` whenever `b` is zero or `p < 0`,
whatever `a` is; and for canonical `a`, canonical non-zero `b` and `p ≥ 0` it
returns a string. -/
theorem bigIntToDecimalString_null_iff :
    (∀ (a b : BigInt) (p : Int), b.digits = [0] ∨ p < 0 →
      bigIntToDecimalString a b p = .ok none) ∧
    (∀ (a b : BigInt) (p : Int), Canonical a → Canonical b → b.digits ≠ [0] → 0 ≤ p →
      ∃ s, bigIntToDecimalString a b p = .ok (some s)) := by
  constructor
  · intro a b p h
    unfold bigIntToDecimalString
    by_cases hp : p < 0
    · rw [if_pos hp]
    · rw [if_neg hp]
      rcases h with h | h
      · rw [(isBigIntZero_iff b).mpr h]
        rfl
      · exact absurd h hp
  · intro a b p ha hb hz hp
    obtain ⟨q, _, frac, _, _, _, h, _⟩ :=
      bigIntToDecimalString_spec a b ha hb ((isBigIntZero_false_iff b).mpr hz) p hp
    exact ⟨_, h⟩

/-- Witness for `bigIntToDecimalString_null_iff`: 1 / 0, 1 / 3 with precision
`-1`, and 1 / 3 with precision 8. -/
theorem bigIntToDecimalString_null_iff_witness :
    bigIntToDecimalString (mk 1 [1]) (mk 1 [0]) 5 = .ok none ∧
    bigIntToDecimalString (mk 1 [1]) (mk 1 [3]) (-1) = .ok none ∧
    Canonical (mk 1 [1]) ∧ Canonical (mk 1 [3]) ∧ (mk 1 [3]).digits ≠ [0] ∧
    ∃ s, bigIntToDecimalString (mk 1 [1]) (mk 1 [3]) 8 = .ok (some s) :=
  ⟨bigIntToDecimalString_null_iff.1 _ _ _ (Or.inl rfl),
    bigIntToDecimalString_null_iff.1 _ _ _ (Or.inr (by decide)),
    by decide, by decide, by decide,
    bigIntToDecimalString_null_iff.2 _ _ _ (by decide) (by decide) (by decide) (by decide)⟩

/-! ## The number a decimal text denotes -/

theorem not_point_of_isdigit {c : Char} (h : isdigit c = true) : c ≠ '.' := by
  intro hc
  rw [hc] at h
  exact absurd h (by decide)

theorem takeWhile_digits (ds rest : List Char) (h : ∀ c ∈ ds, isdigit c = true) :
    (ds ++ '.' :: rest).takeWhile (fun c => c ≠ '.') = ds ∧
    (ds ++ '.' :: rest).dropWhile (fun c => c ≠ '.') = '.' :: rest := by
  induction ds with
  | nil => simp
  | cons d ds ih =>
    have hd := not_point_of_isdigit (h d (List.mem_cons_self _ _))
    obtain ⟨i1, i2⟩ := ih (fun c hc => h c (List.mem_cons_of_mem _ hc))
    constructor
    · rw [List.cons_append, List.takeWhile_cons_of_pos (by simpa using hd), i1]
    · rw [List.cons_append, List.dropWhile_cons_of_pos (by simpa using hd), i2]

theorem takeWhile_digits_only (ds : List Char) (h : ∀ c ∈ ds, isdigit c = true) :
    ds.takeWhile (fun c => c ≠ '.') = ds ∧ ds.dropWhile (fun c => c ≠ '.') = [] := by
  induction ds with
  | nil => simp
  | cons d ds ih =>
    have hd := not_point_of_isdigit (h d (List.mem_cons_self _ _))
    obtain ⟨i1, i2⟩ := ih (fun c hc => h c (List.mem_cons_of_mem _ hc))
    constructor
    · rw [List.takeWhile_cons_of_pos (by simpa using hd), i1]
    · rw [List.dropWhile_cons_of_pos (by simpa using hd), i2]

/-- The sign and the body of a numeral followed by more text. -/
theorem numeral_append_parts (v : Int) (tail : List Char) :
    stripSign (decimalNumeral v ++ tail) = Nat.toDigits 10 v.natAbs ++ tail ∧
    signOf (decimalNumeral v ++ tail) = (if v < 0 then -1 else 1) := by
  obtain ⟨_, h2, h3, _⟩ := toDigits_spec v.natAbs
  unfold decimalNumeral
  split
  · simp [stripSign, signOf]
  · cases hd : Nat.toDigits 10 v.natAbs with
    | nil => exact absurd hd h3
    | cons c t =>
      rw [hd] at h2
      exact stripSign_of_digit (t ++ tail) (h2 c (List.mem_cons_self _ _))

/-- The number denoted by a numeral followed by a point and fraction digits. -/
theorem decimalTextValue_point (v : Int) (frac : List Char) :
    decimalTextValue (decimalNumeral v ++ '.' :: frac) =
      (if v < 0 then -1 else 1) *
        (((v.natAbs : Nat) : Rat) + (decimalValue frac : Rat) / 10 ^ frac.length) := by
  obtain ⟨p1, p2⟩ := numeral_append_parts v ('.' :: frac)
  obtain ⟨t1, t2, _, _⟩ := toDigits_spec v.natAbs
  obtain ⟨w1, w2⟩ := takeWhile_digits (Nat.toDigits 10 v.natAbs) frac t2
  unfold decimalTextValue
  simp only [p1, p2, w1, w2, t1, List.drop_succ_cons, List.drop_zero]
  split <;> simp

/-- The number denoted by a numeral alone. -/
theorem decimalTextValue_numeral (v : Int) : decimalTextValue (decimalNumeral v) = (v : Rat) := by
  obtain ⟨p1, p2⟩ := numeral_append_parts v []
  obtain ⟨t1, t2, _, _⟩ := toDigits_spec v.natAbs
  obtain ⟨w1, w2⟩ := takeWhile_digits_only (Nat.toDigits 10 v.natAbs) t2
  simp only [List.append_nil] at p1 p2
  unfold decimalTextValue
  simp only [p1, p2, w1, w2, t1, List.drop_nil, List.length_nil, pow_zero]
  have e : (decimalValue [] : Rat) = 0 := by
    simp [decimalValue]
  rw [e, zero_div, add_zero]
  split
  · rename_i h
    have : ((v.natAbs : Nat) : Rat) = -(v : Rat) := by
      have h1 : ((v.natAbs : Nat) : Int) = -v := by omega
      rw [← Int.cast_natCast, h1, Int.cast_neg]
    rw [this]
    simp
  · rename_i h
    have : ((v.natAbs : Nat) : Rat) = (v : Rat) := by
      have h1 : ((v.natAbs : Nat) : Int) = v := by omega
      rw [← Int.cast_natCast, h1]
    rw [this]
    simp

/-! ## The number `bigIntToDecimalString` writes -/

theorem natAbs_value_cast {q : BigInt} (hq : Canonical q) :
    ((q.value.natAbs : Nat) : Rat) = ((blocksValue q.digits : Int) : Rat) := by
  have h1 : ((q.value.natAbs : Nat) : Int) = blocksValue q.digits := by
    rw [Int.natCast_natAbs, abs_value hq]
  rw [← Int.cast_natCast, h1]

theorem sign_mul_magnitude {q : BigInt} (hq : Canonical q) :
    (q.value : Rat) = (if q.value < 0 then -1 else 1) * ((blocksValue q.digits : Int) : Rat) := by
  have h := abs_value hq
  split
  · rename_i hneg
    have : q.value = -blocksValue q.digits := by
      rw [← h, abs_of_neg hneg]
      ring
    rw [this]
    push_cast
    ring
  · rename_i hnn
    have : q.value = blocksValue q.digits := by
      rw [← h, abs_of_nonneg (by omega)]
    rw [this]
    ring

/-- The text `bigIntToDecimalString` returns denotes the quotient of
`|a| * 10^p` by `|b|`, divided by `10^p`, with the sign of the integer
quotient of `a` by `b`. -/
theorem bigIntToDecimalString_value (a b : BigInt) (ha : Canonical a) (hb : Canonical b)
    (hz : isBigIntZero b = false) (p : Int) (hp : 0 ≤ p) :
    ∃ q r s, divideBigInt a b = .ok (q, r) ∧ bigIntToDecimalString a b p = .ok (some s) ∧
      decimalTextValue s = (if q.value < 0 then -1 else 1) *
        (((blocksValue a.digits * 10 ^ p.toNat / blocksValue b.digits : Int) : Rat)) /
          10 ^ p.toNat ∧
      q.value = (if a.sign = b.sign then 1 else -1) * blocksValue q.digits ∧
      blocksValue a.digits = blocksValue q.digits * blocksValue b.digits + blocksValue r.digits ∧
      0 ≤ blocksValue q.digits ∧ 0 ≤ blocksValue r.digits ∧
      blocksValue r.digits < blocksValue b.digits := by
  obtain ⟨q, r, frac, h1, cq, cr, h2, h3, h4, h5, h6, h7, h8⟩ :=
    bigIntToDecimalString_spec a b ha hb hz p hp
  have hB := magnitude_pos_of_not_zero hb hz
  have hq0 := blocksValue_nonneg cq.inRange
  have hr0 := blocksValue_nonneg cr.inRange
  refine ⟨q, r, _, h1, h2, ?_, h6, h7, hq0, hr0, h8⟩
  have hM : blocksValue a.digits * 10 ^ p.toNat / blocksValue b.digits =
      blocksValue q.digits * 10 ^ p.toNat +
        blocksValue r.digits * 10 ^ p.toNat / blocksValue b.digits := by
    have e : blocksValue a.digits * 10 ^ p.toNat =
        blocksValue r.digits * 10 ^ p.toNat +
          blocksValue b.digits * (blocksValue q.digits * 10 ^ p.toNat) := by
      rw [h7]
      ring
    rw [e, Int.add_mul_ediv_left _ _ (by omega)]
    ring
  have hten : ((10 : Rat) ^ p.toNat) ≠ 0 := by positivity
  rw [hM, ← h5, bigIntToString_eq_decimalNumeral q cq]
  by_cases hpos : p > 0
  · rw [if_pos hpos, decimalTextValue_point _ _, natAbs_value_cast cq, h3]
    push_cast
    field_simp
  · rw [if_neg hpos, decimalTextValue_numeral, sign_mul_magnitude cq]
    have hp0 : p = 0 := by omega
    have hf : frac = [] := by
      apply List.eq_nil_of_length_eq_zero
      rw [h3, hp0]
      rfl
    rw [hf, hp0]
    simp [decimalValue]

/-- How the number written compares with the truncated quotient
`trunc(a * 10^p / b) / 10^p`: they agree when the signs of `a` and `b` agree or
`|a| ≥ |b|`; otherwise the text denotes the opposite number. -/
theorem bigIntToDecimalString_versus_truncation (a b : BigInt) (ha : Canonical a)
    (hb : Canonical b) (hz : isBigIntZero b = false) (p : Int) (hp : 0 ≤ p) :
    ∃ s, bigIntToDecimalString a b p = .ok (some s) ∧
      ((a.sign = b.sign ∨ |b.value| ≤ |a.value|) →
        decimalTextValue s =
          ((Int.tdiv (a.value * 10 ^ p.toNat) b.value : Int) : Rat) / 10 ^ p.toNat) ∧
      ((a.sign ≠ b.sign ∧ |a.value| < |b.value|) →
        decimalTextValue s =
          -((Int.tdiv (a.value * 10 ^ p.toNat) b.value : Int) : Rat) / 10 ^ p.toNat) := by
  obtain ⟨q, r, s, _, h2, h3, h4, h5, hq0, hr0, h6⟩ :=
    bigIntToDecimalString_value a b ha hb hz p hp
  have hB := magnitude_pos_of_not_zero hb hz
  have hA := blocksValue_nonneg ha.inRange
  have hP : (0 : Int) ≤ blocksValue a.digits * 10 ^ p.toNat := by positivity
  have hM0 : 0 ≤ blocksValue a.digits * 10 ^ p.toNat / blocksValue b.digits :=
    Int.ediv_nonneg hP (le_of_lt hB)
  have hT : Int.tdiv (a.value * 10 ^ p.toNat) b.value =
      (if a.sign = b.sign then 1 else -1) *
        (blocksValue a.digits * 10 ^ p.toNat / blocksValue b.digits) := by
    have e : a.value * 10 ^ p.toNat = a.sign * (blocksValue a.digits * 10 ^ p.toNat) := by
      unfold BigInt.value
      ring
    rw [e]
    unfold BigInt.value
    have hsplit : blocksValue a.digits * 10 ^ p.toNat =
        blocksValue a.digits * 10 ^ p.toNat / blocksValue b.digits * blocksValue b.digits +
          blocksValue a.digits * 10 ^ p.toNat % blocksValue b.digits :=
      (Int.ediv_add_emod' _ _).symm
    exact tdiv_of_signs ha.sign_cases hb.sign_cases hB
      (Int.emod_nonneg _ (by omega)) (Int.emod_lt_of_pos _ hB) hM0 hsplit
  rw [abs_value ha, abs_value hb]
  refine ⟨s, h2, ?_, ?_⟩
  · intro hc
    rw [h3, hT]
    by_cases hs : a.sign = b.sign
    · rw [if_pos hs] at h4 ⊢
      rw [if_neg (by omega)]
      push_cast
      ring
    · rw [if_neg hs] at h4 ⊢
      have hle : blocksValue b.digits ≤ blocksValue a.digits := by
        rcases hc with h | h
        · exact absurd h hs
        · exact h
      have hq1 : 0 < blocksValue q.digits := by
        by_contra hcon
        have : blocksValue q.digits = 0 := by omega
        rw [this, zero_mul, zero_add] at h5
        omega
      rw [if_pos (by omega)]
      push_cast
      ring
  · rintro ⟨hs, hlt⟩
    rw [h3, hT, if_neg hs]
    have hq1 : blocksValue q.digits = 0 := by
      by_contra hcon
      have h1 : 1 ≤ blocksValue q.digits := by omega
      have h2 : blocksValue b.digits ≤ blocksValue q.digits * blocksValue b.digits := by
        have := Int.mul_le_mul_of_nonneg_right h1 (le_of_lt hB)
        omega
      omega
    rw [if_neg hs, hq1] at h4
    rw [if_neg (by omega)]
    push_cast
    ring

/-- C12 (the code at the failing input): -1 / 3 with 5 fraction digits.  The
integer quotient is 0, which carries no sign, so `bigIntToDecimalString` writes
`0.33333`, the number `33333 / 100000`, where the truncated quotient
`trunc(-1 * 10^5 / 3) / 10^5` is `-33333 / 100000`.  The examples of the claim,
100 / 3 and -100 / 3 with 5 digits, are written `33.33333` and `-33.33333`.
In general the text denotes the truncated quotient when the signs of `a` and
`b` agree or `|a| ≥ |b|`, and the opposite number otherwise. -/
theorem bigIntToDecimalString_drops_sign :
    (bigIntToDecimalString (mk (-1) [1]) (mk 1 [3]) 5 = .ok (some "0.33333".toList) ∧
      decimalTextValue "0.33333".toList = 33333 / 100000 ∧
      ((Int.tdiv ((mk (-1) [1]).value * 10 ^ 5) (mk 1 [3]).value : Int) : Rat) / 10 ^ 5 =
        -33333 / 100000 ∧
      decimalTextValue "0.33333".toList ≠
        ((Int.tdiv ((mk (-1) [1]).value * 10 ^ 5) (mk 1 [3]).value : Int) : Rat) / 10 ^ 5) ∧
    bigIntToDecimalString (mk 1 [100]) (mk 1 [3]) 5 = .ok (some "33.33333".toList) ∧
    bigIntToDecimalString (mk (-1) [100]) (mk 1 [3]) 5 = .ok (some "-33.33333".toList) ∧
    (∀ (a b : BigInt) (p : Int), Canonical a → Canonical b → isBigIntZero b = false → 0 ≤ p →
      ∃ s, bigIntToDecimalString a b p = .ok (some s) ∧
        ((a.sign = b.sign ∨ |b.value| ≤ |a.value|) →
          decimalTextValue s =
            ((Int.tdiv (a.value * 10 ^ p.toNat) b.value : Int) : Rat) / 10 ^ p.toNat) ∧
        ((a.sign ≠ b.sign ∧ |a.value| < |b.value|) →
          decimalTextValue s =
            -((Int.tdiv (a.value * 10 ^ p.toNat) b.value : Int) : Rat) / 10 ^ p.toNat)) := by
  have hrun : bigIntToDecimalString (mk (-1) [1]) (mk 1 [3]) 5 = .ok (some "0.33333".toList) := by
    decide
  have hT : Int.tdiv ((mk (-1) [1]).value * 10 ^ 5) (mk 1 [3]).value = -33333 := by decide
  have hclaim : ((Int.tdiv ((mk (-1) [1]).value * 10 ^ 5) (mk 1 [3]).value : Int) : Rat) / 10 ^ 5 =
      -33333 / 100000 := by
    rw [hT]
    norm_num
  have htext : decimalTextValue "0.33333".toList = 33333 / 100000 := by
    obtain ⟨s, h1, _, h3⟩ := bigIntToDecimalString_versus_truncation (mk (-1) [1]) (mk 1 [3])
      (by decide) (by decide) (by decide) 5 (by decide)
    rw [hrun] at h1
    cases h1
    have h4 := h3 (by decide)
    have e5 : (5 : Int).toNat = 5 := rfl
    rw [e5, hT] at h4
    rw [h4]
    norm_num
  refine ⟨⟨hrun, htext, hclaim, ?_⟩, by decide, by decide, ?_⟩
  · rw [htext, hclaim]
    norm_num
  · intro a b p ha hb hz hp
    exact bigIntToDecimalString_versus_truncation a b ha hb hz p hp

/-! ## Additive inverse, zero dividend, construction from a machine integer, copy -/

/-- A canonical BigInt of value zero is the canonical zero. -/
theorem canonical_zero_of_value {r : BigInt} (hr : Canonical r) (hv : r.value = 0) :
    r.digits = [0] ∧ r.sign = 1 ∧ r.length = 1 := by
  have hd : r.digits = [0] := by
    apply (magnitude_eq_zero_iff hr).mp
    rw [← abs_value hr, hv]
    rfl
  refine ⟨hd, hr.2.2.2.2.2.2 hd, ?_⟩
  simp only [BigInt.length, hd, List.length_singleton]

/-- C21. Additive inverse: for a canonical `x`, adding to `x` a copy of `x` with
the sign negated (zero being left positive) returns the canonical zero: one
block, equal to 0, sign `+1`; and so does `subtractBigInt x x`. -/
theorem addBigInt_negated_copy (x : BigInt) (hx : Canonical x) :
    (negateBigInt (copyBigInt x)).digits = x.digits ∧
    (negateBigInt (copyBigInt x)).sign = (if x.digits = [0] then 1 else -x.sign) ∧
    (∃ r, addBigInt x (negateBigInt (copyBigInt x)) = .ok r ∧
      r.digits = [0] ∧ r.sign = 1 ∧ r.length = 1) ∧
    (∃ r, subtractBigInt x x = .ok r ∧ r.digits = [0] ∧ r.sign = 1 ∧ r.length = 1) := by
  obtain ⟨c1, c2, c3, c4⟩ := canonical_negate_copy hx
  obtain ⟨r, hr, hv, hc⟩ := addBigInt_spec x (negateBigInt (copyBigInt x)) hx c1
  obtain ⟨s, hs, hsv, hsc⟩ := subtractBigInt_spec x x hx hx
  refine ⟨c2, ?_, ⟨r, hr, canonical_zero_of_value hc (by rw [hv, c4]; ring)⟩,
    ⟨s, hs, canonical_zero_of_value hsc (by rw [hsv]; ring)⟩⟩
  rw [c3]
  by_cases hz : x.digits = [0]
  · rw [if_pos hz, (isBigIntZero_iff x).mpr hz]
    simp only [if_true]
    exact hx.2.2.2.2.2.2 hz
  · rw [if_neg hz, (isBigIntZero_false_iff x).mpr hz]
    simp

/-- Witness for `addBigInt_negated_copy`: -12000007. -/
theorem addBigInt_negated_copy_witness :
    Canonical (mk (-1) [7, 0, 12]) ∧
    (negateBigInt (copyBigInt (mk (-1) [7, 0, 12]))).digits = (mk (-1) [7, 0, 12]).digits ∧
    (negateBigInt (copyBigInt (mk (-1) [7, 0, 12]))).sign =
      (if (mk (-1) [7, 0, 12]).digits = [0] then 1 else -(mk (-1) [7, 0, 12]).sign) ∧
    (∃ r, addBigInt (mk (-1) [7, 0, 12]) (negateBigInt (copyBigInt (mk (-1) [7, 0, 12]))) = .ok r ∧
      r.digits = [0] ∧ r.sign = 1 ∧ r.length = 1) ∧
    (∃ r, subtractBigInt (mk (-1) [7, 0, 12]) (mk (-1) [7, 0, 12]) = .ok r ∧
      r.digits = [0] ∧ r.sign = 1 ∧ r.length = 1) :=
  ⟨by decide, addBigInt_negated_copy (mk (-1) [7, 0, 12]) (by decide)⟩

/-- C25. Construction from a machine integer: for every signed 64-bit `v`,
`createBigIntFromLL v` succeeds and returns the canonical BigInt of value `v`
(the only canonical BigInt with that value); so for `LLONG_MIN`, `LLONG_MAX`
and 0. -/
theorem createBigIntFromLL_value (v : Int) (_hlo : -9223372036854775808 ≤ v)
    (_hhi : v ≤ 9223372036854775807) :
    ∃ x, createBigIntFromLL v = some x ∧ Canonical x ∧ x.value = v ∧
      ∀ y, Canonical y → y.value = v → y.sign = x.sign ∧ y.digits = x.digits := by
  obtain ⟨x, h1, h2, h3⟩ := createBigIntFromLL_spec v
  exact ⟨x, h1, h2, h3, fun y hy hv => canonical_unique hy h2 (by rw [hv, h3])⟩

/-- Witness for `createBigIntFromLL_value`: `LLONG_MIN`. -/
theorem createBigIntFromLL_value_witness :
    (-9223372036854775808 : Int) ≤ -9223372036854775808 ∧
    (-9223372036854775808 : Int) ≤ 9223372036854775807 ∧
    ∃ x, createBigIntFromLL (-9223372036854775808) = some x ∧ Canonical x ∧
      x.value = -9223372036854775808 ∧
      ∀ y, Canonical y → y.value = -9223372036854775808 →
        y.sign = x.sign ∧ y.digits = x.digits :=
  ⟨by decide, by decide, createBigIntFromLL_value (-9223372036854775808) (by decide) (by decide)⟩

/-- C26. Zero dividend: for a zero dividend and a non-zero divisor `b` of either
sign, `divideBigInt` succeeds and the quotient and the remainder are both the
canonical zero. -/
theorem divideBigInt_zero_dividend (a b : BigInt) (ha : a.digits = [0])
    (hb : b.digits ≠ [0]) :
    ∃ q r, divideBigInt a b = .ok (q, r) ∧
      q.digits = [0] ∧ q.sign = 1 ∧ q.length = 1 ∧ r.digits = [0] ∧ r.sign = 1 ∧ r.length = 1 := by
  refine ⟨createBigInt 1, createBigInt 1, ?_, rfl, rfl, rfl, rfl, rfl, rfl⟩
  unfold divideBigInt
  rw [(isBigIntZero_false_iff b).mpr hb, (isBigIntZero_iff a).mpr ha]
  rfl

/-- Witness for `divideBigInt_zero_dividend`: 0 / -1000001. -/
theorem divideBigInt_zero_dividend_witness :
    (createBigInt 1).digits = [0] ∧ (mk (-1) [1, 0, 1]).digits ≠ [0] ∧
    ∃ q r, divideBigInt (createBigInt 1) (mk (-1) [1, 0, 1]) = .ok (q, r) ∧
      q.digits = [0] ∧ q.sign = 1 ∧ q.length = 1 ∧ r.digits = [0] ∧ r.sign = 1 ∧ r.length = 1 :=
  ⟨rfl, by decide,
    divideBigInt_zero_dividend (createBigInt 1) (mk (-1) [1, 0, 1]) rfl (by decide)⟩

theorem compareLoop_self (ds : List Int) (n : Nat) : compareAbsolute.loop ds ds n = 0 := by
  induction n with
  | zero => rfl
  | succ n ih =>
    unfold compareAbsolute.loop
    rw [if_neg (lt_irrefl _), if_neg (lt_irrefl _), ih]

theorem grow_ge (m : Nat) (fuel : Nat) : ∀ c, c ≤ ensureCapacity.grow m fuel c := by
  induction fuel with
  | zero =>
    intro c
    exact le_refl _
  | succ f ih =>
    intro c
    unfold ensureCapacity.grow
    split
    · exact le_trans (by omega) (ih (c * 2))
    · exact le_refl _

/-- C27. Copy is faithful: `copyBigInt x` has the sign, the length, the radix,
the digits per block and the blocks of `x`, and a capacity that holds them; so
`compareBigInt x (copyBigInt x)` is 0. -/
theorem copyBigInt_faithful (x : BigInt) :
    (copyBigInt x).sign = x.sign ∧ (copyBigInt x).length = x.length ∧
    (copyBigInt x).base = x.base ∧ (copyBigInt x).base_digits = x.base_digits ∧
    (copyBigInt x).digits = x.digits ∧
    (∀ i, i < x.length → (copyBigInt x).digits.getD i 0 = x.digits.getD i 0) ∧
    (copyBigInt x).length ≤ (copyBigInt x).capacity ∧
    compareAbsolute x (copyBigInt x) = 0 ∧ compareBigInt x (copyBigInt x) = 0 := by
  have hcap : x.length ≤ (copyBigInt x).capacity := by
    show x.length ≤ (ensureCapacity (createBigInt x.length) x.length).capacity
    unfold ensureCapacity
    split
    · rename_i h
      exact h
    · rename_i h
      exfalso
      apply h
      unfold createBigInt
      simp only
      split <;> omega
  have habs : compareAbsolute x (copyBigInt x) = 0 := by
    unfold compareAbsolute
    have hl : (copyBigInt x).length = x.length := rfl
    have hd : (copyBigInt x).digits = x.digits := rfl
    rw [hl, hd, if_neg (lt_irrefl _), if_neg (lt_irrefl _), compareLoop_self]
  refine ⟨rfl, rfl, rfl, rfl, rfl, fun _ _ => rfl, hcap, habs, ?_⟩
  unfold compareBigInt
  have hs : (copyBigInt x).sign = x.sign := rfl
  rw [hs, if_neg (lt_irrefl _), if_neg (lt_irrefl _), habs]
  simp

/-! ## Multiplication: commutativity, zero operands, sign -/

/-- On canonical operands `nttMultiplyBigInt` does not depend on the order of
the operands, whatever their length: the same result, or the same way of
returning none. -/
theorem nttMultiplyBigInt_comm (a b : BigInt) (ha : Canonical a) (hb : Canonical b) :
    nttMultiplyBigInt a b = nttMultiplyBigInt b a := by
  by_cases hz : isBigIntZero a = true ∨ isBigIntZero b = true
  · rw [nttMultiplyBigInt_zero a b ha hb hz, nttMultiplyBigInt_zero b a hb ha hz.symm]
  · by_cases hlen : a.length + b.length ≤ 2 ^ 29
    · obtain ⟨L, hL, hsize, hfit⟩ := size_of_le_pow (a.length + b.length) 29 hlen
      have hsize2 : nttMultiplyBigInt.size (b.length + a.length) (b.length + a.length) 1 =
          2 ^ L := by
        rw [Nat.add_comm b.length a.length]
        exact hsize
      simp only [BigInt.length] at hfit hsize hsize2
      obtain ⟨fa, a1, a2, _⟩ :=
        ntt_shape false L hL _ (buffer_length a.digits (2 ^ L) (by omega))
      obtain ⟨fb, b1, b2, _⟩ :=
        ntt_shape false L hL _ (buffer_length b.digits (2 ^ L) (by omega))
      have hzip : List.zipWith (fun x y => (x * y) % ULL % MOD) fb fa =
          List.zipWith (fun x y => (x * y) % ULL % MOD) fa fb :=
        List.zipWith_comm_of_comm _ (fun x y => by rw [Nat.mul_comm]) fb fa
      have hzl : (List.zipWith (fun x y => (x * y) % ULL % MOD) fa fb).length = 2 ^ L := by
        rw [List.length_zipWith, a2, b2, Nat.min_self]
      obtain ⟨c, c1, _, _⟩ := ntt_shape true L hL _ hzl
      unfold nttMultiplyBigInt
      rw [if_neg (by
        rw [ha.1, hb.1]
        simp [DEFAULT_BASE]), if_neg hz, if_neg (by
        rw [ha.1, hb.1]
        simp [DEFAULT_BASE]), if_neg (fun h => hz h.symm)]
      simp only [hsize, hsize2, BigInt.length, a1, b1, hzip, c1, ha.1, hb.1, ha.2.1, hb.2.1,
        mul_comm b.sign a.sign]
    · rw [isBigIntZero_iff, isBigIntZero_iff] at hz
      rw [nttMultiplyBigInt_fault a b ha hb (fun k => hz (Or.inl k)) (fun k => hz (Or.inr k))
          (by omega),
        nttMultiplyBigInt_fault b a hb ha (fun k => hz (Or.inr k)) (fun k => hz (Or.inl k))
          (by omega),
        Nat.add_comm b.length a.length]

/-- C22. Multiplication is commutative, where it returns a result.  For all
canonical `a` and `b`, `nttMultiplyBigInt a b` and `nttMultiplyBigInt b a` end in
the same way; for operands of at most `2^29` blocks in all both return the same
canonical BigInt (same sign, same length, same blocks).  For non-zero operands
of more than `2^29` blocks in all neither call returns a BigInt: the transform
length `2^30` makes the `int` `len` of `ntt` overflow (undefined behaviour), and
a longer one fails the `assert` of `ntt`; so for `1000^(2^29 - 1)` and 1. -/
theorem nttMultiplyBigInt_commutative_up_to_2_29_blocks :
    (∀ a b : BigInt, Canonical a → Canonical b →
      nttMultiplyBigInt a b = nttMultiplyBigInt b a) ∧
    (∀ a b : BigInt, Canonical a → Canonical b → a.length + b.length ≤ 2 ^ 29 →
      ∃ r, nttMultiplyBigInt a b = .ok r ∧ nttMultiplyBigInt b a = .ok r ∧ Canonical r) ∧
    (∀ a b : BigInt, Canonical a → Canonical b → a.digits ≠ [0] → b.digits ≠ [0] →
      2 ^ 29 < a.length + b.length →
      nttMultiplyBigInt a b =
        .error (if a.length + b.length ≤ 2 ^ 30 then Fault.undefined else Fault.assertFailed) ∧
      nttMultiplyBigInt b a =
        .error (if a.length + b.length ≤ 2 ^ 30 then Fault.undefined else Fault.assertFailed)) ∧
    (Canonical (mk 1 (List.replicate (2 ^ 29 - 1) 0 ++ [1])) ∧ Canonical (mk 1 [1]) ∧
      (mk 1 (List.replicate (2 ^ 29 - 1) 0 ++ [1])).length = 2 ^ 29 ∧
      nttMultiplyBigInt (mk 1 (List.replicate (2 ^ 29 - 1) 0 ++ [1])) (mk 1 [1]) =
        .error Fault.undefined ∧
      nttMultiplyBigInt (mk 1 [1]) (mk 1 (List.replicate (2 ^ 29 - 1) 0 ++ [1])) =
        .error Fault.undefined) := by
  have e29 : (2 : Nat) ^ 29 - 1 + 1 = 2 ^ 29 := by norm_num
  refine ⟨nttMultiplyBigInt_comm, ?_, ?_, ?_⟩
  · intro a b ha hb hlen
    obtain ⟨r, h1, h2⟩ := nttMultiplyBigInt_canonical a b ha hb hlen
    exact ⟨r, h1, (nttMultiplyBigInt_comm a b ha hb) ▸ h1, h2⟩
  · intro a b ha hb hza hzb hlen
    have h := nttMultiplyBigInt_fault a b ha hb hza hzb hlen
    exact ⟨h, (nttMultiplyBigInt_comm a b ha hb) ▸ h⟩
  · obtain ⟨c1, _, c3, _⟩ := power_canonical 1 (Or.inl rfl) (2 ^ 29 - 1)
    have h1 := nttMultiplyBigInt_power_fault 1 1 (Or.inl rfl) (Or.inl rfl) (2 ^ 29 - 1) 0
      (by norm_num)
    rw [if_pos (by norm_num)] at h1
    have h2 := nttMultiplyBigInt_power_fault 1 1 (Or.inl rfl) (Or.inl rfl) 0 (2 ^ 29 - 1)
      (by norm_num)
    rw [if_pos (by norm_num)] at h2
    exact ⟨c1, by decide, c3.trans e29, h1, h2⟩

/-- The top block of a canonical non-zero BigInt is not zero. -/
theorem top_block_ne_zero {x : BigInt} (hx : Canonical x) (hz : x.digits ≠ [0]) :
    x.digits.getD (x.digits.length - 1) 0 ≠ 0 := by
  by_cases h1 : 1 < x.digits.length
  · exact hx.noLeadingZero h1
  · have hl := hx.length_pos
    have h2 : x.digits.length = 1 := by omega
    obtain ⟨d, hd⟩ := List.length_eq_one.mp h2
    rw [hd] at hz ⊢
    intro h0
    apply hz
    simp only [List.length_singleton, Nat.sub_self, List.getD_cons_zero] at h0
    rw [h0]

/-- The top convolution coefficient is the product of the top blocks. -/
theorem convCoeff_top (as bs : List Int) (ha : 1 ≤ as.length) (hb : 1 ≤ bs.length) :
    convCoeff as bs (as.length + bs.length - 2) =
      as.getD (as.length - 1) 0 * bs.getD (bs.length - 1) 0 := by
  unfold convCoeff
  rw [Finset.sum_eq_single (as.length - 1)]
  · have e : as.length + bs.length - 2 - (as.length - 1) = bs.length - 1 := by omega
    rw [e]
  · intro i hi hne
    have := Finset.mem_range.mp hi
    by_cases hia : as.length ≤ i
    · rw [getD_zero_of_length_le as hia, zero_mul]
    · rw [getD_zero_of_length_le bs (by omega), mul_zero]
  · intro h
    exfalso
    apply h
    rw [Finset.mem_range]
    omega

/-- Up to `2^23` blocks in all, the product of two canonical non-zero numbers is
computed as a non-zero number. -/
theorem nttMultiplyBigInt_ne_zero (a b : BigInt) (ha : Canonical a) (hb : Canonical b)
    (hza : a.digits ≠ [0]) (hzb : b.digits ≠ [0]) (hlen : a.length + b.length ≤ 2 ^ 23) :
    ∃ r, nttMultiplyBigInt a b = .ok r ∧ Canonical r ∧ r.digits ≠ [0] := by
  obtain ⟨r, h1, h2, h3⟩ := nttMultiplyBigInt_spec a b ha hb
    ((isBigIntZero_false_iff a).mpr hza) ((isBigIntZero_false_iff b).mpr hzb) hlen
  refine ⟨r, h1, h2, ?_⟩
  intro h0
  have hv : r.value = 0 := by
    unfold BigInt.value
    rw [h0]
    simp [blocksValue]
  rw [hv] at h3
  have hA := ha.length_pos
  have hB := hb.length_pos
  have hta := top_block_ne_zero ha hza
  have htb := top_block_ne_zero hb hzb
  have ra := ha.inRange.getD (a.digits.length - 1)
  have rb := hb.inRange.getD (b.digits.length - 1)
  have htop := convCoeff_top a.digits b.digits hA hB
  have hpos : 0 < a.digits.getD (a.digits.length - 1) 0 * b.digits.getD (b.digits.length - 1) 0 :=
    mul_pos (by omega) (by omega)
  have hle := block_mul_le ra rb
  have hM : ((MOD : Nat) : Int) = 998244353 := rfl
  have hmod : convCoeff a.digits b.digits (a.digits.length + b.digits.length - 2) % (MOD : Int) =
      a.digits.getD (a.digits.length - 1) 0 * b.digits.getD (b.digits.length - 1) 0 := by
    rw [htop]
    apply Int.emod_eq_of_lt (le_of_lt hpos)
    rw [hM]
    omega
  have hterm : ∀ j ∈ Finset.range (a.length + b.length),
      0 ≤ (convCoeff a.digits b.digits j % (MOD : Int)) * 1000 ^ j := by
    intro j _
    apply mul_nonneg
    · apply Int.emod_nonneg
      rw [hM]
      decide
    · positivity
  have hmem : a.digits.length + b.digits.length - 2 ∈ Finset.range (a.length + b.length) := by
    rw [Finset.mem_range]
    simp only [BigInt.length]
    omega
  have hsingle := Finset.single_le_sum hterm hmem
  rw [hmod] at hsingle
  have hS : 0 < ∑ j in Finset.range (a.length + b.length),
      (convCoeff a.digits b.digits j % (MOD : Int)) * 1000 ^ j :=
    lt_of_lt_of_le (mul_pos hpos (by positivity)) hsingle
  have hs : a.sign * b.sign ≠ 0 := by
    rcases ha.sign_cases with h | h <;> rcases hb.sign_cases with k | k <;> rw [h, k] <;> decide
  exact (mul_ne_zero hs (ne_of_gt hS)) h3.symm

/-- The sign given by `nttMultiplyBigInt` to a result that is not the single
block zero is the product of the signs of the operands; a result is returned up
to `2^29` blocks in all. -/
theorem nttMultiplyBigInt_sign (a b : BigInt) (ha : Canonical a) (hb : Canonical b)
    (hza : a.digits ≠ [0]) (hzb : b.digits ≠ [0]) (hlen : a.length + b.length ≤ 2 ^ 29) :
    ∃ r, nttMultiplyBigInt a b = .ok r ∧ Canonical r ∧
      (r.digits ≠ [0] → r.sign = a.sign * b.sign) := by
  have hz : ¬ (isBigIntZero a = true ∨ isBigIntZero b = true) := by
    rw [isBigIntZero_iff, isBigIntZero_iff]
    exact fun h => h.elim hza hzb
  obtain ⟨L, hL, hsize, hfit⟩ := size_of_le_pow (a.length + b.length) 29 hlen
  simp only [BigInt.length] at hfit hsize
  obtain ⟨fa, a1, a2, _⟩ := ntt_shape false L hL _ (buffer_length a.digits (2 ^ L) (by omega))
  obtain ⟨fb, b1, b2, _⟩ := ntt_shape false L hL _ (buffer_length b.digits (2 ^ L) (by omega))
  have hzl : (List.zipWith (fun x y => (x * y) % ULL % MOD) fa fb).length = 2 ^ L := by
    rw [List.length_zipWith, a2, b2, Nat.min_self]
  obtain ⟨c, c1, c2, c3⟩ := ntt_shape true L hL _ hzl
  have hbase : (toULL a.base).toNat = 1000 := by
    rw [ha.1]
    rfl
  have hs : a.sign * b.sign = 1 ∨ a.sign * b.sign = -1 := by
    rcases ha.sign_cases with h | h <;> rcases hb.sign_cases with k | k <;> rw [h, k] <;> simp
  have hpos : 1 ≤ c.length := by
    rw [c2]
    exact Nat.one_le_two_pow
  obtain ⟨t1, _⟩ := rebase_normalize_spec c (c3 rfl) hpos
    { createBigInt (2 ^ L + 1) with base := a.base, base_digits := a.base_digits }
    ha.1 ha.2.1 (a.sign * b.sign) hs
  unfold nttMultiplyBigInt
  rw [if_neg (by
    rw [ha.1, hb.1]
    simp [DEFAULT_BASE]), if_neg hz]
  simp only [hsize, BigInt.length, a1, b1, c1, hbase]
  refine ⟨_, rfl, t1, ?_⟩
  intro hne
  rw [normalize_sign, if_neg hne]

/-- Whatever `nttMultiplyBigInt` returns on canonical non-zero operands has the
product of their signs, unless it is the single block zero. -/
theorem nttMultiplyBigInt_sign_of_ok (a b : BigInt) (ha : Canonical a) (hb : Canonical b)
    (hza : a.digits ≠ [0]) (hzb : b.digits ≠ [0]) (r : BigInt)
    (h : nttMultiplyBigInt a b = .ok r) :
    Canonical r ∧ (r.digits ≠ [0] → r.sign = a.sign * b.sign) := by
  by_cases hlen : a.length + b.length ≤ 2 ^ 29
  · obtain ⟨r2, h1, h2, h3⟩ := nttMultiplyBigInt_sign a b ha hb hza hzb hlen
    rw [h1] at h
    cases h
    exact ⟨h2, h3⟩
  · rw [nttMultiplyBigInt_fault a b ha hb hza hzb (by omega)] at h
    cases h

/-- C23. Multiplication by zero and sign of a product.  For every canonical `x`,
of either sign and any length, `nttMultiplyBigInt x 0` and `nttMultiplyBigInt 0
x` return the canonical zero (one block 0, sign `+1`), never a negative zero.
For canonical non-zero operands of at most `2^23` blocks in all the result is
not zero and its sign is the product of the signs of the operands; up to `2^29`
blocks in all a canonical result is returned, with the product of the signs
unless its blocks are the single block zero.  For more than `2^29` blocks in all
no result is returned: the transform length `2^30` makes the `int` `len` of
`ntt` overflow (undefined behaviour), a longer one fails the `assert` of `ntt`;
so for `-1000^(2^29 - 1)` times 1, where the sign of the product is `-1`. -/
theorem nttMultiplyBigInt_zero_and_sign_up_to_2_29_blocks :
    (∀ x z : BigInt, Canonical x → Canonical z → z.digits = [0] →
      ∃ r, nttMultiplyBigInt x z = .ok r ∧ nttMultiplyBigInt z x = .ok r ∧
        r.digits = [0] ∧ r.sign = 1 ∧ r.length = 1 ∧ Canonical r) ∧
    (∀ a b : BigInt, Canonical a → Canonical b → a.digits ≠ [0] → b.digits ≠ [0] →
      a.length + b.length ≤ 2 ^ 23 →
      ∃ r, nttMultiplyBigInt a b = .ok r ∧ Canonical r ∧ r.digits ≠ [0] ∧
        r.sign = a.sign * b.sign) ∧
    (∀ a b : BigInt, Canonical a → Canonical b → a.digits ≠ [0] → b.digits ≠ [0] →
      a.length + b.length ≤ 2 ^ 29 →
      ∃ r, nttMultiplyBigInt a b = .ok r ∧ Canonical r ∧
        (r.digits ≠ [0] → r.sign = a.sign * b.sign)) ∧
    (∀ a b : BigInt, Canonical a → Canonical b → a.digits ≠ [0] → b.digits ≠ [0] →
      2 ^ 29 < a.length + b.length →
      nttMultiplyBigInt a b =
        .error (if a.length + b.length ≤ 2 ^ 30 then Fault.undefined else Fault.assertFailed)) ∧
    (Canonical (mk (-1) (List.replicate (2 ^ 29 - 1) 0 ++ [1])) ∧ Canonical (mk 1 [1]) ∧
      (mk (-1) (List.replicate (2 ^ 29 - 1) 0 ++ [1])).digits ≠ [0] ∧ (mk 1 [1]).digits ≠ [0] ∧
      (mk (-1) (List.replicate (2 ^ 29 - 1) 0 ++ [1])).length = 2 ^ 29 ∧
      (mk (-1) (List.replicate (2 ^ 29 - 1) 0 ++ [1])).sign * (mk 1 [1]).sign = -1 ∧
      nttMultiplyBigInt (mk (-1) (List.replicate (2 ^ 29 - 1) 0 ++ [1])) (mk 1 [1]) =
        .error Fault.undefined) := by
  have e29 : (2 : Nat) ^ 29 - 1 + 1 = 2 ^ 29 := by norm_num
  refine ⟨?_, ?_, ?_, ?_, ?_⟩
  · intro x z hx hz h0
    have hzz := (isBigIntZero_iff z).mpr h0
    exact ⟨createBigInt 1, nttMultiplyBigInt_zero x z hx hz (Or.inr hzz),
      nttMultiplyBigInt_zero z x hz hx (Or.inl hzz), rfl, rfl, rfl, canonical_createBigInt 1⟩
  · intro a b ha hb hza hzb hlen
    obtain ⟨r, k1, k2, k3⟩ := nttMultiplyBigInt_ne_zero a b ha hb hza hzb hlen
    exact ⟨r, k1, k2, k3, (nttMultiplyBigInt_sign_of_ok a b ha hb hza hzb r k1).2 k3⟩
  · intro a b ha hb hza hzb hlen
    exact nttMultiplyBigInt_sign a b ha hb hza hzb hlen
  · intro a b ha hb hza hzb hlen
    exact nttMultiplyBigInt_fault a b ha hb hza hzb hlen
  · obtain ⟨c1, c2, c3, _⟩ := power_canonical (-1) (Or.inr rfl) (2 ^ 29 - 1)
    have h1 := nttMultiplyBigInt_power_fault (-1) 1 (Or.inr rfl) (Or.inl rfl) (2 ^ 29 - 1) 0
      (by norm_num)
    rw [if_pos (by norm_num)] at h1
    exact ⟨c1, by decide, c2, by decide, c3.trans e29, rfl, h1⟩

/-- A canonical BigInt of magnitude below `1000^k` has at most `k` blocks. -/
theorem length_le_of_magnitude_lt {x : BigInt} (hx : Canonical x) (k : Nat) (hk : 1 ≤ k)
    (h : blocksValue x.digits < 1000 ^ k) : x.digits.length ≤ k := by
  by_contra hc
  have h1 := blocksValue_ge_pow hx.inRange hx.noLeadingZero (by omega)
  have h2 : (1000 : Int) ^ k ≤ 1000 ^ (x.digits.length - 1) :=
    pow_le_pow_right₀ (by norm_num) (by omega)
  omega

/-- Multiplication by a signed 64-bit integer is exact for a canonical operand of
at most `2^23 - 7` blocks. -/
theorem multiplyBigIntByLL_spec (a : BigInt) (ha : Canonical a) (v : Int)
    (hlo : -9223372036854775808 ≤ v) (hhi : v ≤ 9223372036854775807)
    (hlen : a.length + 7 ≤ 2 ^ 23) :
    ∃ r, multiplyBigIntByLL a v = .ok r ∧ Canonical r ∧ r.value = a.value * v := by
  obtain ⟨b, h1, h2, h3⟩ := createBigIntFromLL_spec v
  have hmag : blocksValue b.digits < 1000 ^ 7 := by
    rw [← abs_value h2, h3]
    have : |v| ≤ 9223372036854775808 := abs_le.mpr ⟨by omega, by omega⟩
    have e : (1000 : Int) ^ 7 = 1000000000000000000000 := by norm_num
    omega
  have hbl := length_le_of_magnitude_lt h2 7 (by decide) hmag
  have hal : a.digits.length + 7 ≤ 2 ^ 23 := hlen
  obtain ⟨r, k1, k2, k3⟩ := nttMultiplyBigInt_exact_of_short a b ha h2
    (by simp only [BigInt.length]; omega)
    (by simp only [BigInt.length]; omega)
  refine ⟨r, ?_, k2, by rw [k3, h3]⟩
  unfold multiplyBigIntByLL
  rw [h1]
  exact k1

/-! ## The range in which the product is exact -/

/-- C28. Range in which NTT multiplication is exact.  For canonical `a` and `b`
whose shorter operand has at most 1000 blocks and with
`length a + length b <= 2^23`: every convolution coefficient
`sum_(i+j=k) a_i * b_j` lies in `[0, 998244353)`; the three transforms of
`nttMultiplyBigInt`, of the length `n` that it chooses, succeed and the inverse
transform returns exactly these coefficients; and the call succeeds with a
canonical result of value `value a * value b`. -/
theorem nttMultiplyBigInt_exact_range (a b : BigInt) (ha : Canonical a) (hb : Canonical b)
    (hshort : min a.length b.length ≤ 1000) (hlen : a.length + b.length ≤ 2 ^ 23) :
    (∀ k, 0 ≤ convCoeff a.digits b.digits k ∧ convCoeff a.digits b.digits k < (MOD : Int)) ∧
    (∃ fa fb c,
      ntt (a.digits.map (fun d => (toULL d).toNat) ++ List.replicate
          (nttMultiplyBigInt.size (a.length + b.length) (a.length + b.length) 1 - a.length) 0)
        (nttMultiplyBigInt.size (a.length + b.length) (a.length + b.length) 1) false = .ok fa ∧
      ntt (b.digits.map (fun d => (toULL d).toNat) ++ List.replicate
          (nttMultiplyBigInt.size (a.length + b.length) (a.length + b.length) 1 - b.length) 0)
        (nttMultiplyBigInt.size (a.length + b.length) (a.length + b.length) 1) false = .ok fb ∧
      ntt (List.zipWith (fun x y => (x * y) % ULL % MOD) fa fb)
        (nttMultiplyBigInt.size (a.length + b.length) (a.length + b.length) 1) true = .ok c ∧
      c.length = nttMultiplyBigInt.size (a.length + b.length) (a.length + b.length) 1 ∧
      ∀ k, k < nttMultiplyBigInt.size (a.length + b.length) (a.length + b.length) 1 →
        ((c.getD k 0 : Nat) : Int) = convCoeff a.digits b.digits k) ∧
    ∃ r, nttMultiplyBigInt a b = .ok r ∧ Canonical r ∧ r.value = a.value * b.value := by
  have hcoef : ∀ k, 0 ≤ convCoeff a.digits b.digits k ∧
      convCoeff a.digits b.digits k < (MOD : Int) := fun k =>
    ⟨convCoeff_nonneg a.digits b.digits ha.inRange hb.inRange k,
      convCoeff_lt_MOD a.digits b.digits ha.inRange hb.inRange hshort k⟩
  refine ⟨hcoef, ?_, nttMultiplyBigInt_exact_of_short a b ha hb hlen hshort⟩
  obtain ⟨L, hL, hsize, hfit⟩ := size_of_le (a.length + b.length) hlen
  obtain ⟨fa, fb, c, h1, h2, h3, h4, _, h6⟩ :=
    ntt_blocks_convolution L hL a.digits b.digits ha.inRange hb.inRange hfit
  rw [hsize]
  refine ⟨fa, fb, c, h1, h2, h3, h4, ?_⟩
  intro k hk
  rw [h6 k hk]
  exact Int.emod_eq_of_lt (hcoef k).1 (hcoef k).2

/-- Witness for `nttMultiplyBigInt_exact_range`: 999999 times 999999. -/
theorem nttMultiplyBigInt_exact_range_witness :
    Canonical (mk 1 [999, 999]) ∧
    min (mk 1 [999, 999]).length (mk 1 [999, 999]).length ≤ 1000 ∧
    (mk 1 [999, 999]).length + (mk 1 [999, 999]).length ≤ 2 ^ 23 ∧
    ∃ r, nttMultiplyBigInt (mk 1 [999, 999]) (mk 1 [999, 999]) = .ok r ∧ Canonical r ∧
      r.value = (mk 1 [999, 999]).value * (mk 1 [999, 999]).value :=
  ⟨by decide, by decide, by decide,
    (nttMultiplyBigInt_exact_range (mk 1 [999, 999]) (mk 1 [999, 999]) (by decide) (by decide)
      (by decide) (by decide)).2.2⟩

/-! ## The block step of long division -/

/-- C29. Quotient-digit search in long division.  The loop of `divideBigIntAbs`
starts with a partial remainder 0, below the divisor `B > 0`.  In a step, from a
canonical partial remainder `R < B`, the partial dividend
`P = 1000 * R + (next dividend block)` satisfies `P < 1000 * B`; the quotient
block chosen is the largest `d` in `[0, 999]` with `B * d <= P`, and is 0 when
`P < B`; the new partial remainder is `P - B * d`, in `[0, B)`, canonical again. -/
theorem divideBigIntAbs_step_quotient_block :
    (∀ b : BigInt, Canonical b → b.digits ≠ [0] →
      Canonical (createBigInt (b.length + 1)) ∧ (createBigInt (b.length + 1)).sign = 1 ∧
      blocksValue (createBigInt (b.length + 1)).digits = 0 ∧ 0 < blocksValue b.digits) ∧
    (∀ (a b : BigInt) (i : Nat) (cur q : BigInt), InRange a.digits → Canonical b →
      Canonical cur → cur.sign = 1 → blocksValue cur.digits < blocksValue b.digits →
      blocksValue (divideBigIntAbs.bringDown a i cur).digits =
        1000 * blocksValue cur.digits + a.digits.getD i 0 ∧
      blocksValue (divideBigIntAbs.bringDown a i cur).digits < 1000 * blocksValue b.digits ∧
      ∃ cur1 d, divideBigIntAbs.quotientBlock b (divideBigIntAbs.bringDown a i cur) = .ok d ∧
        divideBigIntAbs.step a b i cur q = .ok (cur1, { q with digits := q.digits ++ [d] }) ∧
        0 ≤ d ∧ d ≤ 999 ∧
        blocksValue b.digits * d ≤ blocksValue (divideBigIntAbs.bringDown a i cur).digits ∧
        (∀ e : Int, 0 ≤ e → e ≤ 999 →
          blocksValue b.digits * e ≤ blocksValue (divideBigIntAbs.bringDown a i cur).digits →
          e ≤ d) ∧
        (blocksValue (divideBigIntAbs.bringDown a i cur).digits < blocksValue b.digits → d = 0) ∧
        blocksValue cur1.digits =
          blocksValue (divideBigIntAbs.bringDown a i cur).digits - blocksValue b.digits * d ∧
        0 ≤ blocksValue cur1.digits ∧ blocksValue cur1.digits < blocksValue b.digits ∧
        Canonical cur1 ∧ cur1.sign = 1) := by
  constructor
  · intro b hb hz
    exact ⟨canonical_createBigInt _, rfl, by simp [createBigInt, blocksValue],
      magnitude_pos_of_not_zero hb ((isBigIntZero_false_iff b).mpr hz)⟩
  · intro a b i cur q ha hb hc hcs hlt
    obtain ⟨c1, c2, c3⟩ := bringDown_spec a i cur ha hc hcs
    have hv := ha.getD i
    have hR := blocksValue_nonneg hc.inRange
    have hP : blocksValue (divideBigIntAbs.bringDown a i cur).digits <
        1000 * blocksValue b.digits := by omega
    obtain ⟨d, hd, d0, d9, dle, dub⟩ := quotientBlock_spec b _ hb c1 hP
    obtain ⟨cur1, d1, hstep, e1, e2, e3, f0, f9, hval⟩ := step_spec a b i cur q ha hb hc hcs hlt
    have hB : 0 < blocksValue b.digits := by omega
    have hr1 := blocksValue_nonneg e1.inRange
    rw [← c3] at hval
    generalize blocksValue (divideBigIntAbs.bringDown a i cur).digits = P at *
    generalize blocksValue b.digits = B at *
    have hsame : d1 = d := by
      have k1 : B * d1 < B * (d + 1) := by omega
      have k2 : B * d < B * (d1 + 1) := by
        have : B * (d1 + 1) = B * d1 + B := by ring
        omega
      have k3 := lt_of_mul_lt_mul_left k1 (le_of_lt hB)
      have k4 := lt_of_mul_lt_mul_left k2 (le_of_lt hB)
      omega
    subst hsame
    refine ⟨c3, hP, cur1, d1, hd, hstep, d0, d9, dle, ?_, ?_, by omega, hr1, e3, e1, e2⟩
    · intro e _ _ he
      have k1 : B * e < B * (d1 + 1) := by omega
      have k3 := lt_of_mul_lt_mul_left k1 (le_of_lt hB)
      omega
    · intro hlt2
      have k1 : B * d1 < B * 1 := by omega
      have k3 := lt_of_mul_lt_mul_left k1 (le_of_lt hB)
      omega

/-- Witness for `divideBigIntAbs_step_quotient_block`: the divisor 7 with partial
remainder 3 and next dividend block 500: `P = 3500`, `d = 500`, remainder 0. -/
theorem divideBigIntAbs_step_quotient_block_witness :
    blocksValue (divideBigIntAbs.bringDown (mk 1 [500]) 0 (mk 1 [3])).digits =
      1000 * blocksValue (mk 1 [3]).digits + (mk 1 [500]).digits.getD 0 0 ∧
    divideBigIntAbs.quotientBlock (mk 1 [7]) (divideBigIntAbs.bringDown (mk 1 [500]) 0 (mk 1 [3]))
      = .ok 500 ∧
    blocksValue (divideBigIntAbs.bringDown (mk 1 [500]) 0 (mk 1 [3])).digits <
      1000 * blocksValue (mk 1 [7]).digits :=
  ⟨(divideBigIntAbs_step_quotient_block.2 (mk 1 [500]) (mk 1 [7]) 0 (mk 1 [3]) (mk 1 [])
      (by decide : Canonical (mk 1 [500])).inRange (by decide) (by decide) rfl (by decide)).1,
    by decide,
    (divideBigIntAbs_step_quotient_block.2 (mk 1 [500]) (mk 1 [7]) 0 (mk 1 [3]) (mk 1 [])
      (by decide : Canonical (mk 1 [500])).inRange (by decide) (by decide) rfl (by decide)).2.1⟩

/-! ## The assertions met by a division -/

/-- The subtraction loop ends without a borrow when the first magnitude is the
larger one. -/
theorem subLoop_borrow_zero (l s : BigInt) (hl : InRange l.digits) (hs : InRange s.digits)
    (hlen : s.digits.length ≤ l.digits.length)
    (hle : blocksValue s.digits ≤ blocksValue l.digits) :
    (subtractBigIntAbs.loop l s 1000 l.length 0 0 []).2 = 0 := by
  obtain ⟨h1, h2, h3, h4⟩ :=
    subLoop_spec l s hl hs l.length 0 0 [] rfl (Or.inl rfl) InRange.nil
  simp only [Nat.zero_add, prefixValue_zero, prefixValue_of_le _ (le_refl l.digits.length),
    prefixValue_of_le _ hlen, blocksValue, BigInt.length] at h4
  have h5 := blocksValue_lt h2
  rw [h1] at h5
  simp only [Nat.zero_add, BigInt.length] at h5 h1
  simp only [BigInt.length]
  generalize subtractBigIntAbs.loop l s 1000 l.digits.length 0 0 [] = r at h1 h2 h3 h4 h5
  have hP : (0 : Int) < 1000 ^ l.digits.length := by positivity
  rcases h3 with h | h
  · exact h
  · exfalso
    rw [h] at h4
    omega

/-- The binary search never leaves the interval `[0, 999]`, so that none of its
calls of `multiplyByInt` fails. -/
theorem search_ok (b cur : BigInt) (hb : Canonical b) (fuel : Nat) :
    ∀ (low high qb : Int), 0 ≤ low → high ≤ 999 →
      ∃ d, divideBigIntAbs.search b cur fuel low high qb = .ok d := by
  induction fuel with
  | zero =>
    intro low high qb _ _
    exact ⟨qb, rfl⟩
  | succ f ih =>
    intro low high qb h0 h9
    unfold divideBigIntAbs.search
    split
    · rename_i hle
      have hm0 : 0 ≤ Int.tdiv (low + high) 2 := Int.tdiv_nonneg (by omega) (by norm_num)
      have hm1 : Int.tdiv (low + high) 2 ≤ 999 := by
        rw [Int.tdiv_eq_ediv (by omega) (by norm_num)]
        omega
      obtain ⟨p, hp, _⟩ := multiplyByInt_canonical b _ hb hm0 (by omega)
      simp only [hp]
      split
      · exact ih _ _ _ (by omega) h9
      · exact ih _ _ _ h0 (by omega)
    · exact ⟨qb, rfl⟩

/-- C30. Internal preconditions of division are never violated.  For canonical
`a` and non-zero canonical `b`, `divideBigInt a b` calls `divideBigIntAbs` with
a dividend of sign `+1` and a non-zero divisor of sign `+1`, and both calls
succeed.  An assertion of `multiplyByInt` fails exactly for a multiplier outside
`[0, base)`, one of `subtractBigIntAbs` exactly when `compareAbsolute` of its
operands is negative.  In every step of the loop, from a canonical partial
remainder below the divisor: the midpoints of the binary search lie in
`[0, base)` and the search succeeds; the quotient block `d` lies in `[0, base)`;
`multiplyByInt` succeeds on it; `compareAbsolute` of the partial dividend and the
product is `>= 0`; the subtraction loop ends with borrow 0; and the step
succeeds. -/
theorem divideBigInt_preconditions :
    (∀ a b : BigInt, Canonical a → Canonical b → b.digits ≠ [0] →
      ({ copyBigInt a with sign := 1 } : BigInt).sign ≥ 0 ∧
      ({ copyBigInt b with sign := 1 } : BigInt).sign > 0 ∧
      isBigIntZero { copyBigInt b with sign := 1 } = false ∧
      (∃ q r, divideBigIntAbs { copyBigInt a with sign := 1 } { copyBigInt b with sign := 1 } =
        .ok (q, r)) ∧
      ∃ q r, divideBigInt a b = .ok (q, r)) ∧
    (∀ (x : BigInt) (m : Int),
      multiplyByInt x m = .error Fault.assertFailed ↔ ¬ (0 ≤ m ∧ m < x.base)) ∧
    (∀ l s : BigInt,
      subtractBigIntAbs l s = .error Fault.assertFailed ↔ compareAbsolute l s < 0) ∧
    (∀ (a b : BigInt) (i : Nat) (cur q : BigInt), InRange a.digits → Canonical b →
      Canonical cur → cur.sign = 1 → blocksValue cur.digits < blocksValue b.digits →
      (∀ low high : Int, 0 ≤ low → low ≤ high → high ≤ b.base - 1 →
        0 ≤ Int.tdiv (low + high) 2 ∧ Int.tdiv (low + high) 2 < b.base) ∧
      (∀ (fuel : Nat) (low high qb : Int), 0 ≤ low → high ≤ b.base - 1 →
        ∃ d, divideBigIntAbs.search b (divideBigIntAbs.bringDown a i cur) fuel low high qb =
          .ok d) ∧
      ∃ d product, divideBigIntAbs.quotientBlock b (divideBigIntAbs.bringDown a i cur) = .ok d ∧
        0 ≤ d ∧ d < b.base ∧
        multiplyByInt b d = .ok product ∧
        compareAbsolute (divideBigIntAbs.bringDown a i cur) product ≥ 0 ∧
        (subtractBigIntAbs.loop (divideBigIntAbs.bringDown a i cur) product
          (divideBigIntAbs.bringDown a i cur).base
          (divideBigIntAbs.bringDown a i cur).length 0 0 []).2 = 0 ∧
        (∃ r, subtractBigIntAbs (divideBigIntAbs.bringDown a i cur) product = .ok r) ∧
        ∃ s, divideBigIntAbs.step a b i cur q = .ok s) := by
  refine ⟨?_, ?_, ?_, ?_⟩
  · intro a b ha hb hz
    have hzb := (isBigIntZero_false_iff b).mpr hz
    have ha1 : Canonical { copyBigInt a with sign := 1 } :=
      canonical_of_parts ha.1 ha.2.1 ha.length_pos ha.inRange ha.noLeadingZero rfl
    have hb1 : Canonical { copyBigInt b with sign := 1 } :=
      canonical_of_parts hb.1 hb.2.1 hb.length_pos hb.inRange hb.noLeadingZero rfl
    have hz1 : isBigIntZero { copyBigInt b with sign := 1 } = false := by
      rw [isBigIntZero_false_iff]
      exact hz
    obtain ⟨q, r, h, _⟩ := divideBigIntAbs_spec _ _ ha1 rfl hb1 rfl hz1
    obtain ⟨q2, r2, h2, _⟩ := divideBigInt_spec a b ha hb hzb
    have s1 : ({ copyBigInt a with sign := 1 } : BigInt).sign ≥ 0 := by
      show (1 : Int) ≥ 0
      decide
    have s2 : ({ copyBigInt b with sign := 1 } : BigInt).sign > 0 := by
      show (1 : Int) > 0
      decide
    exact ⟨s1, s2, hz1, ⟨q, r, h⟩, ⟨q2, r2, h2⟩⟩
  · intro x m
    unfold multiplyByInt
    constructor
    · intro h hc
      rw [if_pos hc] at h
      split at h
      · cases h
      · split at h <;> cases h
    · intro h
      rw [if_neg h]
  · intro l s
    unfold subtractBigIntAbs
    constructor
    · intro h
      by_contra hc
      rw [if_pos (by omega)] at h
      cases h
    · intro h
      rw [if_neg (by omega)]
  · intro a b i cur q ha hb hc hcs hlt
    obtain ⟨c1, c2, c3⟩ := bringDown_spec a i cur ha hc hcs
    have hv := ha.getD i
    have hR := blocksValue_nonneg hc.inRange
    obtain ⟨d, hd, d0, d9, dle, dub⟩ := quotientBlock_spec b _ hb c1 (by omega)
    obtain ⟨p, hp, hpv, hpr, hpn, hpl⟩ := multiplyByInt_canonical b d hb d0 (by omega)
    obtain ⟨cur1, d1, hstep, _⟩ := step_spec a b i cur q ha hb hc hcs hlt
    have hcmp := compareAbsolute_spec _ p c1.inRange hpr c1.noLeadingZero hpn hpl c1.length_pos
    have hge : compareAbsolute (divideBigIntAbs.bringDown a i cur) p ≥ 0 := by
      rw [hcmp]
      exact Int.sign_nonneg.mpr (by omega)
    obtain ⟨r, hr, _⟩ := subtractBigIntAbs_spec _ p c1.1 c1.inRange hpr c1.length_pos hge
      (by omega)
    refine ⟨?_, ?_, d, p, hd, d0, by rw [hb.1]; omega, hp, hge, ?_, ⟨r, hr⟩, ⟨_, hstep⟩⟩
    · intro low high h0 hlh h9
      rw [hb.1] at h9 ⊢
      rw [Int.tdiv_eq_ediv (by omega) (by norm_num)]
      omega
    · intro fuel low high qb h0 h9
      rw [hb.1] at h9
      exact search_ok b _ hb fuel low high qb h0 (by omega)
    · rw [c1.1]
      exact subLoop_borrow_zero _ p c1.inRange hpr (compareAbsolute_ge_length hge) (by omega)

/-- Witness for `divideBigInt_preconditions`: -1000001 divided by 7. -/
theorem divideBigInt_preconditions_witness :
    (∃ q r, divideBigIntAbs { copyBigInt (mk (-1) [1, 0, 1]) with sign := 1 }
        { copyBigInt (mk 1 [7]) with sign := 1 } = .ok (q, r)) ∧
    (∃ q r, divideBigInt (mk (-1) [1, 0, 1]) (mk 1 [7]) = .ok (q, r)) ∧
    (multiplyByInt (mk 1 [7]) 1000 = .error Fault.assertFailed ↔
      ¬ (0 ≤ (1000 : Int) ∧ (1000 : Int) < (mk 1 [7]).base)) :=
  ⟨(divideBigInt_preconditions.1 (mk (-1) [1, 0, 1]) (mk 1 [7]) (by decide) (by decide)
      (by decide)).2.2.2.1,
    (divideBigInt_preconditions.1 (mk (-1) [1, 0, 1]) (mk 1 [7]) (by decide) (by decide)
      (by decide)).2.2.2.2,
    divideBigInt_preconditions.2.1 (mk 1 [7]) 1000⟩

/-! ## The transform beyond `2^23` elements -/

/-- The root computed by `ntt` for the pass of block length `2^s`, for any `s`:
the exponent `(MOD - 1) / 2^s` is an integer quotient. -/
theorem wlen_cast (invert : Bool) (s : Nat) :
    (if invert = true then mod_inverse (mod_pow G ((MOD - 1) / 2 ^ s) MOD) MOD
      else mod_pow G ((MOD - 1) / 2 ^ s) MOD) < MOD ∧
    (((if invert = true then mod_inverse (mod_pow G ((MOD - 1) / 2 ^ s) MOD) MOD
      else mod_pow G ((MOD - 1) / 2 ^ s) MOD : Nat) : ZMod MOD)) = passRoot invert s := by
  haveI : Fact (Nat.Prime MOD) := ⟨prime_MOD⟩
  have hexp : (MOD - 1) / 2 ^ s < 18446744073709551616 := by
    have : (MOD - 1) / 2 ^ s ≤ MOD - 1 := Nat.div_le_self _ _
    have h2 : MOD - 1 < 18446744073709551616 := by decide
    omega
  have hc : ((mod_pow G ((MOD - 1) / 2 ^ s) MOD : Nat) : ZMod MOD) = stageRoot s := by
    rw [mod_pow_cast G _ hexp]
    rfl
  unfold passRoot
  cases invert
  · simp only [Bool.false_eq_true, if_false]
    exact ⟨mod_pow_lt G _ hexp, hc⟩
  · simp only [if_true]
    refine ⟨mod_pow_lt _ _ (by decide), ?_⟩
    rw [mod_inverse_cast _ (by rw [hc]; exact pow_ne_zero _ G_ne_zero), hc]

/-- One pass of the loop of `ntt`. -/
theorem stages_succ (n : Nat) (invert : Bool) (fuel len : Nat) (a : List Nat) (h : len ≤ n) :
    ntt.stages n invert (fuel + 1) len a =
      ntt.stages n invert fuel (len * 2)
        (ntt.blocks len
          (if invert = true then mod_inverse (mod_pow G ((MOD - 1) / len) MOD) MOD
            else mod_pow G ((MOD - 1) / len) MOD)
          ((n + len - 1) / len) 0 a) := by
  conv_lhs => unfold ntt.stages
  rw [if_pos h]

/-- The loop of `ntt` stops when the block length exceeds `n`. -/
theorem stages_stop (n : Nat) (invert : Bool) (fuel len : Nat) (a : List Nat) (h : n < len) :
    ntt.stages n invert fuel len a = a := by
  cases fuel with
  | zero => rfl
  | succ f =>
    unfold ntt.stages
    rw [if_neg (by omega)]

/-- The passes of `ntt` of block length `2^(s+1)` to `2^S`, `S <= 23`, on an
array of `2^L` elements that holds the transforms of size `2^s`: the array then
holds the transforms of size `2^S`, and the passes go on from block length
`2^(S+1)`. -/
theorem stages_upto (invert : Bool) (x : Nat → ZMod MOD) (L S : Nat) (hS : S ≤ 23)
    (hSL : S ≤ L) (e : Nat) :
    ∀ (s fuel : Nat) (a : List Nat), s + e = S → a.length = 2 ^ L →
      (∀ t, a.getD t 0 < MOD) →
      (∀ c k, c < 2 ^ (L - s) → k < 2 ^ s →
        ((a.getD (c * 2 ^ s + k) 0 : Nat) : ZMod MOD) =
          blockDFT (passRoot invert s) (L - s) s x c k) →
      ∃ a1, ntt.stages (2 ^ L) invert (fuel + e) (2 ^ (s + 1)) a =
          ntt.stages (2 ^ L) invert fuel (2 ^ (S + 1)) a1 ∧
        a1.length = 2 ^ L ∧ (∀ t, a1.getD t 0 < MOD) ∧
        ∀ c k, c < 2 ^ (L - S) → k < 2 ^ S →
          ((a1.getD (c * 2 ^ S + k) 0 : Nat) : ZMod MOD) =
            blockDFT (passRoot invert S) (L - S) S x c k := by
  induction e with
  | zero =>
    intro s fuel a hs hl hb hinv
    have hsS : s = S := by omega
    subst hsS
    exact ⟨a, rfl, hl, hb, hinv⟩
  | succ e ih =>
    intro s fuel a hs hl hb hinv
    have hs1 : s + 1 ≤ 23 := by omega
    obtain ⟨d, hd⟩ : ∃ d, L - s = d + 1 := ⟨L - s - 1, by omega⟩
    have hd2 : L - (s + 1) = d := by omega
    have hLe : L = d + (s + 1) := by omega
    have hn : 2 ^ L = 2 ^ d * 2 ^ (s + 1) := by rw [hLe, pow_add]
    have hlenpos : 0 < 2 ^ (s + 1) := by positivity
    have hle : 2 ^ (s + 1) ≤ 2 ^ L := by
      rw [hn]
      exact Nat.le_mul_of_pos_left _ (by positivity)
    have hfuel : fuel + (e + 1) = (fuel + e) + 1 := by omega
    rw [hfuel, stages_succ _ _ _ _ _ hle]
    obtain ⟨w1, w2⟩ := wlen_spec invert (s + 1) hs1
    generalize (if invert = true then mod_inverse (mod_pow G ((MOD - 1) / 2 ^ (s + 1)) MOD) MOD
      else mod_pow G ((MOD - 1) / 2 ^ (s + 1)) MOD) = wlen at w1 w2
    have hcount : (2 ^ L + 2 ^ (s + 1) - 1) / 2 ^ (s + 1) = 2 ^ d := by
      rw [hn]
      have e : 2 ^ d * 2 ^ (s + 1) + 2 ^ (s + 1) - 1 = (2 ^ (s + 1) - 1) + 2 ^ (s + 1) * 2 ^ d := by
        have : 2 ^ d * 2 ^ (s + 1) = 2 ^ (s + 1) * 2 ^ d := by ring
        omega
      rw [e, Nat.add_mul_div_left _ _ hlenpos, Nat.div_eq_of_lt (by omega)]
      simp
    rw [hcount]
    have hhalf : 2 ^ (s + 1) = 2 * 2 ^ s := by rw [pow_succ]; ring
    obtain ⟨b1, b2, b3⟩ := blocks_spec (2 ^ (s + 1)) (2 ^ s) wlen (2 ^ L) hhalf w1 a (2 ^ d) 0 a
      (by rw [hn]; ring) hl hb (by
        intro t
        rw [if_neg (by omega)])
    rw [Nat.zero_mul] at b1 b2 b3
    have hnext : 2 ^ (s + 1) * 2 = 2 ^ (s + 1 + 1) := by rw [pow_succ (n := s + 1)]
    rw [hnext]
    apply ih (s + 1) fuel _ (by omega) b1 b2
    rw [hd2]
    rw [hd] at hinv
    intro c k hc hk
    have hidx : c * 2 ^ (s + 1) + k < 2 ^ L := by
      rw [hn]
      have h1 : (c + 1) * 2 ^ (s + 1) ≤ 2 ^ d * 2 ^ (s + 1) := Nat.mul_le_mul_right _ (by omega)
      have h2 : (c + 1) * 2 ^ (s + 1) = c * 2 ^ (s + 1) + 2 ^ (s + 1) := by ring
      omega
    have hmod : (c * 2 ^ (s + 1) + k) % 2 ^ (s + 1) = k := by
      rw [Nat.add_comm, Nat.add_mul_mod_self_right, Nat.mod_eq_of_lt hk]
    have hc2 : 2 * c < 2 ^ (d + 1) := by rw [pow_succ]; omega
    have hc3 : 2 * c + 1 < 2 ^ (d + 1) := by rw [pow_succ]; omega
    have hstep := blockDFT_step (passRoot invert (s + 1)) d s x c
    rw [passRoot_sq invert s hs1] at hstep
    rw [b3 _ hidx, hmod, w2]
    by_cases hlo : k < 2 ^ s
    · rw [if_pos hlo]
      have i1 : c * 2 ^ (s + 1) + k = 2 * c * 2 ^ s + k := by rw [pow_succ]; ring
      have i2 : c * 2 ^ (s + 1) + k + 2 ^ s = (2 * c + 1) * 2 ^ s + k := by rw [pow_succ]; ring
      rw [i2, i1, hinv (2 * c) k hc2 hlo, hinv (2 * c + 1) k hc3 hlo,
        (hstep k (passRoot_half invert s hs1)).1]
      ring
    · rw [if_neg hlo]
      have hk2 : k - 2 ^ s < 2 ^ s := by omega
      have i1 : c * 2 ^ (s + 1) + k - 2 ^ s = 2 * c * 2 ^ s + (k - 2 ^ s) := by
        have : c * 2 ^ (s + 1) = 2 * c * 2 ^ s := by rw [pow_succ]; ring
        omega
      have i2 : c * 2 ^ (s + 1) + k = (2 * c + 1) * 2 ^ s + (k - 2 ^ s) := by
        have : c * 2 ^ (s + 1) = 2 * c * 2 ^ s := by rw [pow_succ]; ring
        have : (2 * c + 1) * 2 ^ s = 2 * c * 2 ^ s + 2 ^ s := by ring
        omega
      rw [i1]
      rw [i2, hinv (2 * c) _ hc2 hk2, hinv (2 * c + 1) _ hc3 hk2]
      have hk3 : k = (k - 2 ^ s) + 2 ^ s := by omega
      conv_rhs => rw [hk3]
      rw [(hstep (k - 2 ^ s) (passRoot_half invert s hs1)).2]
      ring

/-- What `ntt` computes on `2^(S+1)` residues, `S <= 23`, in terms of the
transforms of size `2^S` of the elements of even and of odd index: the last pass
combines them with the powers of `passRoot invert (S + 1)`, which for `S = 23`
is `G^59` (or its inverse) and not a root of unity of order `2^24`. -/
theorem ntt_split_spec (invert : Bool) (S : Nat) (hS : S ≤ 23) (a : List Nat)
    (hl : a.length = 2 ^ (S + 1)) (hb : ∀ t, a.getD t 0 < MOD) :
    ∃ r, ntt a (2 ^ (S + 1)) invert = .ok r ∧ r.length = 2 ^ (S + 1) ∧
      (∀ t, r.getD t 0 < MOD) ∧
      ∀ k, k < 2 ^ S →
        ((r.getD k 0 : Nat) : ZMod MOD) =
          (if invert = true then (((2 ^ (S + 1) : Nat) : ZMod MOD))⁻¹ else 1) *
            (blockDFT (passRoot invert S) 1 S (residues a) 0 k +
              passRoot invert (S + 1) ^ k *
                blockDFT (passRoot invert S) 1 S (residues a) 1 k) ∧
        ((r.getD (k + 2 ^ S) 0 : Nat) : ZMod MOD) =
          (if invert = true then (((2 ^ (S + 1) : Nat) : ZMod MOD))⁻¹ else 1) *
            (blockDFT (passRoot invert S) 1 S (residues a) 0 k -
              passRoot invert (S + 1) ^ k *
                blockDFT (passRoot invert S) 1 S (residues a) 1 k) := by
  have hcond : 2 ^ (S + 1) > 0 ∧ Nat.land (2 ^ (S + 1)) (2 ^ (S + 1) - 1) = 0 := by
    refine ⟨by positivity, ?_⟩
    show 2 ^ (S + 1) &&& (2 ^ (S + 1) - 1) = 0
    rw [Nat.and_pow_two_sub_one_eq_mod]
    simp
  obtain ⟨r1, r2⟩ := bit_reverse_ntt_spec (S + 1) (by omega) a hl
  have hb1 : ∀ t, (bit_reverse_ntt a (2 ^ (S + 1))).getD t 0 < MOD := by
    intro t
    by_cases ht : t < 2 ^ (S + 1)
    · rw [r2 t ht]
      exact hb _
    · rw [List.getD_eq_default _ _ (by omega)]
      decide
  obtain ⟨a1, s0, s1, s2, s3⟩ := stages_upto invert (residues a) (S + 1) S hS (by omega) S 0
    (63 - S + 1) (bit_reverse_ntt a (2 ^ (S + 1))) (by omega) r1 hb1 (by
      intro c k hc hk
      have hk0 : k = 0 := by omega
      subst hk0
      have hc1 : c < 2 ^ (S + 1) := by simpa using hc
      unfold blockDFT
      simp only [pow_zero, Nat.mul_one, Nat.add_zero, Nat.sub_zero, Finset.sum_range_one,
        Nat.mul_zero, mul_one]
      rw [r2 c hc1]
      rfl)
  have hfuel : 63 - S + 1 + S = 64 := by omega
  have e2 : 2 ^ (0 + 1) = 2 := by norm_num
  have e1 : S + 1 - S = 1 := by omega
  have hpos : 0 < 2 ^ (S + 1) := by positivity
  have hpS : 0 < 2 ^ S := by positivity
  have hcount : (2 ^ (S + 1) + 2 ^ (S + 1) - 1) / 2 ^ (S + 1) = 1 := by
    apply Nat.div_eq_of_lt_le <;> omega
  have hlast : ntt.stages (2 ^ (S + 1)) invert (63 - S + 1) (2 ^ (S + 1)) a1 =
      ntt.blocks (2 ^ (S + 1))
        (if invert = true then mod_inverse (mod_pow G ((MOD - 1) / 2 ^ (S + 1)) MOD) MOD
          else mod_pow G ((MOD - 1) / 2 ^ (S + 1)) MOD) 1 0 a1 := by
    rw [stages_succ _ _ _ _ _ (le_refl _), hcount, stages_stop _ _ _ _ _ (by omega)]
  rw [hfuel, e2, hlast] at s0
  rw [e1] at s3
  obtain ⟨w1, w2⟩ := wlen_cast invert (S + 1)
  generalize (if invert = true then mod_inverse (mod_pow G ((MOD - 1) / 2 ^ (S + 1)) MOD) MOD
    else mod_pow G ((MOD - 1) / 2 ^ (S + 1)) MOD) = wlen at w1 w2 s0
  have hhalf : 2 ^ (S + 1) = 2 * 2 ^ S := by rw [pow_succ]; ring
  obtain ⟨b1, b2, b3⟩ := blocks_spec (2 ^ (S + 1)) (2 ^ S) wlen (2 ^ (S + 1)) hhalf w1 a1 1 0 a1
    (by ring) s1 s2 (by
      intro t
      rw [if_neg (by omega)])
  rw [Nat.zero_mul] at b1 b2 b3
  have hlow : ∀ k, k < 2 ^ S →
      (((ntt.blocks (2 ^ (S + 1)) wlen 1 0 a1).getD k 0 : Nat) : ZMod MOD) =
        blockDFT (passRoot invert S) 1 S (residues a) 0 k +
          passRoot invert (S + 1) ^ k * blockDFT (passRoot invert S) 1 S (residues a) 1 k := by
    intro k hk
    have h0 := s3 0 k (by norm_num) hk
    have h1 := s3 1 k (by norm_num) hk
    rw [Nat.zero_mul, Nat.zero_add] at h0
    rw [Nat.one_mul, Nat.add_comm] at h1
    rw [b3 k (by omega), Nat.mod_eq_of_lt (by omega), if_pos hk, h0, h1, w2]
    ring
  have hhigh : ∀ k, k < 2 ^ S →
      (((ntt.blocks (2 ^ (S + 1)) wlen 1 0 a1).getD (k + 2 ^ S) 0 : Nat) : ZMod MOD) =
        blockDFT (passRoot invert S) 1 S (residues a) 0 k -
          passRoot invert (S + 1) ^ k * blockDFT (passRoot invert S) 1 S (residues a) 1 k := by
    intro k hk
    have h0 := s3 0 k (by norm_num) hk
    have h1 := s3 1 k (by norm_num) hk
    rw [Nat.zero_mul, Nat.zero_add] at h0
    rw [Nat.one_mul, Nat.add_comm] at h1
    rw [b3 (k + 2 ^ S) (by omega), Nat.mod_eq_of_lt (by omega), if_neg (by omega),
      Nat.add_sub_cancel, h0, h1, w2]
    ring
  rw [ntt_eq _ _ _ hcond.1 hcond.2 (two_pow_le_29 (by omega))]
  rw [s0]
  generalize ntt.blocks (2 ^ (S + 1)) wlen 1 0 a1 = out at b1 b2 hlow hhigh
  cases invert
  · refine ⟨_, rfl, b1, b2, ?_⟩
    intro k hk
    rw [hlow k hk, hhigh k hk]
    simp
  · simp only [if_true]
    have hinv : mod_inverse (2 ^ (S + 1)) MOD < MOD := mod_pow_lt _ _ (by decide)
    have hget : ∀ t, t < 2 ^ (S + 1) →
        ((((out.take (2 ^ (S + 1))).map
            (fun x => (x * mod_inverse (2 ^ (S + 1)) MOD) % ULL % MOD) ++
          out.drop (2 ^ (S + 1))).getD t 0 : Nat) : ZMod MOD) =
        (((2 ^ (S + 1) : Nat) : ZMod MOD))⁻¹ * ((out.getD t 0 : Nat) : ZMod MOD) := by
      intro t _
      rw [List.take_of_length_le (le_of_eq b1), List.drop_of_length_le (le_of_eq b1),
        List.append_nil, getD_map_zero _ (by simp), wrap_small (mul_lt_ULL (b2 t) hinv),
        cast_mod_MOD, Nat.cast_mul, mod_inverse_cast _ (two_pow_ne_zero (S + 1))]
      ring
    refine ⟨_, rfl, ?_, ?_, ?_⟩
    · rw [List.length_append, List.length_map, List.length_take, List.length_drop, b1]
      simp
    · intro t
      rw [List.take_of_length_le (le_of_eq b1), List.drop_of_length_le (le_of_eq b1),
        List.append_nil]
      by_cases ht : t < (out.map
          (fun x => (x * mod_inverse (2 ^ (S + 1)) MOD) % ULL % MOD)).length
      · rw [List.getD_eq_getElem _ _ ht, List.getElem_map]
        exact Nat.mod_lt _ (by decide)
      · rw [List.getD_eq_default _ _ (by omega)]
        decide
    · intro k hk
      rw [hget k (by omega), hget (k + 2 ^ S) (by omega), hlow k hk, hhigh k hk]
      exact ⟨rfl, rfl⟩

/-! ## An operand of `2^23 + 1` blocks -/

/-- The blocks of `1000^(N+2) + 1000`. -/
theorem spike_getD (N t : Nat) :
    (0 :: 1 :: List.replicate N 0 ++ [1] : List Int).getD t 0 =
      if t = 1 ∨ t = N + 2 then 1 else 0 := by
  match t with
  | 0 => simp
  | 1 => simp
  | t + 2 =>
    rw [List.cons_append, List.cons_append, List.getD_cons_succ, List.getD_cons_succ]
    by_cases h1 : t < N
    · rw [List.getD_append _ _ _ _ (by rw [List.length_replicate]; exact h1),
        List.getD_eq_getElem _ _ (by rw [List.length_replicate]; exact h1), List.getElem_replicate,
        if_neg (by omega)]
    · by_cases h2 : t = N
      · subst h2
        rw [List.getD_append_right _ _ _ _ (by rw [List.length_replicate]), List.length_replicate,
          Nat.sub_self, if_pos (Or.inr rfl)]
        rfl
      · rw [List.getD_eq_default _ _ (by
          rw [List.length_append, List.length_replicate, List.length_singleton]
          omega), if_neg (by omega)]

theorem spike_length (N : Nat) :
    (0 :: 1 :: List.replicate N 0 ++ [1] : List Int).length = N + 3 := by
  simp only [List.cons_append, List.length_cons, List.length_append, List.length_replicate,
    List.length_singleton, List.length_nil]

theorem spike_canonical (N : Nat) : Canonical (mk 1 (0 :: 1 :: List.replicate N 0 ++ [1])) := by
  refine canonical_of_parts rfl rfl ?_ ?_ ?_ rfl
  · show 1 ≤ (0 :: 1 :: List.replicate N 0 ++ [1] : List Int).length
    rw [spike_length]
    omega
  · intro d hd
    have hd1 : d ∈ (0 :: 1 :: List.replicate N 0 ++ [1] : List Int) := hd
    simp only [List.cons_append, List.mem_cons, List.mem_append, List.mem_replicate,
      List.mem_singleton, List.not_mem_nil, or_false] at hd1
    rcases hd1 with h | h | h | h
    · rw [h]; decide
    · rw [h]; decide
    · rw [h.2]; decide
    · rw [h]; decide
  · intro _
    show (0 :: 1 :: List.replicate N 0 ++ [1] : List Int).getD
      ((0 :: 1 :: List.replicate N 0 ++ [1] : List Int).length - 1) 0 ≠ 0
    rw [spike_length, spike_getD, if_pos (Or.inr (by omega))]
    decide

theorem blocksValue_replicate_zero (N : Nat) : blocksValue (List.replicate N 0) = 0 := by
  induction N with
  | zero => simp [blocksValue]
  | succ N ih =>
    rw [List.replicate_succ]
    simp only [blocksValue]
    rw [ih]
    ring

theorem spike_value (N : Nat) :
    (mk 1 (0 :: 1 :: List.replicate N 0 ++ [1])).value = 1000 ^ (N + 2) + 1000 := by
  show (1 : Int) * blocksValue (0 :: 1 :: List.replicate N 0 ++ [1]) = _
  rw [List.cons_append, List.cons_append]
  simp only [blocksValue]
  rw [blocksValue_append, blocksValue_replicate_zero, List.length_replicate]
  simp only [blocksValue]
  ring

theorem spike_ne_zero (N : Nat) : (mk 1 (0 :: 1 :: List.replicate N 0 ++ [1])).digits ≠ [0] := by
  intro h
  have h1 : (0 :: 1 :: List.replicate N 0 ++ [1] : List Int).length = ([0] : List Int).length :=
    congrArg List.length h
  rw [spike_length] at h1
  simp at h1

/-- The residues of the buffer filled from `1000^(N+2) + 1000`. -/
theorem spike_residue (N n t : Nat) :
    residues ((0 :: 1 :: List.replicate N 0 ++ [1] : List Int).map (fun d => (toULL d).toNat) ++
      List.replicate (n - (0 :: 1 :: List.replicate N 0 ++ [1] : List Int).length) 0) t =
      if t = 1 ∨ t = N + 2 then 1 else 0 := by
  have hr : InRange (0 :: 1 :: List.replicate N 0 ++ [1] : List Int) :=
    (spike_canonical N).inRange
  rw [buffer_residue _ hr, spike_getD]
  split <;> simp

/-- The residues of the buffer filled from 1. -/
theorem one_residue (n t : Nat) :
    residues (([1] : List Int).map (fun d => (toULL d).toNat) ++
      List.replicate (n - ([1] : List Int).length) 0) t = if t = 0 then 1 else 0 := by
  have hr : InRange ([1] : List Int) := (by decide : Canonical (mk 1 [1])).inRange
  rw [buffer_residue _ hr]
  match t with
  | 0 => simp
  | t + 1 => simp

theorem buffer_lt (as : List Int) (hr : InRange as) (n t : Nat) :
    (as.map (fun d => (toULL d).toNat) ++ List.replicate (n - as.length) 0).getD t 0 < MOD := by
  rw [buffer_getD as hr]
  have h := hr.getD t
  have h3 : (MOD : Nat) = 998244353 := rfl
  omega

/-- The forward transform of `2^(T+2)` elements computed by `ntt` for the blocks
of `1000^(N+2) + 1000`, `N + 2 = 2^(T+1)`. -/
theorem spike_forward (T : Nat) (hT : T + 1 ≤ 23) (N : Nat) (hN : N + 2 = 2 ^ (T + 1)) :
    ∃ fa, ntt ((0 :: 1 :: List.replicate N 0 ++ [1] : List Int).map (fun d => (toULL d).toNat) ++
        List.replicate (2 ^ (T + 1 + 1) - (0 :: 1 :: List.replicate N 0 ++ [1] : List Int).length)
          0) (2 ^ (T + 1 + 1)) false = .ok fa ∧
      fa.length = 2 ^ (T + 1 + 1) ∧ (∀ t, fa.getD t 0 < MOD) ∧
      ∀ k, k < 2 ^ (T + 1) →
        ((fa.getD k 0 : Nat) : ZMod MOD) = (-1) ^ k + stageRoot (T + 1 + 1) ^ k ∧
        ((fa.getD (k + 2 ^ (T + 1)) 0 : Nat) : ZMod MOD) =
          (-1) ^ k - stageRoot (T + 1 + 1) ^ k := by
  have hp : 0 < 2 ^ T := by positivity
  have hS2 : 2 ^ (T + 1) = 2 * 2 ^ T := by rw [pow_succ]; ring
  have hS3 : 2 ^ (T + 1 + 1) = 2 * 2 ^ (T + 1) := by rw [pow_succ (n := T + 1)]; ring
  have hr : InRange (0 :: 1 :: List.replicate N 0 ++ [1] : List Int) :=
    (spike_canonical N).inRange
  obtain ⟨fa, h1, h2, h3, h4⟩ := ntt_split_spec false (T + 1) hT _
    (buffer_length (0 :: 1 :: List.replicate N 0 ++ [1] : List Int) (2 ^ (T + 1 + 1)) (by
      rw [spike_length]
      omega)) (buffer_lt _ hr _)
  refine ⟨fa, h1, h2, h3, ?_⟩
  intro k hk
  have hb0 : bitRev 1 0 = 0 := rfl
  have hb1 : bitRev 1 1 = 1 := rfl
  have hE : blockDFT (passRoot false (T + 1)) 1 (T + 1)
      (residues ((0 :: 1 :: List.replicate N 0 ++ [1] : List Int).map (fun d => (toULL d).toNat) ++
        List.replicate (2 ^ (T + 1 + 1) - (0 :: 1 :: List.replicate N 0 ++ [1] : List Int).length)
          0)) 0 k = (-1) ^ k := by
    unfold blockDFT
    rw [hb0, Finset.sum_eq_single (2 ^ T)]
    · rw [spike_residue, if_pos (Or.inr (by omega)), one_mul, pow_mul, passRoot_half false T hT]
    · intro m _ hm
      rw [spike_residue, if_neg (by omega), zero_mul]
    · intro h
      exfalso
      apply h
      rw [Finset.mem_range]
      omega
  have hO : blockDFT (passRoot false (T + 1)) 1 (T + 1)
      (residues ((0 :: 1 :: List.replicate N 0 ++ [1] : List Int).map (fun d => (toULL d).toNat) ++
        List.replicate (2 ^ (T + 1 + 1) - (0 :: 1 :: List.replicate N 0 ++ [1] : List Int).length)
          0)) 1 k = 1 := by
    unfold blockDFT
    rw [hb1, Finset.sum_eq_single 0]
    · rw [spike_residue, if_pos (Or.inl (by omega)), one_mul, Nat.zero_mul, pow_zero]
    · intro m _ hm
      rw [spike_residue, if_neg (by omega), zero_mul]
    · intro h
      exfalso
      apply h
      rw [Finset.mem_range]
      omega
  obtain ⟨e1, e2⟩ := h4 k hk
  rw [e1, e2, hE, hO]
  simp [passRoot]

/-- The forward transform of `2^(T+2)` elements computed by `ntt` for the single
block 1: all ones. -/
theorem one_forward (T : Nat) (hT : T + 1 ≤ 23) :
    ∃ fb, ntt (([1] : List Int).map (fun d => (toULL d).toNat) ++
        List.replicate (2 ^ (T + 1 + 1) - ([1] : List Int).length) 0)
        (2 ^ (T + 1 + 1)) false = .ok fb ∧
      fb.length = 2 ^ (T + 1 + 1) ∧ (∀ t, fb.getD t 0 < MOD) ∧
      ∀ t, t < 2 ^ (T + 1 + 1) → ((fb.getD t 0 : Nat) : ZMod MOD) = 1 := by
  have hp : 0 < 2 ^ T := by positivity
  have hS2 : 2 ^ (T + 1) = 2 * 2 ^ T := by rw [pow_succ]; ring
  have hS3 : 2 ^ (T + 1 + 1) = 2 * 2 ^ (T + 1) := by rw [pow_succ (n := T + 1)]; ring
  have hr : InRange ([1] : List Int) := (by decide : Canonical (mk 1 [1])).inRange
  obtain ⟨fb, h1, h2, h3, h4⟩ := ntt_split_spec false (T + 1) hT _
    (buffer_length ([1] : List Int) (2 ^ (T + 1 + 1)) (by
      rw [List.length_singleton]
      omega)) (buffer_lt _ hr _)
  refine ⟨fb, h1, h2, h3, ?_⟩
  have hb0 : bitRev 1 0 = 0 := rfl
  have hb1 : bitRev 1 1 = 1 := rfl
  have hE : ∀ k, blockDFT (passRoot false (T + 1)) 1 (T + 1)
      (residues (([1] : List Int).map (fun d => (toULL d).toNat) ++
        List.replicate (2 ^ (T + 1 + 1) - ([1] : List Int).length) 0)) 0 k = 1 := by
    intro k
    unfold blockDFT
    rw [hb0, Finset.sum_eq_single 0]
    · rw [one_residue, if_pos (by omega), one_mul, Nat.zero_mul, pow_zero]
    · intro m _ hm
      rw [one_residue, if_neg (by omega), zero_mul]
    · intro h
      exfalso
      apply h
      rw [Finset.mem_range]
      omega
  have hO : ∀ k, blockDFT (passRoot false (T + 1)) 1 (T + 1)
      (residues (([1] : List Int).map (fun d => (toULL d).toNat) ++
        List.replicate (2 ^ (T + 1 + 1) - ([1] : List Int).length) 0)) 1 k = 0 := by
    intro k
    unfold blockDFT
    apply Finset.sum_eq_zero
    intro m _
    rw [hb1, one_residue, if_neg (by omega), zero_mul]
  intro t ht
  by_cases hlo : t < 2 ^ (T + 1)
  · rw [(h4 t hlo).1, hE, hO]
    simp
  · have e : t = (t - 2 ^ (T + 1)) + 2 ^ (T + 1) := by omega
    rw [e, (h4 (t - 2 ^ (T + 1)) (by omega)).2, hE, hO]
    simp

/-- The three transforms of `nttMultiplyBigInt` for `1000^(N+2) + 1000` times 1,
`N + 2 = 2^(T+1)`, with `2^(T+2)` elements: the coefficient of index 0 is 0 and
the coefficient of index 1 is `4 / 2^(T+2)` times a geometric sum of ratio
`w^2 / rho`, `w` and `rho` being the roots of the passes of block length
`2^(T+2)` and `2^(T+1)`. -/
theorem spike_product (T : Nat) (hT : T + 1 ≤ 23) (N : Nat) (hN : N + 2 = 2 ^ (T + 1)) :
    ∃ fa fb c,
      ntt ((0 :: 1 :: List.replicate N 0 ++ [1] : List Int).map (fun d => (toULL d).toNat) ++
        List.replicate (2 ^ (T + 1 + 1) - (0 :: 1 :: List.replicate N 0 ++ [1] : List Int).length)
          0) (2 ^ (T + 1 + 1)) false = .ok fa ∧
      ntt (([1] : List Int).map (fun d => (toULL d).toNat) ++
        List.replicate (2 ^ (T + 1 + 1) - ([1] : List Int).length) 0)
        (2 ^ (T + 1 + 1)) false = .ok fb ∧
      ntt (List.zipWith (fun x y => (x * y) % ULL % MOD) fa fb) (2 ^ (T + 1 + 1)) true = .ok c ∧
      c.length = 2 ^ (T + 1 + 1) ∧ (∀ t, c.getD t 0 < MOD) ∧
      ((c.getD 0 0 : Nat) : ZMod MOD) = 0 ∧
      ((c.getD 1 0 : Nat) : ZMod MOD) = (((2 ^ (T + 1 + 1) : Nat) : ZMod MOD))⁻¹ *
        (4 * ∑ m in Finset.range (2 ^ T),
          (stageRoot (T + 1 + 1) ^ 2 * (stageRoot (T + 1))⁻¹) ^ m) := by
  haveI : Fact (Nat.Prime MOD) := ⟨prime_MOD⟩
  have hp : 0 < 2 ^ T := by positivity
  have hS2 : 2 ^ (T + 1) = 2 ^ T + 2 ^ T := by rw [pow_succ]; ring
  have hS3 : 2 ^ (T + 1 + 1) = 2 * 2 ^ (T + 1) := by rw [pow_succ (n := T + 1)]; ring
  obtain ⟨fa, a1, a2, a3, a4⟩ := spike_forward T hT N hN
  obtain ⟨fb, b1, b2, b3, b4⟩ := one_forward T hT
  have hzl : (List.zipWith (fun x y => (x * y) % ULL % MOD) fa fb).length = 2 ^ (T + 1 + 1) := by
    rw [List.length_zipWith, a2, b2, Nat.min_self]
  have hzg : ∀ t, t < 2 ^ (T + 1 + 1) →
      (List.zipWith (fun x y => (x * y) % ULL % MOD) fa fb).getD t 0 =
        (fa.getD t 0 * fb.getD t 0) % ULL % MOD := by
    intro t ht
    rw [List.getD_eq_getElem _ _ (by rw [hzl]; exact ht), List.getElem_zipWith,
      List.getD_eq_getElem _ _ (by rw [a2]; exact ht),
      List.getD_eq_getElem _ _ (by rw [b2]; exact ht)]
  have hzb : ∀ t, (List.zipWith (fun x y => (x * y) % ULL % MOD) fa fb).getD t 0 < MOD := by
    intro t
    by_cases ht : t < 2 ^ (T + 1 + 1)
    · rw [hzg t ht]
      exact Nat.mod_lt _ (by decide)
    · rw [List.getD_eq_default _ _ (by omega)]
      decide
  have hX : ∀ t, t < 2 ^ (T + 1 + 1) →
      residues (List.zipWith (fun x y => (x * y) % ULL % MOD) fa fb) t =
        ((fa.getD t 0 : Nat) : ZMod MOD) := by
    intro t ht
    unfold residues
    rw [hzg t ht, wrap_small (mul_lt_ULL (a3 t) (b3 t)), cast_mod_MOD, Nat.cast_mul, b4 t ht,
      mul_one]
  obtain ⟨c, c1, c2, c3, c4⟩ := ntt_split_spec true (T + 1) hT _ hzl hzb
  generalize residues (List.zipWith (fun x y => (x * y) % ULL % MOD) fa fb) = X at hX c4
  have hwi : passRoot true (T + 1 + 1) * stageRoot (T + 1 + 1) = 1 := by
    unfold passRoot
    rw [if_pos rfl]
    exact inv_mul_cancel₀ (pow_ne_zero _ G_ne_zero)
  have hneg : passRoot true (T + 1) ^ 2 ^ T = -1 := passRoot_half true T hT
  have hrho : passRoot true (T + 1) = (stageRoot (T + 1))⁻¹ := by
    unfold passRoot
    rw [if_pos rfl]
  generalize stageRoot (T + 1 + 1) = w at a4 hwi ⊢
  have hsq : ∀ m : Nat, ((-1 : ZMod MOD)) ^ (2 * m) = 1 := by
    intro m
    rw [pow_mul]
    simp
  have t1 : ∀ m, m < 2 ^ T → X (0 + 2 ^ 1 * m) = 1 + w ^ (2 * m) := by
    intro m hm
    have e : 0 + 2 ^ 1 * m = 2 * m := by ring
    rw [e, hX _ (by omega), (a4 (2 * m) (by omega)).1, hsq]
  have t2 : ∀ m, m < 2 ^ T → X (0 + 2 ^ 1 * (2 ^ T + m)) = 1 - w ^ (2 * m) := by
    intro m hm
    have e : 0 + 2 ^ 1 * (2 ^ T + m) = 2 * m + 2 ^ (T + 1) := by rw [hS2]; ring
    rw [e, hX _ (by omega), (a4 (2 * m) (by omega)).2, hsq]
  have t3 : ∀ m, m < 2 ^ T → X (1 + 2 ^ 1 * m) = -1 + w ^ (2 * m + 1) := by
    intro m hm
    have e : 1 + 2 ^ 1 * m = 2 * m + 1 := by ring
    rw [e, hX _ (by omega), (a4 (2 * m + 1) (by omega)).1, pow_succ, hsq]
    ring
  have t4 : ∀ m, m < 2 ^ T → X (1 + 2 ^ 1 * (2 ^ T + m)) = -1 - w ^ (2 * m + 1) := by
    intro m hm
    have e : 1 + 2 ^ 1 * (2 ^ T + m) = (2 * m + 1) + 2 ^ (T + 1) := by rw [hS2]; ring
    rw [e, hX _ (by omega), (a4 (2 * m + 1) (by omega)).2, pow_succ ((-1 : ZMod MOD)), hsq]
    ring
  have hb0 : bitRev 1 0 = 0 := rfl
  have hb1 : bitRev 1 1 = 1 := rfl
  refine ⟨fa, fb, c, a1, b1, c1, c2, c3, ?_, ?_⟩
  · rw [(c4 0 (by omega)).1]
    unfold blockDFT
    rw [hb0, hb1, hS2, Finset.sum_range_add, Finset.sum_range_add, pow_zero, one_mul,
      add_add_add_comm, ← Finset.sum_add_distrib, ← Finset.sum_add_distrib,
      ← Finset.sum_add_distrib]
    rw [Finset.sum_eq_zero, mul_zero]
    intro m hm
    have hm1 := Finset.mem_range.mp hm
    rw [t1 m hm1, t2 m hm1, t3 m hm1, t4 m hm1]
    simp only [Nat.mul_zero, pow_zero]
    ring
  · rw [(c4 1 (by omega)).1]
    simp only [if_true]
    congr 1
    unfold blockDFT
    rw [hb0, hb1, hS2, Finset.sum_range_add, Finset.sum_range_add]
    simp only [pow_one] at t1 t2 t3 t4 ⊢
    rw [mul_add, Finset.mul_sum, Finset.mul_sum, add_add_add_comm, ← Finset.sum_add_distrib,
      ← Finset.sum_add_distrib, ← Finset.sum_add_distrib, Finset.mul_sum]
    apply Finset.sum_congr rfl
    intro m hm
    have hm1 := Finset.mem_range.mp hm
    rw [t1 m hm1, t2 m hm1, t3 m hm1, t4 m hm1]
    simp only [Nat.mul_one]
    rw [pow_add (passRoot true (T + 1)) (2 ^ T) m, hneg, ← hrho, mul_pow, ← pow_mul,
      pow_succ w (2 * m)]
    generalize passRoot true (T + 1) ^ m = r
    generalize w ^ (2 * m) = q
    linear_combination (2 * q * r) * hwi

/-- With `2^24` elements the coefficient of index 1 of the product
`(1000^(2^23) + 1000) * 1` comes out as 185186284, not 1. -/
theorem spike_coefficient :
    (((2 ^ (22 + 1 + 1) : Nat) : ZMod MOD))⁻¹ *
      (4 * ∑ m in Finset.range (2 ^ 22),
        (stageRoot (22 + 1 + 1) ^ 2 * (stageRoot (22 + 1))⁻¹) ^ m) =
      ((185186284 : Nat) : ZMod MOD) := by
  haveI : Fact (Nat.Prime MOD) := ⟨prime_MOD⟩
  have e24 : (MOD - 1) / 2 ^ (22 + 1 + 1) = 59 := by decide
  have e23 : (MOD - 1) / 2 ^ (22 + 1) = 119 := by decide
  have hG := G_ne_zero
  have hsig : stageRoot (22 + 1 + 1) ^ 2 * (stageRoot (22 + 1))⁻¹ =
      ((332748118 : Nat) : ZMod MOD) := by
    unfold stageRoot
    rw [e24, e23]
    have h3 : ((G : Nat) : ZMod MOD) * ((332748118 : Nat) : ZMod MOD) = 1 := by
      rw [← Nat.cast_mul, ← Nat.cast_one]
      exact (ZMod.natCast_eq_natCast_iff' _ _ _).mpr (by decide)
    have h119 : ((G : Nat) : ZMod MOD) ^ 119 ≠ 0 := pow_ne_zero _ hG
    rw [mul_inv_eq_iff_eq_mul₀ h119]
    have e : ((G : Nat) : ZMod MOD) ^ 119 = (((G : Nat) : ZMod MOD) ^ 59) ^ 2 * (G : ZMod MOD) := by
      ring
    rw [e, mul_comm (((332748118 : Nat) : ZMod MOD)), mul_assoc, h3, mul_one]
  rw [hsig]
  have hpow : ((332748118 : Nat) : ZMod MOD) ^ (2 ^ 22) = ((246584565 : Nat) : ZMod MOD) := by
    have h : mod_pow 332748118 (2 ^ 22) MOD = 246584565 := by decide
    rw [← mod_pow_cast 332748118 _ (by decide), h]
  have hgeom := geom_sum_mul ((332748118 : Nat) : ZMod MOD) (2 ^ 22)
  rw [hpow] at hgeom
  have hnum : ((185186284 : Nat) : ZMod MOD) * ((2 ^ 22 : Nat) : ZMod MOD) *
      (((332748118 : Nat) : ZMod MOD) - 1) = ((246584565 : Nat) : ZMod MOD) - 1 := by
    have h1 : (((332748118 : Nat) : ZMod MOD) - 1) = ((332748117 : Nat) : ZMod MOD) := by
      push_cast
      ring
    have h2 : ((246584565 : Nat) : ZMod MOD) - 1 = ((246584564 : Nat) : ZMod MOD) := by
      push_cast
      ring
    rw [h1, h2, ← Nat.cast_mul, ← Nat.cast_mul]
    exact (ZMod.natCast_eq_natCast_iff' _ _ _).mpr (by decide)
  have hne : (((332748118 : Nat) : ZMod MOD) - 1) ≠ 0 := by
    have h1 : (((332748118 : Nat) : ZMod MOD) - 1) = ((332748117 : Nat) : ZMod MOD) := by
      push_cast
      ring
    rw [h1]
    intro h
    rw [ZMod.natCast_zmod_eq_zero_iff_dvd] at h
    exact absurd h (by decide)
  have hS : ∑ m in Finset.range (2 ^ 22), ((332748118 : Nat) : ZMod MOD) ^ m =
      ((185186284 : Nat) : ZMod MOD) * ((2 ^ 22 : Nat) : ZMod MOD) := by
    apply mul_right_cancel₀ hne
    rw [hgeom, hnum]
  rw [hS]
  have h24 := two_pow_ne_zero (22 + 1 + 1)
  have e4 : (4 : ZMod MOD) * (((185186284 : Nat) : ZMod MOD) * ((2 ^ 22 : Nat) : ZMod MOD)) =
      ((2 ^ (22 + 1 + 1) : Nat) : ZMod MOD) * ((185186284 : Nat) : ZMod MOD) := by
    push_cast
    ring
  rw [e4, ← mul_assoc, inv_mul_cancel₀ h24, one_mul]

/-- A residue below the modulus is determined by its class. -/
theorem residue_eq_of_cast {c v : Nat} (hc : c < MOD) (hv : v < MOD)
    (h : ((c : Nat) : ZMod MOD) = ((v : Nat) : ZMod MOD)) : c = v := by
  have h1 := (ZMod.natCast_eq_natCast_iff' c v MOD).mp h
  rw [Nat.mod_eq_of_lt hc, Nat.mod_eq_of_lt hv] at h1
  exact h1

theorem blocksValue_cast_nonneg (cs : List Nat) :
    0 ≤ blocksValue (cs.map (fun (c : Nat) => (c : Int))) := by
  induction cs with
  | nil => simp [blocksValue]
  | cons c cs ih =>
    simp only [List.map_cons, blocksValue]
    have : (0 : Int) ≤ (c : Int) := Int.natCast_nonneg c
    omega

/-- What `nttMultiplyBigInt` does with `1000^(N+2) + 1000`, `N + 2 = 2^(T+1)`,
and 1: the transform has `2^(T+2)` elements and the result is re-based from the
coefficients of `spike_product`. -/
theorem spike_multiply (T : Nat) (hT : T + 1 ≤ 23) (N : Nat) (hN : N + 2 = 2 ^ (T + 1))
    (a b : BigInt) (ha : Canonical a) (had : a.digits = 0 :: 1 :: List.replicate N 0 ++ [1])
    (has : a.sign = 1) (hb : Canonical b) (hbd : b.digits = [1]) (hbs : b.sign = 1) :
    ∃ (r : BigInt) (c : List Nat), nttMultiplyBigInt a b = .ok r ∧ Canonical r ∧
      c.length = 2 ^ (T + 1 + 1) ∧
      (∀ t, c.getD t 0 < MOD) ∧ ((c.getD 0 0 : Nat) : ZMod MOD) = 0 ∧
      ((c.getD 1 0 : Nat) : ZMod MOD) = (((2 ^ (T + 1 + 1) : Nat) : ZMod MOD))⁻¹ *
        (4 * ∑ m in Finset.range (2 ^ T),
          (stageRoot (T + 1 + 1) ^ 2 * (stageRoot (T + 1))⁻¹) ^ m) ∧
      r.value = blocksValue (c.map (fun (x : Nat) => (x : Int))) := by
  have hp : 0 < 2 ^ T := by positivity
  have hS2 : 2 ^ (T + 1) = 2 * 2 ^ T := by rw [pow_succ]; ring
  have hS3 : 2 ^ (T + 1 + 1) = 2 * 2 ^ (T + 1) := by rw [pow_succ (n := T + 1)]; ring
  have hza : ¬ isBigIntZero a = true := by
    rw [isBigIntZero_iff, had]
    exact spike_ne_zero N
  have hzb : ¬ isBigIntZero b = true := by
    rw [isBigIntZero_iff, hbd]
    decide
  have hla : a.length = N + 3 := by
    simp only [BigInt.length, had]
    exact spike_length N
  have hlb : b.length = 1 := by
    simp only [BigInt.length, hbd, List.length_singleton]
  obtain ⟨L, hsize, hfit, h3⟩ := size_spec (a.length + b.length) (a.length + b.length) 0
    (by omega)
  rw [pow_zero] at hsize
  have hL : L = T + 1 + 1 := by
    rw [hla, hlb] at hfit h3
    have h1 : T + 1 < L := by
      by_contra hc
      have : 2 ^ L ≤ 2 ^ (T + 1) := Nat.pow_le_pow_right (by norm_num) (by omega)
      omega
    have h2 : L - 1 < T + 1 + 1 := by
      by_contra hc
      have h4 : 2 ^ (T + 1 + 1) ≤ 2 ^ (L - 1) := Nat.pow_le_pow_right (by norm_num) (by omega)
      rcases h3 with h3 | h3
      · omega
      · omega
    omega
  subst hL
  obtain ⟨fa, fb, c, h1, h2, h3c, h4, h5, h6, h7⟩ := spike_product T hT N hN
  have hbase : (toULL a.base).toNat = 1000 := by
    rw [ha.1]
    rfl
  have hs : a.sign * b.sign = 1 ∨ a.sign * b.sign = -1 := by
    rw [has, hbs]
    exact Or.inl rfl
  have hpos : 1 ≤ c.length := by
    rw [h4]
    exact Nat.one_le_two_pow
  obtain ⟨t1, t2⟩ := rebase_normalize_spec c h5 hpos
    { createBigInt (2 ^ (T + 1 + 1) + 1) with base := a.base, base_digits := a.base_digits }
    ha.1 ha.2.1 (a.sign * b.sign) hs
  simp only [BigInt.length, had, hbd] at hsize
  unfold nttMultiplyBigInt
  rw [if_neg (by
    rw [ha.1, hb.1]
    simp [DEFAULT_BASE]), if_neg (fun h => h.elim hza hzb)]
  simp only [BigInt.length, had, hbd, hsize, h1, h2, h3c, hbase]
  refine ⟨_, c, rfl, t1, h4, h5, h6, h7, ?_⟩
  rw [t2, has, hbs]
  ring

/-- The product `(1000^(2^23) + 1000) * 1` computed by `multiplyBigIntByLL`: block
1 of the result is 284 and the result is not the first operand. -/
theorem spike_result (N : Nat) (hN : N + 2 = 2 ^ (22 + 1)) :
    ∃ r, multiplyBigIntByLL (mk 1 (0 :: 1 :: List.replicate N 0 ++ [1])) 1 = .ok r ∧
      Canonical r ∧ r.digits.getD 1 0 = 284 ∧
      r.value ≠ (mk 1 (0 :: 1 :: List.replicate N 0 ++ [1])).value * 1 := by
  obtain ⟨b, hb1, hb2, hb3⟩ := createBigIntFromLL_spec 1
  have hb4 := canonical_unique hb2 (by decide : Canonical (mk 1 [1])) (by
    rw [hb3]
    decide)
  obtain ⟨r, c, h1, h2, h3, h4, h5, h6, h7⟩ := spike_multiply 22 (by decide) N hN
    (mk 1 (0 :: 1 :: List.replicate N 0 ++ [1])) b (spike_canonical N) rfl rfl hb2 hb4.2 hb4.1
  rw [spike_coefficient] at h6
  have c0 : c.getD 0 0 = 0 := residue_eq_of_cast (h4 0) (by decide) (by
    rw [h5]
    simp)
  have c1 : c.getD 1 0 = 185186284 := residue_eq_of_cast (h4 1) (by decide) h6
  have hval : ∃ R : Int, 0 ≤ R ∧ r.value = 185186284000 + 1000000 * R := by
    match c, h3, c0, c1, h7 with
    | [], h3, _, _, _ =>
      exfalso
      simp at h3
    | [x], h3, _, _, _ =>
      exfalso
      simp at h3
    | x :: y :: rest, _, c0, c1, h7 =>
      refine ⟨blocksValue (rest.map (fun (x : Nat) => (x : Int))),
        blocksValue_cast_nonneg rest, ?_⟩
      simp only [List.getD_cons_zero, List.getD_cons_succ] at c0 c1
      rw [h7, c0, c1]
      simp only [List.map_cons, blocksValue]
      push_cast
      ring
  obtain ⟨R, hR, hv⟩ := hval
  have hm := blocksValue_nonneg h2.inRange
  have hmag : blocksValue r.digits = 185186284000 + 1000000 * R := by
    have hv2 : r.sign * blocksValue r.digits = 185186284000 + 1000000 * R := hv
    rcases h2.sign_cases with hs | hs
    · rw [hs, one_mul] at hv2
      exact hv2
    · rw [hs] at hv2
      omega
  refine ⟨r, ?_, h2, ?_, ?_⟩
  · unfold multiplyBigIntByLL
    rw [hb1]
    exact h1
  · rw [getD_eq_div_mod 1 r.digits h2.inRange, hmag, pow_one]
    omega
  · rw [spike_value, mul_one, hv]
    have e : (1000 : Int) ^ (N + 2) = 1000000 * 1000 ^ N := by
      rw [pow_add]
      ring
    rw [e]
    generalize (1000 : Int) ^ N = P
    omega

/-! ## Multiplication by a machine integer -/

/-- C24. Multiplication by a machine integer.  For a canonical `a` of at most
`2^23 - 7` blocks and every signed 64-bit `v`, `multiplyBigIntByLL a v` succeeds
with a canonical result of value `value a * v`; so `123 * -10 = -1230` and
`-98765432109876543210 * 0 = 0`.  It fails for longer operands: for the
canonical `a = 1000^8388608 + 1000`, of `2^23 + 1` blocks, and `v = 1` the call
succeeds with a canonical result whose block 1 is 284 and whose value is not
`value a * 1`. -/
theorem multiplyBigIntByLL_exact_only_below_2_23_blocks :
    (∀ (a : BigInt) (v : Int), Canonical a → -9223372036854775808 ≤ v →
      v ≤ 9223372036854775807 → a.length + 7 ≤ 2 ^ 23 →
      ∃ r, multiplyBigIntByLL a v = .ok r ∧ Canonical r ∧ r.value = a.value * v) ∧
    (∃ r, multiplyBigIntByLL (mk 1 [123]) (-10) = .ok r ∧ Canonical r ∧ r.value = -1230) ∧
    (∃ r, multiplyBigIntByLL (mk (-1) [210, 543, 876, 109, 432, 765, 98]) 0 = .ok r ∧
      Canonical r ∧ r.value = 0) ∧
    (Canonical (mk 1 (0 :: 1 :: List.replicate 8388606 0 ++ [1])) ∧
      (mk 1 (0 :: 1 :: List.replicate 8388606 0 ++ [1])).digits.length = 8388606 + 3 ∧
      (mk 1 (0 :: 1 :: List.replicate 8388606 0 ++ [1])).value = 1000 ^ (8388606 + 2) + 1000 ∧
      ∃ r, multiplyBigIntByLL (mk 1 (0 :: 1 :: List.replicate 8388606 0 ++ [1])) 1 = .ok r ∧
        Canonical r ∧ r.digits.getD 1 0 = 284 ∧
        r.value ≠ (mk 1 (0 :: 1 :: List.replicate 8388606 0 ++ [1])).value * 1) := by
  refine ⟨fun a v ha hlo hhi hlen => multiplyBigIntByLL_spec a ha v hlo hhi hlen, ?_, ?_,
    spike_canonical 8388606, spike_length 8388606, spike_value 8388606,
    spike_result 8388606 (by norm_num)⟩
  · obtain ⟨r, h1, h2, h3⟩ := multiplyBigIntByLL_spec (mk 1 [123]) (by decide) (-10)
      (by decide) (by decide) (by decide)
    refine ⟨r, h1, h2, ?_⟩
    rw [h3]
    decide
  · obtain ⟨r, h1, h2, h3⟩ := multiplyBigIntByLL_spec
      (mk (-1) [210, 543, 876, 109, 432, 765, 98]) (by decide) 0 (by decide) (by decide)
      (by decide)
    refine ⟨r, h1, h2, ?_⟩
    rw [h3, mul_zero]

/-! ## The estimate of the quotient block -/

/-- The binary search over `[0, 999]` does not depend on the value that
`quotient_block` has when it starts. -/
theorem search_estimate (b cur : BigInt) (hb : Canonical b) (hz : b.digits ≠ [0])
    (hc : Canonical cur) (e1 e2 : Int) :
    divideBigIntAbs.search b cur 1000 0 999 e1 = divideBigIntAbs.search b cur 1000 0 999 e2 := by
  have hB := magnitude_pos_of_not_zero hb ((isBigIntZero_false_iff b).mpr hz)
  obtain ⟨d1, h1, a0, a9, ale, aub⟩ := search_spec b cur hb hc 1000 0 999 e1 (le_refl _)
    (le_refl _) (by norm_num) (by norm_num) (Or.inl rfl) (Or.inl rfl)
  obtain ⟨d2, h2, b0, b9, ble, bub⟩ := search_spec b cur hb hc 1000 0 999 e2 (le_refl _)
    (le_refl _) (by norm_num) (by norm_num) (Or.inl rfl) (Or.inl rfl)
  rw [h1, h2]
  congr 1
  generalize blocksValue b.digits = B at *
  generalize blocksValue cur.digits = P at *
  have k1 : d1 < d2 + 1 := by
    rcases bub with h | h
    · omega
    · exact lt_of_mul_lt_mul_left (lt_of_le_of_lt ale h) (le_of_lt hB)
  have k2 : d2 < d1 + 1 := by
    rcases aub with h | h
    · omega
    · exact lt_of_mul_lt_mul_left (lt_of_le_of_lt ble h) (le_of_lt hB)
  omega

theorem quotientBlockWith_eq (b cur : BigInt) (hb : Canonical b) (hz : b.digits ≠ [0])
    (hc : Canonical cur) (e : Int) :
    divideBigIntAbs.quotientBlockWith e b cur = divideBigIntAbs.quotientBlock b cur := by
  unfold divideBigIntAbs.quotientBlockWith divideBigIntAbs.quotientBlock
  split
  · simp only [hc.1]
    exact search_estimate b cur hb hz hc _ _
  · rfl

theorem stepWith_eq (est : BigInt → BigInt → Int) (a b : BigInt) (i : Nat) (cur q : BigInt)
    (ha : InRange a.digits) (hb : Canonical b) (hz : b.digits ≠ [0]) (hc : Canonical cur)
    (hcs : cur.sign = 1) :
    divideBigIntAbs.stepWith est a b i cur q = divideBigIntAbs.step a b i cur q := by
  obtain ⟨c1, _, _⟩ := bringDown_spec a i cur ha hc hcs
  unfold divideBigIntAbs.stepWith divideBigIntAbs.step
  simp only
  rw [quotientBlockWith_eq b _ hb hz c1]

theorem loopWith_eq (est : BigInt → BigInt → Int) (a b : BigInt) (ha : InRange a.digits)
    (hb : Canonical b) (hz : b.digits ≠ [0]) (n : Nat) :
    ∀ (cur q : BigInt), Canonical cur → cur.sign = 1 →
      blocksValue cur.digits < blocksValue b.digits →
      divideBigIntAbs.loopWith est a b n cur q = divideBigIntAbs.loop a b n cur q := by
  induction n with
  | zero =>
    intro cur q _ _ _
    rfl
  | succ n ih =>
    intro cur q hc hcs hlt
    obtain ⟨cur1, d, hstep, c1, c2, c3, _⟩ := step_spec a b n cur q ha hb hc hcs hlt
    unfold divideBigIntAbs.loopWith divideBigIntAbs.loop
    rw [stepWith_eq est a b n cur q ha hb hz hc hcs, hstep]
    exact ih cur1 _ c1 c2 c3

/-- `divideBigIntAbs` with any estimate is `divideBigIntAbs`. -/
theorem divideBigIntAbsWith_eq (est : BigInt → BigInt → Int) (a b : BigInt) (ha : Canonical a)
    (hb : Canonical b) (hz : b.digits ≠ [0]) :
    divideBigIntAbsWith est a b = divideBigIntAbs a b := by
  have hB := magnitude_pos_of_not_zero hb ((isBigIntZero_false_iff b).mpr hz)
  have hloop := loopWith_eq est a b ha.inRange hb hz a.length (createBigInt (b.length + 1))
    { createBigInt a.length with digits := [] } (canonical_createBigInt _) rfl
    (by simpa [createBigInt, blocksValue] using hB)
  unfold divideBigIntAbsWith divideBigIntAbs
  simp only
  rw [hloop]

/-- C31. The leading-block estimate never influences the result of division.
For a non-zero canonical divisor the binary search over `[0, 999]` succeeds and
returns the same block whatever value `quotient_block` has when it starts; and
for every canonical dividend and positive divisor, `divideBigIntAbs` with its
estimate replaced by any function `est` of the divisor and the partial dividend
returns what `divideBigIntAbs` returns, a quotient and a remainder. -/
theorem divideBigIntAbs_estimate_irrelevant :
    (∀ (b cur : BigInt) (e1 e2 : Int), Canonical b → b.digits ≠ [0] → Canonical cur →
      divideBigIntAbs.search b cur 1000 0 999 e1 = divideBigIntAbs.search b cur 1000 0 999 e2 ∧
      ∃ d, divideBigIntAbs.search b cur 1000 0 999 e1 = .ok d) ∧
    (∀ (est : BigInt → BigInt → Int) (a b : BigInt), Canonical a → a.sign = 1 → Canonical b →
      b.sign = 1 → b.digits ≠ [0] →
      divideBigIntAbsWith est a b = divideBigIntAbs a b ∧
      ∃ q r, divideBigIntAbs a b = .ok (q, r)) := by
  constructor
  · intro b cur e1 e2 hb hz hc
    refine ⟨search_estimate b cur hb hz hc e1 e2, ?_⟩
    obtain ⟨d, h, _⟩ := search_spec b cur hb hc 1000 0 999 e1 (le_refl _)
      (le_refl _) (by norm_num) (by norm_num) (Or.inl rfl) (Or.inl rfl)
    exact ⟨d, h⟩
  · intro est a b ha has hb hbs hz
    refine ⟨divideBigIntAbsWith_eq est a b ha hb hz, ?_⟩
    obtain ⟨q, r, h, _⟩ := divideBigIntAbs_spec a b ha has hb hbs
      ((isBigIntZero_false_iff b).mpr hz)
    exact ⟨q, r, h⟩

/-- Witness for `divideBigIntAbs_estimate_irrelevant`: 1000001 divided by 7 with
the estimates 0 and 999. -/
theorem divideBigIntAbs_estimate_irrelevant_witness :
    divideBigIntAbsWith (fun _ _ => 0) (mk 1 [1, 0, 1]) (mk 1 [7]) =
      divideBigIntAbs (mk 1 [1, 0, 1]) (mk 1 [7]) ∧
    divideBigIntAbsWith (fun _ _ => 999) (mk 1 [1, 0, 1]) (mk 1 [7]) =
      divideBigIntAbs (mk 1 [1, 0, 1]) (mk 1 [7]) :=
  ⟨(divideBigIntAbs_estimate_irrelevant.2 (fun _ _ => 0) (mk 1 [1, 0, 1]) (mk 1 [7]) (by decide)
      rfl (by decide) rfl (by decide)).1,
    (divideBigIntAbs_estimate_irrelevant.2 (fun _ _ => 999) (mk 1 [1, 0, 1]) (mk 1 [7])
      (by decide) rfl (by decide) rfl (by decide)).1⟩

/-! ## The digits of the decimal expansion -/

/-- The loop of `bigIntToDecimalString` writes `k` characters; the one of index
`j` is the digit `floor(remainder * 10^(j+1) / divisor) mod 10`. -/
theorem decimalLoop_digits (b_abs : BigInt) (hb : Canonical b_abs)
    (hbz : isBigIntZero b_abs = false) (k : Nat) :
    ∀ (cur : BigInt) (p : List Char), Canonical cur → cur.sign = 1 →
      blocksValue cur.digits < blocksValue b_abs.digits →
      ∃ frac, bigIntToDecimalString.loop b_abs k cur p = .ok (p ++ frac) ∧
        frac.length = k ∧
        ∀ j, j < k → frac.getD j NUL =
          Nat.digitChar
            (blocksValue cur.digits * 10 ^ (j + 1) / blocksValue b_abs.digits % 10).toNat := by
  have hB := magnitude_pos_of_not_zero hb hbz
  induction k with
  | zero =>
    intro cur p _ _ _
    exact ⟨[], by simp [bigIntToDecimalString.loop], rfl, fun j hj => absurd hj (by omega)⟩
  | succ k ih =>
    intro cur p hc hs hlt
    obtain ⟨next, d, n1, n2, d0, d9, hval, hnlt, hstep⟩ :=
      decimalLoop_step b_abs cur hb hbz hc hs hlt k p
    obtain ⟨frac, f1, f2, f3⟩ := ih next (p ++ [Nat.digitChar d.toNat]) n1 n2 hnlt
    have hn0 := blocksValue_nonneg n1.inRange
    refine ⟨Nat.digitChar d.toNat :: frac, ?_, by simp [f2], ?_⟩
    · rw [hstep, f1, List.append_assoc]
      rfl
    · intro j hj
      cases j with
      | zero =>
        rw [List.getD_cons_zero]
        congr 2
        have e : blocksValue cur.digits * 10 ^ (0 + 1) =
            blocksValue next.digits + blocksValue b_abs.digits * d := by
          rw [zero_add, pow_one]
          linear_combination hval
        rw [e, Int.add_mul_ediv_left _ _ (by omega), Int.ediv_eq_zero_of_lt hn0 hnlt]
        omega
      | succ j =>
        rw [List.getD_cons_succ, f3 j (by omega)]
        congr 2
        rw [three_part_div _ _ d _ (j + 1) hB hval]
        have e : d * 10 ^ (j + 1) = 10 * (d * 10 ^ j) := by
          rw [pow_succ]
          ring
        rw [e]
        omega

/-- Once the running remainder is zero, the quotients end in the digit 0. -/
theorem digit_zero_of_dvd (R B : Int) (k j : Nat) (hkj : k < j)
    (h : R * 10 ^ k % B = 0) : R * 10 ^ j / B % 10 = 0 := by
  obtain ⟨t, ht⟩ : ∃ t, j = k + (t + 1) := ⟨j - k - 1, by omega⟩
  by_cases hB : B = 0
  · rw [hB]
    simp
  obtain ⟨c, hc⟩ := Int.dvd_of_emod_eq_zero h
  have e : R * 10 ^ j = B * (10 * (c * 10 ^ t)) := by
    rw [ht, pow_add, ← mul_assoc, hc, pow_succ]
    ring
  rw [e, Int.mul_ediv_cancel_left _ hB]
  omega

/-- C32. Fractional digits of the decimal expansion.  For canonical `a`, non-zero
canonical `b` and a precision `p > 0`, with `q` and `r` the quotient and the
remainder of `divideBigInt a b`, `bigIntToDecimalString a b p` is the text of
`q`, which holds no point, then a point, then `p` characters; the `k`-th of
them, `k = 1..p`, is the digit `floor(|r| * 10^k / |b|) mod 10`, and it is `0`
for every `k` after the running remainder `|r| * 10^j mod |b|` has become 0. -/
theorem bigIntToDecimalString_fraction_digits (a b : BigInt) (ha : Canonical a)
    (hb : Canonical b) (hz : b.digits ≠ [0]) (p : Int) (hp : 0 < p) :
    ∃ q r frac, divideBigInt a b = .ok (q, r) ∧
      bigIntToDecimalString a b p = .ok (some (bigIntToString q ++ '.' :: frac)) ∧
      '.' ∉ bigIntToString q ∧ frac.length = p.toNat ∧
      (∀ k : Nat, 1 ≤ k → k ≤ p.toNat →
        frac.getD (k - 1) NUL = Nat.digitChar (|r.value| * 10 ^ k / |b.value| % 10).toNat) ∧
      (∀ j k : Nat, j < k → k ≤ p.toNat → |r.value| * 10 ^ j % |b.value| = 0 →
        frac.getD (k - 1) NUL = '0') := by
  have hzb := (isBigIntZero_false_iff b).mpr hz
  obtain ⟨q, r, hdiv, cq, cr, _, hrlt, _, _⟩ := divideBigInt_spec a b ha hb hzb
  have hb1 : Canonical { copyBigInt b with sign := 1 } :=
    canonical_of_parts hb.1 hb.2.1 hb.length_pos hb.inRange hb.noLeadingZero rfl
  have hr1 : Canonical { copyBigInt r with sign := 1 } :=
    canonical_of_parts cr.1 cr.2.1 cr.length_pos cr.inRange cr.noLeadingZero rfl
  have hbz1 : isBigIntZero { copyBigInt b with sign := 1 } = false := hzb
  obtain ⟨frac, f1, f2, f3⟩ := decimalLoop_digits { copyBigInt b with sign := 1 } hb1 hbz1
    p.toNat { copyBigInt r with sign := 1 } (bigIntToString q ++ ['.']) hr1 rfl hrlt
  have hR : blocksValue ({ copyBigInt r with sign := 1 } : BigInt).digits = |r.value| :=
    (abs_value cr).symm
  have hBv : blocksValue ({ copyBigInt b with sign := 1 } : BigInt).digits = |b.value| :=
    (abs_value hb).symm
  rw [hR, hBv] at f3
  have hdigit : ∀ k : Nat, 1 ≤ k → k ≤ p.toNat →
      frac.getD (k - 1) NUL = Nat.digitChar (|r.value| * 10 ^ k / |b.value| % 10).toNat := by
    intro k h1 h2
    have := f3 (k - 1) (by omega)
    rw [Nat.sub_add_cancel h1] at this
    exact this
  refine ⟨q, r, frac, hdiv, ?_, ?_, f2, hdigit, ?_⟩
  · unfold bigIntToDecimalString
    rw [if_neg (by omega), hzb, hdiv]
    simp only [Bool.false_eq_true, if_false]
    rw [if_pos hp, f1, List.append_assoc]
    rfl
  · rw [bigIntToString_eq_decimalNumeral q cq]
    exact no_point_in_numeral _
  · intro j k hjk hk h0
    rw [hdigit k (by omega) hk, digit_zero_of_dvd _ _ j k hjk h0]
    rfl

/-- Witness for `bigIntToDecimalString_fraction_digits`: 100 / 7 at 10 digits. -/
theorem bigIntToDecimalString_fraction_digits_witness :
    Canonical (mk 1 [100]) ∧ Canonical (mk 1 [7]) ∧ (mk 1 [7]).digits ≠ [0] ∧ (0 : Int) < 10 ∧
    bigIntToDecimalString (mk 1 [100]) (mk 1 [7]) 10 =
      .ok (some ['1', '4', '.', '2', '8', '5', '7', '1', '4', '2', '8', '5', '7']) ∧
    ∃ q r frac, divideBigInt (mk 1 [100]) (mk 1 [7]) = .ok (q, r) ∧
      bigIntToDecimalString (mk 1 [100]) (mk 1 [7]) 10 =
        .ok (some (bigIntToString q ++ '.' :: frac)) ∧
      '.' ∉ bigIntToString q ∧ frac.length = (10 : Int).toNat ∧
      (∀ k : Nat, 1 ≤ k → k ≤ (10 : Int).toNat →
        frac.getD (k - 1) NUL =
          Nat.digitChar (|r.value| * 10 ^ k / |(mk 1 [7]).value| % 10).toNat) ∧
      (∀ j k : Nat, j < k → k ≤ (10 : Int).toNat → |r.value| * 10 ^ j % |(mk 1 [7]).value| = 0 →
        frac.getD (k - 1) NUL = '0') :=
  ⟨by decide, by decide, by decide, by decide, by decide,
    bigIntToDecimalString_fraction_digits (mk 1 [100]) (mk 1 [7]) (by decide) (by decide)
      (by decide) 10 (by decide)⟩

/-! ## The invariant of the fraction loop -/

/-- C33. Invariant of the fraction loop of `bigIntToDecimalString`.  At the start
of the loop the running remainder `|r|` is canonical, of sign `+1`, in
`[0, |b|)`.  In an iteration that starts from such a remainder `R` that is not
zero: `multiplyBy10` gives `10 * R`; `divideBigInt` by `|b|` succeeds; its
quotient is the single block `d = floor(10 * R / |b|)`, in `[0, 9]`, so that
`digits[0] % 10` is the whole quotient; its remainder `10 * R - d * |b|` has sign
`+1`, so that the branch for a negative remainder is not taken, and lies in
`[0, |b|)`, the invariant again; and the iteration writes the digit `d`.  An
iteration that starts from the remainder zero writes `0` and keeps it. -/
theorem bigIntToDecimalString_loop_invariant :
    (∀ a b : BigInt, Canonical a → Canonical b → b.digits ≠ [0] →
      ∃ q r, divideBigInt a b = .ok (q, r) ∧
        Canonical ({ copyBigInt r with sign := 1 } : BigInt) ∧
        Canonical ({ copyBigInt b with sign := 1 } : BigInt) ∧
        ({ copyBigInt b with sign := 1 } : BigInt).digits ≠ [0] ∧
        0 ≤ blocksValue ({ copyBigInt r with sign := 1 } : BigInt).digits ∧
        blocksValue ({ copyBigInt r with sign := 1 } : BigInt).digits <
          blocksValue ({ copyBigInt b with sign := 1 } : BigInt).digits) ∧
    (∀ (b_abs cur : BigInt) (k : Nat) (p : List Char), Canonical b_abs → b_abs.digits ≠ [0] →
      Canonical cur → cur.sign = 1 → blocksValue cur.digits < blocksValue b_abs.digits →
      cur.digits ≠ [0] →
      ∃ (qd next : BigInt) (d : Int),
        blocksValue (multiplyBy10 cur).digits = 10 * blocksValue cur.digits ∧
        divideBigInt (multiplyBy10 cur) b_abs = .ok (qd, next) ∧
        qd.digits = [d] ∧ 0 ≤ d ∧ d ≤ 9 ∧
        d = 10 * blocksValue cur.digits / blocksValue b_abs.digits ∧
        Int.tmod (qd.digits.getD 0 0) 10 = d ∧
        next.sign = 1 ∧ ¬ next.sign < 0 ∧ Canonical next ∧
        blocksValue next.digits = 10 * blocksValue cur.digits - d * blocksValue b_abs.digits ∧
        0 ≤ blocksValue next.digits ∧ blocksValue next.digits < blocksValue b_abs.digits ∧
        bigIntToDecimalString.loop b_abs (k + 1) cur p =
          bigIntToDecimalString.loop b_abs k next (p ++ [Nat.digitChar d.toNat])) ∧
    (∀ (b_abs cur : BigInt) (k : Nat) (p : List Char), cur.digits = [0] →
      bigIntToDecimalString.loop b_abs (k + 1) cur p =
        bigIntToDecimalString.loop b_abs k cur (p ++ ['0'])) := by
  refine ⟨?_, ?_, ?_⟩
  · intro a b ha hb hz
    have hzb := (isBigIntZero_false_iff b).mpr hz
    obtain ⟨q, r, hdiv, _, cr, _, hrlt, _, _⟩ := divideBigInt_spec a b ha hb hzb
    exact ⟨q, r, hdiv,
      canonical_of_parts cr.1 cr.2.1 cr.length_pos cr.inRange cr.noLeadingZero rfl,
      canonical_of_parts hb.1 hb.2.1 hb.length_pos hb.inRange hb.noLeadingZero rfl, hz,
      blocksValue_nonneg cr.inRange, hrlt⟩
  · intro b_abs cur k p hb hz hc hs hlt hnz
    have hbz := (isBigIntZero_false_iff b_abs).mpr hz
    have hB := magnitude_pos_of_not_zero hb hbz
    have hcz : ¬ isBigIntZero cur = true := by
      rw [isBigIntZero_iff]
      exact hnz
    obtain ⟨m1, m2, m3⟩ := multiplyBy10_spec cur hc hs
    obtain ⟨q, r, hdiv, cq, cr, hval, hrlt, _, hrs⟩ :=
      divideBigInt_spec (multiplyBy10 cur) b_abs m1 hb hbz
    rw [m3] at hval
    have hq0 := blocksValue_nonneg cq.inRange
    have hr0 := blocksValue_nonneg cr.inRange
    have hq9 : blocksValue q.digits < 10 := by
      by_contra hcon
      have h10 : 10 * blocksValue b_abs.digits ≤ blocksValue q.digits * blocksValue b_abs.digits :=
        Int.mul_le_mul_of_nonneg_right (by omega) (le_of_lt hB)
      omega
    have hrsign : r.sign = 1 := by
      by_cases hr1 : r.digits = [0]
      · exact cr.2.2.2.2.2.2 hr1
      · rw [hrs hr1, m2]
    have hlen : q.digits.length ≤ 1 :=
      length_le_of_magnitude_lt cq 1 (le_refl _) (by rw [pow_one]; omega)
    have hqd : q.digits = [blocksValue q.digits] := by
      have h1 := cq.length_pos
      obtain ⟨x, hx⟩ := List.length_eq_one.mp (by omega : q.digits.length = 1)
      rw [hx, blocksValue_single]
    have hlow := low_block_eq cq (by omega)
    have hquot : blocksValue q.digits =
        10 * blocksValue cur.digits / blocksValue b_abs.digits := by
      have e : 10 * blocksValue cur.digits =
          blocksValue r.digits + blocksValue b_abs.digits * blocksValue q.digits := by
        linear_combination hval
      rw [e, Int.add_mul_ediv_left _ _ (by omega), Int.ediv_eq_zero_of_lt hr0 hrlt]
      omega
    have ht : Int.tmod (blocksValue q.digits) 10 = blocksValue q.digits := by
      rw [Int.tmod_eq_emod hq0 (by norm_num)]
      omega
    refine ⟨q, r, blocksValue q.digits, m3, hdiv, hqd, hq0, by omega, hquot, ?_, hrsign,
      by omega, cr, by linear_combination -hval, hr0, hrlt, ?_⟩
    · rw [hlow]
      exact ht
    · rw [bigIntToDecimalString.loop, if_neg hcz]
      simp only
      rw [hdiv]
      simp only
      rw [if_neg (by omega)]
      have hdigit : (if (!isBigIntZero q) = true then
          (if Int.tmod (q.digits.getD 0 0) 10 < 0 then Int.tmod (q.digits.getD 0 0) 10 + 10
            else Int.tmod (q.digits.getD 0 0) 10)
          else 0) = blocksValue q.digits := by
        rw [hlow, ht]
        cases hzq : isBigIntZero q
        · simp only [Bool.not_false, if_true]
          rw [if_neg (by omega)]
        · simp only [Bool.not_true, Bool.false_eq_true, if_false]
          rw [blocksValue_eq_zero_of_isZero hzq]
      rw [hdigit]
      have hdn : (blocksValue q.digits).toNat < 10 := by omega
      rw [digit_char _ hdn]
  · intro b_abs cur k p h0
    rw [bigIntToDecimalString.loop, if_pos ((isBigIntZero_iff cur).mpr h0)]

/-- Witness for `bigIntToDecimalString_loop_invariant`: the first fraction digit
of 100 / 7, from the remainder 2. -/
theorem bigIntToDecimalString_loop_invariant_witness :
    ∃ (qd next : BigInt) (d : Int),
      blocksValue (multiplyBy10 (mk 1 [2])).digits = 10 * blocksValue (mk 1 [2]).digits ∧
      divideBigInt (multiplyBy10 (mk 1 [2])) (mk 1 [7]) = .ok (qd, next) ∧
      qd.digits = [d] ∧ 0 ≤ d ∧ d ≤ 9 ∧
      d = 10 * blocksValue (mk 1 [2]).digits / blocksValue (mk 1 [7]).digits ∧
      Int.tmod (qd.digits.getD 0 0) 10 = d ∧
      next.sign = 1 ∧ ¬ next.sign < 0 ∧ Canonical next ∧
      blocksValue next.digits =
        10 * blocksValue (mk 1 [2]).digits - d * blocksValue (mk 1 [7]).digits ∧
      0 ≤ blocksValue next.digits ∧ blocksValue next.digits < blocksValue (mk 1 [7]).digits ∧
      bigIntToDecimalString.loop (mk 1 [7]) (0 + 1) (mk 1 [2]) [] =
        bigIntToDecimalString.loop (mk 1 [7]) 0 next ([] ++ [Nat.digitChar d.toNat]) :=
  bigIntToDecimalString_loop_invariant.2.1 (mk 1 [7]) (mk 1 [2]) 0 [] (by decide) (by decide)
    (by decide) rfl (by decide) (by decide)

/-! ## The inverse transform -/

/-- For indices below `n`, `n` divides `m + (n - 1) * j` only if `m = j`. -/
theorem dvd_shift_iff (n m j : Nat) (hm : m < n) (hj : j < n) :
    n ∣ m + (n - 1) * j ↔ m = j := by
  have e : m + (n - 1) * j + j = m + n * j := by
    have : (n - 1) * j + j = n * j := by
      conv_rhs => rw [show n = (n - 1) + 1 by omega]
      ring
    omega
  constructor
  · intro h
    have h1 : n ∣ m + (n - 1) * j + j + (n - j) := by
      have : m + (n - 1) * j + j + (n - j) = (m + (n - 1) * j) + n := by omega
      rw [this]
      exact Dvd.dvd.add h (dvd_refl n)
    rw [e] at h1
    have h2 : n ∣ m + (n - j) := by
      have h3 : m + n * j + (n - j) = (m + (n - j)) + n * j := by omega
      rw [h3] at h1
      exact (Nat.dvd_add_left (Dvd.intro j rfl)).mp h1
    obtain ⟨c, hc⟩ := h2
    have hc1 : c = 1 := by
      have h4 : m + (n - j) < n * 2 := by omega
      have h5 : 0 < m + (n - j) := by omega
      rw [hc] at h4 h5
      have h6 : c < 2 := lt_of_mul_lt_mul_left h4 (Nat.zero_le n)
      have h7 : 0 < c := by
        rcases Nat.eq_zero_or_pos c with h | h
        · rw [h] at h5
          simp at h5
        · exact h
      omega
    rw [hc1] at hc
    omega
  · intro h
    subst h
    have : m + (n - 1) * m = n * m := by
      conv_rhs => rw [show n = (n - 1) + 1 by omega]
      ring
    rw [this]
    exact Dvd.intro m rfl

/-- The inverse transform of the forward transform of `2^L` residues, `L <= 23`,
is the array itself. -/
theorem ntt_inverse_forward (L : Nat) (hL : L ≤ 23) (a : List Nat) (hl : a.length = 2 ^ L)
    (hb : ∀ x ∈ a, x < MOD) :
    ∃ r, ntt a (2 ^ L) false = .ok r ∧ r.length = 2 ^ L ∧ (∀ x ∈ r, x < MOD) ∧
      ntt r (2 ^ L) true = .ok a := by
  haveI : Fact (Nat.Prime MOD) := ⟨prime_MOD⟩
  have hbd : ∀ t, a.getD t 0 < MOD := by
    intro t
    by_cases ht : t < a.length
    · rw [List.getD_eq_getElem _ _ ht]
      exact hb _ (List.getElem_mem ht)
    · rw [List.getD_eq_default _ _ (by omega)]
      decide
  obtain ⟨r, r1, r2, r3, r4⟩ := ntt_spec false L hL a hl hbd
  obtain ⟨c, c1, c2, c3, c4⟩ := ntt_spec true L hL r r2 r3
  have hrm : ∀ x ∈ r, x < MOD := by
    intro x hx
    obtain ⟨i, hi, rfl⟩ := List.mem_iff_getElem.mp hx
    have := r3 i
    rw [List.getD_eq_getElem _ _ hi] at this
    exact this
  refine ⟨r, r1, r2, hrm, ?_⟩
  rw [c1]
  congr 1
  apply List.ext_getElem (by rw [c2, hl])
  intro j h1 h2
  have hj : j < 2 ^ L := by rw [← c2]; exact h1
  have hcj := c4 j hj
  simp only [if_true] at hcj
  have hres : ∀ k ∈ Finset.range (2 ^ L), residues r k * passRoot true L ^ (k * j) =
      ∑ m in Finset.range (2 ^ L), residues a m * (stageRoot L ^ (m + (2 ^ L - 1) * j)) ^ k := by
    intro k hk
    have hk1 := Finset.mem_range.mp hk
    have e := r4 k hk1
    simp only [Bool.false_eq_true, if_false, one_mul] at e
    unfold residues at e ⊢
    rw [e, Finset.sum_mul]
    apply Finset.sum_congr rfl
    intro m _
    have hp : passRoot true L = stageRoot L ^ (2 ^ L - 1) := by
      unfold passRoot
      rw [if_pos rfl, stageRoot_inv L hL]
    have hq : passRoot false L = stageRoot L := by
      unfold passRoot
      simp
    rw [hp, hq, mul_assoc]
    congr 1
    rw [← pow_mul, ← pow_mul, ← pow_add]
    congr 1
    ring
  rw [Finset.sum_congr rfl hres, Finset.sum_comm] at hcj
  have hinner : ∀ m ∈ Finset.range (2 ^ L),
      ∑ k in Finset.range (2 ^ L),
        residues a m * (stageRoot L ^ (m + (2 ^ L - 1) * j)) ^ k =
      if m = j then residues a j * ((2 ^ L : Nat) : ZMod MOD) else 0 := by
    intro m hm
    have hm1 := Finset.mem_range.mp hm
    rw [← Finset.mul_sum, root_sum L hL]
    by_cases hmj : m = j
    · rw [if_pos hmj, if_pos ((dvd_shift_iff _ m j hm1 hj).mpr hmj), hmj]
    · rw [if_neg hmj, if_neg (fun h => hmj ((dvd_shift_iff _ m j hm1 hj).mp h)), mul_zero]
  rw [Finset.sum_congr rfl hinner, Finset.sum_ite_eq' (Finset.range (2 ^ L)) j,
    if_pos (Finset.mem_range.mpr hj), mul_comm (residues a j), ← mul_assoc,
    inv_mul_cancel₀ (two_pow_ne_zero L), one_mul] at hcj
  have hfin := residue_eq_of_cast (c3 j) (hbd j) hcj
  rw [List.getD_eq_getElem _ _ h1, List.getD_eq_getElem _ _ h2] at hfin
  exact hfin

/-- C34. The inverse transform undoes the forward transform: for every power of
two `n = 2^L` with `1 <= n <= 2^23` and every array `a` of `n` values below
998244353, `ntt a n false` succeeds with an array `r` of `n` values below the
modulus, and `ntt r n true` returns `a`. -/
theorem ntt_inverse_undoes_forward (L : Nat) (hL : L ≤ 23) (a : List Nat)
    (hl : a.length = 2 ^ L) (hb : ∀ x ∈ a, x < MOD) :
    (1 ≤ 2 ^ L ∧ 2 ^ L ≤ 2 ^ 23) ∧
    ∃ r, ntt a (2 ^ L) false = .ok r ∧ r.length = 2 ^ L ∧ (∀ x ∈ r, x < MOD) ∧
      ntt r (2 ^ L) true = .ok a :=
  ⟨⟨Nat.one_le_two_pow, Nat.pow_le_pow_right (by norm_num) hL⟩,
    ntt_inverse_forward L hL a hl hb⟩

/-- Witness for `ntt_inverse_undoes_forward`: four values. -/
theorem ntt_inverse_undoes_forward_witness :
    (2 : Nat) ≤ 23 ∧ [5, 0, 998244352, 7].length = 2 ^ 2 ∧
    (∀ x ∈ [5, 0, 998244352, 7], x < MOD) ∧
    ∃ r, ntt [5, 0, 998244352, 7] (2 ^ 2) false = .ok r ∧ r.length = 2 ^ 2 ∧
      (∀ x ∈ r, x < MOD) ∧ ntt r (2 ^ 2) true = .ok [5, 0, 998244352, 7] :=
  ⟨by decide, by decide, by decide,
    (ntt_inverse_undoes_forward 2 (by decide) [5, 0, 998244352, 7] (by decide) (by decide)).2⟩

/-! ## Roots of unity, modular exponentiation and inverse -/

theorem nat_mod_of_cast {x v : Nat} (hv : v < MOD)
    (h : ((x : Nat) : ZMod MOD) = ((v : Nat) : ZMod MOD)) : x % MOD = v := by
  have h1 := (ZMod.natCast_eq_natCast_iff' x v MOD).mp h
  rw [Nat.mod_eq_of_lt hv] at h1
  exact h1

/-- C35. Roots of unity used by the transform.  For every power of two
`len = 2^s` with `2 <= len <= 2^23`, `wlen = mod_pow 3 ((998244353 - 1) / len)
998244353` is below the modulus, `wlen^len mod p = 1`, `wlen^(len/2) mod p =
p - 1`, no smaller positive power of `wlen` is 1 modulo `p` (the order of `wlen`
is `len`), and `mod_inverse wlen p` is its inverse modulo `p`. -/
theorem wlen_primitive_root (s : Nat) (hs1 : 1 ≤ s) (hs : s ≤ 23) :
    (2 ≤ 2 ^ s ∧ 2 ^ s ≤ 2 ^ 23) ∧
    mod_pow G ((MOD - 1) / 2 ^ s) MOD < MOD ∧
    mod_pow G ((MOD - 1) / 2 ^ s) MOD ^ (2 ^ s) % MOD = 1 ∧
    mod_pow G ((MOD - 1) / 2 ^ s) MOD ^ (2 ^ s / 2) % MOD = MOD - 1 ∧
    (∀ t, 0 < t → t < 2 ^ s → mod_pow G ((MOD - 1) / 2 ^ s) MOD ^ t % MOD ≠ 1) ∧
    orderOf ((mod_pow G ((MOD - 1) / 2 ^ s) MOD : Nat) : ZMod MOD) = 2 ^ s ∧
    mod_inverse (mod_pow G ((MOD - 1) / 2 ^ s) MOD) MOD < MOD ∧
    mod_pow G ((MOD - 1) / 2 ^ s) MOD * mod_inverse (mod_pow G ((MOD - 1) / 2 ^ s) MOD) MOD
      % MOD = 1 := by
  haveI : Fact (Nat.Prime MOD) := ⟨prime_MOD⟩
  obtain ⟨w1, w2⟩ := wlen_spec false s hs
  obtain ⟨v1, v2⟩ := wlen_spec true s hs
  simp only [Bool.false_eq_true, if_false] at w1 w2
  simp only [if_true] at v1 v2
  have hroot : passRoot false s = stageRoot s := by
    unfold passRoot
    simp
  have hinv : passRoot true s = (stageRoot s)⁻¹ := by
    unfold passRoot
    simp
  rw [hroot] at w2
  rw [hinv] at v2
  obtain ⟨u, rfl⟩ : ∃ u, s = u + 1 := ⟨s - 1, by omega⟩
  have hhalf : 2 ^ (u + 1) / 2 = 2 ^ u := by
    rw [pow_succ]
    omega
  generalize mod_pow G ((MOD - 1) / 2 ^ (u + 1)) MOD = wlen at w1 w2 v1 v2 ⊢
  have hord : orderOf ((wlen : Nat) : ZMod MOD) = 2 ^ (u + 1) := by
    rw [w2]
    exact stageRoot_order (u + 1) hs
  refine ⟨⟨?_, Nat.pow_le_pow_right (by norm_num) hs⟩, w1, ?_, ?_, ?_, hord, v1, ?_⟩
  · have : 2 ^ 1 ≤ 2 ^ (u + 1) := Nat.pow_le_pow_right (by norm_num) hs1
    simpa using this
  · apply nat_mod_of_cast (by decide)
    rw [Nat.cast_pow, w2, stageRoot_pow (u + 1) hs, Nat.cast_one]
  · rw [hhalf]
    apply nat_mod_of_cast (by decide)
    rw [Nat.cast_pow, w2, stageRoot_half u hs, Nat.cast_sub (by decide), ZMod.natCast_self]
    simp
  · intro t ht0 htl h1
    have h2 : ((wlen : Nat) : ZMod MOD) ^ t = 1 := by
      rw [← Nat.cast_pow, ← Nat.cast_one]
      exact (ZMod.natCast_eq_natCast_iff' _ _ _).mpr (by rw [h1]; rfl)
    have h3 := orderOf_dvd_of_pow_eq_one h2
    rw [hord] at h3
    have := Nat.le_of_dvd ht0 h3
    omega
  · apply nat_mod_of_cast (by decide)
    rw [Nat.cast_mul, v2, w2, Nat.cast_one]
    exact mul_inv_cancel₀ (stageRoot_ne_zero (u + 1) hs)

/-- Witness for `wlen_primitive_root`: `len = 2^23`. -/
theorem wlen_primitive_root_witness :
    (1 : Nat) ≤ 23 ∧ (23 : Nat) ≤ 23 ∧
    mod_pow G ((MOD - 1) / 2 ^ 23) MOD ^ (2 ^ 23) % MOD = 1 ∧
    mod_pow G ((MOD - 1) / 2 ^ 23) MOD ^ (2 ^ 23 / 2) % MOD = MOD - 1 :=
  ⟨by decide, by decide, (wlen_primitive_root 23 (by decide) (by decide)).2.2.1,
    (wlen_primitive_root 23 (by decide) (by decide)).2.2.2.1⟩

/-- C36. Modular exponentiation is exact in 64-bit arithmetic.  For a modulus
`m` with `2 <= m <= 2^32` and 64-bit `a` and `b`, `mod_pow a b m = a^b mod m`.
The loop starts with `result = 1` and `a mod m`, both below `m`; in a round
that starts with `result` and `a` below `m`, the products `result * a` and
`a * a` are below `2^64`, the reductions modulo `2^64` of the embedding change
nothing, and the new `result` and `a` are below `m` again. -/
theorem mod_pow_exact (m : Nat) (hm2 : 2 ≤ m) (hm : m ≤ 2 ^ 32) :
    (∀ a b : Nat, a < 2 ^ 64 → b < 2 ^ 64 → mod_pow a b m = a ^ b % m ∧ mod_pow a b m < m) ∧
    (∀ a : Nat, 1 < m ∧ a % m < m) ∧
    (∀ (fuel result a b : Nat), result < m → a < m → 0 < b →
      result * a < 2 ^ 64 ∧ a * a < 2 ^ 64 ∧
      (result * a) % ULL = result * a ∧ (a * a) % ULL = a * a ∧
      (if b % 2 = 1 then result * a % m else result) < m ∧ a * a % m < m ∧
      mod_pow.loop m (fuel + 1) result a b =
        mod_pow.loop m fuel (if b % 2 = 1 then result * a % m else result) (a * a % m)
          (b / 2)) := by
  have h32 : (2 : Nat) ^ 32 = 4294967296 := by norm_num
  have h64 : (2 : Nat) ^ 64 = 18446744073709551616 := by norm_num
  have hprod : ∀ x y : Nat, x < m → y < m → x * y < 2 ^ 64 := by
    intro x y hx hy
    have h1 : x * y ≤ 4294967295 * 4294967295 :=
      Nat.mul_le_mul (by omega) (by omega)
    omega
  refine ⟨?_, fun a => ⟨by omega, Nat.mod_lt _ (by omega)⟩, ?_⟩
  · intro a b _ hb
    have h := mod_pow_spec a b m (by omega) (by omega) (by omega)
    rw [h]
    exact ⟨rfl, Nat.mod_lt _ (by omega)⟩
  · intro fuel result a b hr ha hb
    have p1 := hprod result a hr ha
    have p2 := hprod a a ha ha
    have w1 : (result * a) % ULL = result * a := Nat.mod_eq_of_lt (by
      show result * a < 18446744073709551616
      omega)
    have w2 : (a * a) % ULL = a * a := Nat.mod_eq_of_lt (by
      show a * a < 18446744073709551616
      omega)
    refine ⟨p1, p2, w1, w2, ?_, Nat.mod_lt _ (by omega), ?_⟩
    · split
      · exact Nat.mod_lt _ (by omega)
      · exact hr
    · conv_lhs => unfold mod_pow.loop
      rw [if_pos hb]
      simp only [w1, w2]

/-- Witness for `mod_pow_exact`: the modulus 998244353. -/
theorem mod_pow_exact_witness :
    (2 : Nat) ≤ 998244353 ∧ (998244353 : Nat) ≤ 2 ^ 32 ∧
    mod_pow 18446744073709551615 1000 998244353 =
      18446744073709551615 ^ 1000 % 998244353 :=
  ⟨by norm_num, by norm_num,
    ((mod_pow_exact 998244353 (by norm_num) (by norm_num)).1 18446744073709551615
      1000 (by norm_num) (by norm_num)).1⟩

/-- C37. Modular inverse: for every 64-bit `a` that is not a multiple of
998244353, `mod_inverse a 998244353` is `a^(p-2) mod p`, below `p`, and
`(a * mod_inverse a p) mod p = 1`. -/
theorem mod_inverse_correct (a : Nat) (_ha : a < 2 ^ 64) (hnd : ¬ MOD ∣ a) :
    mod_inverse a MOD = a ^ (MOD - 2) % MOD ∧ mod_inverse a MOD < MOD ∧
    a * mod_inverse a MOD % MOD = 1 := by
  haveI : Fact (Nat.Prime MOD) := ⟨prime_MOD⟩
  have hne : ((a : Nat) : ZMod MOD) ≠ 0 := by
    intro h
    exact hnd ((ZMod.natCast_zmod_eq_zero_iff_dvd a MOD).mp h)
  have e : (MOD + ULL - 2) % ULL = MOD - 2 := by decide
  refine ⟨?_, mod_pow_lt _ _ (by decide), ?_⟩
  · unfold mod_inverse
    rw [e]
    exact mod_pow_MOD a (MOD - 2) (by decide)
  · apply nat_mod_of_cast (by decide)
    rw [Nat.cast_mul, mod_inverse_cast a hne, Nat.cast_one]
    exact mul_inv_cancel₀ hne

/-- Witness for `mod_inverse_correct`: the largest 64-bit value. -/
theorem mod_inverse_correct_witness :
    (18446744073709551615 : Nat) < 2 ^ 64 ∧ ¬ MOD ∣ 18446744073709551615 ∧
    18446744073709551615 * mod_inverse 18446744073709551615 MOD % MOD = 1 :=
  ⟨by norm_num, by decide,
    (mod_inverse_correct 18446744073709551615 (by norm_num) (by decide)).2.2⟩

/-! ## Re-basing of the coefficients -/

theorem blocksValue_cast_eq_sum (cs : List Nat) :
    blocksValue (cs.map (fun (c : Nat) => (c : Int))) =
      ∑ i in Finset.range cs.length, ((cs.getD i 0 : Nat) : Int) * 1000 ^ i := by
  rw [blocksValue_eq_sum _ cs.length (by rw [List.length_map])]
  apply Finset.sum_congr rfl
  intro i hi
  have hi1 := Finset.mem_range.mp hi
  rw [List.getD_eq_getElem _ _ (by rw [List.length_map]; exact hi1), List.getElem_map,
    List.getD_eq_getElem _ _ hi1]

/-- C38. Carry re-basing preserves the value.  For coefficients `cs`, each below
998244353, the re-basing loop of `nttMultiplyBigInt` followed by the loop that
emits the last carry writes blocks that are all in `[0, 1000)`, at least as
many as there are coefficients, with `sum digit[i] * 1000^i = sum coeff[i] *
1000^i`; the carry left by the first loop is below the modulus and is used up by
the second.  In a round that starts with a carry below the modulus,
`carry + coeff[i]` is below `2^64`, so it is not reduced, and the next carry is
below the modulus again. -/
theorem rebase_preserves_value (cs : List Nat) (hc : ∀ c ∈ cs, c < MOD) (res : BigInt) :
    InRange (nttMultiplyBigInt.finalCarry 1000 64 (nttMultiplyBigInt.rebase 1000 cs 0 []).2
      { res with digits := (nttMultiplyBigInt.rebase 1000 cs 0 []).1 }).digits ∧
    (nttMultiplyBigInt.rebase 1000 cs 0 []).1.length = cs.length ∧
    cs.length ≤ (nttMultiplyBigInt.finalCarry 1000 64 (nttMultiplyBigInt.rebase 1000 cs 0 []).2
      { res with digits := (nttMultiplyBigInt.rebase 1000 cs 0 []).1 }).digits.length ∧
    (nttMultiplyBigInt.rebase 1000 cs 0 []).2 < MOD ∧
    (∑ i in Finset.range (nttMultiplyBigInt.finalCarry 1000 64
          (nttMultiplyBigInt.rebase 1000 cs 0 []).2
          { res with digits := (nttMultiplyBigInt.rebase 1000 cs 0 []).1 }).digits.length,
        (nttMultiplyBigInt.finalCarry 1000 64 (nttMultiplyBigInt.rebase 1000 cs 0 []).2
          { res with digits := (nttMultiplyBigInt.rebase 1000 cs 0 []).1 }).digits.getD i 0
          * 1000 ^ i) =
      ∑ i in Finset.range cs.length, ((cs.getD i 0 : Nat) : Int) * 1000 ^ i ∧
    (∀ carry c : Nat, carry < MOD → c < MOD →
      carry + c < 2 ^ 64 ∧ (carry + c) % ULL = carry + c ∧ (carry + c) / 1000 < MOD ∧
      ∀ (rest : List Nat) (out : List Int),
        nttMultiplyBigInt.rebase 1000 (c :: rest) carry out =
          nttMultiplyBigInt.rebase 1000 rest ((carry + c) / 1000)
            (out ++ [(((carry + c) % 1000 : Nat) : Int)])) := by
  have hM : (MOD : Nat) = 998244353 := rfl
  have hU : (ULL : Nat) = 18446744073709551616 := rfl
  obtain ⟨ds, carry1, h1, h2, h3, h4, h5⟩ := rebase_spec cs hc 0 [] (by decide)
  rw [h1]
  simp only [List.nil_append]
  obtain ⟨es, e1, e2, e3, _, _⟩ := finalCarry_spec 64 carry1 { res with digits := ds } (by
    have : (1000 : Nat) ^ 64 ≥ 998244353 := by norm_num
    omega)
  rw [e1]
  rw [Nat.cast_zero, zero_add] at h5
  refine ⟨h3.append e2, h2, ?_, h4, ?_, ?_⟩
  · rw [List.length_append, h2]
    omega
  · rw [← blocksValue_eq_sum _ _ (le_refl _), blocksValue_append, e3, h2, h5,
      blocksValue_cast_eq_sum]
  · intro carry c hcar hcc
    have h64 : (2 : Nat) ^ 64 = 18446744073709551616 := by norm_num
    have hw : (carry + c) % ULL = carry + c := Nat.mod_eq_of_lt (by omega)
    refine ⟨by omega, hw, by omega, ?_⟩
    intro rest out
    conv_lhs => unfold nttMultiplyBigInt.rebase
    simp only [hw]

/-- Witness for `rebase_preserves_value`: the coefficients 998244352, 5 and 0. -/
theorem rebase_preserves_value_witness :
    (∀ c ∈ [998244352, 5, 0], c < MOD) ∧
    (nttMultiplyBigInt.finalCarry 1000 64 (nttMultiplyBigInt.rebase 1000 [998244352, 5, 0] 0 []).2
      { createBigInt 4 with
        digits := (nttMultiplyBigInt.rebase 1000 [998244352, 5, 0] 0 []).1 }).digits =
      [352, 249, 998] ∧
    (nttMultiplyBigInt.rebase 1000 [998244352, 5, 0] 0 []).2 < MOD :=
  ⟨by decide, by decide,
    (rebase_preserves_value [998244352, 5, 0] (by decide) (createBigInt 4)).2.2.2.1⟩

/-! ## Fixed-point division of the calculator -/

/-- The quotient of `divideBigInt` is the quotient truncated toward zero. -/
theorem divideBigInt_tdiv (a b : BigInt) (ha : Canonical a) (hb : Canonical b)
    (hz : b.digits ≠ [0]) :
    ∃ q r, divideBigInt a b = .ok (q, r) ∧ Canonical q ∧
      q.value = Int.tdiv a.value b.value := by
  have hzb := (isBigIntZero_false_iff b).mpr hz
  obtain ⟨q, r, h, cq, cr, hval, hlt, hqs, _⟩ := divideBigInt_spec a b ha hb hzb
  have hq := value_eq_of_sign hqs
  have hB := magnitude_pos_of_not_zero hb hzb
  have hQ := blocksValue_nonneg cq.inRange
  have hR := blocksValue_nonneg cr.inRange
  refine ⟨q, r, h, cq, ?_⟩
  rw [hq]
  unfold BigInt.value
  rw [tdiv_of_signs ha.sign_cases hb.sign_cases hB hR hlt hQ hval]

/-- The loop of `bigintPow10` multiplies by 10 as often as it runs. -/
theorem bigintPow10_loop_spec (k : Nat) :
    ∀ (j : Nat) (result : BigInt), j + k ≤ 2997 → Canonical result → result.value = 10 ^ j →
      ∃ f, bigintPow10.loop k result = .ok (some f) ∧ Canonical f ∧ f.value = 10 ^ (j + k) := by
  induction k with
  | zero =>
    intro j result _ hc hv
    exact ⟨result, rfl, hc, hv⟩
  | succ k ih =>
    intro j result hj hc hv
    have hlen : result.digits.length ≤ 1000 := by
      apply length_le_of_magnitude_lt hc 1000 (by norm_num)
      rw [← abs_value hc, hv, abs_of_nonneg (by positivity)]
      have e : (1000 : Int) ^ 1000 = 10 ^ (3 * 1000) := by
        rw [pow_mul]
        norm_num
      rw [e]
      exact pow_lt_pow_right₀ (by norm_num) (by omega)
    obtain ⟨t, h1, h2, h3⟩ := multiplyBigIntByLL_spec result hc 10 (by norm_num) (by norm_num)
      (by
        have : (2 : Nat) ^ 23 = 8388608 := by norm_num
        simp only [BigInt.length]
        omega)
    obtain ⟨f, f1, f2, f3⟩ := ih (j + 1) t (by omega) h2 (by
      rw [h3, hv, pow_succ])
    refine ⟨f, ?_, f2, ?_⟩
    · unfold bigintPow10.loop
      rw [h1]
      exact f1
    · rw [f3]
      congr 1
      omega

/-- `bigintPow10 n` is `10^n` for `0 <= n <= 2997`, and 1 for every `n <= 0`. -/
theorem bigintPow10_spec (n : Int) (hn : n ≤ 2997) :
    ∃ f, bigintPow10 n = .ok (some f) ∧ Canonical f ∧ f.value = 10 ^ n.toNat := by
  obtain ⟨one, h1, h2, h3⟩ := createBigIntFromLL_spec 1
  obtain ⟨f, f1, f2, f3⟩ := bigintPow10_loop_spec n.toNat 0 one (by omega) h2 (by
    rw [h3, pow_zero])
  refine ⟨f, ?_, f2, ?_⟩
  · unfold bigintPow10
    rw [h1]
    exact f1
  · rw [f3, Nat.zero_add]

/-- What `divBigDecimal` returns: the quotient, truncated toward zero, of
`A * 10^max(delta, 0)` by `B`, `delta = precision + b.scale - a.scale`. -/
theorem divBigDecimal_spec (A B : BigInt) (sa sb p : Int) (hA : Canonical A)
    (hB : Canonical B) (hz : B.digits ≠ [0]) (hd : p + sb - sa ≤ 2997)
    (hlen : A.length + 1000 ≤ 2 ^ 23) :
    ∃ q, divBigDecimal { value := some A, scale := sa } { value := some B, scale := sb } p =
        .ok { value := some q, scale := p } ∧ Canonical q ∧
      q.value = Int.tdiv (A.value * 10 ^ (p + sb - sa).toNat) B.value := by
  obtain ⟨f, f1, f2, f3⟩ := bigintPow10_spec (p + sb - sa) hd
  have hfl : f.digits.length ≤ 1000 := by
    apply length_le_of_magnitude_lt f2 1000 (by norm_num)
    rw [← abs_value f2, f3, abs_of_nonneg (by positivity)]
    have e : (1000 : Int) ^ 1000 = 10 ^ (3 * 1000) := by
      rw [pow_mul]
      norm_num
    rw [e]
    exact pow_lt_pow_right₀ (by norm_num) (by omega)
  obtain ⟨num, n1, n2, n3⟩ := nttMultiplyBigInt_exact_of_short A f hA f2
    (by simp only [BigInt.length] at hlen ⊢; omega)
    (by simp only [BigInt.length]; omega)
  obtain ⟨q, r, d1, d2, d3⟩ := divideBigInt_tdiv num B n2 hB hz
  refine ⟨q, ?_, d2, by rw [d3, n3, f3]⟩
  unfold divBigDecimal
  simp only [(isBigIntZero_false_iff B).mpr hz, Bool.false_eq_true, if_false, f1, n1, d1]

set_option maxRecDepth 1000000 in
/-- The line `0.00...01/1` with 101 fractional digits: the calculator returns
the value 1 at scale 100, that is `10^-100`. -/
theorem evaluate_tiny_quotient :
    evaluate { type := TokenType.TOKEN_NUM, lexeme := [] }
        ('0' :: '.' :: (List.replicate 100 '0' ++ ['1', '/', '1', '\n'])) =
      .ok { value := some (mk 1 [1]), scale := 100 } := by
  decide

/-- C40. Fixed-point division in the calculator.  For canonical `A` and non-zero
canonical `B`, `divBigDecimal (A, sa) (B, sb) p` returns scale `p` and the value
`trunc(A * 10^delta / B)` when `delta = p + sb - sa` is not negative.  When
`sa > p + sb` the factor `bigintPow10 delta` is 1 and the value returned is
`trunc(A / B)`, not `trunc(A / (B * 10^(sa - p - sb)))`: `10^-101` divided by 1
at precision 100 gives the value 1, that is `10^-100`, where the quotient
truncated to 100 fractional digits is 0, and 1.23 divided by 1 at precision 0
gives 123 instead of 1.  (Here for `delta <= 2997` and `A` of at most
`2^23 - 1000` blocks.) -/
theorem divBigDecimal_wrong_for_negative_exponent :
    (∀ (A B : BigInt) (sa sb p : Int), Canonical A → Canonical B → B.digits ≠ [0] →
      0 ≤ p + sb - sa → p + sb - sa ≤ 2997 → A.length + 1000 ≤ 2 ^ 23 →
      ∃ q, divBigDecimal { value := some A, scale := sa } { value := some B, scale := sb } p =
          .ok { value := some q, scale := p } ∧ Canonical q ∧
        q.value = Int.tdiv (A.value * 10 ^ (p + sb - sa).toNat) B.value) ∧
    (∀ (A B : BigInt) (sa sb p : Int), Canonical A → Canonical B → B.digits ≠ [0] →
      p + sb - sa < 0 → A.length + 1000 ≤ 2 ^ 23 →
      bigintPow10 (p + sb - sa) = bigintPow10 0 ∧
      ∃ q, divBigDecimal { value := some A, scale := sa } { value := some B, scale := sb } p =
          .ok { value := some q, scale := p } ∧ Canonical q ∧
        q.value = Int.tdiv A.value B.value) ∧
    (divBigDecimal { value := some (mk 1 [1]), scale := 101 }
        { value := some (mk 1 [1]), scale := 0 } 100 =
        .ok { value := some (mk 1 [1]), scale := 100 } ∧
      evaluate { type := TokenType.TOKEN_NUM, lexeme := [] }
          ('0' :: '.' :: (List.replicate 100 '0' ++ ['1', '/', '1', '\n'])) =
        .ok { value := some (mk 1 [1]), scale := 100 } ∧
      (mk 1 [1]).value = 1 ∧ Int.tdiv (1 : Int) (1 * 10 ^ 1) = 0) ∧
    (divBigDecimal { value := some (mk 1 [123]), scale := 2 }
        { value := some (mk 1 [1]), scale := 0 } 0 =
        .ok { value := some (mk 1 [123]), scale := 0 } ∧
      (mk 1 [123]).value = 123 ∧ Int.tdiv (123 : Int) (1 * 10 ^ 2) = 1) := by
  refine ⟨?_, ?_, ⟨by decide, evaluate_tiny_quotient, by decide, by decide⟩,
    by decide, by decide, by decide⟩
  · intro A B sa sb p hA hB hz _ hd hlen
    exact divBigDecimal_spec A B sa sb p hA hB hz hd hlen
  · intro A B sa sb p hA hB hz hneg hlen
    have h0 : (p + sb - sa).toNat = 0 := by omega
    refine ⟨?_, ?_⟩
    · unfold bigintPow10
      rw [h0]
      rfl
    · obtain ⟨q, q1, q2, q3⟩ := divBigDecimal_spec A B sa sb p hA hB hz (by omega) hlen
      rw [h0, pow_zero, mul_one] at q3
      exact ⟨q, q1, q2, q3⟩

/-! ## The tokenizer of the calculator and signs after an operand -/

theorem isdigit_facts {c : Char} (h : isdigit c = true) :
    c ≠ NUL ∧ isspace c = false ∧ c ≠ '.' ∧ c ≠ '-' ∧ c ≠ '+' := by
  refine ⟨?_, ?_, ?_, ?_, ?_⟩
  · intro hc
    rw [hc] at h
    exact absurd h (by decide)
  · cases hs : isspace c with
    | false => rfl
    | true =>
      unfold isspace at hs
      simp only [Bool.decide_or, Bool.or_eq_true, decide_eq_true_eq] at hs
      rcases hs with hc | hc | hc | hc | hc | hc <;>
        (rw [hc] at h; exact absurd h (by decide))
  · intro hc
    rw [hc] at h
    exact absurd h (by decide)
  · intro hc
    rw [hc] at h
    exact absurd h (by decide)
  · intro hc
    rw [hc] at h
    exact absurd h (by decide)

/-- The white-space loop of `nextToken` stays at a character that is no white space. -/
theorem skip_stay (input : List Char) (fuel pos : Nat)
    (h : isspace (input.getD pos NUL) = false) : nextToken.skip input fuel pos = pos := by
  cases fuel with
  | zero => rfl
  | succ f =>
    unfold nextToken.skip
    rw [if_neg]
    rw [h]
    simp

theorem getD_append_length (pre s : List Char) (c : Char) :
    (pre ++ c :: s).getD pre.length NUL = c := by
  induction pre with
  | nil => rfl
  | cons a pre ih =>
    simp only [List.cons_append, List.length_cons, List.getD_cons_succ]
    exact ih

/-- The number loop of `nextToken` runs over a block of digits and stops at the
sign that follows it. -/
theorem scan_digits (x : List Char) :
    ∀ (pre rest : List Char) (op : Char) (fuel : Nat), (∀ c ∈ x, isdigit c = true) →
      (op = '-' ∨ op = '+') → x.length < fuel →
      nextToken.scan (pre ++ (x ++ op :: rest)) fuel pre.length = pre.length + x.length := by
  induction x with
  | nil =>
    intro pre rest op fuel _ hop hf
    obtain ⟨f, rfl⟩ : ∃ f, fuel = f + 1 := ⟨fuel - 1, by simp at hf; omega⟩
    unfold nextToken.scan
    have hg : (pre ++ ([] ++ op :: rest)).getD pre.length NUL = op :=
      getD_append_length pre rest op
    rw [hg, if_neg]
    · rfl
    · rcases hop with rfl | rfl <;> decide
  | cons d x ih =>
    intro pre rest op fuel hx hop hf
    obtain ⟨f, rfl⟩ : ∃ f, fuel = f + 1 := ⟨fuel - 1, by simp at hf; omega⟩
    have hd : isdigit d = true := hx d (List.mem_cons_self _ _)
    unfold nextToken.scan
    have hg : (pre ++ (d :: x ++ op :: rest)).getD pre.length NUL = d :=
      getD_append_length pre (x ++ op :: rest) d
    rw [hg, if_pos ⟨(isdigit_facts hd).1, Or.inl hd⟩]
    have e : pre ++ (d :: x ++ op :: rest) = (pre ++ [d]) ++ (x ++ op :: rest) := by simp
    have := ih (pre ++ [d]) rest op f (fun c hc => hx c (List.mem_cons_of_mem _ hc)) hop
      (by simp at hf; omega)
    rw [e]
    simp only [List.length_append, List.length_cons, List.length_nil, Nat.zero_add] at this
    rw [this]
    simp only [List.length_cons]
    omega

/-- The loop of `parseBigDecimal` copies a block of digits and leaves the scale. -/
theorem parseLoop_digits (x : List Char) :
    ∀ (i : Nat) (numStr : List Char) (scale : Int), (∀ c ∈ x, isdigit c = true) →
      parseBigDecimal.loop x i numStr scale false = some (numStr ++ x, scale) := by
  induction x with
  | nil =>
    intro i numStr scale _
    simp [parseBigDecimal.loop]
  | cons d x ih =>
    intro i numStr scale hx
    have hd : isdigit d = true := hx d (List.mem_cons_self _ _)
    unfold parseBigDecimal.loop
    rw [if_neg (isdigit_facts hd).2.2.1, if_pos (Or.inl hd)]
    simp only [Bool.false_eq_true, false_and, if_false]
    rw [ih _ _ _ (fun c hc => hx c (List.mem_cons_of_mem _ hc))]
    simp

/-- `parseBigDecimal` on an unsigned integer numeral: the number, with scale 0. -/
theorem parseBigDecimal_digits (x : List Char) (hne : x ≠ [])
    (hx : ∀ c ∈ x, isdigit c = true) :
    ∃ r, parseBigDecimal x = { value := some r, scale := 0 } ∧ Canonical r ∧
      r.value = (decimalValue x : Int) := by
  obtain ⟨d, t, rfl⟩ := List.exists_cons_of_ne_nil hne
  have hd : isdigit d = true := hx d (List.mem_cons_self _ _)
  obtain ⟨s1, s2⟩ := stripSign_of_digit t hd
  obtain ⟨r, h1, h2, h3⟩ := createBigIntFromString_numeral (d :: t) (by rw [s1]; simp)
    (by rw [s1]; exact hx)
  refine ⟨r, ?_, h2, by rw [h3, s1, s2, one_mul]⟩
  unfold parseBigDecimal
  have hs : parseBigDecimal.skip (d :: t) = d :: t := by
    unfold parseBigDecimal.skip
    rw [(isdigit_facts hd).2.1]
    rfl
  simp only [hs, parseLoop_digits (d :: t) 0 [] 0 hx, List.nil_append, h1]

/-- The first token of a line that starts with an unsigned integer numeral
followed by a sign. -/
theorem nextToken_first (tok : Token) (x rest : List Char) (op : Char) (hne : x ≠ [])
    (hx : ∀ c ∈ x, isdigit c = true) (hlen : x.length < 1000) (hop : op = '-' ∨ op = '+') :
    nextToken { input_str := x ++ op :: rest, pos := 0, current_token := tok } =
      { input_str := x ++ op :: rest, pos := x.length,
        current_token := { type := TokenType.TOKEN_NUM, lexeme := x } } := by
  obtain ⟨d, t, rfl⟩ := List.exists_cons_of_ne_nil hne
  have hd : isdigit d = true := hx d (List.mem_cons_self _ _)
  obtain ⟨d1, d2, d3, d4, d5⟩ := isdigit_facts hd
  have hg : (d :: t ++ op :: rest).getD 0 NUL = d := rfl
  have hskip : nextToken.skip (d :: t ++ op :: rest) (d :: t ++ op :: rest).length 0 = 0 :=
    skip_stay _ _ _ (by rw [hg]; exact d2)
  have hscan : nextToken.scan (d :: t ++ op :: rest) (d :: t ++ op :: rest).length 0 =
      (d :: t).length := by
    have := scan_digits (d :: t) [] rest op (d :: t ++ op :: rest).length hx hop
      (by simp)
    simpa using this
  unfold nextToken
  simp only [hskip, hg, if_neg d1, hd, true_or, if_true, d4, d5, or_self, if_false, hscan,
    Nat.sub_zero, List.drop_zero]
  rw [if_neg (by omega)]
  congr 2
  exact List.take_left _ _

/-- The second token of such a line, when a digit follows the sign: a number. -/
theorem nextToken_second (x rest : List Char) (op y0 : Char) (tok : Token)
    (hop : op = '-' ∨ op = '+') (hy : isdigit y0 = true) :
    (nextToken { input_str := x ++ op :: y0 :: rest, pos := x.length,
                 current_token := tok }).current_token.type = TokenType.TOKEN_NUM := by
  have hg : (x ++ op :: y0 :: rest).getD x.length NUL = op := getD_append_length x _ op
  have hg1 : (x ++ op :: y0 :: rest).getD (x.length + 1) NUL = y0 := by
    have := getD_append_length (x ++ [op]) rest y0
    simpa using this
  have hsp : isspace op = false := by rcases hop with rfl | rfl <;> decide
  have hnul : op ≠ NUL := by rcases hop with rfl | rfl <;> decide
  have hskip : nextToken.skip (x ++ op :: y0 :: rest) (x ++ op :: y0 :: rest).length x.length =
      x.length := skip_stay _ _ _ (by rw [hg]; exact hsp)
  unfold nextToken
  simp only [hskip, hg, if_neg hnul, hg1, hy, hop, and_self, or_true, if_true]

theorem parseFactor_num (pe : CalcState → Except Stop (BigDecimal × CalcState)) (fuel : Nat)
    (st : CalcState) (h : st.current_token.type = TokenType.TOKEN_NUM) :
    parseFactor pe (fuel + 1) st = .ok (parseBigDecimal st.current_token.lexeme, nextToken st) := by
  unfold parseFactor
  rw [if_pos h]

theorem parseTerm_loop_num (pf : CalcState → Except Stop (BigDecimal × CalcState)) (fuel : Nat)
    (r : BigDecimal) (st : CalcState) (h : st.current_token.type = TokenType.TOKEN_NUM) :
    parseTerm.loop pf (fuel + 1) r st = .ok (r, st) := by
  unfold parseTerm.loop
  rw [if_neg]
  rw [h]
  decide

theorem parseExpression_loop_num (pt : CalcState → Except Stop (BigDecimal × CalcState))
    (fuel : Nat) (r : BigDecimal) (st : CalcState)
    (h : st.current_token.type = TokenType.TOKEN_NUM) :
    parseExpression.loop pt (fuel + 1) r st = .ok (r, st) := by
  unfold parseExpression.loop
  rw [if_neg]
  rw [h]
  decide

/-- A line `x-y...` or `x+y...` without a space before the sign evaluates to
the operand `x`: the sign and the digits after it are one number token, at
which the parser stops. -/
theorem evaluate_sign_after_operand (tok : Token) (x rest : List Char) (op y0 : Char)
    (hne : x ≠ []) (hx : ∀ c ∈ x, isdigit c = true) (hlen : x.length < 1000)
    (hop : op = '-' ∨ op = '+') (hy : isdigit y0 = true) :
    evaluate tok (x ++ op :: y0 :: rest) = .ok (parseBigDecimal x) := by
  unfold evaluate
  simp only [nextToken_first tok x (y0 :: rest) op hne hx hlen hop]
  have h2 := nextToken_second x rest op y0 { type := TokenType.TOKEN_NUM, lexeme := x } hop hy
  unfold parseExpression
  simp only
  unfold parseTerm
  rw [parseFactor_num _ _ _ rfl]
  simp only
  rw [parseTerm_loop_num _ _ _ _ h2]
  simp only
  rw [parseExpression_loop_num _ _ _ _ h2]

/-- C39. Evaluation of a line depends on the white space before a binary `-`
or `+`.  For unsigned integer numerals `x` (below 1000 digits) and `y`, the
line `x-y` or `x+y`, written without spaces, evaluates to `x`: `nextToken` makes
the sign and the digits of `y` one number token, at which `parseExpression`
stops.  With spaces around the operator the result is the difference or the
sum: `5-3` gives 5 and `5 - 3` gives 2, `5+3` gives 5 and `5 + 3` gives 8. -/
theorem evaluate_depends_on_space_before_sign :
    (∀ (tok : Token) (x rest : List Char) (op y0 : Char), x ≠ [] →
      (∀ c ∈ x, isdigit c = true) → x.length < 1000 → (op = '-' ∨ op = '+') →
      isdigit y0 = true →
      ∃ r, evaluate tok (x ++ op :: y0 :: rest) = .ok { value := some r, scale := 0 } ∧
        Canonical r ∧ r.value = (decimalValue x : Int)) ∧
    evaluate { type := TokenType.TOKEN_NUM, lexeme := [] } ['5', '-', '3', '\n'] =
      .ok { value := some (mk 1 [5]), scale := 0 } ∧
    evaluate { type := TokenType.TOKEN_NUM, lexeme := [] } ['5', ' ', '-', ' ', '3', '\n'] =
      .ok { value := some (mk 1 [2]), scale := 0 } ∧
    evaluate { type := TokenType.TOKEN_NUM, lexeme := [] } ['5', '+', '3', '\n'] =
      .ok { value := some (mk 1 [5]), scale := 0 } ∧
    evaluate { type := TokenType.TOKEN_NUM, lexeme := [] } ['5', ' ', '+', ' ', '3', '\n'] =
      .ok { value := some { mk 1 [8] with capacity := 2 }, scale := 0 } ∧
    (mk 1 [5]).value = 5 ∧ (mk 1 [2]).value = 2 ∧
    ({ mk 1 [8] with capacity := 2 } : BigInt).value = 8 := by
  refine ⟨?_, by decide, by decide, by decide, by decide, by decide, by decide, by decide⟩
  intro tok x rest op y0 hne hx hlen hop hy
  obtain ⟨r, h1, h2, h3⟩ := parseBigDecimal_digits x hne hx
  exact ⟨r, by rw [evaluate_sign_after_operand tok x rest op y0 hne hx hlen hop hy, h1], h2, h3⟩

end HPC
